import Mathlib

/-! # Polyvox: palette allocation, k-means quantisation and the remap table

A shallow embedding of `PaletteManager` (`src/src/main.cpp`), of
`ColorQuantizer::kmeans` (`src/include/local/color_quantizer.cpp`) and of the note-group
serialisation of `save_vox_scene_with_notes_and_materials`.

Conventions of the embedding.

* `uint32_t`, `uint8_t`, `int`, `size_t` values are `Nat` or `Int`; a wrap-around is written
  `% 256` where the source has one.
* `std::vector` is `List`; `std::map` is an association list that `map_set` keeps in key order,
  so that iterating the list is iterating the map.
* Floating-point expressions of the source are not evaluated in Lean: each one is a field of
  `FloatModel`, so that every theorem holds for whatever values the machine arithmetic yields.
  `exactFloat` is the instance computed with exact arithmetic, used for concrete evaluations.
* The strip functions take a `FloatArith`: the rounding `fl` of each `float` operation and the
  conversion `to_int`; `float32_arith` is the arithmetic of the machine, `exact_arith` has no
  rounding. The trimming and `classify_materials` take the rounding `fl` alone.
-/

namespace Polyvox

/-! ## Strings, pairs and `std::map` -/

/-- The comparison `operator<` of `std::string`: lexicographic on the characters (the source
compares bytes; on UTF-8 text the order of the bytes and the order of the code points are the
same). -/
def string_lt (a b : String) : Bool := decide (a.data < b.data)

/-- The comparison `operator<` of `std::pair<uint32_t, std::string>`. -/
def pair_lt (a b : Nat × String) : Bool :=
  decide (a.1 < b.1) || (!decide (b.1 < a.1) && string_lt a.2 b.2)

/-- The comparison `operator<` of `uint8_t` keys. -/
def nat_lt (a b : Nat) : Bool := decide (a < b)

/-- The lookup `std::map::find`: the value stored under `k`, if any. -/
def map_find {κ ν : Type} [DecidableEq κ] : List (κ × ν) → κ → Option ν
  | [], _ => none
  | (k', v) :: rest, k => if k' = k then some v else map_find rest k

/-- The assignment `m[k] = v` of `std::map`: replaces the value of an existing key, otherwise
inserts the pair at its place in key order. -/
def map_set {κ ν : Type} [DecidableEq κ] (lt : κ → κ → Bool) :
    List (κ × ν) → κ → ν → List (κ × ν)
  | [], k, v => [(k, v)]
  | (k', v') :: rest, k, v =>
    if k' = k then (k, v) :: rest
    else if lt k k' then (k, v) :: (k', v') :: rest
    else (k', v') :: map_set lt rest k v

/-! ## Colours -/

/-- Packs three `unsigned char` channels: `(r << 16) | (g << 8) | b`. -/
def pack_color (r g b : Nat) : Nat := (r % 256) * 65536 + (g % 256) * 256 + b % 256

/-- The three channels of `unpack_color`: `(color >> 16) & 0xFF`, `(color >> 8) & 0xFF`,
`color & 0xFF`. -/
def unpack_color (color : Nat) : Nat × Nat × Nat :=
  (color / 65536 % 256, color / 256 % 256, color % 256)

/-- The floating-point expressions of the source, as parameters.

* `weighted dr dg db` is `(float)(dr*dr*0.3 + dg*dg*0.59 + db*db*0.11)`;
* `FLT_MAX` is the largest finite `float`, above every such distance of two byte triples;
* `scale_slots count total budget` is
  `static_cast<int>(((float)count / (float)total) * budget)`; for `count = total` the quotient
  is exactly `1.0f` and the product is `budget`, which a `float` holds exactly below `2^24`;
* `kd_byte x` is `static_cast<unsigned char>(std::clamp(x * 255.0f, 0.0f, 255.0f))`. -/
structure FloatModel (D : Type) [LinearOrder D] where
  weighted : Int → Int → Int → D
  FLT_MAX : D
  weighted_lt_max : ∀ dr dg db : Int, dr.natAbs ≤ 255 → dg.natAbs ≤ 255 → db.natAbs ≤ 255 →
    weighted dr dg db < FLT_MAX
  scale_slots : Nat → Nat → Nat → Int
  scale_self : ∀ count budget : Nat, 0 < count → budget < 2 ^ 24 →
    scale_slots count count budget = budget
  kd_byte : ℚ → Nat

/-- The instance of `FloatModel` computed with exact arithmetic; distances are in hundredths. -/
def exactFloat : FloatModel Nat where
  weighted := fun dr dg db => (30 * (dr * dr) + 59 * (dg * dg) + 11 * (db * db)).toNat
  FLT_MAX := 100 * (2 ^ 128 - 2 ^ 104)
  weighted_lt_max := by
    intro dr dg db hr hg hb
    have e : ∀ x : Int, x.natAbs ≤ 255 → x * x ≤ 65025 := by
      intro x hx
      have h1 : x * x = ((x.natAbs * x.natAbs : Nat) : Int) :=
        Int.natAbs_mul_self.symm
      have h2 : x.natAbs * x.natAbs ≤ 255 * 255 := Nat.mul_le_mul hx hx
      rw [h1]
      exact_mod_cast h2
    have h1 := e dr hr
    have h2 := e dg hg
    have h3 := e db hb
    have h4 : (30 * (dr * dr) + 59 * (dg * dg) + 11 * (db * db)).toNat ≤ 6502500 := by
      omega
    have h5 : (6502500 : Nat) < 100 * (2 ^ 128 - 2 ^ 104) := by norm_num
    exact lt_of_le_of_lt h4 h5
  scale_slots := fun count total budget => ((count * budget / total : Nat) : Int)
  scale_self := by
    intro count budget hc _
    simp only
    rw [Nat.mul_comm, Nat.mul_div_cancel budget hc]
  kd_byte := fun x => (max 0 (min 255 (x * 255))).floor.toNat

variable {D : Type} [LinearOrder D]

/-- The perceptual distance `color_distance` of two packed colours. -/
def color_distance (F : FloatModel D) (c1 c2 : Nat) : D :=
  let (r1, g1, b1) := unpack_color c1
  let (r2, g2, b2) := unpack_color c2
  let dr : Int := (r1 : Int) - r2
  let dg : Int := (g1 : Int) - g2
  let db : Int := (b1 : Int) - b2
  F.weighted dr dg db

/-! ## `ColorQuantizer::kmeans` -/

/-- The inner loop of `kmeans` over the centres `j = 0 .. k-1`, started at `j`: the state is
`(min_distance, closest_center)`, updated under the strict comparison `dist < min_distance`. -/
def closest_scan (F : FloatModel D) (color : Nat) : List Nat → Nat → D × Nat → D × Nat
  | [], _, st => st
  | c :: rest, j, st =>
    let dist := color_distance F color c
    if dist < st.1 then closest_scan F color rest (j + 1) (dist, j)
    else closest_scan F color rest (j + 1) st

/-- The index `closest_center` that `kmeans` computes for one colour. -/
def closest_center (F : FloatModel D) (centers : List Nat) (color : Nat) : Nat :=
  (closest_scan F color centers 0 (F.FLT_MAX, 0)).2

/-- The statement `clusters[j].push_back(color)`. -/
def cluster_push : List (List Nat) → Nat → Nat → List (List Nat)
  | [], _, _ => []
  | cl :: rest, 0, color => (cl ++ [color]) :: rest
  | cl :: rest, j + 1, color => cl :: cluster_push rest j color

/-- The assignment pass of one iteration: `k` empty clusters, then every colour is pushed to
the cluster of its closest centre. -/
def assign_clusters (F : FloatModel D) (colors centers : List Nat) : List (List Nat) :=
  colors.foldl (fun clusters color => cluster_push clusters (closest_center F centers color) color)
    (List.replicate centers.length [])

/-- The centre recomputed from a non-empty cluster: the channel-wise truncated mean. -/
def mean_color (cluster : List Nat) : Nat :=
  let sum_r := (cluster.map (fun c => (unpack_color c).1)).sum
  let sum_g := (cluster.map (fun c => (unpack_color c).2.1)).sum
  let sum_b := (cluster.map (fun c => (unpack_color c).2.2)).sum
  pack_color (sum_r / cluster.length) (sum_g / cluster.length) (sum_b / cluster.length)

/-- The update pass of one iteration over `j = 0 .. k-1`: an empty cluster leaves its centre,
a non-empty one replaces it by its mean; the flag is `centers_changed`. -/
def update_centers : List Nat → List (List Nat) → List Nat × Bool
  | c :: cs, cl :: cls =>
    let rest := update_centers cs cls
    if cl = [] then (c :: rest.1, rest.2)
    else
      let new_center := mean_color cl
      if new_center ≠ c then (new_center :: rest.1, true) else (c :: rest.1, rest.2)
  | cs, _ => (cs, false)

/-- The loop `for (iter = 0; iter < max_iter; iter++)` with its early `break`. -/
def kmeans_iterate (F : FloatModel D) (colors : List Nat) : Nat → List Nat → List Nat
  | 0, centers => centers
  | n + 1, centers =>
    let next := update_centers centers (assign_clusters F colors centers)
    if next.2 then kmeans_iterate F colors n next.1 else next.1

/-- The initial centres `colors[i * colors.size() / k]` for `i = 0 .. k-1`. -/
def initial_centers (colors : List Nat) (k : Nat) : List Nat :=
  (List.range k).map (fun i => colors.getD (i * colors.length / k) 0)

/-- The function `ColorQuantizer::kmeans(colors, k, max_iter)`, for `k ≥ 1` and
`max_iter ≥ 0` (the source indexes out of bounds for `k ≤ 0` on a non-empty input). -/
def kmeans (F : FloatModel D) (colors : List Nat) (k : Nat) (max_iter : Nat) : List Nat :=
  if colors.length ≤ k then colors
  else kmeans_iterate F colors max_iter (initial_centers colors k)

/-! ## `PaletteManager` -/

/-- One sample of the pool: `ColorSample`. -/
structure ColorSample where
  color_rgb : Nat
  material_name : String
deriving DecidableEq, Repr

/-- One palette entry: `ogt_vox_rgba`. -/
structure ogt_vox_rgba where
  r : Nat
  g : Nat
  b : Nat
  a : Nat
deriving DecidableEq, Repr

/-- The profile of a material: `MaterialProfile`; `Matl` stands for `ogt_vox_matl`. -/
structure MaterialProfile (Matl : Type) where
  td_note : String
  vox_material : Matl

/-- The material of an MTL file, `MtlMaterial`, with the fields that `process_and_quantize`
and `classify_materials` read; a `float` is the rational number it stands for. -/
structure MtlMaterial where
  Kd : ℚ × ℚ × ℚ := (1, 1, 1)
  Ks : ℚ × ℚ × ℚ := (0, 0, 0)
  Ns : ℚ := 10
  d : ℚ := 1
  Ke : ℚ × ℚ × ℚ := (0, 0, 0)
  Ni : ℚ := 1

/-- The data members of `PaletteManager`. -/
structure PaletteManager (Matl : Type) where
  sample_pool : List ColorSample
  final_palette : Nat → ogt_vox_rgba
  final_notes : List (Nat × String)
  final_materials : List (Nat × Matl)
  remap_table : List ((Nat × String) × Nat)

/-- The constructor `PaletteManager::PaletteManager`: everything empty, the palette zeroed. -/
def PaletteManager.new (Matl : Type) : PaletteManager Matl where
  sample_pool := []
  final_palette := fun _ => ⟨0, 0, 0, 0⟩
  final_notes := []
  final_materials := []
  remap_table := []

/-- The predicate `is_reserved_palette_index`. -/
def is_reserved_palette_index (palette_index : Nat) : Bool :=
  decide (palette_index ≤ 8) || decide (palette_index ≥ 254)

/-- The method `PaletteManager::collect_sample`. -/
def PaletteManager.collect_sample {Matl : Type} (pm : PaletteManager Matl) (color_rgb : Nat)
    (material_name : String) : PaletteManager Matl :=
  { pm with sample_pool := pm.sample_pool ++ [⟨color_rgb, material_name⟩] }

/-- The count `total_available_slots`: the non-reserved indices among `9 .. 253`. -/
def total_available_slots : Nat :=
  ((List.range' 9 245).filter (fun idx => !is_reserved_palette_index idx)).length

/-- The grouping `colors_by_material_name[sample.material_name].push_back(sample.color_rgb)`
over the pool. -/
def group_colors (pool : List ColorSample) : List (String × List Nat) :=
  pool.foldl (fun groups sample =>
    map_set string_lt groups sample.material_name
      ((map_find groups sample.material_name).getD [] ++ [sample.color_rgb])) []

/-- The call `std::unique` on a sorted vector: one element of every run. -/
def unique : List Nat → List Nat
  | [] => []
  | [a] => [a]
  | a :: b :: rest => if a = b then unique (b :: rest) else a :: unique (b :: rest)

/-- The distinct colours of a vector, ascending: `std::sort` then `std::unique`. -/
def sort_unique (colors : List Nat) : List Nat :=
  unique (colors.insertionSort (fun a b => a ≤ b))

/-- The map `unique_color_counts`, in the key order of `colors_by_material_name`. -/
def unique_color_counts (groups : List (String × List Nat)) : List (String × Nat) :=
  groups.map (fun g => (g.1, (sort_unique g.2).length))

/-- The sum `total_unique_colors`. -/
def total_unique_colors (counts : List (String × Nat)) : Nat :=
  (counts.map (fun c => c.2)).sum

/-- The slot count first given to a material with `count` unique colours. -/
def initial_slots (F : FloatModel D) (count total : Nat) : Int :=
  let scaled : Int := if total > 0 then F.scale_slots count total total_available_slots else 0
  let allocated_slots : Int := max 1 scaled
  let allocated_slots : Int :=
    if allocated_slots % 8 ≠ 0 then (allocated_slots / 8 + 1) * 8 else allocated_slots
  if allocated_slots = 0 ∧ count > 0 then 8 else allocated_slots

/-- The map `slots_for_material` before the adjustment. -/
def initial_allocation (F : FloatModel D) (counts : List (String × Nat)) : List (String × Int) :=
  counts.map (fun c => (c.1, initial_slots F c.2 (total_unique_colors counts)))

/-- The sum of the slot counts of a map. -/
def slots_sum (slots : List (String × Int)) : Int := (slots.map (fun s => s.2)).sum

/-- The statement `slots_for_material[name] += d`. -/
def add_slots (slots : List (String × Int)) (name : String) (d : Int) : List (String × Int) :=
  map_set string_lt slots name ((map_find slots name).getD 0 + d)

/-- The loop `while (remain > 0)` of the under-allocation branch; `fuel` bounds the number of
iterations and `remain.toNat` is enough, since every iteration lowers `remain` by 8
(`fill_loop_fuel`). -/
def fill_loop (material_order : List String) :
    Nat → Int → Nat → List (String × Int) → List (String × Int)
  | 0, _, _, slots => slots
  | fuel + 1, remain, idx, slots =>
    if remain > 0 then
      fill_loop material_order fuel (remain - 8) (idx + 1)
        (add_slots slots (material_order.getD (idx % material_order.length) "") 8)
    else slots

/-- The state of the over-allocation loop. -/
structure TrimState where
  slots : List (String × Int)
  over : Int
  changed : Bool

/-- The body of the round over `material_order`: a material holding more than 8 slots gives
8 of them back while `over > 0`. -/
def trim_step (st : TrimState) (mat_name : String) : TrimState :=
  if (map_find st.slots mat_name).getD 0 > 8 ∧ st.over > 0 then
    { slots := add_slots st.slots mat_name (-8), over := st.over - 8, changed := true }
  else st

/-- One round `for (auto& mat_name : material_order)` of the over-allocation branch, started
with `changed = false`. -/
def trim_pass (material_order : List String) (st : TrimState) : TrimState :=
  material_order.foldl trim_step { st with changed := false }

/-- The loop `while (over > 0 && !material_order.empty())` with its `break`; `fuel` bounds
the number of rounds and `over.toNat` is enough, since every round that goes on lowers `over`
(`trim_loop_fuel`). -/
def trim_loop (material_order : List String) : Nat → TrimState → TrimState
  | 0, st => st
  | fuel + 1, st =>
    if st.over > 0 ∧ material_order ≠ [] then
      let next := trim_pass material_order st
      if next.changed then trim_loop material_order fuel next else next
    else st

/-- The adjustment of `slots_for_material` in steps of 8. -/
def adjust_slots (material_order : List String) (slots : List (String × Int)) :
    List (String × Int) :=
  let slots_assigned := slots_sum slots
  let total : Int := total_available_slots
  if slots_assigned < total ∧ material_order ≠ [] then
    fill_loop material_order (total - slots_assigned).toNat (total - slots_assigned) 0 slots
  else if slots_assigned > total then
    (trim_loop material_order (slots_assigned - total).toNat
      ⟨slots, slots_assigned - total, false⟩).slots
  else slots

/-- The map `slots_for_material` after the adjustment, for the groups of a pool. -/
def allocate_slots (F : FloatModel D) (groups : List (String × List Nat)) :
    List (String × Int) :=
  let counts := unique_color_counts groups
  adjust_slots (counts.map (fun c => c.1)) (initial_allocation F counts)

/-- The state threaded through the assignment loops of `process_and_quantize`. -/
structure QuantState (Matl : Type) where
  current_palette_index : Nat
  final_palette : Nat → ogt_vox_rgba
  final_notes : List (Nat × String)
  final_materials : List (Nat × Matl)
  remap_table : List ((Nat × String) × Nat)

/-- The loop `while (current_palette_index <= 253 && is_reserved_palette_index(...))` on a
`uint8_t` index; `fuel` bounds the number of steps and 256 is enough (`skip_reserved_eq`). -/
def skip_reserved : Nat → Nat → Nat
  | 0, current_palette_index => current_palette_index
  | fuel + 1, current_palette_index =>
    if current_palette_index ≤ 253 ∧ is_reserved_palette_index current_palette_index = true then
      skip_reserved fuel ((current_palette_index + 1) % 256)
    else current_palette_index

/-- The inner loop over `centers` that finds `best_center` for one original colour: the state
is `(min_dist, best_center)`, updated under the strict comparison `dist < min_dist`. -/
def best_scan (F : FloatModel D) (original_color : Nat) : List Nat → D × Nat → D × Nat
  | [], st => st
  | c :: rest, st =>
    let dist := color_distance F original_color c
    if dist < st.1 then best_scan F original_color rest (dist, c)
    else best_scan F original_color rest st

/-- The value `best_center` of one original colour. -/
def best_center (F : FloatModel D) (centers : List Nat) (original_color : Nat) : Nat :=
  (best_scan F original_color centers (F.FLT_MAX, 0)).2

/-- The loop `for (uint32_t original_color : unique_colors)` that updates the remap table for
the centre `center_color` stored at `current_palette_index`. -/
def update_remap (F : FloatModel D) (centers unique_colors : List Nat) (mat_name : String)
    (center_color current_palette_index : Nat) (remap_table : List ((Nat × String) × Nat)) :
    List ((Nat × String) × Nat) :=
  unique_colors.foldl (fun table original_color =>
    if best_center F centers original_color = center_color then
      map_set pair_lt table (original_color, mat_name) current_palette_index
    else table) remap_table

/-- The palette with entry `i` replaced: `final_palette.color[i] = rgba`. -/
def palette_set (palette : Nat → ogt_vox_rgba) (i : Nat) (rgba : ogt_vox_rgba) :
    Nat → ogt_vox_rgba :=
  fun j => if j = i then rgba else palette j

/-- The body of the loop over the centres once the index `cur` is known to be at most 253:
the tag, the material parameters and the colour of the centre are stored at `cur`, the remap
table is updated, and the index moves on. -/
def store_center {Matl : Type} (F : FloatModel D) (profile_it : Option (MaterialProfile Matl))
    (mat_name : String) (unique_colors centers : List Nat) (st : QuantState Matl)
    (cur center_color : Nat) : QuantState Matl :=
  let (r, g, b) := unpack_color center_color
  { current_palette_index := (cur + 1) % 256
    final_palette := palette_set st.final_palette cur ⟨r, g, b, 255⟩
    final_notes := match profile_it with
      | some profile => map_set nat_lt st.final_notes cur profile.td_note
      | none => st.final_notes
    final_materials := match profile_it with
      | some profile => map_set nat_lt st.final_materials cur profile.vox_material
      | none => st.final_materials
    remap_table :=
      update_remap F centers unique_colors mat_name center_color cur st.remap_table }

/-- The loop `for (size_t i = 0; i < centers.size(); ++i)` of one material, on the centres
that remain to be visited, with its `break` when the index passes 253. -/
def assign_centers {Matl : Type} (F : FloatModel D) (profile_it : Option (MaterialProfile Matl))
    (mat_name : String) (unique_colors centers : List Nat) :
    List Nat → QuantState Matl → QuantState Matl
  | [], st => st
  | center_color :: rest, st =>
    let cur := skip_reserved 256 st.current_palette_index
    if cur > 253 then { st with current_palette_index := cur }
    else
      assign_centers F profile_it mat_name unique_colors centers rest
        (store_center F profile_it mat_name unique_colors centers st cur center_color)

/-- The centres of one material: `kmeans(unique_colors, k)` with the default `max_iter = 10`. -/
def material_centers (F : FloatModel D) (slots : List (String × Int))
    (mat_name : String) (original_colors : List Nat) : List Nat :=
  kmeans F (sort_unique original_colors) ((map_find slots mat_name).getD 0).toNat 10

/-- The body of the loop over `colors_by_material_name` for one material. -/
def quantize_material {Matl : Type} (F : FloatModel D)
    (profiles : List (String × MaterialProfile Matl)) (slots : List (String × Int))
    (st : QuantState Matl) (group : String × List Nat) : QuantState Matl :=
  let k : Int := (map_find slots group.1).getD 0
  if k = 0 ∨ group.2 = [] then st
  else
    let centers := material_centers F slots group.1 group.2
    assign_centers F (map_find profiles group.1) group.1 (sort_unique group.2) centers centers st

/-- The pool that quantisation works on: the collected one, or the fallback samples that
`process_and_quantize` pushes when the collected pool is empty. -/
def effective_pool {Matl : Type} (F : FloatModel D) (sample_pool : List ColorSample)
    (profiles : List (String × MaterialProfile Matl))
    (mtl_materials : List (String × MtlMaterial)) : List ColorSample :=
  if sample_pool = [] then
    let magenta := pack_color 255 0 255
    let has_mtl : Bool := !profiles.isEmpty &&
      !(profiles.length == 1 && (map_find profiles "").isSome)
    if !has_mtl then List.replicate 32 ⟨magenta, ""⟩
    else
      let named := profiles.filter (fun p => p.1 ≠ "")
      let pushed : List ColorSample := named.map (fun p =>
        let color := match map_find mtl_materials p.1 with
          | some mtl => pack_color (F.kd_byte mtl.Kd.1) (F.kd_byte mtl.Kd.2.1)
              (F.kd_byte mtl.Kd.2.2)
          | none => pack_color 200 200 200
        ⟨color, p.2.td_note⟩)
      if pushed = [] then List.replicate 32 ⟨magenta, ""⟩ else pushed
  else sample_pool

/-- The method `PaletteManager::process_and_quantize(profiles, mtl_materials, args)`; the
argument `args` is not read. -/
def PaletteManager.process_and_quantize {Matl : Type} (F : FloatModel D)
    (pm : PaletteManager Matl) (profiles : List (String × MaterialProfile Matl))
    (mtl_materials : List (String × MtlMaterial)) : PaletteManager Matl :=
  let pool := effective_pool F pm.sample_pool profiles mtl_materials
  let groups := group_colors pool
  let slots := allocate_slots F groups
  let st := groups.foldl (quantize_material F profiles slots)
    { current_palette_index := 9
      final_palette := pm.final_palette
      final_notes := pm.final_notes
      final_materials := pm.final_materials
      remap_table := pm.remap_table }
  { sample_pool := pool
    final_palette := st.final_palette
    final_notes := st.final_notes
    final_materials := st.final_materials
    remap_table := st.remap_table }

/-- The fallback loop of `get_final_index`: the value of the first entry with this colour. -/
def first_with_color : List ((Nat × String) × Nat) → Nat → Nat
  | [], _ => 0
  | (key, index) :: rest, original_color =>
    if key.1 = original_color then index else first_with_color rest original_color

/-- The method `PaletteManager::get_final_index(original_color, material_name)`. -/
def PaletteManager.get_final_index {Matl : Type} (pm : PaletteManager Matl)
    (original_color : Nat) (material_name : String) : Nat :=
  match map_find pm.remap_table (original_color, material_name) with
  | some index => index
  | none => first_with_color pm.remap_table original_color

/-! ## The note groups of `save_vox_scene_with_notes_and_materials` -/

/-- The inner loop `for (int i = 1; i <= 8; i++)` of one group, on the offsets `i` that remain:
the first non-empty note of a non-reserved index `group * 8 + i`, or the empty string. -/
def note_scan (notes : List (Nat × String)) (group : Nat) : List Nat → String
  | [] => ""
  | i :: rest =>
    let palette_index := group * 8 + i
    if palette_index > 255 then note_scan notes group rest
    else if is_reserved_palette_index palette_index = true then note_scan notes group rest
    else
      match map_find notes palette_index with
      | some note => if note ≠ "" then note else note_scan notes group rest
      | none => note_scan notes group rest

/-- The string `note_for_group` of one group. -/
def note_for_group (notes : List (Nat × String)) (group : Nat) : String :=
  note_scan notes group (List.range' 1 8)

/-- The vector `notes_storage`: the notes of the groups 31, 30, .., 0, or nothing when the
tag map is empty. -/
def notes_storage (notes : List (Nat × String)) : List String :=
  if notes = [] then []
  else ((List.range 32).reverse).map (fun group => note_for_group notes group)

/-! ## The centres of a pool, in the order of their assignment -/

/-- The palette entry written for a centre: its three channels and alpha 255. -/
def center_rgba (center_color : Nat) : ogt_vox_rgba :=
  ⟨(unpack_color center_color).1, (unpack_color center_color).2.1,
    (unpack_color center_color).2.2, 255⟩

/-- The centres of every material of the pool, in the ascending order of the material names in
which `process_and_quantize` visits `colors_by_material_name`. -/
def pool_centers (F : FloatModel D) (pool : List ColorSample) : List (String × List Nat) :=
  (group_colors pool).map (fun g =>
    (g.1, material_centers F (allocate_slots F (group_colors pool)) g.1 g.2))

/-- The centres of a list of materials one after the other, each with the name of its
material: the `j`-th centre overall is the `j`-th element. -/
def visit_order : List (String × List Nat) → List (String × Nat)
  | [] => []
  | g :: rest => g.2.map (fun c => (g.1, c)) ++ visit_order rest

/-! ## A pool that exhausts the palette indices -/

/-- The name `"m00"`, `"m01"`, .. of the `i`-th material of `crowded_pool`. -/
def crowded_name (i : Nat) : String :=
  String.mk ['m', Char.ofNat (48 + i / 10), Char.ofNat (48 + i % 10)]

/-- A pool of 31 materials `"m00"` .. `"m30"` with 8 colours each: material `i` has the colours
`8 i .. 8 i + 7`. -/
def crowded_pool : List ColorSample :=
  (List.range 31).flatMap (fun i =>
    (List.range 8).map (fun c => ⟨8 * i + c, crowded_name i⟩))

/-- The manager that has collected the samples of `pool` one after the other. -/
def PaletteManager.collect_all {Matl : Type} (pm : PaletteManager Matl)
    (pool : List ColorSample) : PaletteManager Matl :=
  pool.foldl (fun pm s => pm.collect_sample s.color_rgb s.material_name) pm

/-! ## Invariants -/

/-- The keys of a map with `std::string` keys are strictly ascending. -/
def KeysSorted {ν : Type} (m : List (String × ν)) : Prop :=
  (m.map (fun e => e.1)).Pairwise (fun a b => a < b)

/-- The keys of a remap table are strictly ascending for `pair_lt`, as in the `std::map`. -/
def RemapSorted (table : List ((Nat × String) × Nat)) : Prop :=
  (table.map (fun e => e.1)).Pairwise (fun a b => pair_lt a b = true)

/-- Every slot count of the map is a positive multiple of 8. -/
def SlotsOK (slots : List (String × Int)) : Prop :=
  ∀ e ∈ slots, 8 ≤ e.2 ∧ e.2 % 8 = 0

/-- The invariant of `slots_for_material` during the adjustment: ascending keys, which are
the names of `material_order`, and positive multiples of 8 as values. -/
structure SlotsInv (material_order : List String) (slots : List (String × Int)) : Prop where
  sorted : KeysSorted slots
  ok : SlotsOK slots
  keys_eq : slots.map (fun e => e.1) = material_order

/-- The invariant of `colors_by_material_name` while the samples `seen` have been grouped:
ascending keys, no empty group, every grouped colour comes from a sample of that name, and
every sample is in the group of its name. -/
structure GroupsInv (seen : List ColorSample) (groups : List (String × List Nat)) : Prop where
  sorted : KeysSorted groups
  nonempty : ∀ e ∈ groups, e.2 ≠ []
  sound : ∀ e ∈ groups, ∀ c ∈ e.2, (⟨c, e.1⟩ : ColorSample) ∈ seen
  complete : ∀ s ∈ seen, ∃ cs, map_find groups s.material_name = some cs ∧ s.color_rgb ∈ cs

/-- The invariant of the assignment loops: the running index is at least 9, the remap table is
in key order, the indices in the three maps are in `9 .. 253`, and the reserved palette
entries are zero. -/
structure QuantInv {Matl : Type} (st : QuantState Matl) : Prop where
  index_ge : 9 ≤ st.current_palette_index
  remap_sorted : RemapSorted st.remap_table
  remap_range : ∀ e ∈ st.remap_table, 9 ≤ e.2 ∧ e.2 ≤ 253
  notes_range : ∀ e ∈ st.final_notes, 9 ≤ e.1 ∧ e.1 ≤ 253
  materials_range : ∀ e ∈ st.final_materials, 9 ≤ e.1 ∧ e.1 ≤ 253
  reserved_zero : ∀ i, i ≤ 8 ∨ 254 ≤ i → st.final_palette i = ⟨0, 0, 0, 0⟩

/-- What a run of the assignment loops does to the palette, the tag map and the
material-parameter map: from the state `start` the centres `visited` (with the names of their
materials) are stored at consecutive indices while these are at most 253, and nothing else
changes. -/
structure AssignSpec {Matl : Type} (profiles : List (String × MaterialProfile Matl))
    (start : QuantState Matl) (visited : List (String × Nat)) (st : QuantState Matl) :
    Prop where
  index_eq : st.current_palette_index = min (start.current_palette_index + visited.length) 254
  palette_at : ∀ j m c, visited[j]? = some (m, c) → start.current_palette_index + j ≤ 253 →
    st.final_palette (start.current_palette_index + j) = center_rgba c
  palette_else : ∀ i, i < start.current_palette_index ∨
    start.current_palette_index + visited.length ≤ i ∨ 254 ≤ i →
    st.final_palette i = start.final_palette i
  notes_at : ∀ j m c p, visited[j]? = some (m, c) → map_find profiles m = some p →
    start.current_palette_index + j ≤ 253 →
    map_find st.final_notes (start.current_palette_index + j) = some p.td_note ∧
    map_find st.final_materials (start.current_palette_index + j) = some p.vox_material
  notes_else : ∀ i, i < start.current_palette_index ∨
    start.current_palette_index + visited.length ≤ i ∨ 254 ≤ i →
    map_find st.final_notes i = map_find start.final_notes i ∧
    map_find st.final_materials i = map_find start.final_materials i

/-- The invariant of the remap table while the materials `groups` are quantised with the slot
counts `slots`: every entry `(c, m) -> i` was stored before the running index, `m` is one of
the materials and `c` one of its colours, the palette at `i` holds the centre of `m` that `best_center` gives for `c`,
and the tag and the material parameters at `i` are those of the profile of `m`, if any. -/
def EntryInv {Matl : Type} (F : FloatModel D) (profiles : List (String × MaterialProfile Matl))
    (slots : List (String × Int)) (groups : List (String × List Nat))
    (st : QuantState Matl) : Prop :=
  ∀ e ∈ st.remap_table, 9 ≤ e.2 ∧ e.2 < st.current_palette_index ∧
    ∃ g ∈ groups, g.1 = e.1.2 ∧ e.1.1 ∈ sort_unique g.2 ∧
      st.final_palette e.2
        = center_rgba (best_center F (material_centers F slots g.1 g.2) e.1.1) ∧
      best_center F (material_centers F slots g.1 g.2) e.1.1
        ∈ material_centers F slots g.1 g.2 ∧
      (∀ p, map_find profiles g.1 = some p →
        map_find st.final_notes e.2 = some p.td_note ∧
        map_find st.final_materials e.2 = some p.vox_material)

/-- The states of a `PaletteManager` that the public methods can reach from the constructor. -/
inductive Reachable (F : FloatModel D) {Matl : Type} : PaletteManager Matl → Prop
  | new : Reachable F (PaletteManager.new Matl)
  | collect_sample (pm : PaletteManager Matl) (color_rgb : Nat) (material_name : String) :
      Reachable F pm → Reachable F (pm.collect_sample color_rgb material_name)
  | process_and_quantize (pm : PaletteManager Matl)
      (profiles : List (String × MaterialProfile Matl))
      (mtl_materials : List (String × MtlMaterial)) :
      Reachable F pm → Reachable F (pm.process_and_quantize F profiles mtl_materials)

/-- The invariant of a `PaletteManager`: the remap table is in key order, the indices in the
three maps are in `9 .. 253` and the reserved palette entries are zero. -/
structure ManagerInv {Matl : Type} (pm : PaletteManager Matl) : Prop where
  remap_sorted : RemapSorted pm.remap_table
  remap_range : ∀ e ∈ pm.remap_table, 9 ≤ e.2 ∧ e.2 ≤ 253
  notes_range : ∀ e ∈ pm.final_notes, 9 ≤ e.1 ∧ e.1 ≤ 253
  materials_range : ∀ e ∈ pm.final_materials, 9 ≤ e.1 ∧ e.1 ≤ 253
  reserved_zero : ∀ i, i ≤ 8 ∨ 254 ≤ i → pm.final_palette i = ⟨0, 0, 0, 0⟩

/-! ## The slot count in the words of the specification -/

/-- The slot count of a material before the adjustment as the specification words it:
`max(1, r)`, where `r` is `unique_count / total_unique_colors × 245` rounded up to the next
multiple of 8. -/
def specified_initial_slots (count total : Nat) : Int :=
  max 1 (8 * ⌈((count : ℚ) / (total : ℚ) * 245) / 8⌉)

/-! ## Meshes: vertices, edges and the boundary edges of `main` -/

/-- The struct `Vec3`; a finite `float` is a rational number. -/
structure Vec3 where
  x : ℚ
  y : ℚ
  z : ℚ
deriving DecidableEq

/-- The struct `Edge`; `is_aligned` is `false` until `main` sets it. -/
structure Edge where
  start_index : Int
  end_index : Int
  length : ℚ
  is_aligned : Bool
deriving DecidableEq

/-- The order `<` of `std::pair<int, int>`. -/
def int_pair_lt (a b : Int × Int) : Bool :=
  decide (a.1 < b.1) || (!decide (b.1 < a.1) && decide (a.2 < b.2))

/-- The edges that `parse_obj_file` appends to `original_edges` for one face with the vertex
indices `v` (the loop over `i` with `j = (i + 1) % face.v.size()`, under the guard
`face.v.size() > 1`); `edge_length a b` stands for the `float` expression
`std::sqrt(pow(end.x - start.x, 2) + ...)` of the vertices `a` and `b`. -/
def face_edges (edge_length : Int → Int → ℚ) (v : List Int) : List Edge :=
  if v.length > 1 then
    (List.range v.length).map (fun i =>
      let j := (i + 1) % v.length
      { start_index := v.getD i 0
        end_index := v.getD j 0
        length := edge_length (v.getD i 0) (v.getD j 0)
        is_aligned := false })
  else []

/-- The key `{std::min(start_index, end_index), std::max(start_index, end_index)}` of an
edge. -/
def edge_key (edge : Edge) : Int × Int :=
  (min edge.start_index edge.end_index, max edge.start_index edge.end_index)

/-- The statement `edge_counts[key]++`; a missing key starts at 0. -/
def count_edge (edge_counts : List ((Int × Int) × Int)) (edge : Edge) :
    List ((Int × Int) × Int) :=
  map_set int_pair_lt edge_counts (edge_key edge)
    ((map_find edge_counts (edge_key edge)).getD 0 + 1)

/-- The first loop of the boundary extraction in `main`: the map `edge_counts`. -/
def count_edges (original_edges : List Edge) : List ((Int × Int) × Int) :=
  original_edges.foldl count_edge []

/-- The second loop of the boundary extraction in `main`: the vector `boundary_edges`;
`is_edge_aligned edge` stands for `is_edge_aligned(edge, obj_model.vertices)`. The lookup
`edge_counts[key]` finds every key, since the first loop has counted every edge. -/
def boundary_edges (is_edge_aligned : Edge → Bool) (original_edges : List Edge) : List Edge :=
  let edge_counts := count_edges original_edges
  original_edges.filterMap (fun edge =>
    if (map_find edge_counts (edge_key edge)).getD 0 = 1 then
      some { edge with is_aligned := is_edge_aligned edge }
    else none)

/-- The degree of a vertex in a set of edges: the number of edge ends at that vertex. -/
def vertex_degree (edges : List Edge) (vertex : Int) : Nat :=
  (edges.filter (fun e => e.start_index = vertex)).length +
    (edges.filter (fun e => e.end_index = vertex)).length

/-! ## The boundary polygon of `create_final_models` -/

/-- The element `vertices[index]` of `obj_model.vertices`. -/
def vertex_at (vertices : List Vec3) (index : Int) : Vec3 :=
  vertices.getD index.toNat ⟨0, 0, 0⟩

/-- The state of the ordering loop: the polygon built so far, the vertex index where the chain
ends, and the flags `used`. -/
structure ChainState where
  boundary_polygon_vertices : List Vec3
  current_vertex_idx : Int
  used : List Bool

/-- The inner loop `for (size_t j = 1; j < sorted_edges.size(); ++j)` on the indices `j` that
remain: the first unused edge that starts or ends at `current_vertex_idx`, with the index of
the vertex that is pushed and the index of the other end. -/
def find_next (sorted_edges : List Edge) (used : List Bool) (current_vertex_idx : Int) :
    List Nat → Option (Nat × Int × Int)
  | [] => none
  | j :: rest =>
    match sorted_edges.get? j with
    | none => find_next sorted_edges used current_vertex_idx rest
    | some edge =>
      if used.getD j true = false then
        if edge.start_index = current_vertex_idx then
          some (j, edge.start_index, edge.end_index)
        else if edge.end_index = current_vertex_idx then
          some (j, edge.end_index, edge.start_index)
        else find_next sorted_edges used current_vertex_idx rest
      else find_next sorted_edges used current_vertex_idx rest

/-- The outer loop `for (size_t i = 1; i < sorted_edges.size(); ++i)`, with `steps` iterations
left; it stops early (`break`) when no next edge is found. -/
def chain_loop (vertices : List Vec3) (sorted_edges : List Edge) :
    Nat → ChainState → ChainState
  | 0, st => st
  | steps + 1, st =>
    match find_next sorted_edges st.used st.current_vertex_idx
        (List.range' 1 (sorted_edges.length - 1)) with
    | none => st
    | some (j, pushed, next) =>
      chain_loop vertices sorted_edges steps
        { boundary_polygon_vertices :=
            st.boundary_polygon_vertices ++ [vertex_at vertices pushed]
          current_vertex_idx := next
          used := st.used.set j true }

/-- The vector `boundary_polygon_vertices` of `create_final_models`. -/
def boundary_polygon_vertices (vertices : List Vec3) (boundary_edges : List Edge) :
    List Vec3 :=
  match boundary_edges with
  | [] => []
  | first :: rest =>
    (chain_loop vertices (first :: rest) rest.length
      { boundary_polygon_vertices := [vertex_at vertices first.start_index]
        current_vertex_idx := first.end_index
        used := true :: List.replicate rest.length false }).boundary_polygon_vertices

/-- The reference `polygon_to_test` of `create_final_models`: all the vertices of the mesh when
`boundary_polygon_vertices` is empty. -/
def polygon_to_test (vertices : List Vec3) (boundary_edges : List Edge) : List Vec3 :=
  if (boundary_polygon_vertices vertices boundary_edges).isEmpty then vertices
  else boundary_polygon_vertices vertices boundary_edges

/-- A mesh of two triangles without a common vertex: the vertices. -/
def two_triangles_vertices : List Vec3 :=
  [⟨0, 0, 0⟩, ⟨3, 0, 0⟩, ⟨0, 4, 0⟩, ⟨10, 0, 0⟩, ⟨13, 0, 0⟩, ⟨10, 4, 0⟩]

/-- A mesh of two triangles without a common vertex: the vector `original_edges` after the
faces `f 1 2 3` and `f 4 5 6` have been parsed. -/
def two_triangles_edges (edge_length : Int → Int → ℚ) : List Edge :=
  face_edges edge_length [0, 1, 2] ++ face_edges edge_length [3, 4, 5]

/-! ## Voxel strips and the splitting of long edges -/

/-- The constant `MAX_VOX_SIZE`. -/
def MAX_VOX_SIZE : Int := 256

/-- The `float` and `int` arithmetic of the strip functions: `fl` rounds the exact result of
one `float` operation, or of one conversion from `int`, to a `float`; `to_int` is
`static_cast<int>` on a `float`. -/
structure FloatArith where
  fl : ℚ → ℚ
  to_int : ℚ → Int

/-- Rounding of a rational number to the nearest integer, a tie going to the even one. -/
def round_half_even (x : ℚ) : Int :=
  if x - (⌊x⌋ : ℚ) < 1 / 2 then ⌊x⌋
  else if 1 / 2 < x - (⌊x⌋ : ℚ) then ⌊x⌋ + 1
  else if ⌊x⌋ % 2 = 0 then ⌊x⌋ else ⌊x⌋ + 1

/-- The binary exponent of the `float` format at `q`: that of `q`, and -126 below the normal
range. -/
def float32_exponent (q : ℚ) : Int := max (Int.log 2 |q|) (-126)

/-- Rounding to the nearest `float` (24 significant bits, ties to even); the overflow to
infinity above `FLT_MAX` is not modelled. -/
def float32_round (q : ℚ) : ℚ :=
  if q = 0 then 0
  else (round_half_even (q / (2 : ℚ) ^ (float32_exponent q - 23)) : ℚ) *
    (2 : ℚ) ^ (float32_exponent q - 23)

/-- The conversion `static_cast<int>` of a `float`: truncation towards zero; out of the range
of `int`, where the conversion is undefined, the value is the one that the conversion
instruction of x86-64 yields, `-2^31`. -/
def float32_to_int (x : ℚ) : Int :=
  let t : Int := if 0 ≤ x then ⌊x⌋ else ⌈x⌉
  if -2147483648 ≤ t ∧ t ≤ 2147483647 then t else -2147483648

/-- The arithmetic of the machine: `float` rounding and the 32-bit `int`. -/
def float32_arith : FloatArith := ⟨float32_round, float32_to_int⟩

/-- Exact arithmetic: no rounding; the `int` keeps its 32 bits. -/
def exact_arith : FloatArith := ⟨id, float32_to_int⟩

/-- The function `calc_voxel_strip_length`; the source gives `min_voxels` the default
value 1. -/
def calc_voxel_strip_length (A : FloatArith) (edge_length voxel_size : ℚ) (min_voxels : Int) :
    Int :=
  let n : Int := A.to_int (⌊A.fl (edge_length / voxel_size)⌋ : ℚ)
  if n < min_voxels then min_voxels else n

/-- The struct `VoxelStripPlacement`. -/
structure VoxelStripPlacement where
  voxel_count : Int
  offset_along_edge : ℚ

/-- The function `calc_voxel_strip_placement`. -/
def calc_voxel_strip_placement (A : FloatArith) (edge_length voxel_size : ℚ) :
    VoxelStripPlacement :=
  let n_floor : Int := A.to_int (⌊A.fl (edge_length / voxel_size)⌋ : ℚ)
  let n_ceil : Int := A.to_int (⌈A.fl (edge_length / voxel_size)⌉ : ℚ)
  let err_floor : ℚ := A.fl (edge_length - A.fl (A.fl n_floor * voxel_size))
  let err_ceil : ℚ := A.fl (A.fl (A.fl n_ceil * voxel_size) - edge_length)
  let n : Int := if err_ceil < err_floor then n_ceil else n_floor
  let n : Int := if n < 1 then 1 else n
  let actual_length : ℚ := A.fl (A.fl n * voxel_size)
  let offset : ℚ := A.fl (A.fl (actual_length - edge_length) / 2)
  { voxel_count := n, offset_along_edge := offset }

/-- The state of the loop of `split_single_edge`: the segments made so far, the vertices of
the model, which the loop extends, and `prev_v_index`. -/
structure SplitState where
  segments : List Edge
  vertices : List Vec3
  prev_v_index : Int

/-- The body of the loop `for (int i = 1; i <= num_segments; ++i)` of `split_single_edge`;
`segment_length a b` stands for the `float` expression
`std::sqrt(seg_dx*seg_dx + seg_dy*seg_dy + seg_dz*seg_dz)` of the two ends of the segment. -/
def split_step (A : FloatArith) (segment_length : Vec3 → Vec3 → ℚ) (edge : Edge)
    (start_v : Vec3) (dx dy dz : ℚ) (num_segments : Int) (st : SplitState) (i : Int) :
    SplitState :=
  let current_v_index : Int :=
    if i = num_segments then edge.end_index else (st.vertices.length : Int)
  let vertices : List Vec3 :=
    if i = num_segments then st.vertices
    else st.vertices ++ [⟨A.fl (start_v.x + A.fl (A.fl i * dx)),
      A.fl (start_v.y + A.fl (A.fl i * dy)), A.fl (start_v.z + A.fl (A.fl i * dz))⟩]
  let new_segment : Edge :=
    { start_index := st.prev_v_index
      end_index := current_v_index
      length := segment_length (vertex_at vertices st.prev_v_index)
        (vertex_at vertices current_v_index)
      is_aligned := false }
  { segments := st.segments ++ [new_segment]
    vertices := vertices
    prev_v_index := current_v_index }

/-- The function `split_single_edge`: the segments it returns and the vertices of the model
after the call. -/
def split_single_edge (A : FloatArith) (segment_length : Vec3 → Vec3 → ℚ) (edge : Edge)
    (vertices : List Vec3) (voxel_size : ℚ) : List Edge × List Vec3 :=
  let maxLength : ℚ := A.fl (A.fl (MAX_VOX_SIZE : ℚ) * voxel_size)
  if edge.length ≤ maxLength then ([edge], vertices)
  else
    let num_segments : Int := calc_voxel_strip_length A edge.length (A.fl (maxLength * 1)) 1
    let start_v := vertex_at vertices edge.start_index
    let end_v := vertex_at vertices edge.end_index
    let dx : ℚ := A.fl (A.fl (end_v.x - start_v.x) / A.fl num_segments)
    let dy : ℚ := A.fl (A.fl (end_v.y - start_v.y) / A.fl num_segments)
    let dz : ℚ := A.fl (A.fl (end_v.z - start_v.z) / A.fl num_segments)
    let st := ((List.range num_segments.toNat).map (fun k : Nat => (k : Int) + 1)).foldl
      (split_step A segment_length edge start_v dx dy dz num_segments)
      { segments := [], vertices := vertices, prev_v_index := edge.start_index }
    (st.segments, st.vertices)

/-! ## The chunks of `create_final_models` and `create_edge_models` -/

/-- The nested loops `for (vy = 0; vy < size_y; ++vy) for (vx = 0; vx < size_x; ++vx)` with
the body `body vx vy` on a state. -/
def grid_loop {σ : Type} (size_x size_y : Nat) (body : Nat → Nat → σ → σ) (init : σ) : σ :=
  (List.range size_y).foldl
    (fun st vy => (List.range size_x).foldl (fun st vx => body vx vy st) st) init

/-- The struct `ogt_vox_model`: the sizes of the grid and the voxels, where the voxel `(x, y)`
of a grid of height 1 in `z` is `voxel_data[x + y * size_x]`. -/
structure VoxModel where
  size_x : Int
  size_y : Int
  size_z : Int
  voxel_data : List Nat

/-- The buffer `tempVoxelData` of one tile with the flag `has_solid_voxel`. -/
structure TileBuffer where
  tempVoxelData : List Nat
  has_solid_voxel : Bool

/-- The end of the loop body of the rasterisation of one tile; `final_index vx vy` stands for
the palette index that the cell gets from the geometry and the palette manager, 0 when the
cell is not hit, is trimmed, or gets the index 0. -/
def rasterize_cell (final_index : Nat → Nat → Nat) (subSizeX : Nat) (vx vy : Nat)
    (buf : TileBuffer) : TileBuffer :=
  if final_index vx vy ≠ 0 then
    { tempVoxelData := buf.tempVoxelData.set (vx + vy * subSizeX) (final_index vx vy)
      has_solid_voxel := true }
  else buf

/-- The rasterisation of one tile of `create_final_models`. -/
def rasterize_tile (final_index : Nat → Nat → Nat) (subSizeX subSizeY : Nat) : TileBuffer :=
  grid_loop subSizeX subSizeY (rasterize_cell final_index subSizeX)
    { tempVoxelData := List.replicate (subSizeX * subSizeY) 0, has_solid_voxel := false }

/-- The variables `min_vx`, `max_vx`, `min_vy`, `max_vy` of the crop. -/
structure CropBounds where
  min_vx : Int
  max_vx : Int
  min_vy : Int
  max_vy : Int

/-- The body of the loops that find the bounds of the non-zero cells. -/
def scan_cell (tempVoxelData : List Nat) (subSizeX : Nat) (vx vy : Nat) (b : CropBounds) :
    CropBounds :=
  if tempVoxelData.getD (vx + vy * subSizeX) 0 ≠ 0 then
    { min_vx := min b.min_vx vx, max_vx := max b.max_vx vx
      min_vy := min b.min_vy vy, max_vy := max b.max_vy vy }
  else b

/-- The loops that find the bounds of the non-zero cells, from
`min_vx = subSizeX, max_vx = -1, min_vy = subSizeY, max_vy = -1`. -/
def scan_bounds (tempVoxelData : List Nat) (subSizeX subSizeY : Nat) : CropBounds :=
  grid_loop subSizeX subSizeY (scan_cell tempVoxelData subSizeX)
    { min_vx := subSizeX, max_vx := -1, min_vy := subSizeY, max_vy := -1 }

/-- The body of the loops that copy the cropped rectangle. -/
def copy_cell (tempVoxelData : List Nat) (subSizeX : Nat) (b : CropBounds) (finalSizeX : Int)
    (vx vy : Nat) (writable_voxel_data : List Nat) : List Nat :=
  writable_voxel_data.set (vx + vy * finalSizeX.toNat)
    (tempVoxelData.getD ((b.min_vx + vx + (b.min_vy + vy) * subSizeX).toNat) 0)

/-- The crop of one tile of `create_final_models`: no model when `has_solid_voxel` is not set,
else the model of the cropped rectangle; the allocations are taken to succeed, and the cells of
the fresh array, which the loops overwrite, start at 0. -/
def crop_tile (buf : TileBuffer) (subSizeX subSizeY : Nat) : Option VoxModel :=
  if buf.has_solid_voxel = true then
    let b := scan_bounds buf.tempVoxelData subSizeX subSizeY
    let finalSizeX : Int := b.max_vx - b.min_vx + 1
    let finalSizeY : Int := b.max_vy - b.min_vy + 1
    some
      { size_x := finalSizeX
        size_y := finalSizeY
        size_z := 1
        voxel_data := grid_loop finalSizeX.toNat finalSizeY.toNat
          (copy_cell buf.tempVoxelData subSizeX b finalSizeX)
          (List.replicate (finalSizeX * finalSizeY).toNat 0) }
  else none

/-- A pool with one sample for each of 31 materials. -/
def pool_of_31_materials : List ColorSample :=
  [⟨1, "a"⟩, ⟨1, "b"⟩, ⟨1, "c"⟩, ⟨1, "d"⟩, ⟨1, "e"⟩, ⟨1, "f"⟩, ⟨1, "g"⟩, ⟨1, "h"⟩, ⟨1, "i"⟩,
   ⟨1, "j"⟩, ⟨1, "k"⟩, ⟨1, "l"⟩, ⟨1, "m"⟩, ⟨1, "n"⟩, ⟨1, "o"⟩, ⟨1, "p"⟩, ⟨1, "q"⟩, ⟨1, "r"⟩,
   ⟨1, "s"⟩, ⟨1, "t"⟩, ⟨1, "u"⟩, ⟨1, "v"⟩, ⟨1, "w"⟩, ⟨1, "x"⟩, ⟨1, "y"⟩, ⟨1, "z"⟩,
   ⟨1, "aa"⟩, ⟨1, "ab"⟩, ⟨1, "ac"⟩, ⟨1, "ad"⟩, ⟨1, "ae"⟩]

/-- A pool with one sample for each of 6 materials. -/
def pool_of_6_materials : List ColorSample :=
  [⟨1, "a"⟩, ⟨1, "b"⟩, ⟨1, "c"⟩, ⟨1, "d"⟩, ⟨1, "e"⟩, ⟨1, "f"⟩]

/-! ## The channel bounds of the centres of `kmeans` -/

/-- The channels of a colour lie between the channels of two colours of the list. -/
def ChannelsWithin (colors : List Nat) (c : Nat) : Prop :=
  (∃ x ∈ colors, ∃ y ∈ colors,
    (unpack_color x).1 ≤ (unpack_color c).1 ∧ (unpack_color c).1 ≤ (unpack_color y).1) ∧
  (∃ x ∈ colors, ∃ y ∈ colors,
    (unpack_color x).2.1 ≤ (unpack_color c).2.1 ∧
    (unpack_color c).2.1 ≤ (unpack_color y).2.1) ∧
  (∃ x ∈ colors, ∃ y ∈ colors,
    (unpack_color x).2.2 ≤ (unpack_color c).2.2 ∧
    (unpack_color c).2.2 ≤ (unpack_color y).2.2)

/-! ## The early stop of `kmeans` -/

/-- Whether the loop of `kmeans`, run for at most `max_iter` iterations from `centers`, leaves
by its `break` (no centre changed in some iteration). -/
def kmeans_breaks (F : FloatModel D) (colors : List Nat) : Nat → List Nat → Bool
  | 0, _ => false
  | n + 1, centers =>
    let next := update_centers centers (assign_clusters F colors centers)
    if next.2 then kmeans_breaks F colors n next.1 else true

/-! ## Boundary edges that form one simple cycle -/

/-- The boundary edges are the edges of the simple cycle through the vertices `cycle`, given in
any order and with any orientation: the edge `j` joins the vertices at the positions `pos j`
and `pos j + 1` (cyclically) of `cycle`, and `edge_at` is the inverse of `pos`. The cycle is
listed from the start vertex of the first edge, in the direction of the first edge. -/
structure CycleOrder (boundary_edges : List Edge) (cycle : List Int)
    (pos edge_at : Nat → Nat) : Prop where
  length_eq : cycle.length = boundary_edges.length
  nodup : cycle.Nodup
  pos_lt : ∀ j, j < boundary_edges.length → pos j < boundary_edges.length
  edge_at_lt : ∀ p, p < boundary_edges.length → edge_at p < boundary_edges.length
  edge_at_pos : ∀ j, j < boundary_edges.length → edge_at (pos j) = j
  pos_edge_at : ∀ p, p < boundary_edges.length → pos (edge_at p) = p
  ends : ∀ j e, boundary_edges.get? j = some e →
    (e.start_index = cycle.getD (pos j) 0 ∧
      e.end_index = cycle.getD ((pos j + 1) % boundary_edges.length) 0) ∨
    (e.start_index = cycle.getD ((pos j + 1) % boundary_edges.length) 0 ∧
      e.end_index = cycle.getD (pos j) 0)
  first_pos : pos 0 = 0
  first_forward : ∀ e, boundary_edges.get? 0 = some e →
    e.start_index = cycle.getD 0 0 ∧ e.end_index = cycle.getD 1 0

/-- A square given by its four edges in a shuffled order, two of them reversed. -/
def shuffled_square_edges : List Edge :=
  [⟨0, 1, 1, false⟩, ⟨3, 2, 1, false⟩, ⟨1, 2, 1, false⟩, ⟨0, 3, 1, false⟩]

/-- The vertices of the unit square. -/
def unit_square_vertices : List Vec3 :=
  [⟨0, 0, 0⟩, ⟨1, 0, 0⟩, ⟨1, 1, 0⟩, ⟨0, 1, 0⟩]

/-! ## `classify_materials` -/

/-- The loop `while (std::getline(ss, current_part, ':')) parts.push_back(current_part)`:
`cur` holds the characters read since the last colon. A part that ends with a colon is
pushed even when it is empty; at the end of the string the characters read so far are pushed
only when there is at least one, since `getline` fails when it extracts nothing. -/
def getline_scan : List Char → List Char → List String
  | [], cur => if cur = [] then [] else [String.mk cur]
  | c :: rest, cur =>
    if c = ':' then String.mk cur :: getline_scan rest []
    else getline_scan rest (cur ++ [c])

/-- The parts of a string between colons, as the parsing loops of `classify_materials`
collect them. -/
def split_colon (s : String) : List String := getline_scan s.data []

/-- The two maps `custom_td_notes` and `custom_vox_types` of `classify_materials`. -/
structure CustomMaps where
  custom_td_notes : List (String × String)
  custom_vox_types : List (String × String)

/-- The body of the loop over `material_maps`. -/
def parse_map_step (acc : CustomMaps) (map_str : String) : CustomMaps :=
  let parts := split_colon map_str
  if 2 ≤ parts.length then
    let notes := map_set string_lt acc.custom_td_notes (parts.getD 0 "") (parts.getD 1 "")
    if 3 ≤ parts.length then
      ⟨notes, map_set string_lt acc.custom_vox_types (parts.getD 0 "") (parts.getD 2 "")⟩
    else ⟨notes, acc.custom_vox_types⟩
  else acc

/-- The loop over `material_maps` of `classify_materials`. -/
def parse_material_maps (material_maps : List String) : CustomMaps :=
  material_maps.foldl parse_map_step ⟨[], []⟩

/-- The outcome of `std::stof`: a value, or one of the two exceptions it throws. -/
inductive StofResult where
  | value (v : ℚ)
  | invalid_argument
  | out_of_range

/-- The loop over `material_properties` of `classify_materials`, continued from the map
`custom_properties`. The exception `std::invalid_argument` is caught and the string skipped;
`std::out_of_range` is not caught and ends the function without a result. -/
def parse_material_properties (stof : String → StofResult) :
    List String → List (String × List (String × ℚ)) → Option (List (String × List (String × ℚ)))
  | [], custom_properties => some custom_properties
  | prop_str :: rest, custom_properties =>
    let parts := split_colon prop_str
    if parts.length = 3 then
      let mat_name := parts.getD 0 ""
      let prop_name := parts.getD 1 ""
      match stof (parts.getD 2 "") with
      | StofResult.value prop_value =>
        parse_material_properties stof rest
          (map_set string_lt custom_properties mat_name
            (map_set string_lt ((map_find custom_properties mat_name).getD []) prop_name
              prop_value))
      | StofResult.invalid_argument => parse_material_properties stof rest custom_properties
      | StofResult.out_of_range => none
    else parse_material_properties stof rest custom_properties

/-- The render kinds `ogt_matl_type` that `classify_materials` assigns. -/
inductive ogt_matl_type where
  | ogt_matl_type_diffuse
  | ogt_matl_type_metal
  | ogt_matl_type_glass
  | ogt_matl_type_emit
deriving DecidableEq, Repr

/-- The fields of `ogt_vox_matl` that `classify_materials` writes; each bit of `content_flags`
is a Boolean. -/
structure ogt_vox_matl where
  type : ogt_matl_type
  metal : ℚ
  rough : ℚ
  spec : ℚ
  ior : ℚ
  flux : ℚ
  emit : ℚ
  ldr : ℚ
  trans : ℚ
  alpha : ℚ
  have_metal : Bool
  have_rough : Bool
  have_spec : Bool
  have_ior : Bool
  have_flux : Bool
  have_emit : Bool
  have_ldr : Bool
  have_trans : Bool
  have_alpha : Bool

/-- The material after `memset(&profile.vox_material, 0, sizeof(profile.vox_material))`. -/
def zeroed_matl : ogt_vox_matl :=
  ⟨ogt_matl_type.ogt_matl_type_diffuse, 0, 0, 0, 0, 0, 0, 0, 0, 0,
    false, false, false, false, false, false, false, false, false⟩

/-- Step 1 of `classify_materials` for one property of the material; `fl` rounds a rational
number to a `float`. -/
def apply_property (fl : ℚ → ℚ) (vm : ogt_vox_matl) (prop : String × ℚ) : ogt_vox_matl :=
  let prop_name := prop.1
  let prop_value := prop.2
  if prop_name = "rough" then { vm with rough := prop_value, have_rough := true }
  else if prop_name = "spec" then { vm with spec := prop_value, have_spec := true }
  else if prop_name = "ior" then { vm with ior := prop_value, have_ior := true }
  else if prop_name = "trans" then
    { vm with trans := prop_value, alpha := fl (1 - prop_value), have_trans := true,
              have_alpha := true }
  else if prop_name = "emission" then { vm with emit := prop_value, have_emit := true }
  else if prop_name = "power" then { vm with flux := prop_value, have_flux := true }
  else if prop_name = "ldr" then { vm with ldr := prop_value, have_ldr := true }
  else if prop_name = "metal" then { vm with metal := prop_value, have_metal := true }
  else vm

/-- Step 1 of `classify_materials`: the properties given for the material, in key order. -/
def apply_properties (fl : ℚ → ℚ) (custom_properties : List (String × List (String × ℚ)))
    (mtl_name : String) : ogt_vox_matl :=
  match map_find custom_properties mtl_name with
  | some props => props.foldl (apply_property fl) zeroed_matl
  | none => zeroed_matl

/-- The render kind named by the third part of a mapping. -/
def explicit_type (vox_type : String) : ogt_matl_type :=
  if vox_type = "glass" then ogt_matl_type.ogt_matl_type_glass
  else if vox_type = "metal" then ogt_matl_type.ogt_matl_type_metal
  else if vox_type = "emit" then ogt_matl_type.ogt_matl_type_emit
  else ogt_matl_type.ogt_matl_type_diffuse

/-- The render kind inferred from an explicit tag when the mapping names none. -/
def type_of_td_note (td_note : String) : ogt_matl_type :=
  if td_note = "$TD_glass" then ogt_matl_type.ogt_matl_type_glass
  else if td_note = "$TD_metal" then ogt_matl_type.ogt_matl_type_metal
  else ogt_matl_type.ogt_matl_type_diffuse

/-- The render kind inferred from the applied properties and the MTL data. -/
def auto_type (fl : ℚ → ℚ) (mtl : MtlMaterial) (vm : ogt_vox_matl) : ogt_matl_type :=
  if vm.have_emit && decide (0 < vm.emit) then ogt_matl_type.ogt_matl_type_emit
  else if decide (mtl.d < fl (9 / 10)) || (vm.have_trans && decide (0 < vm.trans)) then
    ogt_matl_type.ogt_matl_type_glass
  else if vm.have_metal && decide (1 / 2 < vm.metal) then ogt_matl_type.ogt_matl_type_metal
  else ogt_matl_type.ogt_matl_type_diffuse

/-- Whether `pat` starts the character list `s`. -/
def starts_with : List Char → List Char → Bool
  | _, [] => true
  | [], _ :: _ => false
  | c :: s, p :: pat => c == p && starts_with s pat

/-- The test `s.find(pat) != std::string::npos`. -/
def string_find (pat : List Char) : List Char → Bool
  | [] => starts_with [] pat
  | c :: s => starts_with (c :: s) pat || string_find pat s

/-- The lower-case copy `lower_name` of a material name. -/
def lower_name (mtl_name : String) : List Char := mtl_name.data.map Char.toLower

/-- The tag inferred from the render kind and the lower-case name. -/
def auto_td_note (type : ogt_matl_type) (lower : List Char) : String :=
  if type = ogt_matl_type.ogt_matl_type_glass then "$TD_glass"
  else if type = ogt_matl_type.ogt_matl_type_metal ∨ string_find "metal".data lower = true then
    "$TD_metal"
  else if string_find "wood".data lower = true then "$TD_wood"
  else if string_find "brick".data lower = true ∨ string_find "concrete".data lower = true then
    "$TD_masonry"
  else if string_find "vegetation".data lower = true then "$TD_foliage"
  else if string_find "carpet".data lower = true then "$TD_plastic"
  else "$TD_metal"

/-- Step 2 of `classify_materials`: the tag and the render kind of one material. -/
def note_and_type (fl : ℚ → ℚ) (maps : CustomMaps) (mtl_name : String) (mtl : MtlMaterial)
    (vm : ogt_vox_matl) : String × ogt_matl_type :=
  match map_find maps.custom_td_notes mtl_name with
  | some td_note =>
    if td_note ≠ "$TD_auto" then
      match map_find maps.custom_vox_types mtl_name with
      | some vox_type => (td_note, explicit_type vox_type)
      | none => (td_note, type_of_td_note td_note)
    else (auto_td_note (auto_type fl mtl vm) (lower_name mtl_name), auto_type fl mtl vm)
  | none => (auto_td_note (auto_type fl mtl vm) (lower_name mtl_name), auto_type fl mtl vm)

/-- Step 3 of `classify_materials`, the roughness: from the shininess `Ns` when no property
has set it. -/
def default_rough (fl : ℚ → ℚ) (mtl : MtlMaterial) (vm : ogt_vox_matl) : ogt_vox_matl :=
  if !vm.have_rough then
    { vm with rough := max (fl (1 / 1000)) (fl (1 - fl (mtl.Ns / 1000))), have_rough := true }
  else vm

/-- Step 3, the specular value: the mean of `Ks`, flagged when positive. -/
def default_spec (fl : ℚ → ℚ) (mtl : MtlMaterial) (vm : ogt_vox_matl) : ogt_vox_matl :=
  if !vm.have_spec then
    let spec := fl (fl (fl (mtl.Ks.1 + mtl.Ks.2.1) + mtl.Ks.2.2) / 3)
    { vm with spec := spec, have_spec := decide (0 < spec) }
  else vm

/-- Step 3, the index of refraction `Ni`. -/
def default_ior (mtl : MtlMaterial) (vm : ogt_vox_matl) : ogt_vox_matl :=
  if !vm.have_ior then { vm with ior := mtl.Ni, have_ior := true } else vm

/-- Step 3, the opacity `d`, flagged when below one. -/
def default_alpha (mtl : MtlMaterial) (vm : ogt_vox_matl) : ogt_vox_matl :=
  if !vm.have_alpha then { vm with alpha := mtl.d, have_alpha := decide (mtl.d < 1) } else vm

/-- Step 3, the transparency of a glass material. -/
def default_trans (fl : ℚ → ℚ) (vm : ogt_vox_matl) : ogt_vox_matl :=
  if !vm.have_trans && decide (vm.type = ogt_matl_type.ogt_matl_type_glass) then
    { vm with trans := fl (1 - vm.alpha), have_trans := true }
  else vm

/-- Step 3, the emission: the mean of `Ke`, flagged when positive. -/
def default_emit (fl : ℚ → ℚ) (mtl : MtlMaterial) (vm : ogt_vox_matl) : ogt_vox_matl :=
  if !vm.have_emit then
    let emit := fl (fl (fl (mtl.Ke.1 + mtl.Ke.2.1) + mtl.Ke.2.2) / 3)
    { vm with emit := emit, have_emit := decide (0 < emit) }
  else vm

/-- Step 3, the flux of an emitting material. -/
def default_flux (fl : ℚ → ℚ) (vm : ogt_vox_matl) : ogt_vox_matl :=
  if !vm.have_flux && vm.have_emit then { vm with flux := fl (vm.emit * 4), have_flux := true }
  else vm

/-- Step 3 of `classify_materials`: the values taken from the MTL data for what no property
has set. -/
def apply_defaults (fl : ℚ → ℚ) (mtl : MtlMaterial) (vm : ogt_vox_matl) : ogt_vox_matl :=
  default_flux fl (default_emit fl mtl (default_trans fl (default_alpha mtl
    (default_ior mtl (default_spec fl mtl (default_rough fl mtl vm))))))

/-- The body of the loop over `mtl_materials`: the profile of one material. -/
def classify_one (fl : ℚ → ℚ) (maps : CustomMaps)
    (custom_properties : List (String × List (String × ℚ))) (mtl_name : String)
    (mtl : MtlMaterial) : MaterialProfile ogt_vox_matl :=
  let vm := apply_properties fl custom_properties mtl_name
  let nt := note_and_type fl maps mtl_name mtl vm
  ⟨nt.1, apply_defaults fl mtl { vm with type := nt.2 }⟩

/-- The profile `default_profile` for faces without a material. -/
def default_profile (fl : ℚ → ℚ) : MaterialProfile ogt_vox_matl :=
  ⟨"", { zeroed_matl with rough := fl (4 / 5), have_rough := true }⟩

/-- The loop over `mtl_materials` followed by `profiles[""] = default_profile`. -/
def classify_profiles (fl : ℚ → ℚ) (maps : CustomMaps)
    (custom_properties : List (String × List (String × ℚ)))
    (mtl_materials : List (String × MtlMaterial)) :
    List (String × MaterialProfile ogt_vox_matl) :=
  map_set string_lt
    (mtl_materials.foldl
      (fun profiles pair =>
        map_set string_lt profiles pair.1 (classify_one fl maps custom_properties pair.1 pair.2))
      [])
    "" (default_profile fl)

/-- The function `classify_materials(mtl_materials, material_maps, material_properties)`;
`none` stands for the exception that leaves it. -/
def classify_materials (fl : ℚ → ℚ) (stof : String → StofResult)
    (mtl_materials : List (String × MtlMaterial)) (material_maps : List String)
    (material_properties : List String) :
    Option (List (String × MaterialProfile ogt_vox_matl)) :=
  match parse_material_properties stof material_properties [] with
  | some custom_properties =>
    some (classify_profiles fl (parse_material_maps material_maps) custom_properties
      mtl_materials)
  | none => none

/-- The number written by a list of decimal digits. -/
def digits_value (digits : List Char) : Nat :=
  digits.foldl (fun acc c => 10 * acc + (c.toNat - 48)) 0

/-- A `stof` for closed evaluations: on a string that starts with decimal digits, optionally
followed by `e` and decimal digits, it does what `std::stof` does: the value rounded by `fl`,
or `out_of_range` when the number rounds beyond `FLT_MAX`; every other string is reported as
invalid here. -/
def stof_digits (fl : ℚ → ℚ) (s : String) : StofResult :=
  let mantissa := s.data.takeWhile Char.isDigit
  let rest := s.data.dropWhile Char.isDigit
  if mantissa = [] then StofResult.invalid_argument
  else
    let exponent : Nat := match rest with
      | 'e' :: more => digits_value (more.takeWhile Char.isDigit)
      | _ => 0
    let v : Nat := digits_value mantissa * 10 ^ exponent
    if 2 ^ 128 - 2 ^ 103 ≤ v then StofResult.out_of_range
    else StofResult.value (fl (v : ℚ))

/-- The six physical tags of the automatic classification. -/
def physical_tags : List String :=
  ["$TD_glass", "$TD_metal", "$TD_wood", "$TD_masonry", "$TD_foliage", "$TD_plastic"]

/-! ## The trimming of `create_final_models` -/

/-- The lambda `cross_product` of the occlusion test; `fl` rounds the exact result of one
`float` operation. -/
def cross_product (fl : ℚ → ℚ) (x1 y1 x2 y2 : ℚ) : ℚ := fl (fl (x1 * y2) - fl (x2 * y1))

/-- The function `is_face_ccw(face, vertices)`; `face` is the index list `face.v`. -/
def is_face_ccw (fl : ℚ → ℚ) (face : List Int) (vertices : List Vec3) : Bool :=
  let area := (List.range face.length).foldl (fun (area : ℚ) (i : Nat) =>
    let v0 := vertex_at vertices (face.getD i 0)
    let v1 := vertex_at vertices (face.getD ((i + 1) % face.length) 0)
    fl (area + fl (fl (v1.x - v0.x) * fl (v1.y + v0.y)))) 0
  decide (area < 0)

/-- The function `get_edge_polygon_outer_normal(edge, face, vertices)`; `sqrt_f` stands for
`std::sqrt` on `float`. -/
def get_edge_polygon_outer_normal (fl sqrt_f : ℚ → ℚ) (edge : Edge) (face : List Int)
    (vertices : List Vec3) : Vec3 :=
  let p1 := vertex_at vertices edge.start_index
  let p2 := vertex_at vertices edge.end_index
  let dx := fl (p2.x - p1.x)
  let dy := fl (p2.y - p1.y)
  let len := sqrt_f (fl (fl (dx * dx) + fl (dy * dy)))
  let dx := if fl (1 / 1000000) < len then fl (dx / len) else dx
  let dy := if fl (1 / 1000000) < len then fl (dy / len) else dy
  if is_face_ccw fl face vertices then ⟨dy, -dx, 0⟩ else ⟨-dy, dx, 0⟩

/-- The difference `dx = p2.x - p1.x` of an edge. -/
def edge_dx (fl : ℚ → ℚ) (vertices : List Vec3) (edge : Edge) : ℚ :=
  fl ((vertex_at vertices edge.end_index).x - (vertex_at vertices edge.start_index).x)

/-- The difference `dy = p2.y - p1.y` of an edge. -/
def edge_dy (fl : ℚ → ℚ) (vertices : List Vec3) (edge : Edge) : ℚ :=
  fl ((vertex_at vertices edge.end_index).y - (vertex_at vertices edge.start_index).y)

/-- The squared length `len2 = dx*dx + dy*dy` of an edge. -/
def edge_len2 (fl : ℚ → ℚ) (vertices : List Vec3) (edge : Edge) : ℚ :=
  fl (fl (edge_dx fl vertices edge * edge_dx fl vertices edge) +
    fl (edge_dy fl vertices edge * edge_dy fl vertices edge))

/-- The projection parameter `t` of the cell centre on an edge. -/
def projection_t (fl : ℚ → ℚ) (vertices : List Vec3) (edge : Edge) (cx cy : ℚ) : ℚ :=
  let p1 := vertex_at vertices edge.start_index
  fl (fl (fl (fl (cx - p1.x) * edge_dx fl vertices edge) +
      fl (fl (cy - p1.y) * edge_dy fl vertices edge)) / edge_len2 fl vertices edge)

/-- The coordinate `proj_x` of the projection of the cell centre. -/
def proj_x (fl : ℚ → ℚ) (vertices : List Vec3) (edge : Edge) (cx cy : ℚ) : ℚ :=
  fl ((vertex_at vertices edge.start_index).x +
    fl (projection_t fl vertices edge cx cy * edge_dx fl vertices edge))

/-- The coordinate `proj_y` of the projection of the cell centre. -/
def proj_y (fl : ℚ → ℚ) (vertices : List Vec3) (edge : Edge) (cx cy : ℚ) : ℚ :=
  fl ((vertex_at vertices edge.start_index).y +
    fl (projection_t fl vertices edge cx cy * edge_dy fl vertices edge))

/-- The body of the occlusion loop: whether `other_edge` crosses the segment from the cell
centre to the projection `(px, py)`. -/
def crosses_sight (fl : ℚ → ℚ) (vertices : List Vec3) (cx cy px py : ℚ) (other_edge : Edge) :
    Bool :=
  let op1 := vertex_at vertices other_edge.start_index
  let op2 := vertex_at vertices other_edge.end_index
  let d1 := cross_product fl (fl (op2.x - op1.x)) (fl (op2.y - op1.y)) (fl (cx - op1.x))
    (fl (cy - op1.y))
  let d2 := cross_product fl (fl (op2.x - op1.x)) (fl (op2.y - op1.y)) (fl (px - op1.x))
    (fl (py - op1.y))
  let d3 := cross_product fl (fl (px - cx)) (fl (py - cy)) (fl (op1.x - cx)) (fl (op1.y - cy))
  let d4 := cross_product fl (fl (px - cx)) (fl (py - cy)) (fl (op2.x - cx)) (fl (op2.y - cy))
  decide (fl (d1 * d2) < 0) && decide (fl (d3 * d4) < 0)

/-- The occlusion loop over `other_edge`, from the edge number `j` on; `i` is the number of
the edge under test, which the loop skips (`&edge == &other_edge`). -/
def occlusion_loop (fl : ℚ → ℚ) (vertices : List Vec3) (cx cy px py : ℚ) (i : Nat) :
    Nat → List Edge → Bool
  | _, [] => false
  | j, other_edge :: rest =>
    if j = i then occlusion_loop fl vertices cx cy px py i (j + 1) rest
    else if crosses_sight fl vertices cx cy px py other_edge then true
    else occlusion_loop fl vertices cx cy px py i (j + 1) rest

/-- The flag `is_occluded` of the edge number `i`. -/
def is_occluded (fl : ℚ → ℚ) (vertices : List Vec3) (boundary_edges : List Edge)
    (cx cy : ℚ) (i : Nat) (edge : Edge) : Bool :=
  occlusion_loop fl vertices cx cy (proj_x fl vertices edge cx cy)
    (proj_y fl vertices edge cx cy) i 0 boundary_edges

/-- The search for `edge_parent_face`: the first face whose indices contain both ends of the
edge. -/
def edge_parent_face (faces : List (List Int)) (edge : Edge) : Option (List Int) :=
  faces.find? (fun face =>
    face.any (fun v_idx => decide (v_idx = edge.start_index)) &&
    face.any (fun v_idx => decide (v_idx = edge.end_index)))

/-- The value `signed_dist`: the dot product of the vector from the projection to the cell
centre with the outer normal of the edge. -/
def signed_dist (fl sqrt_f : ℚ → ℚ) (vertices : List Vec3) (face : List Int) (edge : Edge)
    (cx cy : ℚ) : ℚ :=
  let normal := get_edge_polygon_outer_normal fl sqrt_f edge face vertices
  fl (fl (fl (cx - proj_x fl vertices edge cx cy) * normal.x) +
    fl (fl (cy - proj_y fl vertices edge cx cy) * normal.y))

/-- The constant `EDGE_OFFSET_MULTIPLIER = 0.25f`. -/
def EDGE_OFFSET_MULTIPLIER : ℚ := 1 / 4

/-- The constant `EPSILON = 0.03f` of the trimming. -/
def EPSILON (fl : ℚ → ℚ) : ℚ := fl (3 / 100)

/-- The value `voxel_bounding_radius = voxel_size * 0.70710678118f`. -/
def voxel_bounding_radius (fl : ℚ → ℚ) (voxel_size : ℚ) : ℚ :=
  fl (voxel_size * fl (70710678118 / 100000000000))

/-- The value `dist_to_virtual_edge = signed_dist - voxel_size * EDGE_OFFSET_MULTIPLIER -
EPSILON`. -/
def dist_to_virtual_edge (fl sqrt_f : ℚ → ℚ) (vertices : List Vec3) (face : List Int)
    (edge : Edge) (voxel_size cx cy : ℚ) : ℚ :=
  fl (fl (signed_dist fl sqrt_f vertices face edge cx cy -
    fl (voxel_size * EDGE_OFFSET_MULTIPLIER)) - EPSILON fl)

/-- The body of the trimming loop for the edge number `i`, up to its last test: `none` when
the body leaves with `continue`, otherwise the value `dist_to_virtual_edge +
voxel_bounding_radius` that is compared with zero. -/
def edge_test (fl sqrt_f : ℚ → ℚ) (vertices : List Vec3) (faces : List (List Int))
    (boundary_edges : List Edge) (voxel_size cx cy : ℚ) (i : Nat) (edge : Edge) : Option ℚ :=
  if edge_len2 fl vertices edge < fl (1 / 10000000000) then none
  else if projection_t fl vertices edge cx cy < 0 ∨ 1 < projection_t fl vertices edge cx cy then
    none
  else if is_occluded fl vertices boundary_edges cx cy i edge then none
  else match edge_parent_face faces edge with
    | none => none
    | some face =>
      some (fl (dist_to_virtual_edge fl sqrt_f vertices face edge voxel_size cx cy +
        voxel_bounding_radius fl voxel_size))

/-- The trimming loop over `boundary_edges`, from the edge number `i` on: `true` when it
leaves with `skip = true`. -/
def trimming_loop (fl sqrt_f : ℚ → ℚ) (vertices : List Vec3) (faces : List (List Int))
    (boundary_edges : List Edge) (voxel_size cx cy : ℚ) : Nat → List Edge → Bool
  | _, [] => false
  | i, edge :: rest =>
    match edge_test fl sqrt_f vertices faces boundary_edges voxel_size cx cy i edge with
    | some value =>
      if 0 < value then true
      else trimming_loop fl sqrt_f vertices faces boundary_edges voxel_size cx cy (i + 1) rest
    | none => trimming_loop fl sqrt_f vertices faces boundary_edges voxel_size cx cy (i + 1) rest

/-- The flag `skip` of a cell with the centre `(cx, cy)`; `hit_face` tells whether the cell
has passed the inclusion test and a triangle was found for it. -/
def trim_skip (fl sqrt_f : ℚ → ℚ) (vertices : List Vec3) (faces : List (List Int))
    (boundary_edges : List Edge) (voxel_size cx cy : ℚ) (hit_face : Bool) : Bool :=
  if hit_face then
    trimming_loop fl sqrt_f vertices faces boundary_edges voxel_size cx cy 0 boundary_edges
  else false

/-- A square root for closed evaluations: exact on the squares of rational numbers. -/
def rat_sqrt (q : ℚ) : ℚ := (Nat.sqrt q.num.toNat : ℚ) / (Nat.sqrt q.den : ℚ)

/-- The vertices of a square of side 637/64. -/
def wide_square_vertices : List Vec3 :=
  [⟨0, 0, 0⟩, ⟨637 / 64, 0, 0⟩, ⟨637 / 64, 637 / 64, 0⟩, ⟨0, 637 / 64, 0⟩]

/-- The boundary edges of the square made of the triangles `0 1 2` and `0 2 3`. -/
def wide_square_edges : List Edge :=
  [⟨0, 1, 637 / 64, true⟩, ⟨1, 2, 637 / 64, true⟩, ⟨2, 3, 637 / 64, true⟩,
   ⟨3, 0, 637 / 64, true⟩]

end Polyvox


namespace Polyvox

variable {D : Type} [LinearOrder D]

/-! ## Lemmas on `std::map` -/

theorem mem_map_set {κ ν : Type} [DecidableEq κ] (lt : κ → κ → Bool) (m : List (κ × ν))
    (k : κ) (v : ν) (e : κ × ν) (h : e ∈ map_set lt m k v) : e = (k, v) ∨ e ∈ m := by
  induction m with
  | nil =>
    simp only [map_set, List.mem_singleton] at h
    exact Or.inl h
  | cons hd tl ih =>
    obtain ⟨k', v'⟩ := hd
    simp only [map_set] at h
    split_ifs at h with h1 h2
    · rcases List.mem_cons.1 h with h | h
      · exact Or.inl h
      · exact Or.inr (List.mem_cons_of_mem _ h)
    · rcases List.mem_cons.1 h with h | h
      · exact Or.inl h
      · exact Or.inr h
    · rcases List.mem_cons.1 h with h | h
      · exact Or.inr (h ▸ List.mem_cons_self _ _)
      · rcases ih h with h | h
        · exact Or.inl h
        · exact Or.inr (List.mem_cons_of_mem _ h)

theorem map_find_map_set_self {κ ν : Type} [DecidableEq κ] (lt : κ → κ → Bool)
    (m : List (κ × ν)) (k : κ) (v : ν) : map_find (map_set lt m k v) k = some v := by
  induction m with
  | nil => simp [map_set, map_find]
  | cons hd tl ih =>
    obtain ⟨k', v'⟩ := hd
    simp only [map_set]
    split_ifs with h1 h2
    · simp [map_find]
    · simp [map_find]
    · simp [map_find, h1, ih]

theorem map_find_map_set_ne {κ ν : Type} [DecidableEq κ] (lt : κ → κ → Bool)
    (m : List (κ × ν)) (k k2 : κ) (v : ν) (hne : k2 ≠ k) :
    map_find (map_set lt m k v) k2 = map_find m k2 := by
  induction m with
  | nil => simp [map_set, map_find, Ne.symm hne]
  | cons hd tl ih =>
    obtain ⟨k', v'⟩ := hd
    simp only [map_set]
    split_ifs with h1 h2
    · subst h1
      simp [map_find, Ne.symm hne]
    · simp [map_find, Ne.symm hne]
    · by_cases h3 : k' = k2
      · simp [map_find, h3]
      · simp [map_find, h3, ih]

theorem map_find_mem {κ ν : Type} [DecidableEq κ] (m : List (κ × ν)) (k : κ) (v : ν)
    (h : map_find m k = some v) : (k, v) ∈ m := by
  induction m with
  | nil => simp [map_find] at h
  | cons hd tl ih =>
    obtain ⟨k', v'⟩ := hd
    simp only [map_find] at h
    split_ifs at h with h1
    · simp only [Option.some.injEq] at h
      subst h1 h
      exact List.mem_cons_self _ _
    · exact List.mem_cons_of_mem _ (ih h)

theorem map_find_eq_none {κ ν : Type} [DecidableEq κ] (m : List (κ × ν)) (k : κ) :
    map_find m k = none ↔ ∀ e ∈ m, e.1 ≠ k := by
  induction m with
  | nil => simp [map_find]
  | cons hd tl ih =>
    obtain ⟨k', v'⟩ := hd
    simp only [map_find]
    split_ifs with h1
    · simp [h1]
    · simp [ih, h1]

theorem map_find_of_mem {κ ν : Type} [DecidableEq κ] (m : List (κ × ν)) (e : κ × ν)
    (h : e ∈ m) : ∃ v, map_find m e.1 = some v := by
  cases hf : map_find m e.1 with
  | some v => exact ⟨v, rfl⟩
  | none => exact absurd rfl ((map_find_eq_none m e.1).1 hf e h)

/-! ## Lemmas on the fallback of `get_final_index` -/

theorem first_with_color_mem (table : List ((Nat × String) × Nat)) (c : Nat)
    (h : ∃ e ∈ table, e.1.1 = c) : ∃ e ∈ table, e.1.1 = c ∧ first_with_color table c = e.2 := by
  induction table with
  | nil => simp at h
  | cons hd tl ih =>
    obtain ⟨key, index⟩ := hd
    simp only [first_with_color]
    split_ifs with h1
    · exact ⟨(key, index), List.mem_cons_self _ _, h1, rfl⟩
    · obtain ⟨e, he, hc⟩ := h
      rcases List.mem_cons.1 he with he | he
      · subst he
        exact absurd hc h1
      · obtain ⟨e', he', hc', hv⟩ := ih ⟨e, he, hc⟩
        exact ⟨e', List.mem_cons_of_mem _ he', hc', hv⟩

theorem first_with_color_none (table : List ((Nat × String) × Nat)) (c : Nat)
    (h : ∀ e ∈ table, e.1.1 ≠ c) : first_with_color table c = 0 := by
  induction table with
  | nil => rfl
  | cons hd tl ih =>
    obtain ⟨key, index⟩ := hd
    simp only [first_with_color]
    have h1 : key.1 ≠ c := h (key, index) (List.mem_cons_self _ _)
    rw [if_neg h1]
    exact ih (fun e he => h e (List.mem_cons_of_mem _ he))

/-! ## Lemmas on the key orders -/

theorem string_lt_iff (a b : String) : string_lt a b = true ↔ a < b := by
  simp [string_lt, String.lt_iff_toList_lt]

theorem map_set_keys_subset {κ ν : Type} [DecidableEq κ] (lt : κ → κ → Bool)
    (m : List (κ × ν)) (k : κ) (v : ν) (x : κ)
    (h : x ∈ (map_set lt m k v).map (fun e => e.1)) : x = k ∨ x ∈ m.map (fun e => e.1) := by
  obtain ⟨e, he, hx⟩ := List.mem_map.1 h
  rcases mem_map_set lt m k v e he with he | he
  · left
    rw [← hx, he]
  · right
    exact List.mem_map.2 ⟨e, he, hx⟩

theorem map_set_sorted_by {κ ν : Type} [DecidableEq κ] (lt : κ → κ → Bool)
    (htrans : ∀ a b c, lt a b = true → lt b c = true → lt a c = true)
    (htotal : ∀ a b, lt a b = false → a ≠ b → lt b a = true)
    (m : List (κ × ν)) (k : κ) (v : ν)
    (h : (m.map (fun e => e.1)).Pairwise (fun a b => lt a b = true)) :
    ((map_set lt m k v).map (fun e => e.1)).Pairwise (fun a b => lt a b = true) := by
  induction m with
  | nil => simp [map_set]
  | cons hd tl ih =>
    obtain ⟨k', v'⟩ := hd
    simp only [List.map_cons, List.pairwise_cons] at h
    simp only [map_set]
    split_ifs with h1 h2
    · subst h1
      simpa using h
    · simp only [List.map_cons, List.pairwise_cons]
      refine ⟨?_, h⟩
      intro x hx
      rcases List.mem_cons.1 hx with hx | hx
      · rw [hx]
        exact h2
      · exact htrans _ _ _ h2 (h.1 x hx)
    · have hlt : lt k' k = true :=
        htotal k k' (by simpa using h2) (fun e => h1 e.symm)
      simp only [List.map_cons, List.pairwise_cons]
      refine ⟨?_, ih h.2⟩
      intro x hx
      rcases map_set_keys_subset lt tl k v x hx with hx | hx
      · rw [hx]
        exact hlt
      · exact h.1 x hx

theorem map_find_of_mem_sorted {κ ν : Type} [DecidableEq κ] (lt : κ → κ → Bool)
    (hirr : ∀ a, lt a a = false) (m : List (κ × ν))
    (h : (m.map (fun e => e.1)).Pairwise (fun a b => lt a b = true)) (k : κ) (v : ν)
    (hmem : (k, v) ∈ m) : map_find m k = some v := by
  induction m with
  | nil => simp at hmem
  | cons hd tl ih =>
    obtain ⟨k', v'⟩ := hd
    simp only [List.map_cons, List.pairwise_cons] at h
    simp only [map_find]
    rcases List.mem_cons.1 hmem with heq | htl
    · simp only [Prod.mk.injEq] at heq
      simp [heq.1, heq.2]
    · by_cases hk : k' = k
      · exfalso
        have := h.1 k (List.mem_map.2 ⟨(k, v), htl, rfl⟩)
        rw [hk, hirr] at this
        exact Bool.false_ne_true this
      · rw [if_neg hk]
        exact ih h.2 htl

theorem pair_lt_iff (a b : Nat × String) :
    pair_lt a b = true ↔ a.1 < b.1 ∨ (a.1 = b.1 ∧ a.2 < b.2) := by
  unfold pair_lt
  simp only [Bool.or_eq_true, Bool.and_eq_true, decide_eq_true_eq, Bool.not_eq_true',
    decide_eq_false_iff_not, string_lt_iff]
  constructor
  · rintro (h | ⟨h1, h2⟩)
    · exact Or.inl h
    · rcases Nat.lt_or_ge a.1 b.1 with h | h
      · exact Or.inl h
      · exact Or.inr ⟨by omega, h2⟩
  · rintro (h | ⟨h1, h2⟩)
    · exact Or.inl h
    · exact Or.inr ⟨by omega, h2⟩

theorem pair_lt_irrefl (a : Nat × String) : pair_lt a a = false := by
  rw [← Bool.not_eq_true, pair_lt_iff]
  rintro (h | ⟨_, h⟩)
  · exact Nat.lt_irrefl _ h
  · exact lt_irrefl _ h

theorem pair_lt_trans (a b c : Nat × String) (h1 : pair_lt a b = true)
    (h2 : pair_lt b c = true) : pair_lt a c = true := by
  rw [pair_lt_iff] at h1 h2 ⊢
  rcases h1 with h1 | ⟨h1, h1s⟩ <;> rcases h2 with h2 | ⟨h2, h2s⟩
  · exact Or.inl (by omega)
  · exact Or.inl (by omega)
  · exact Or.inl (by omega)
  · exact Or.inr ⟨by omega, lt_trans h1s h2s⟩

theorem pair_lt_total (a b : Nat × String) (h : pair_lt a b = false) (hne : a ≠ b) :
    pair_lt b a = true := by
  rw [← Bool.not_eq_true, pair_lt_iff] at h
  rw [pair_lt_iff]
  rcases Nat.lt_trichotomy a.1 b.1 with h1 | h1 | h1
  · exact absurd (Or.inl h1) h
  · rcases lt_trichotomy a.2 b.2 with h2 | h2 | h2
    · exact absurd (Or.inr ⟨h1, h2⟩) h
    · exact absurd (Prod.ext h1 h2) hne
    · exact Or.inr ⟨h1.symm, h2⟩
  · exact Or.inl h1

theorem remap_set_sorted (table : List ((Nat × String) × Nat)) (key : Nat × String)
    (index : Nat) (h : RemapSorted table) : RemapSorted (map_set pair_lt table key index) :=
  map_set_sorted_by pair_lt pair_lt_trans pair_lt_total table key index h

theorem remap_find_of_mem (table : List ((Nat × String) × Nat)) (h : RemapSorted table)
    (key : Nat × String) (index : Nat) (hmem : (key, index) ∈ table) :
    map_find table key = some index :=
  map_find_of_mem_sorted pair_lt pair_lt_irrefl table h key index hmem

theorem map_set_sorted {ν : Type} (m : List (String × ν)) (k : String) (v : ν)
    (h : KeysSorted m) : KeysSorted (map_set string_lt m k v) := by
  induction m with
  | nil => simp [map_set, KeysSorted]
  | cons hd tl ih =>
    obtain ⟨k', v'⟩ := hd
    unfold KeysSorted at h ih ⊢
    simp only [List.map_cons, List.pairwise_cons] at h
    simp only [map_set]
    split_ifs with h1 h2
    · subst h1
      simpa using h
    · rw [string_lt_iff] at h2
      simp only [List.map_cons, List.pairwise_cons]
      refine ⟨?_, h⟩
      intro x hx
      rcases List.mem_cons.1 hx with hx | hx
      · rw [hx]
        exact h2
      · exact lt_trans h2 (h.1 x hx)
    · rw [string_lt_iff] at h2
      have hlt : k' < k := lt_of_le_of_ne (not_lt.1 h2) h1
      simp only [List.map_cons, List.pairwise_cons]
      refine ⟨?_, ih h.2⟩
      intro x hx
      rcases map_set_keys_subset string_lt tl k v x hx with hx | hx
      · rw [hx]
        exact hlt
      · exact h.1 x hx

theorem map_find_of_mem_keys_sorted {ν : Type} (m : List (String × ν)) (h : KeysSorted m)
    (k : String) (v : ν) (hmem : (k, v) ∈ m) : map_find m k = some v := by
  apply map_find_of_mem_sorted string_lt _ m _ k v hmem
  · intro a
    rw [← Bool.not_eq_true, string_lt_iff]
    exact lt_irrefl a
  · exact List.Pairwise.imp (fun hab => (string_lt_iff _ _).2 hab) h

theorem map_find_none_of_not_mem {κ ν : Type} [DecidableEq κ] (m : List (κ × ν)) (k : κ)
    (h : k ∉ m.map (fun e => e.1)) : map_find m k = none := by
  rw [map_find_eq_none]
  intro e he heq
  exact h (List.mem_map.2 ⟨e, he, heq⟩)

theorem map_set_keys_of_mem {ν : Type} (m : List (String × ν)) (k : String) (v : ν)
    (hs : KeysSorted m) (hk : k ∈ m.map (fun e => e.1)) :
    (map_set string_lt m k v).map (fun e => e.1) = m.map (fun e => e.1) := by
  induction m with
  | nil => simp at hk
  | cons hd tl ih =>
    obtain ⟨k', v'⟩ := hd
    unfold KeysSorted at hs ih
    simp only [List.map_cons, List.pairwise_cons] at hs
    simp only [map_set]
    split_ifs with h1 h2
    · simp [h1]
    · rw [string_lt_iff] at h2
      exfalso
      simp only [List.map_cons, List.mem_cons] at hk
      rcases hk with hk | hk
      · exact h1 hk.symm
      · exact lt_asymm h2 (hs.1 k hk)
    · simp only [List.map_cons, List.mem_cons] at hk
      rcases hk with hk | hk
      · exact absurd hk.symm h1
      · simp [ih hs.2 hk]

/-! ## Lemmas on the slot adjustment -/

theorem slots_sum_map_set (slots : List (String × Int)) (name : String) (v : Int)
    (hs : KeysSorted slots) :
    slots_sum (map_set string_lt slots name v)
      = slots_sum slots - (map_find slots name).getD 0 + v := by
  induction slots with
  | nil => simp [map_set, map_find, slots_sum]
  | cons hd tl ih =>
    obtain ⟨k', v'⟩ := hd
    unfold KeysSorted at hs ih
    simp only [List.map_cons, List.pairwise_cons] at hs
    simp only [map_set, map_find]
    split_ifs with h1 h2
    · simp only [slots_sum, List.map_cons, List.sum_cons, Option.getD_some]
      ring
    · rw [string_lt_iff] at h2
      have hnot : name ∉ tl.map (fun e => e.1) := fun hmem => lt_asymm h2 (hs.1 name hmem)
      rw [map_find_none_of_not_mem tl name hnot]
      simp only [slots_sum, List.map_cons, List.sum_cons, Option.getD_none]
      ring
    · have := ih hs.2
      simp only [slots_sum, List.map_cons, List.sum_cons] at this ⊢
      rw [this]
      ring

theorem slots_sum_add_slots (slots : List (String × Int)) (name : String) (d : Int)
    (hs : KeysSorted slots) : slots_sum (add_slots slots name d) = slots_sum slots + d := by
  unfold add_slots
  rw [slots_sum_map_set slots name _ hs]
  ring

theorem add_slots_sorted (slots : List (String × Int)) (name : String) (d : Int)
    (hs : KeysSorted slots) : KeysSorted (add_slots slots name d) :=
  map_set_sorted slots name _ hs

theorem add_slots_ok (slots : List (String × Int)) (name : String) (d : Int)
    (hok : SlotsOK slots) (hd : d % 8 = 0)
    (hv : 8 ≤ (map_find slots name).getD 0 + d) : SlotsOK (add_slots slots name d) := by
  intro e he
  rcases mem_map_set _ _ _ _ _ he with he | he
  · rw [he]
    refine ⟨hv, ?_⟩
    simp only
    cases hf : map_find slots name with
    | none =>
      simp only [Option.getD_none]
      omega
    | some v =>
      have := (hok _ (map_find_mem _ _ _ hf)).2
      simp only [Option.getD_some]
      simp only at this
      omega
  · exact hok e he

theorem initial_slots_ok (F : FloatModel D) (count total : Nat) :
    8 ≤ initial_slots F count total ∧ initial_slots F count total % 8 = 0 := by
  unfold initial_slots
  simp only
  generalize (if total > 0 then F.scale_slots count total total_available_slots else 0) = x
  have h1 : 1 ≤ max 1 x := le_max_left 1 x
  generalize max 1 x = y at h1
  split_ifs <;> omega

theorem initial_allocation_ok (F : FloatModel D) (counts : List (String × Nat)) :
    SlotsOK (initial_allocation F counts) := by
  intro e he
  unfold initial_allocation at he
  obtain ⟨c, _, hc⟩ := List.mem_map.1 he
  rw [← hc]
  exact initial_slots_ok F c.2 _

theorem slots_sum_mod (slots : List (String × Int)) (hok : SlotsOK slots) :
    slots_sum slots % 8 = 0 ∧ 8 * (slots.length : Int) ≤ slots_sum slots := by
  induction slots with
  | nil => simp [slots_sum]
  | cons hd tl ih =>
    have h1 := hok hd (List.mem_cons_self _ _)
    have h2 := ih (fun e he => hok e (List.mem_cons_of_mem _ he))
    simp only [slots_sum, List.map_cons, List.sum_cons, List.length_cons,
      Nat.cast_add, Nat.cast_one] at h2 ⊢
    omega

theorem add_slots_inv (order : List String) (slots : List (String × Int)) (name : String)
    (d : Int) (h : SlotsInv order slots) (hmem : name ∈ order) (hd : d % 8 = 0)
    (hv : 8 ≤ (map_find slots name).getD 0 + d) : SlotsInv order (add_slots slots name d) := by
  refine ⟨add_slots_sorted slots name d h.sorted, add_slots_ok slots name d h.ok hd hv, ?_⟩
  unfold add_slots
  rw [map_set_keys_of_mem slots name _ h.sorted (by rw [h.keys_eq]; exact hmem)]
  exact h.keys_eq

theorem find_ge_of_inv (order : List String) (slots : List (String × Int)) (name : String)
    (h : SlotsInv order slots) (hmem : name ∈ order) :
    ∃ v, map_find slots name = some v ∧ 8 ≤ v ∧ v % 8 = 0 := by
  rw [← h.keys_eq] at hmem
  obtain ⟨e, he, hn⟩ := List.mem_map.1 hmem
  obtain ⟨v, hv⟩ := map_find_of_mem slots e he
  rw [hn] at hv
  exact ⟨v, hv, h.ok _ (map_find_mem _ _ _ hv)⟩

theorem getD_mod_mem (order : List String) (idx : Nat) (h : order ≠ []) :
    order.getD (idx % order.length) "" ∈ order := by
  have hlen : 0 < order.length := List.length_pos.2 h
  rw [List.getD_eq_getElem _ _ (Nat.mod_lt idx hlen)]
  exact List.getElem_mem _

theorem fill_loop_inv (order : List String) (hne : order ≠ []) (fuel : Nat) (remain : Int)
    (idx : Nat) (slots : List (String × Int)) (h : SlotsInv order slots) :
    SlotsInv order (fill_loop order fuel remain idx slots) := by
  induction fuel generalizing remain idx slots with
  | zero => simpa [fill_loop] using h
  | succ fuel ih =>
    simp only [fill_loop]
    split_ifs with hr
    · apply ih
      have hmem := getD_mod_mem order idx hne
      obtain ⟨v, hv, hv8, _⟩ := find_ge_of_inv order slots _ h hmem
      apply add_slots_inv order slots _ 8 h hmem (by decide)
      rw [hv]
      simp only [Option.getD_some]
      omega
    · exact h

theorem fill_loop_sum (order : List String) (hne : order ≠ []) (fuel : Nat) (remain : Int)
    (idx : Nat) (slots : List (String × Int)) (h : SlotsInv order slots)
    (hfuel : remain ≤ fuel) :
    slots_sum (fill_loop order fuel remain idx slots)
      = slots_sum slots + (if remain > 0 then 8 * ((remain + 7) / 8) else 0) := by
  induction fuel generalizing remain idx slots with
  | zero =>
    have : ¬ remain > 0 := by
      simp only [Nat.cast_zero] at hfuel
      omega
    simp [fill_loop, this]
  | succ fuel ih =>
    simp only [fill_loop]
    split_ifs with hr
    · have hmem := getD_mod_mem order idx hne
      obtain ⟨v, hv, hv8, _⟩ := find_ge_of_inv order slots _ h hmem
      have hinv : SlotsInv order (add_slots slots (order.getD (idx % order.length) "") 8) := by
        apply add_slots_inv order slots _ 8 h hmem (by decide)
        rw [hv]
        simp only [Option.getD_some]
        omega
      rw [ih (remain - 8) (idx + 1) _ hinv (by push_cast at hfuel; omega),
        slots_sum_add_slots _ _ _ h.sorted]
      split_ifs <;> omega
    · simp

theorem trim_step_inv (order : List String) (st : TrimState) (name : String)
    (h : SlotsInv order st.slots) (hmem : name ∈ order) :
    SlotsInv order (trim_step st name).slots := by
  unfold trim_step
  split_ifs with hc
  · obtain ⟨v, hv, hv8, hvm⟩ := find_ge_of_inv order st.slots name h hmem
    apply add_slots_inv order st.slots name (-8) h hmem (by decide)
    rw [hv] at hc ⊢
    simp only [Option.getD_some] at hc ⊢
    omega
  · exact h

theorem trim_step_sum (order : List String) (st : TrimState) (name : String)
    (h : SlotsInv order st.slots) :
    slots_sum (trim_step st name).slots - (trim_step st name).over
      = slots_sum st.slots - st.over := by
  unfold trim_step
  split_ifs with hc
  · simp only
    rw [slots_sum_add_slots _ _ _ h.sorted]
    ring
  · rfl

theorem trim_fold_inv (order names : List String) (st : TrimState)
    (h : SlotsInv order st.slots) (hsub : ∀ n ∈ names, n ∈ order) :
    SlotsInv order (names.foldl trim_step st).slots ∧
    slots_sum (names.foldl trim_step st).slots - (names.foldl trim_step st).over
      = slots_sum st.slots - st.over := by
  induction names generalizing st with
  | nil => exact ⟨h, rfl⟩
  | cons n rest ih =>
    simp only [List.foldl_cons]
    have h1 := trim_step_inv order st n h (hsub n (List.mem_cons_self _ _))
    have h2 := ih (trim_step st n) h1 (fun x hx => hsub x (List.mem_cons_of_mem _ hx))
    exact ⟨h2.1, by rw [h2.2, trim_step_sum order st n h]⟩

theorem trim_loop_inv (order : List String) (fuel : Nat) (st : TrimState)
    (h : SlotsInv order st.slots) :
    SlotsInv order (trim_loop order fuel st).slots ∧
    slots_sum (trim_loop order fuel st).slots - (trim_loop order fuel st).over
      = slots_sum st.slots - st.over := by
  induction fuel generalizing st with
  | zero => exact ⟨h, rfl⟩
  | succ fuel ih =>
    simp only [trim_loop]
    have hp := trim_fold_inv order order { st with changed := false } h (fun n hn => hn)
    split_ifs with hc hch
    · have h2 := ih (trim_pass order st) hp.1
      exact ⟨h2.1, by rw [h2.2]; exact hp.2⟩
    · exact hp
    · exact ⟨h, rfl⟩

/-- The fuel `remain.toNat` of `fill_loop` is enough: any fuel that is at least `remain` gives
the same map, so the loop ends by its own test `remain > 0`. -/
theorem fill_loop_fuel (order : List String) (fuel fuel2 : Nat) (remain : Int) (idx : Nat)
    (slots : List (String × Int)) (h : remain ≤ fuel) (h2 : remain ≤ fuel2) :
    fill_loop order fuel remain idx slots = fill_loop order fuel2 remain idx slots := by
  induction fuel generalizing fuel2 remain idx slots with
  | zero =>
    have hr : ¬ remain > 0 := by
      simp only [Nat.cast_zero] at h
      omega
    cases fuel2 with
    | zero => rfl
    | succ f => simp [fill_loop, hr]
  | succ fuel ih =>
    cases fuel2 with
    | zero =>
      have hr : ¬ remain > 0 := by
        simp only [Nat.cast_zero] at h2
        omega
      simp [fill_loop, hr]
    | succ f =>
      simp only [fill_loop]
      split_ifs with hr
      · exact ih f (remain - 8) (idx + 1) _ (by push_cast at h; omega)
          (by push_cast at h2; omega)
      · rfl

theorem trim_fold_over (names : List String) (st : TrimState) :
    (names.foldl trim_step st).over ≤ st.over ∧
    ((names.foldl trim_step st).changed = true →
      st.changed = true ∨ (names.foldl trim_step st).over ≤ st.over - 8) := by
  induction names generalizing st with
  | nil => exact ⟨le_refl _, fun h => Or.inl h⟩
  | cons n rest ih =>
    simp only [List.foldl_cons]
    have h1 := ih (trim_step st n)
    unfold trim_step at h1 ⊢
    split_ifs at h1 ⊢ with hc
    · simp only at h1
      refine ⟨by omega, fun _ => Or.inr (by omega)⟩
    · exact h1

/-- The fuel `over.toNat` of `trim_loop` is enough: any fuel that is at least `over` gives the
same state, so the loop ends by its own test or by its `break`. -/
theorem trim_loop_fuel (order : List String) (fuel fuel2 : Nat) (st : TrimState)
    (h : st.over ≤ fuel) (h2 : st.over ≤ fuel2) :
    trim_loop order fuel st = trim_loop order fuel2 st := by
  induction fuel generalizing fuel2 st with
  | zero =>
    have hr : ¬ (st.over > 0 ∧ order ≠ []) := by
      simp only [Nat.cast_zero] at h
      omega
    cases fuel2 with
    | zero => rfl
    | succ f => simp only [trim_loop, hr, if_false]
  | succ fuel ih =>
    cases fuel2 with
    | zero =>
      have hr : ¬ (st.over > 0 ∧ order ≠ []) := by
        simp only [Nat.cast_zero] at h2
        omega
      simp only [trim_loop, hr, if_false]
    | succ f =>
      simp only [trim_loop]
      split_ifs with hc hch
      · have hover := (trim_fold_over order { st with changed := false }).2 hch
        simp only [Bool.false_eq_true, false_or] at hover
        exact ih f (trim_pass order st) (by push_cast at h; unfold trim_pass; omega)
          (by push_cast at h2; unfold trim_pass; omega)
      · rfl
      · rfl

theorem adjust_slots_inv (order : List String) (slots : List (String × Int))
    (h : SlotsInv order slots) : SlotsInv order (adjust_slots order slots) := by
  unfold adjust_slots
  simp only
  split_ifs with h1 h2
  · exact fill_loop_inv order h1.2 _ _ _ _ h
  · exact (trim_loop_inv order _ ⟨slots, _, false⟩ h).1
  · exact h

/-! ## Lemmas on `kmeans` -/

theorem update_centers_length (centers : List Nat) (clusters : List (List Nat)) :
    (update_centers centers clusters).1.length = centers.length := by
  induction centers generalizing clusters with
  | nil => cases clusters <;> simp [update_centers]
  | cons c cs ih =>
    cases clusters with
    | nil => simp [update_centers]
    | cons cl cls =>
      simp only [update_centers]
      split_ifs <;> simp [ih]

theorem kmeans_iterate_length (F : FloatModel D) (colors : List Nat) (n : Nat)
    (centers : List Nat) : (kmeans_iterate F colors n centers).length = centers.length := by
  induction n generalizing centers with
  | zero => simp [kmeans_iterate]
  | succ n ih =>
    simp only [kmeans_iterate]
    split_ifs
    · rw [ih, update_centers_length]
    · rw [update_centers_length]

theorem initial_centers_length (colors : List Nat) (k : Nat) :
    (initial_centers colors k).length = k := by
  simp [initial_centers]

theorem stride_index_lt {n k i : Nat} (hn : 0 < n) (hi : i < k) : i * n / k < n := by
  have hk : 0 < k := Nat.lt_of_le_of_lt (Nat.zero_le i) hi
  rw [Nat.div_lt_iff_lt_mul hk]
  rw [Nat.mul_comm n k]
  exact Nat.mul_lt_mul_of_pos_right hi hn

theorem stride_index_strict {n k i j : Nat} (hk : 0 < k) (hkn : k ≤ n) (hij : i < j) :
    i * n / k < j * n / k := by
  have h1 : i * n / k + 1 = (i * n + k) / k := (Nat.add_div_right (i * n) hk).symm
  have h2 : (i * n + k) / k ≤ ((i + 1) * n) / k := by
    apply Nat.div_le_div_right
    rw [Nat.add_mul, Nat.one_mul]
    omega
  have h3 : ((i + 1) * n) / k ≤ (j * n) / k := by
    apply Nat.div_le_div_right
    exact Nat.mul_le_mul_right n hij
  omega

theorem initial_centers_nodup (colors : List Nat) (k : Nat) (hk : 0 < k)
    (hlen : k ≤ colors.length) (hnd : colors.Nodup) : (initial_centers colors k).Nodup := by
  unfold initial_centers
  apply List.Nodup.map_on _ (List.nodup_range k)
  intro i hi j hj hij
  rw [List.mem_range] at hi hj
  have hn : 0 < colors.length := by omega
  have hi' := stride_index_lt hn hi
  have hj' := stride_index_lt hn hj
  rw [List.getD_eq_getElem _ _ hi', List.getD_eq_getElem _ _ hj'] at hij
  have hidx := (hnd.getElem_inj_iff).1 hij
  by_contra hne
  rcases Nat.lt_or_gt_of_ne hne with h | h
  · have := stride_index_strict (n := colors.length) hk hlen h
    omega
  · have := stride_index_strict (n := colors.length) hk hlen h
    omega

/-! ## Lemmas on the grouping of the pool -/

theorem group_step_inv (seen : List ColorSample) (groups : List (String × List Nat))
    (s : ColorSample) (h : GroupsInv seen groups) :
    GroupsInv (seen ++ [s]) (map_set string_lt groups s.material_name
      ((map_find groups s.material_name).getD [] ++ [s.color_rgb])) := by
  refine ⟨map_set_sorted _ _ _ h.sorted, ?_, ?_, ?_⟩
  · intro e he
    rcases mem_map_set _ _ _ _ _ he with he | he
    · rw [he]
      simp
    · exact h.nonempty e he
  · intro e he c hc
    rcases mem_map_set _ _ _ _ _ he with he | he
    · rw [he] at hc ⊢
      simp only at hc ⊢
      rcases List.mem_append.1 hc with hc | hc
      · cases hf : map_find groups s.material_name with
        | none =>
          rw [hf] at hc
          simp at hc
        | some cs =>
          rw [hf] at hc
          simp only [Option.getD_some] at hc
          exact List.mem_append_left _ (h.sound _ (map_find_mem _ _ _ hf) c hc)
      · simp only [List.mem_singleton] at hc
        rw [hc]
        exact List.mem_append_right _ (List.mem_singleton.2 rfl)
    · exact List.mem_append_left _ (h.sound e he c hc)
  · intro s' hs'
    by_cases hn : s'.material_name = s.material_name
    · rw [hn, map_find_map_set_self]
      refine ⟨_, rfl, ?_⟩
      rcases List.mem_append.1 hs' with hs' | hs'
      · obtain ⟨cs, hcs, hmem⟩ := h.complete s' hs'
        rw [hn] at hcs
        rw [hcs]
        exact List.mem_append_left _ hmem
      · simp only [List.mem_singleton] at hs'
        rw [hs']
        exact List.mem_append_right _ (List.mem_singleton.2 rfl)
    · rw [map_find_map_set_ne _ _ _ _ _ hn]
      rcases List.mem_append.1 hs' with hs' | hs'
      · exact h.complete s' hs'
      · simp only [List.mem_singleton] at hs'
        exact absurd (by rw [hs']) hn

theorem group_fold_inv (pool seen : List ColorSample) (groups : List (String × List Nat))
    (h : GroupsInv seen groups) :
    GroupsInv (seen ++ pool) (pool.foldl (fun groups sample =>
      map_set string_lt groups sample.material_name
        ((map_find groups sample.material_name).getD [] ++ [sample.color_rgb])) groups) := by
  induction pool generalizing seen groups with
  | nil => simpa using h
  | cons s rest ih =>
    simp only [List.foldl_cons]
    have := ih (seen ++ [s]) _ (group_step_inv seen groups s h)
    simpa using this

theorem group_colors_inv (pool : List ColorSample) : GroupsInv pool (group_colors pool) := by
  have h0 : GroupsInv [] ([] : List (String × List Nat)) :=
    ⟨by simp [KeysSorted], by simp, by simp, by simp⟩
  have := group_fold_inv pool [] [] h0
  simpa [group_colors] using this

theorem group_fold_single (name : String) (pool : List ColorSample) (acc : List Nat)
    (h : ∀ s ∈ pool, s.material_name = name) :
    pool.foldl (fun groups sample =>
      map_set string_lt groups sample.material_name
        ((map_find groups sample.material_name).getD [] ++ [sample.color_rgb])) [(name, acc)]
      = [(name, acc ++ pool.map (fun s => s.color_rgb))] := by
  induction pool generalizing acc with
  | nil => simp
  | cons s rest ih =>
    have hs : s.material_name = name := h s (List.mem_cons_self _ _)
    simp only [List.foldl_cons, hs, map_find, map_set, if_true, Option.getD_some]
    rw [ih (acc ++ [s.color_rgb]) (fun x hx => h x (List.mem_cons_of_mem _ hx))]
    simp

theorem group_colors_single (name : String) (pool : List ColorSample) (hne : pool ≠ [])
    (h : ∀ s ∈ pool, s.material_name = name) :
    group_colors pool = [(name, pool.map (fun s => s.color_rgb))] := by
  cases pool with
  | nil => exact absurd rfl hne
  | cons s rest =>
    have hs : s.material_name = name := h s (List.mem_cons_self _ _)
    unfold group_colors
    simp only [List.foldl_cons, hs, map_find, map_set, Option.getD_none, List.nil_append]
    rw [group_fold_single name rest [s.color_rgb]
      (fun x hx => h x (List.mem_cons_of_mem _ hx))]
    simp

theorem mem_unique : ∀ (l : List Nat) (x : Nat), x ∈ unique l ↔ x ∈ l
  | [], x => by simp [unique]
  | [a], x => by simp [unique]
  | a :: b :: rest, x => by
    have ih := mem_unique (b :: rest) x
    by_cases hab : a = b
    · rw [unique, if_pos hab, ih]
      subst hab
      simp
    · rw [unique, if_neg hab, List.mem_cons, ih]
      simp

theorem mem_sort_unique (l : List Nat) (x : Nat) : x ∈ sort_unique l ↔ x ∈ l := by
  unfold sort_unique
  rw [mem_unique, List.mem_insertionSort]

theorem sort_unique_ne_nil (l : List Nat) (h : l ≠ []) : sort_unique l ≠ [] := by
  obtain ⟨x, hx⟩ := List.exists_mem_of_ne_nil l h
  intro hnil
  have := (mem_sort_unique l x).2 hx
  rw [hnil] at this
  simp at this

/-! ## Lemmas on `allocate_slots` -/

set_option maxRecDepth 100000 in
theorem total_available_slots_eq : total_available_slots = 245 := by
  decide

theorem allocate_slots_inv (F : FloatModel D) (groups : List (String × List Nat))
    (hs : KeysSorted groups) :
    SlotsInv (groups.map (fun g => g.1)) (allocate_slots F groups) := by
  unfold allocate_slots
  simp only
  have hkeys : (unique_color_counts groups).map (fun c => c.1) = groups.map (fun g => g.1) := by
    simp [unique_color_counts, Function.comp_def]
  rw [hkeys]
  apply adjust_slots_inv
  refine ⟨?_, initial_allocation_ok F _, ?_⟩
  · unfold KeysSorted initial_allocation
    simp only [List.map_map, Function.comp_def]
    rw [hkeys]
    exact hs
  · simp [initial_allocation, unique_color_counts, Function.comp_def]

theorem allocate_slots_find (F : FloatModel D) (pool : List ColorSample)
    (g : String × List Nat) (hg : g ∈ group_colors pool) :
    ∃ k, map_find (allocate_slots F (group_colors pool)) g.1 = some k ∧ 8 ≤ k ∧ k % 8 = 0 :=
  find_ge_of_inv _ _ g.1 (allocate_slots_inv F _ (group_colors_inv pool).sorted)
    (List.mem_map.2 ⟨g, hg, rfl⟩)

theorem allocate_slots_single (F : FloatModel D) (name : String) (colors : List Nat)
    (hne : colors ≠ []) : allocate_slots F [(name, colors)] = [(name, 240)] := by
  have hpos : 0 < (sort_unique colors).length :=
    List.length_pos.2 (sort_unique_ne_nil colors hne)
  have hscale := F.scale_self (sort_unique colors).length total_available_slots hpos
    (by rw [total_available_slots_eq]; decide)
  rw [total_available_slots_eq] at hscale
  have hinit : initial_slots F (sort_unique colors).length (sort_unique colors).length
      = 248 := by
    unfold initial_slots
    simp only [hpos, gt_iff_lt, if_true, total_available_slots_eq, hscale]
    norm_num
  simp only [allocate_slots, unique_color_counts, initial_allocation, total_unique_colors,
    List.map_cons, List.map_nil, List.sum_cons, List.sum_nil, Nat.add_zero, hinit,
    adjust_slots, slots_sum, total_available_slots_eq]
  norm_num [trim_loop, trim_pass, trim_step, map_find, add_slots, map_set]

/-! ## Lemmas on the assignment loops -/

theorem is_reserved_iff (i : Nat) : is_reserved_palette_index i = true ↔ i ≤ 8 ∨ 254 ≤ i := by
  simp [is_reserved_palette_index]

theorem skip_reserved_eq (fuel i : Nat) (h : 9 ≤ i + fuel) :
    skip_reserved fuel i = if i ≤ 8 then 9 else i := by
  induction fuel generalizing i with
  | zero =>
    have h' : ¬ i ≤ 8 := by omega
    simp [skip_reserved, h']
  | succ fuel ih =>
    simp only [skip_reserved, is_reserved_iff]
    by_cases h8 : i ≤ 8
    · have hc : i ≤ 253 ∧ (i ≤ 8 ∨ 254 ≤ i) := ⟨by omega, Or.inl h8⟩
      have hmod : (i + 1) % 256 = i + 1 := Nat.mod_eq_of_lt (by omega)
      rw [if_pos hc, hmod, ih (i + 1) (by omega), if_pos h8]
      split_ifs with h9
      · rfl
      · omega
    · have hc : ¬ (i ≤ 253 ∧ (i ≤ 8 ∨ 254 ≤ i)) := by omega
      rw [if_neg hc, if_neg h8]

theorem skip_reserved_of_ge (i : Nat) (h : 9 ≤ i) : skip_reserved 256 i = i := by
  rw [skip_reserved_eq 256 i (by omega)]
  have h' : ¬ i ≤ 8 := by omega
  simp [h']

/-! ## Lemmas on `best_center` -/

theorem unpack_color_lt (c : Nat) :
    (unpack_color c).1 < 256 ∧ (unpack_color c).2.1 < 256 ∧ (unpack_color c).2.2 < 256 := by
  unfold unpack_color
  refine ⟨Nat.mod_lt _ (by decide), Nat.mod_lt _ (by decide), Nat.mod_lt _ (by decide)⟩

theorem color_distance_lt_max (F : FloatModel D) (c1 c2 : Nat) :
    color_distance F c1 c2 < F.FLT_MAX := by
  unfold color_distance
  have h1 := unpack_color_lt c1
  have h2 := unpack_color_lt c2
  apply F.weighted_lt_max <;> omega

theorem best_scan_spec (F : FloatModel D) (oc : Nat) (cs : List Nat) (st : D × Nat) :
    (best_scan F oc cs st = st ∧ ∀ c ∈ cs, ¬ color_distance F oc c < st.1) ∨
    (∃ pre c post, cs = pre ++ c :: post ∧
      best_scan F oc cs st = (color_distance F oc c, c) ∧
      color_distance F oc c < st.1 ∧
      (∀ x ∈ pre, color_distance F oc c < color_distance F oc x) ∧
      (∀ x ∈ post, color_distance F oc c ≤ color_distance F oc x)) := by
  induction cs generalizing st with
  | nil =>
    left
    simp [best_scan]
  | cons a rest ih =>
    simp only [best_scan]
    split_ifs with hlt
    · right
      rcases ih (color_distance F oc a, a) with ⟨heq, hall⟩ | ⟨pre, c, post, hcs, heq, hc, hpre, hpost⟩
      · refine ⟨[], a, rest, rfl, heq, hlt, by simp, ?_⟩
        intro x hx
        exact not_lt.1 (hall x hx)
      · refine ⟨a :: pre, c, post, by simp [hcs], heq, lt_trans hc hlt, ?_, hpost⟩
        intro x hx
        rcases List.mem_cons.1 hx with hx | hx
        · rw [hx]
          exact hc
        · exact hpre x hx
    · rcases ih st with ⟨heq, hall⟩ | ⟨pre, c, post, hcs, heq, hc, hpre, hpost⟩
      · left
        refine ⟨heq, ?_⟩
        intro x hx
        rcases List.mem_cons.1 hx with hx | hx
        · rw [hx]
          exact hlt
        · exact hall x hx
      · right
        refine ⟨a :: pre, c, post, by simp [hcs], heq, hc, ?_, hpost⟩
        intro x hx
        rcases List.mem_cons.1 hx with hx | hx
        · rw [hx]
          exact lt_of_lt_of_le hc (not_lt.1 hlt)
        · exact hpre x hx

/-- The value `best_center` of a non-empty list of centres is the first centre that attains
the least distance to the colour. -/
theorem best_center_first_min (F : FloatModel D) (centers : List Nat) (oc : Nat)
    (hne : centers ≠ []) :
    ∃ pre post, centers = pre ++ best_center F centers oc :: post ∧
      (∀ x ∈ pre, color_distance F oc (best_center F centers oc) < color_distance F oc x) ∧
      (∀ x ∈ post, color_distance F oc (best_center F centers oc) ≤ color_distance F oc x) := by
  unfold best_center
  rcases best_scan_spec F oc centers (F.FLT_MAX, 0) with ⟨_, hall⟩ | ⟨pre, c, post, hcs, heq, _, hpre, hpost⟩
  · obtain ⟨x, hx⟩ := List.exists_mem_of_ne_nil centers hne
    exact absurd (color_distance_lt_max F oc x) (hall x hx)
  · rw [heq]
    exact ⟨pre, post, hcs, hpre, hpost⟩

theorem best_center_mem (F : FloatModel D) (centers : List Nat) (oc : Nat)
    (hne : centers ≠ []) : best_center F centers oc ∈ centers := by
  obtain ⟨pre, post, hcs, _, _⟩ := best_center_first_min F centers oc hne
  have hmem : best_center F centers oc ∈ pre ++ best_center F centers oc :: post := by simp
  rw [← hcs] at hmem
  exact hmem

/-! ## Lemmas on `update_remap` -/

theorem update_remap_mem (F : FloatModel D) (centers unique_colors : List Nat)
    (mat_name : String) (center_color cur : Nat) (table : List ((Nat × String) × Nat))
    (e : (Nat × String) × Nat)
    (he : e ∈ update_remap F centers unique_colors mat_name center_color cur table) :
    e ∈ table ∨ (e.2 = cur ∧ e.1.2 = mat_name ∧ e.1.1 ∈ unique_colors ∧
      best_center F centers e.1.1 = center_color) := by
  unfold update_remap at he
  induction unique_colors generalizing table with
  | nil =>
    left
    simpa using he
  | cons oc rest ih =>
    simp only [List.foldl_cons] at he
    rcases ih _ he with h | ⟨h1, h2, h3, h4⟩
    · split_ifs at h with hb
      · rcases mem_map_set _ _ _ _ _ h with h | h
        · right
          rw [h]
          exact ⟨rfl, rfl, List.mem_cons_self _ _, hb⟩
        · exact Or.inl h
      · exact Or.inl h
    · exact Or.inr ⟨h1, h2, List.mem_cons_of_mem _ h3, h4⟩

theorem update_remap_keeps (F : FloatModel D) (centers unique_colors : List Nat)
    (mat_name : String) (center_color cur : Nat) (table : List ((Nat × String) × Nat))
    (key : Nat × String) (h : (map_find table key).isSome = true) :
    (map_find (update_remap F centers unique_colors mat_name center_color cur table)
      key).isSome = true := by
  unfold update_remap
  induction unique_colors generalizing table with
  | nil => simpa using h
  | cons oc rest ih =>
    simp only [List.foldl_cons]
    apply ih
    split_ifs
    · by_cases hk : key = (oc, mat_name)
      · rw [hk, map_find_map_set_self]
        rfl
      · rw [map_find_map_set_ne _ _ _ _ _ hk]
        exact h
    · exact h

theorem update_remap_sets (F : FloatModel D) (centers unique_colors : List Nat)
    (mat_name : String) (center_color cur : Nat) (table : List ((Nat × String) × Nat))
    (oc : Nat) (hoc : oc ∈ unique_colors) (hb : best_center F centers oc = center_color) :
    (map_find (update_remap F centers unique_colors mat_name center_color cur table)
      (oc, mat_name)).isSome = true := by
  induction unique_colors generalizing table with
  | nil => simp at hoc
  | cons a rest ih =>
    rcases List.mem_cons.1 hoc with h | h
    · subst h
      have hstep : update_remap F centers (oc :: rest) mat_name center_color cur table
          = update_remap F centers rest mat_name center_color cur
              (map_set pair_lt table (oc, mat_name) cur) := by
        simp [update_remap, hb]
      rw [hstep]
      apply update_remap_keeps
      rw [map_find_map_set_self]
      rfl
    · have hstep : update_remap F centers (a :: rest) mat_name center_color cur table
          = update_remap F centers rest mat_name center_color cur
              (if best_center F centers a = center_color then
                map_set pair_lt table (a, mat_name) cur else table) := by
        simp [update_remap]
      rw [hstep]
      exact ih _ h

theorem update_remap_sorted (F : FloatModel D) (centers unique_colors : List Nat)
    (mat_name : String) (center_color cur : Nat) (table : List ((Nat × String) × Nat))
    (h : RemapSorted table) :
    RemapSorted (update_remap F centers unique_colors mat_name center_color cur table) := by
  unfold update_remap
  induction unique_colors generalizing table with
  | nil => simpa using h
  | cons oc rest ih =>
    simp only [List.foldl_cons]
    apply ih
    split_ifs
    · exact remap_set_sorted table _ _ h
    · exact h

theorem update_remap_range (F : FloatModel D) (centers unique_colors : List Nat)
    (mat_name : String) (center_color cur : Nat) (table : List ((Nat × String) × Nat))
    (P : Nat → Prop) (hcur : P cur) (h : ∀ e ∈ table, P e.2) :
    ∀ e ∈ update_remap F centers unique_colors mat_name center_color cur table, P e.2 := by
  unfold update_remap
  induction unique_colors generalizing table with
  | nil => simpa using h
  | cons oc rest ih =>
    simp only [List.foldl_cons]
    apply ih
    split_ifs
    · intro e he
      rcases mem_map_set _ _ _ _ _ he with he | he
      · rw [he]
        exact hcur
      · exact h e he
    · exact h

/-! ## Lemmas on `store_center` and `assign_centers` -/

theorem store_center_index {Matl : Type} (F : FloatModel D)
    (profile_it : Option (MaterialProfile Matl)) (mat_name : String)
    (unique_colors centers : List Nat) (st : QuantState Matl) (cur c : Nat) (h : cur ≤ 253) :
    (store_center F profile_it mat_name unique_colors centers st cur c).current_palette_index
      = cur + 1 := by
  simp only [store_center]
  exact Nat.mod_eq_of_lt (by omega)

theorem store_center_palette {Matl : Type} (F : FloatModel D)
    (profile_it : Option (MaterialProfile Matl)) (mat_name : String)
    (unique_colors centers : List Nat) (st : QuantState Matl) (cur c : Nat) :
    (store_center F profile_it mat_name unique_colors centers st cur c).final_palette
      = palette_set st.final_palette cur (center_rgba c) := rfl

theorem store_center_remap {Matl : Type} (F : FloatModel D)
    (profile_it : Option (MaterialProfile Matl)) (mat_name : String)
    (unique_colors centers : List Nat) (st : QuantState Matl) (cur c : Nat) :
    (store_center F profile_it mat_name unique_colors centers st cur c).remap_table
      = update_remap F centers unique_colors mat_name c cur st.remap_table := rfl

theorem store_center_notes {Matl : Type} (F : FloatModel D)
    (profile_it : Option (MaterialProfile Matl)) (mat_name : String)
    (unique_colors centers : List Nat) (st : QuantState Matl) (cur c : Nat) :
    (store_center F profile_it mat_name unique_colors centers st cur c).final_notes
      = (match profile_it with
        | some profile => map_set nat_lt st.final_notes cur profile.td_note
        | none => st.final_notes) := rfl

theorem store_center_materials {Matl : Type} (F : FloatModel D)
    (profile_it : Option (MaterialProfile Matl)) (mat_name : String)
    (unique_colors centers : List Nat) (st : QuantState Matl) (cur c : Nat) :
    (store_center F profile_it mat_name unique_colors centers st cur c).final_materials
      = (match profile_it with
        | some profile => map_set nat_lt st.final_materials cur profile.vox_material
        | none => st.final_materials) := rfl

theorem store_center_inv {Matl : Type} (F : FloatModel D)
    (profile_it : Option (MaterialProfile Matl)) (mat_name : String)
    (unique_colors centers : List Nat) (st : QuantState Matl) (c : Nat) (h : QuantInv st)
    (hcur : st.current_palette_index ≤ 253) :
    QuantInv (store_center F profile_it mat_name unique_colors centers st
      st.current_palette_index c) := by
  have hge := h.index_ge
  refine ⟨?_, ?_, ?_, ?_, ?_, ?_⟩
  · rw [store_center_index _ _ _ _ _ _ _ _ hcur]
    omega
  · rw [store_center_remap]
    exact update_remap_sorted F _ _ _ _ _ _ h.remap_sorted
  · rw [store_center_remap]
    exact update_remap_range F _ _ _ _ _ _ (fun i => 9 ≤ i ∧ i ≤ 253)
      ⟨hge, hcur⟩ h.remap_range
  · rw [store_center_notes]
    cases profile_it with
    | none => exact h.notes_range
    | some p =>
      intro e he
      rcases mem_map_set _ _ _ _ _ he with he | he
      · rw [he]
        exact ⟨hge, hcur⟩
      · exact h.notes_range e he
  · rw [store_center_materials]
    cases profile_it with
    | none => exact h.materials_range
    | some p =>
      intro e he
      rcases mem_map_set _ _ _ _ _ he with he | he
      · rw [he]
        exact ⟨hge, hcur⟩
      · exact h.materials_range e he
  · intro i hi
    have hne : i ≠ st.current_palette_index := by omega
    rw [store_center_palette]
    simp only [palette_set, hne, if_false]
    exact h.reserved_zero i hi

theorem assign_centers_inv {Matl : Type} (F : FloatModel D)
    (profile_it : Option (MaterialProfile Matl)) (mat_name : String)
    (unique_colors centers rest : List Nat) (st : QuantState Matl) (h : QuantInv st) :
    QuantInv (assign_centers F profile_it mat_name unique_colors centers rest st) := by
  induction rest generalizing st with
  | nil => simpa [assign_centers] using h
  | cons c rest ih =>
    simp only [assign_centers]
    rw [skip_reserved_of_ge _ h.index_ge]
    split_ifs with hcur
    · exact ⟨h.index_ge, h.remap_sorted, h.remap_range, h.notes_range, h.materials_range,
        h.reserved_zero⟩
    · exact ih _ (store_center_inv F _ _ _ _ st c h (by omega))

theorem assign_centers_spec {Matl : Type} (F : FloatModel D)
    (profiles : List (String × MaterialProfile Matl)) (mat_name : String)
    (unique_colors centers rest : List Nat) (st : QuantState Matl)
    (h9 : 9 ≤ st.current_palette_index) (h254 : st.current_palette_index ≤ 254) :
    AssignSpec profiles st (rest.map (fun c => (mat_name, c)))
      (assign_centers F (map_find profiles mat_name) mat_name unique_colors centers rest st) := by
  induction rest generalizing st with
  | nil =>
    simp only [assign_centers, List.map_nil]
    refine ⟨by simp; omega, ?_, fun _ _ => rfl, ?_, fun _ _ => ⟨rfl, rfl⟩⟩
    · intro j m c hj
      simp at hj
    · intro j m c p hj
      simp at hj
  | cons c rs ih =>
    simp only [assign_centers]
    rw [skip_reserved_of_ge _ h9]
    split_ifs with hcur
    · have hidx : st.current_palette_index = 254 := by omega
      refine ⟨by simp; omega, ?_, fun _ _ => rfl, ?_, fun _ _ => ⟨rfl, rfl⟩⟩
      · intro j m c' _ hle
        omega
      · intro j m c' p _ _ hle
        omega
    · have hle : st.current_palette_index ≤ 253 := by omega
      have e1 := store_center_index F (map_find profiles mat_name) mat_name unique_colors
        centers st st.current_palette_index c hle
      have e2 := store_center_palette F (map_find profiles mat_name) mat_name unique_colors
        centers st st.current_palette_index c
      have e3 := store_center_notes F (map_find profiles mat_name) mat_name unique_colors
        centers st st.current_palette_index c
      have e4 := store_center_materials F (map_find profiles mat_name) mat_name unique_colors
        centers st st.current_palette_index c
      have hrec := ih (store_center F (map_find profiles mat_name) mat_name unique_colors
        centers st st.current_palette_index c) (by rw [e1]; omega) (by rw [e1]; omega)
      generalize store_center F (map_find profiles mat_name) mat_name unique_colors
        centers st st.current_palette_index c = st1 at e1 e2 e3 e4 hrec ⊢
      generalize assign_centers F (map_find profiles mat_name) mat_name unique_colors centers
        rs st1 = st2 at hrec ⊢
      have hidx := hrec.index_eq
      have hpa := hrec.palette_at
      have hpe := hrec.palette_else
      have hna := hrec.notes_at
      have hne := hrec.notes_else
      rw [e1] at hidx hpa hpe hna hne
      rw [e2] at hpe
      rw [e3, e4] at hne
      simp only [List.length_map] at hidx hpe hne
      refine ⟨?_, ?_, ?_, ?_, ?_⟩
      · rw [hidx]
        simp only [List.length_map, List.length_cons]
        congr 1
        omega
      · intro j m c' hj hle'
        cases j with
        | zero =>
          simp only [List.map_cons, List.getElem?_cons_zero, Option.some.injEq,
            Prod.mk.injEq] at hj
          rw [Nat.add_zero, hpe _ (Or.inl (by omega))]
          simp [palette_set, hj.2]
        | succ j =>
          simp only [List.map_cons, List.getElem?_cons_succ] at hj
          have := hpa j m c' hj (by omega)
          rw [← this]
          congr 1
          omega
      · intro i hi
        simp only [List.length_map, List.length_cons] at hi
        rw [hpe i (by omega)]
        have hne' : i ≠ st.current_palette_index := by omega
        simp [palette_set, hne']
      · intro j m c' p hj hp hle'
        cases j with
        | zero =>
          simp only [List.map_cons, List.getElem?_cons_zero, Option.some.injEq,
            Prod.mk.injEq] at hj
          have helse := hne st.current_palette_index (Or.inl (by omega))
          rw [hj.1, hp] at helse
          simp only [map_find_map_set_self] at helse
          rw [Nat.add_zero]
          exact helse
        | succ j =>
          simp only [List.map_cons, List.getElem?_cons_succ] at hj
          have := hna j m c' p hj hp (by omega)
          have e : st.current_palette_index + 1 + j = st.current_palette_index + (j + 1) := by
            omega
          rw [e] at this
          exact this
      · intro i hi
        simp only [List.length_map, List.length_cons] at hi
        have helse := hne i (by omega)
        have hne' : i ≠ st.current_palette_index := by omega
        cases hp : map_find profiles mat_name with
        | none =>
          rw [hp] at helse
          exact helse
        | some p =>
          rw [hp] at helse
          simp only [map_find_map_set_ne _ _ _ _ _ hne'] at helse
          exact helse

/-! ## The positional specification of the loops -/

theorem assign_spec_append {Matl : Type} (profiles : List (String × MaterialProfile Matl))
    (st st1 st2 : QuantState Matl) (v1 v2 : List (String × Nat))
    (h1 : AssignSpec profiles st v1 st1) (h2 : AssignSpec profiles st1 v2 st2) :
    AssignSpec profiles st (v1 ++ v2) st2 := by
  have hidx1 := h1.index_eq
  have hidx2 := h2.index_eq
  have hpa := h2.palette_at
  have hpe := h2.palette_else
  have hna := h2.notes_at
  have hne := h2.notes_else
  refine ⟨?_, ?_, ?_, ?_, ?_⟩
  · rw [hidx2, hidx1, List.length_append]
    omega
  · intro j m c hj hle
    by_cases hjl : j < v1.length
    · rw [List.getElem?_append_left hjl] at hj
      rw [hpe _ (Or.inl (by omega))]
      exact h1.palette_at j m c hj hle
    · rw [List.getElem?_append_right (by omega)] at hj
      have := hpa (j - v1.length) m c hj (by omega)
      rw [← this]
      congr 1
      omega
  · intro i hi
    rw [List.length_append] at hi
    rw [hpe i (by omega)]
    exact h1.palette_else i (by omega)
  · intro j m c p hj hp hle
    by_cases hjl : j < v1.length
    · rw [List.getElem?_append_left hjl] at hj
      have e := hne (st.current_palette_index + j) (Or.inl (by omega))
      rw [e.1, e.2]
      exact h1.notes_at j m c p hj hp hle
    · rw [List.getElem?_append_right (by omega)] at hj
      have := hna (j - v1.length) m c p hj hp (by omega)
      have e : st1.current_palette_index + (j - v1.length) = st.current_palette_index + j := by
        omega
      rw [e] at this
      exact this
  · intro i hi
    rw [List.length_append] at hi
    have e := hne i (by omega)
    rw [e.1, e.2]
    exact h1.notes_else i (by omega)

theorem assign_spec_index_bounds {Matl : Type}
    (profiles : List (String × MaterialProfile Matl)) (st st1 : QuantState Matl)
    (v : List (String × Nat)) (h : AssignSpec profiles st v st1)
    (h9 : 9 ≤ st.current_palette_index) :
    9 ≤ st1.current_palette_index ∧ st1.current_palette_index ≤ 254 := by
  have := h.index_eq
  omega

theorem quantize_material_eq {Matl : Type} (F : FloatModel D)
    (profiles : List (String × MaterialProfile Matl)) (slots : List (String × Int))
    (st : QuantState Matl) (g : String × List Nat)
    (hk : (map_find slots g.1).getD 0 ≠ 0) (hg : g.2 ≠ []) :
    quantize_material F profiles slots st g
      = assign_centers F (map_find profiles g.1) g.1 (sort_unique g.2)
          (material_centers F slots g.1 g.2) (material_centers F slots g.1 g.2) st := by
  unfold quantize_material
  simp only
  rw [if_neg (by simp [hk, hg])]

theorem quantize_fold_spec {Matl : Type} (F : FloatModel D)
    (profiles : List (String × MaterialProfile Matl)) (slots : List (String × Int))
    (gs : List (String × List Nat)) (st : QuantState Matl)
    (hgs : ∀ g ∈ gs, (map_find slots g.1).getD 0 ≠ 0 ∧ g.2 ≠ [])
    (h9 : 9 ≤ st.current_palette_index) (h254 : st.current_palette_index ≤ 254) :
    AssignSpec profiles st
      (visit_order (gs.map (fun g => (g.1, material_centers F slots g.1 g.2))))
      (gs.foldl (quantize_material F profiles slots) st) := by
  induction gs generalizing st with
  | nil =>
    simp only [List.map_nil, visit_order, List.foldl_nil]
    refine ⟨by simp; omega, ?_, fun _ _ => rfl, ?_, fun _ _ => ⟨rfl, rfl⟩⟩
    · intro j m c hj
      simp at hj
    · intro j m c p hj
      simp at hj
  | cons g rest ih =>
    simp only [List.map_cons, visit_order, List.foldl_cons]
    have hg := hgs g (List.mem_cons_self _ _)
    rw [quantize_material_eq F profiles slots st g hg.1 hg.2]
    have h1 := assign_centers_spec F profiles g.1 (sort_unique g.2)
      (material_centers F slots g.1 g.2) (material_centers F slots g.1 g.2) st h9 h254
    have hb := assign_spec_index_bounds profiles st _ _ h1 h9
    exact assign_spec_append profiles st _ _ _ _ h1
      (ih _ (fun x hx => hgs x (List.mem_cons_of_mem _ hx)) hb.1 hb.2)

theorem pool_groups_ok (F : FloatModel D) (pool : List ColorSample) :
    ∀ g ∈ group_colors pool,
      (map_find (allocate_slots F (group_colors pool)) g.1).getD 0 ≠ 0 ∧ g.2 ≠ [] := by
  intro g hg
  obtain ⟨k, hk, hk8, _⟩ := allocate_slots_find F pool g hg
  refine ⟨?_, (group_colors_inv pool).nonempty g hg⟩
  rw [hk]
  simp only [Option.getD_some]
  omega

/-! ## Lemmas on the entries of the remap table -/

theorem store_center_entries {Matl : Type} (F : FloatModel D)
    (profiles : List (String × MaterialProfile Matl)) (slots : List (String × Int))
    (groups : List (String × List Nat)) (g : String × List Nat) (hg : g ∈ groups)
    (st : QuantState Matl) (c : Nat) (hc : c ∈ material_centers F slots g.1 g.2)
    (h9 : 9 ≤ st.current_palette_index) (hcur : st.current_palette_index ≤ 253)
    (h : EntryInv F profiles slots groups st) :
    EntryInv F profiles slots groups
      (store_center F (map_find profiles g.1) g.1 (sort_unique g.2)
        (material_centers F slots g.1 g.2) st st.current_palette_index c) := by
  intro e he
  rw [store_center_index _ _ _ _ _ _ _ _ hcur, store_center_palette, store_center_notes,
    store_center_materials]
  rw [store_center_remap] at he
  rcases update_remap_mem F _ _ _ _ _ _ e he with hold | ⟨h1, h2, h3, h4⟩
  · obtain ⟨hge, hlt, g', hg', hname, hcol, hpal, hmem, hprof⟩ := h e hold
    have hne : e.2 ≠ st.current_palette_index := by omega
    refine ⟨hge, by omega, g', hg', hname, hcol, ?_, hmem, ?_⟩
    · simp only [palette_set, hne, if_false]
      exact hpal
    · intro p hp
      cases hpi : map_find profiles g.1 with
      | none => exact hprof p hp
      | some q =>
        simp only [map_find_map_set_ne _ _ _ _ _ hne]
        exact hprof p hp
  · refine ⟨by omega, by omega, g, hg, h2.symm, h3, ?_, ?_, ?_⟩
    · rw [h4, h1]
      simp [palette_set]
    · rw [h4]
      exact hc
    · intro p hp
      rw [hp, h1]
      simp only [map_find_map_set_self]
      exact ⟨trivial, trivial⟩

theorem assign_centers_entries {Matl : Type} (F : FloatModel D)
    (profiles : List (String × MaterialProfile Matl)) (slots : List (String × Int))
    (groups : List (String × List Nat)) (g : String × List Nat) (hg : g ∈ groups)
    (rest : List Nat) (hrest : ∀ c ∈ rest, c ∈ material_centers F slots g.1 g.2)
    (st : QuantState Matl) (h9 : 9 ≤ st.current_palette_index)
    (h : EntryInv F profiles slots groups st) :
    EntryInv F profiles slots groups
      (assign_centers F (map_find profiles g.1) g.1 (sort_unique g.2)
        (material_centers F slots g.1 g.2) rest st) := by
  induction rest generalizing st with
  | nil => simpa [assign_centers] using h
  | cons c rs ih =>
    simp only [assign_centers]
    rw [skip_reserved_of_ge _ h9]
    split_ifs with hcur
    · exact h
    · have hle : st.current_palette_index ≤ 253 := by omega
      apply ih (fun x hx => hrest x (List.mem_cons_of_mem _ hx))
      · rw [store_center_index _ _ _ _ _ _ _ _ hle]
        omega
      · exact store_center_entries F profiles slots groups g hg st c
          (hrest c (List.mem_cons_self _ _)) h9 hle h

theorem quantize_fold_entries {Matl : Type} (F : FloatModel D)
    (profiles : List (String × MaterialProfile Matl)) (slots : List (String × Int))
    (groups gs : List (String × List Nat)) (hsub : ∀ g ∈ gs, g ∈ groups)
    (hgs : ∀ g ∈ gs, (map_find slots g.1).getD 0 ≠ 0 ∧ g.2 ≠ [])
    (st : QuantState Matl) (h9 : 9 ≤ st.current_palette_index)
    (h254 : st.current_palette_index ≤ 254) (h : EntryInv F profiles slots groups st) :
    EntryInv F profiles slots groups (gs.foldl (quantize_material F profiles slots) st) := by
  induction gs generalizing st with
  | nil => simpa using h
  | cons g rest ih =>
    simp only [List.foldl_cons]
    have hg := hgs g (List.mem_cons_self _ _)
    rw [quantize_material_eq F profiles slots st g hg.1 hg.2]
    have h1 := assign_centers_spec F profiles g.1 (sort_unique g.2)
      (material_centers F slots g.1 g.2) (material_centers F slots g.1 g.2) st h9 h254
    have hb := assign_spec_index_bounds profiles st _ _ h1 h9
    exact ih (fun x hx => hsub x (List.mem_cons_of_mem _ hx))
      (fun x hx => hgs x (List.mem_cons_of_mem _ hx)) _ hb.1 hb.2
      (assign_centers_entries F profiles slots groups g (hsub g (List.mem_cons_self _ _))
        _ (fun c hc => hc) st h9 h)

/-- The run of `process_and_quantize` as a whole: the centres of the pool in their visiting
order are stored from index 9 on. -/
theorem process_and_quantize_spec {Matl : Type} (F : FloatModel D) (pm : PaletteManager Matl)
    (profiles : List (String × MaterialProfile Matl))
    (mtl_materials : List (String × MtlMaterial)) :
    AssignSpec profiles
      { current_palette_index := 9
        final_palette := pm.final_palette
        final_notes := pm.final_notes
        final_materials := pm.final_materials
        remap_table := pm.remap_table }
      (visit_order (pool_centers F (effective_pool F pm.sample_pool profiles mtl_materials)))
      { current_palette_index :=
          min (9 + (visit_order (pool_centers F
            (effective_pool F pm.sample_pool profiles mtl_materials))).length) 254
        final_palette := (pm.process_and_quantize F profiles mtl_materials).final_palette
        final_notes := (pm.process_and_quantize F profiles mtl_materials).final_notes
        final_materials := (pm.process_and_quantize F profiles mtl_materials).final_materials
        remap_table := (pm.process_and_quantize F profiles mtl_materials).remap_table } := by
  have h := quantize_fold_spec F profiles
    (allocate_slots F (group_colors (effective_pool F pm.sample_pool profiles mtl_materials)))
    (group_colors (effective_pool F pm.sample_pool profiles mtl_materials))
    { current_palette_index := 9
      final_palette := pm.final_palette
      final_notes := pm.final_notes
      final_materials := pm.final_materials
      remap_table := pm.remap_table }
    (pool_groups_ok F _) (le_refl 9) (by simp)
  exact ⟨rfl, h.palette_at, h.palette_else, h.notes_at, h.notes_else⟩

theorem process_and_quantize_entries {Matl : Type} (F : FloatModel D)
    (pm : PaletteManager Matl) (profiles : List (String × MaterialProfile Matl))
    (mtl_materials : List (String × MtlMaterial)) (hempty : pm.remap_table = []) :
    EntryInv F profiles
      (allocate_slots F (group_colors (effective_pool F pm.sample_pool profiles mtl_materials)))
      (group_colors (effective_pool F pm.sample_pool profiles mtl_materials))
      { current_palette_index :=
          min (9 + (visit_order (pool_centers F
            (effective_pool F pm.sample_pool profiles mtl_materials))).length) 254
        final_palette := (pm.process_and_quantize F profiles mtl_materials).final_palette
        final_notes := (pm.process_and_quantize F profiles mtl_materials).final_notes
        final_materials := (pm.process_and_quantize F profiles mtl_materials).final_materials
        remap_table := (pm.process_and_quantize F profiles mtl_materials).remap_table } := by
  have h := quantize_fold_entries F profiles
    (allocate_slots F (group_colors (effective_pool F pm.sample_pool profiles mtl_materials)))
    (group_colors (effective_pool F pm.sample_pool profiles mtl_materials))
    (group_colors (effective_pool F pm.sample_pool profiles mtl_materials))
    (fun g hg => hg) (pool_groups_ok F _)
    { current_palette_index := 9
      final_palette := pm.final_palette
      final_notes := pm.final_notes
      final_materials := pm.final_materials
      remap_table := pm.remap_table }
    (le_refl 9) (by simp) (by
      intro e he
      simp only [hempty] at he
      simp at he)
  have hidx := (process_and_quantize_spec F pm profiles mtl_materials).index_eq
  intro e he
  obtain ⟨hge, hlt, rest⟩ := h e he
  refine ⟨hge, ?_, rest⟩
  have hq := (quantize_fold_spec F profiles
    (allocate_slots F (group_colors (effective_pool F pm.sample_pool profiles mtl_materials)))
    (group_colors (effective_pool F pm.sample_pool profiles mtl_materials))
    { current_palette_index := 9
      final_palette := pm.final_palette
      final_notes := pm.final_notes
      final_materials := pm.final_materials
      remap_table := pm.remap_table }
    (pool_groups_ok F _) (le_refl 9) (by simp)).index_eq
  rw [hq] at hlt
  exact hlt

/-- Every entry that `process_and_quantize` makes, from an empty remap table, belongs to a
colour of a material of the pool and points to the palette entry of one of the first 245
centres, which holds the channels of the `best_center` of that colour. -/
theorem process_and_quantize_entry_source {Matl : Type} (F : FloatModel D)
    (pm : PaletteManager Matl) (profiles : List (String × MaterialProfile Matl))
    (mtl_materials : List (String × MtlMaterial)) (hempty : pm.remap_table = []) :
    ∀ e ∈ (pm.process_and_quantize F profiles mtl_materials).remap_table,
      ∃ g ∈ group_colors (effective_pool F pm.sample_pool profiles mtl_materials),
        g.1 = e.1.2 ∧ e.1.1 ∈ sort_unique g.2 ∧
        ∃ p ∈ (visit_order (pool_centers F
            (effective_pool F pm.sample_pool profiles mtl_materials))).take 245,
          center_rgba p.2 = center_rgba (best_center F (material_centers F
            (allocate_slots F (group_colors
              (effective_pool F pm.sample_pool profiles mtl_materials))) g.1 g.2) e.1.1) := by
  intro e he
  have hspec := process_and_quantize_spec F pm profiles mtl_materials
  obtain ⟨hge, hlt, g, hg, hname, hcol, hpal, _, _⟩ :=
    process_and_quantize_entries F pm profiles mtl_materials hempty e he
  simp only at hlt hpal
  refine ⟨g, hg, hname, hcol, ?_⟩
  have hj : e.2 - 9 < (visit_order (pool_centers F
      (effective_pool F pm.sample_pool profiles mtl_materials))).length := by omega
  have hget : (visit_order (pool_centers F
      (effective_pool F pm.sample_pool profiles mtl_materials)))[e.2 - 9]?
      = some ((visit_order (pool_centers F
        (effective_pool F pm.sample_pool profiles mtl_materials)))[e.2 - 9]) :=
    List.getElem?_eq_getElem hj
  have hat := hspec.palette_at (e.2 - 9) _ _ hget (by simp only; omega)
  have hidx : 9 + (e.2 - 9) = e.2 := by omega
  simp only [hidx] at hat
  refine ⟨_, ?_, hat.symm.trans hpal⟩
  have htake : ((visit_order (pool_centers F
      (effective_pool F pm.sample_pool profiles mtl_materials))).take 245)[e.2 - 9]?
      = some ((visit_order (pool_centers F
        (effective_pool F pm.sample_pool profiles mtl_materials)))[e.2 - 9]) := by
    rw [List.getElem?_take_of_lt (by omega)]
    exact hget
  exact List.getElem?_mem htake

theorem collect_all_fields {Matl : Type} (pm : PaletteManager Matl) (pool : List ColorSample) :
    (pm.collect_all pool).sample_pool = pm.sample_pool ++ pool ∧
    (pm.collect_all pool).remap_table = pm.remap_table := by
  unfold PaletteManager.collect_all
  induction pool generalizing pm with
  | nil => simp
  | cons s rest ih =>
    simp only [List.foldl_cons]
    have := ih (pm.collect_sample s.color_rgb s.material_name)
    rw [this.1, this.2]
    simp [PaletteManager.collect_sample]

theorem get_final_index_of_none {Matl : Type} (pm : PaletteManager Matl) (c : Nat)
    (m : String) (h : map_find pm.remap_table (c, m) = none) :
    pm.get_final_index c m = first_with_color pm.remap_table c := by
  simp only [PaletteManager.get_final_index, h]

/-- No entry for a colour `c` is made when the palette entries of the first 245 centres all
differ from the entry `rgba` of the best centre of `c` in every material that has `c`. -/
theorem no_entry_of_color {Matl : Type} (F : FloatModel D)
    (pm : PaletteManager Matl) (profiles : List (String × MaterialProfile Matl))
    (mtl_materials : List (String × MtlMaterial)) (hempty : pm.remap_table = [])
    (c : Nat) (rgba : ogt_vox_rgba)
    (hbest : ∀ g ∈ group_colors (effective_pool F pm.sample_pool profiles mtl_materials),
      c ∈ sort_unique g.2 →
      center_rgba (best_center F (material_centers F
        (allocate_slots F (group_colors
          (effective_pool F pm.sample_pool profiles mtl_materials))) g.1 g.2) c) = rgba)
    (hfirst : ∀ p ∈ (visit_order (pool_centers F
        (effective_pool F pm.sample_pool profiles mtl_materials))).take 245,
      center_rgba p.2 ≠ rgba) (m : String) :
    map_find (pm.process_and_quantize F profiles mtl_materials).remap_table (c, m) = none ∧
    (pm.process_and_quantize F profiles mtl_materials).get_final_index c m = 0 := by
  have hnone : ∀ e ∈ (pm.process_and_quantize F profiles mtl_materials).remap_table,
      e.1.1 ≠ c := by
    intro e he hc
    obtain ⟨g, hg, _, hcol, p, hp, hrgba⟩ :=
      process_and_quantize_entry_source F pm profiles mtl_materials hempty e he
    rw [hc] at hcol hrgba
    rw [hbest g hg hcol] at hrgba
    exact hfirst p hp hrgba
  have hfind : map_find (pm.process_and_quantize F profiles mtl_materials).remap_table (c, m)
      = none := by
    rw [map_find_eq_none]
    intro e he heq
    exact hnone e he (by rw [heq])
  exact ⟨hfind, (get_final_index_of_none _ c m hfind).trans (first_with_color_none _ _ hnone)⟩

/-! ## Lemmas on the presence of remap entries -/

theorem kmeans_ne_nil (F : FloatModel D) (colors : List Nat) (k max_iter : Nat)
    (hc : colors ≠ []) (hk : 1 ≤ k) : kmeans F colors k max_iter ≠ [] := by
  unfold kmeans
  split_ifs with h
  · exact hc
  · intro hnil
    have := kmeans_iterate_length F colors max_iter (initial_centers colors k)
    rw [hnil, initial_centers_length] at this
    simp at this
    omega

theorem material_centers_ne_nil (F : FloatModel D) (pool : List ColorSample)
    (g : String × List Nat) (hg : g ∈ group_colors pool) :
    material_centers F (allocate_slots F (group_colors pool)) g.1 g.2 ≠ [] := by
  obtain ⟨k, hk, hk8, _⟩ := allocate_slots_find F pool g hg
  unfold material_centers
  rw [hk]
  apply kmeans_ne_nil
  · exact sort_unique_ne_nil _ ((group_colors_inv pool).nonempty g hg)
  · simp only [Option.getD_some]
    omega

theorem assign_centers_keeps {Matl : Type} (F : FloatModel D)
    (profile_it : Option (MaterialProfile Matl)) (mat_name : String)
    (unique_colors centers rest : List Nat) (st : QuantState Matl) (key : Nat × String)
    (h : (map_find st.remap_table key).isSome = true) :
    (map_find (assign_centers F profile_it mat_name unique_colors centers rest st).remap_table
      key).isSome = true := by
  induction rest generalizing st with
  | nil => simpa [assign_centers] using h
  | cons c rs ih =>
    simp only [assign_centers]
    split_ifs with hcur
    · exact h
    · apply ih
      rw [store_center_remap]
      exact update_remap_keeps F _ _ _ _ _ _ key h

theorem quantize_fold_keeps {Matl : Type} (F : FloatModel D)
    (profiles : List (String × MaterialProfile Matl)) (slots : List (String × Int))
    (gs : List (String × List Nat)) (st : QuantState Matl) (key : Nat × String)
    (h : (map_find st.remap_table key).isSome = true) :
    (map_find (gs.foldl (quantize_material F profiles slots) st).remap_table
      key).isSome = true := by
  induction gs generalizing st with
  | nil => simpa using h
  | cons g rest ih =>
    simp only [List.foldl_cons]
    apply ih
    unfold quantize_material
    simp only
    split_ifs
    · exact h
    · exact assign_centers_keeps F _ _ _ _ _ st key h

theorem assign_centers_sets {Matl : Type} (F : FloatModel D)
    (profile_it : Option (MaterialProfile Matl)) (mat_name : String)
    (unique_colors centers rest : List Nat) (st : QuantState Matl)
    (h9 : 9 ≤ st.current_palette_index) (oc : Nat) (hoc : oc ∈ unique_colors) (t : Nat)
    (hb : rest[t]? = some (best_center F centers oc))
    (hroom : st.current_palette_index + t ≤ 253) :
    (map_find (assign_centers F profile_it mat_name unique_colors centers rest st).remap_table
      (oc, mat_name)).isSome = true := by
  induction rest generalizing st t with
  | nil => simp at hb
  | cons c rs ih =>
    simp only [assign_centers]
    rw [skip_reserved_of_ge _ h9]
    have hle : st.current_palette_index ≤ 253 := by omega
    rw [if_neg (by omega)]
    by_cases hbc : best_center F centers oc = c
    · apply assign_centers_keeps
      rw [store_center_remap]
      exact update_remap_sets F _ _ _ _ _ _ oc hoc hbc
    · cases t with
      | zero =>
        simp only [List.getElem?_cons_zero, Option.some.injEq] at hb
        exact absurd hb.symm hbc
      | succ t =>
        simp only [List.getElem?_cons_succ] at hb
        apply ih _ _ t hb
        · rw [store_center_index _ _ _ _ _ _ _ _ hle]
          omega
        · rw [store_center_index _ _ _ _ _ _ _ _ hle]
          omega

theorem visit_order_length_cons (g : String × List Nat) (rest : List (String × List Nat)) :
    (visit_order (g :: rest)).length = g.2.length + (visit_order rest).length := by
  simp [visit_order]

theorem visit_order_names (l : List (String × List Nat)) (p : String × Nat)
    (h : p ∈ visit_order l) : p.1 ∈ l.map (fun g => g.1) := by
  induction l with
  | nil => simp [visit_order] at h
  | cons g rest ih =>
    simp only [visit_order, List.mem_append, List.mem_map] at h
    rcases h with ⟨c, _, hc⟩ | h
    · rw [← hc]
      simp
    · exact List.mem_cons_of_mem _ (ih h)

theorem visit_order_mem (l : List (String × List Nat)) (m : String) (cs : List Nat) (b : Nat)
    (hg : (m, cs) ∈ l) (hb : b ∈ cs) : (m, b) ∈ visit_order l := by
  induction l with
  | nil => simp at hg
  | cons g rest ih =>
    simp only [visit_order, List.mem_append, List.mem_map]
    rcases List.mem_cons.1 hg with hg | hg
    · left
      rw [← hg]
      exact ⟨b, hb, rfl⟩
    · exact Or.inr (ih hg)

/-- A colour gets its remap entry as soon as its best centre is visited at a position that
still has a palette index. -/
theorem quantize_fold_sets {Matl : Type} (F : FloatModel D)
    (profiles : List (String × MaterialProfile Matl)) (slots : List (String × Int))
    (gs : List (String × List Nat)) (st : QuantState Matl)
    (hgs : ∀ g ∈ gs, (map_find slots g.1).getD 0 ≠ 0 ∧ g.2 ≠ [])
    (hnd : (gs.map (fun g => g.1)).Nodup)
    (h9 : 9 ≤ st.current_palette_index) (h254 : st.current_palette_index ≤ 254) :
    ∀ j m b,
      (visit_order (gs.map (fun g => (g.1, material_centers F slots g.1 g.2))))[j]?
        = some (m, b) →
      st.current_palette_index + j ≤ 253 →
      ∀ g ∈ gs, g.1 = m → ∀ oc ∈ sort_unique g.2,
        best_center F (material_centers F slots g.1 g.2) oc = b →
        (map_find (gs.foldl (quantize_material F profiles slots) st).remap_table
          (oc, m)).isSome = true := by
  induction gs generalizing st with
  | nil =>
    intro j m b hj
    simp [visit_order] at hj
  | cons g0 rest ih =>
    intro j m b hj hroom g hg hname oc hoc hbest
    simp only [List.map_cons, List.nodup_cons] at hnd
    have hg0 := hgs g0 (List.mem_cons_self _ _)
    have h1 := assign_centers_spec F profiles g0.1 (sort_unique g0.2)
      (material_centers F slots g0.1 g0.2) (material_centers F slots g0.1 g0.2) st h9 h254
    have hidx := h1.index_eq
    simp only [List.length_map] at hidx
    simp only [List.foldl_cons]
    rw [quantize_material_eq F profiles slots st g0 hg0.1 hg0.2]
    simp only [List.map_cons, visit_order] at hj
    by_cases hjl : j < (material_centers F slots g0.1 g0.2).length
    · rw [List.getElem?_append_left (by simpa using hjl)] at hj
      simp only [List.getElem?_map, Option.map_eq_some'] at hj
      obtain ⟨c, hc, hpair⟩ := hj
      simp only [Prod.mk.injEq] at hpair
      have hgeq : g = g0 := by
        rcases List.mem_cons.1 hg with hg | hg
        · exact hg
        · exfalso
          apply hnd.1
          rw [hpair.1, ← hname]
          exact List.mem_map.2 ⟨g, hg, rfl⟩
      subst hgeq
      apply quantize_fold_keeps
      rw [← hname]
      apply assign_centers_sets F _ _ _ _ _ st h9 oc hoc j _ hroom
      rw [hbest, ← hpair.2]
      exact hc
    · rw [List.getElem?_append_right (by simpa using hjl)] at hj
      simp only [List.length_map] at hj
      have hgin : g ∈ rest := by
        rcases List.mem_cons.1 hg with hg | hg
        · exfalso
          apply hnd.1
          have hmem := visit_order_names _ _ (List.getElem?_mem hj)
          simp only [List.map_map, Function.comp_def] at hmem
          rw [← hg, hname]
          exact hmem
        · exact hg
      exact ih _ (fun x hx => hgs x (List.mem_cons_of_mem _ hx)) hnd.2
        (by rw [hidx]; omega) (by rw [hidx]; omega) _ m b hj (by rw [hidx]; omega)
        g hgin hname oc hoc hbest

theorem keys_nodup_of_sorted {ν : Type} (m : List (String × ν)) (h : KeysSorted m) :
    (m.map (fun e => e.1)).Nodup :=
  List.Pairwise.imp (fun hab => ne_of_lt hab) h

/-! ## The invariant of the manager -/

theorem quantize_material_inv {Matl : Type} (F : FloatModel D)
    (profiles : List (String × MaterialProfile Matl)) (slots : List (String × Int))
    (st : QuantState Matl) (group : String × List Nat) (h : QuantInv st) :
    QuantInv (quantize_material F profiles slots st group) := by
  unfold quantize_material
  simp only
  split_ifs
  · exact h
  · exact assign_centers_inv F _ _ _ _ _ st h

theorem quantize_fold_inv {Matl : Type} (F : FloatModel D)
    (profiles : List (String × MaterialProfile Matl)) (slots : List (String × Int))
    (groups : List (String × List Nat)) (st : QuantState Matl) (h : QuantInv st) :
    QuantInv (groups.foldl (quantize_material F profiles slots) st) := by
  induction groups generalizing st with
  | nil => simpa using h
  | cons g gs ih =>
    simp only [List.foldl_cons]
    exact ih _ (quantize_material_inv F profiles slots st g h)

theorem process_and_quantize_inv {Matl : Type} (F : FloatModel D) (pm : PaletteManager Matl)
    (profiles : List (String × MaterialProfile Matl))
    (mtl_materials : List (String × MtlMaterial)) (h : ManagerInv pm) :
    ManagerInv (pm.process_and_quantize F profiles mtl_materials) := by
  have hq := quantize_fold_inv F profiles
    (allocate_slots F (group_colors (effective_pool F pm.sample_pool profiles mtl_materials)))
    (group_colors (effective_pool F pm.sample_pool profiles mtl_materials))
    { current_palette_index := 9
      final_palette := pm.final_palette
      final_notes := pm.final_notes
      final_materials := pm.final_materials
      remap_table := pm.remap_table }
    ⟨le_refl 9, h.remap_sorted, h.remap_range, h.notes_range, h.materials_range,
      h.reserved_zero⟩
  exact ⟨hq.remap_sorted, hq.remap_range, hq.notes_range, hq.materials_range,
    hq.reserved_zero⟩

theorem reachable_inv (F : FloatModel D) {Matl : Type} (pm : PaletteManager Matl)
    (h : Reachable F pm) : ManagerInv pm := by
  induction h with
  | new =>
    refine ⟨?_, ?_, ?_, ?_, ?_⟩ <;> simp [PaletteManager.new, RemapSorted]
  | collect_sample pm c m _ ih =>
    exact ⟨ih.remap_sorted, ih.remap_range, ih.notes_range, ih.materials_range,
      ih.reserved_zero⟩
  | process_and_quantize pm profiles mtl _ ih =>
    exact process_and_quantize_inv F pm profiles mtl ih

/-! ## Theorems on `kmeans` -/

/-- C4: for every colour list and every `k ≥ 1`, `kmeans` returns the input unchanged when its
length is at most `k`, and otherwise a list of exactly `k` centres, for every `max_iter`. -/
theorem kmeans_unchanged_or_k_centers (F : FloatModel D) (colors : List Nat) (k max_iter : Nat)
    (_hk : 1 ≤ k) :
    (colors.length ≤ k → kmeans F colors k max_iter = colors) ∧
    (k < colors.length → (kmeans F colors k max_iter).length = k) := by
  constructor
  · intro h
    simp [kmeans, h]
  · intro h
    have h' : ¬ colors.length ≤ k := by omega
    simp only [kmeans, h', if_false]
    rw [kmeans_iterate_length, initial_centers_length]

/-- Witness of C4: five colours and `k = 2` give two centres, two colours and `k = 8` come back
unchanged. -/
theorem kmeans_unchanged_or_k_centers_witness :
    (kmeans exactFloat [7, 9] 8 10 = [7, 9]) ∧
    (kmeans exactFloat [0, 2, 65537, 65792, 66048] 2 10).length = 2 :=
  ⟨(kmeans_unchanged_or_k_centers exactFloat [7, 9] 8 10 (by decide)).1 (by decide),
   (kmeans_unchanged_or_k_centers exactFloat [0, 2, 65537, 65792, 66048] 2 10 (by decide)).2
     (by decide)⟩

/-- C5 refuted: five pairwise distinct colours, `k = 2`, default `max_iter = 10`; the second
cluster's truncated mean falls on the first centre and `kmeans` returns the centre 0 twice. -/
theorem kmeans_duplicate_centers :
    [0, 2, 65537, 65792, 66048].Nodup ∧ 2 < [0, 2, 65537, 65792, 66048].length ∧
    kmeans exactFloat [0, 2, 65537, 65792, 66048] 2 10 = [0, 0] ∧
    ¬ (kmeans exactFloat [0, 2, 65537, 65792, 66048] 2 10).Nodup := by
  decide

/-- C5 amended: for pairwise distinct colours, more than `k` of them (`k ≥ 1`), the `k` centres
that `kmeans` starts from, which it returns when `max_iter = 0`, are pairwise distinct. -/
theorem kmeans_initial_centers_distinct (F : FloatModel D) (colors : List Nat) (k : Nat)
    (hk : 1 ≤ k) (hlen : k < colors.length) (hnd : colors.Nodup) :
    (kmeans F colors k 0).Nodup ∧ (kmeans F colors k 0).length = k := by
  have h' : ¬ colors.length ≤ k := by omega
  simp only [kmeans, h', if_false, kmeans_iterate]
  exact ⟨initial_centers_nodup colors k hk (by omega) hnd, initial_centers_length colors k⟩

/-- Witness of C5 amended: the colours of the refutation, with `max_iter = 0`. -/
theorem kmeans_initial_centers_distinct_witness :
    (kmeans exactFloat [0, 2, 65537, 65792, 66048] 2 0).Nodup ∧
    (kmeans exactFloat [0, 2, 65537, 65792, 66048] 2 0).length = 2 :=
  kmeans_initial_centers_distinct exactFloat [0, 2, 65537, 65792, 66048] 2 (by decide)
    (by decide) (by decide)

/-! ## Theorems on the slot allocation -/

set_option maxRecDepth 100000 in
/-- C1 refuted: the pool of the single red sample of material `"mat0"`; the material is first
given 248 slots, the over-allocation branch takes 8 back, and the sum of the slot counts is
240, not 245. -/
theorem single_material_gets_240_not_245 :
    allocate_slots exactFloat (group_colors [⟨16711680, "mat0"⟩]) = [("mat0", 240)] ∧
    slots_sum (allocate_slots exactFloat (group_colors [⟨16711680, "mat0"⟩])) ≠ 245 := by
  decide

/-- C1 amended: for every non-empty sample pool, after the adjustment the per-material slot
counts sum to a multiple of 8, hence never to 245; a pool with a single material gives that
material 240 slots. -/
theorem slot_sum_multiple_of_8 (F : FloatModel D) (pool : List ColorSample)
    (hne : pool ≠ []) :
    slots_sum (allocate_slots F (group_colors pool)) % 8 = 0 ∧
    slots_sum (allocate_slots F (group_colors pool)) ≠ 245 ∧
    (∀ name, (∀ s ∈ pool, s.material_name = name) →
      allocate_slots F (group_colors pool) = [(name, 240)]) := by
  have hinv := allocate_slots_inv F (group_colors pool) (group_colors_inv pool).sorted
  have hmod := (slots_sum_mod _ hinv.ok).1
  refine ⟨hmod, by omega, ?_⟩
  intro name hall
  rw [group_colors_single name pool hne hall]
  apply allocate_slots_single
  simpa using hne

set_option maxRecDepth 100000 in
/-- Witness of C1 amended: the pool of three samples of the material `"mat0"`. -/
theorem slot_sum_multiple_of_8_witness :
    slots_sum (allocate_slots exactFloat
      (group_colors [⟨16711680, "mat0"⟩, ⟨255, "mat0"⟩, ⟨255, "mat0"⟩])) % 8 = 0 ∧
    allocate_slots exactFloat
      (group_colors [⟨16711680, "mat0"⟩, ⟨255, "mat0"⟩, ⟨255, "mat0"⟩]) = [("mat0", 240)] :=
  ⟨(slot_sum_multiple_of_8 exactFloat [⟨16711680, "mat0"⟩, ⟨255, "mat0"⟩, ⟨255, "mat0"⟩]
      (by decide)).1,
   (slot_sum_multiple_of_8 exactFloat [⟨16711680, "mat0"⟩, ⟨255, "mat0"⟩, ⟨255, "mat0"⟩]
      (by decide)).2.2 "mat0" (by decide)⟩

/-! ## Theorems on `PaletteManager` -/

/-- C6: after `process_and_quantize`, on a manager reached from the constructor with any pool,
every value of the remap table and every key of the tag map and of the material-parameter map
lies in `9 .. 253`, and the palette entries at `0 .. 8` and `254 .. 255` are all zero. -/
theorem reserved_indices_never_assigned {Matl : Type} (F : FloatModel D)
    (pm : PaletteManager Matl) (profiles : List (String × MaterialProfile Matl))
    (mtl_materials : List (String × MtlMaterial)) (h : Reachable F pm) :
    (∀ e ∈ (pm.process_and_quantize F profiles mtl_materials).remap_table,
      9 ≤ e.2 ∧ e.2 ≤ 253) ∧
    (∀ e ∈ (pm.process_and_quantize F profiles mtl_materials).final_notes,
      9 ≤ e.1 ∧ e.1 ≤ 253) ∧
    (∀ e ∈ (pm.process_and_quantize F profiles mtl_materials).final_materials,
      9 ≤ e.1 ∧ e.1 ≤ 253) ∧
    (∀ i, i ≤ 8 ∨ (254 ≤ i ∧ i ≤ 255) →
      (pm.process_and_quantize F profiles mtl_materials).final_palette i = ⟨0, 0, 0, 0⟩) := by
  have hinv := process_and_quantize_inv F pm profiles mtl_materials (reachable_inv F pm h)
  refine ⟨hinv.remap_range, hinv.notes_range, hinv.materials_range, ?_⟩
  intro i hi
  exact hinv.reserved_zero i (by omega)

/-- Witness of C6: a manager with the two samples `(1, "a")` and `(2, "b")` and the profiles
of `"a"` and `"b"`. -/
theorem reserved_indices_never_assigned_witness :
    Reachable exactFloat
      (((PaletteManager.new Nat).collect_sample 1 "a").collect_sample 2 "b") ∧
    (∀ e ∈ ((((PaletteManager.new Nat).collect_sample 1 "a").collect_sample 2 "b"
        ).process_and_quantize exactFloat
          [("a", ⟨"$TD_wood", 1⟩), ("b", ⟨"$TD_metal", 2⟩)] []).remap_table,
      9 ≤ e.2 ∧ e.2 ≤ 253) :=
  ⟨Reachable.collect_sample _ _ _ (Reachable.collect_sample _ _ _ Reachable.new),
   (reserved_indices_never_assigned exactFloat
      (((PaletteManager.new Nat).collect_sample 1 "a").collect_sample 2 "b")
      [("a", ⟨"$TD_wood", 1⟩), ("b", ⟨"$TD_metal", 2⟩)] []
      (Reachable.collect_sample _ _ _ (Reachable.collect_sample _ _ _ Reachable.new))).1⟩

/-- C8: on a manager reached from the constructor, `get_final_index (c, m)` returns the
remap-table value of `(c, m)` when that pair is present; otherwise the value of some entry of
colour `c` if there is one; and it returns 0 exactly when no entry has colour `c`. -/
theorem get_final_index_lookup {Matl : Type} (F : FloatModel D) (pm : PaletteManager Matl)
    (h : Reachable F pm) (c : Nat) (m : String) :
    (∀ i, ((c, m), i) ∈ pm.remap_table → pm.get_final_index c m = i) ∧
    ((∀ i, ((c, m), i) ∉ pm.remap_table) → (∃ e ∈ pm.remap_table, e.1.1 = c) →
      ∃ e ∈ pm.remap_table, e.1.1 = c ∧ pm.get_final_index c m = e.2) ∧
    (pm.get_final_index c m = 0 ↔ ∀ e ∈ pm.remap_table, e.1.1 ≠ c) := by
  have hinv := reachable_inv F pm h
  refine ⟨?_, ?_, ?_⟩
  · intro i hi
    simp [PaletteManager.get_final_index, remap_find_of_mem _ hinv.remap_sorted _ _ hi]
  · intro habsent hex
    have hnone : map_find pm.remap_table (c, m) = none := by
      cases hf : map_find pm.remap_table (c, m) with
      | none => rfl
      | some i => exact absurd (map_find_mem _ _ _ hf) (habsent i)
    simp only [PaletteManager.get_final_index, hnone]
    exact first_with_color_mem _ _ hex
  · constructor
    · intro h0 e he hc
      cases hf : map_find pm.remap_table (c, m) with
      | some i =>
        simp only [PaletteManager.get_final_index, hf] at h0
        have := (hinv.remap_range _ (map_find_mem _ _ _ hf)).1
        simp only at this
        omega
      | none =>
        simp only [PaletteManager.get_final_index, hf] at h0
        obtain ⟨e', he', _, hv⟩ := first_with_color_mem pm.remap_table c ⟨e, he, hc⟩
        have := (hinv.remap_range _ he').1
        omega
    · intro hall
      have hnone : map_find pm.remap_table (c, m) = none := by
        rw [map_find_eq_none]
        intro e he heq
        exact hall e he (by rw [heq])
      simp only [PaletteManager.get_final_index, hnone]
      exact first_with_color_none _ _ hall

set_option maxRecDepth 100000 in
/-- Witness of C8: after quantising the pool `(1, "a")`, `(2, "b")`, the lookup of `(2, "b")`
is exact, the lookup of `(2, "a")` falls back on the colour, the lookup of colour 3 gives 0. -/
theorem get_final_index_lookup_witness :
    Reachable exactFloat ((((PaletteManager.new Nat).collect_sample 1 "a").collect_sample 2 "b"
      ).process_and_quantize exactFloat [] []) ∧
    ((((PaletteManager.new Nat).collect_sample 1 "a").collect_sample 2 "b"
      ).process_and_quantize exactFloat [] []).get_final_index 2 "b" = 10 ∧
    ((((PaletteManager.new Nat).collect_sample 1 "a").collect_sample 2 "b"
      ).process_and_quantize exactFloat [] []).get_final_index 2 "a" = 10 ∧
    ((((PaletteManager.new Nat).collect_sample 1 "a").collect_sample 2 "b"
      ).process_and_quantize exactFloat [] []).get_final_index 3 "a" = 0 :=
  ⟨Reachable.process_and_quantize _ _ _
      (Reachable.collect_sample _ _ _ (Reachable.collect_sample _ _ _ Reachable.new)),
   (get_final_index_lookup exactFloat _
      (Reachable.process_and_quantize _ [] []
        (Reachable.collect_sample _ _ _ (Reachable.collect_sample _ _ _ Reachable.new)))
      2 "b").1 10 (by decide),
   by decide, by decide⟩

/-- C7: `process_and_quantize` visits the materials in ascending order of their names, every
material of the pool among them, and stores the `j`-th centre overall at the palette index
`9 + j` with alpha 255 for every `j < 245`; nothing else changes, so that the centres with
`j ≥ 245` leave the palette, the tag map and the material-parameter map as they were. -/
theorem centers_stored_from_index_9 {Matl : Type} (F : FloatModel D)
    (pm : PaletteManager Matl) (profiles : List (String × MaterialProfile Matl))
    (mtl_materials : List (String × MtlMaterial)) :
    ((pool_centers F (pm.process_and_quantize F profiles mtl_materials).sample_pool).map
      (fun g => g.1)).Pairwise (fun a b => a < b) ∧
    (∀ s ∈ (pm.process_and_quantize F profiles mtl_materials).sample_pool,
      s.material_name ∈
        (pool_centers F (pm.process_and_quantize F profiles mtl_materials).sample_pool).map
          (fun g => g.1)) ∧
    (∀ j m c,
      (visit_order (pool_centers F
        (pm.process_and_quantize F profiles mtl_materials).sample_pool))[j]? = some (m, c) →
      j < 245 →
      (pm.process_and_quantize F profiles mtl_materials).final_palette (9 + j)
        = ⟨(unpack_color c).1, (unpack_color c).2.1, (unpack_color c).2.2, 255⟩) ∧
    (∀ i, i < 9 ∨ 9 + min (visit_order (pool_centers F
        (pm.process_and_quantize F profiles mtl_materials).sample_pool)).length 245 ≤ i →
      (pm.process_and_quantize F profiles mtl_materials).final_palette i = pm.final_palette i ∧
      map_find (pm.process_and_quantize F profiles mtl_materials).final_notes i
        = map_find pm.final_notes i ∧
      map_find (pm.process_and_quantize F profiles mtl_materials).final_materials i
        = map_find pm.final_materials i) := by
  have hspec := process_and_quantize_spec F pm profiles mtl_materials
  have hg := group_colors_inv (effective_pool F pm.sample_pool profiles mtl_materials)
  have hpool : (pm.process_and_quantize F profiles mtl_materials).sample_pool
      = effective_pool F pm.sample_pool profiles mtl_materials := rfl
  rw [hpool]
  have hkeys : (pool_centers F (effective_pool F pm.sample_pool profiles mtl_materials)).map
      (fun g => g.1)
      = (group_colors (effective_pool F pm.sample_pool profiles mtl_materials)).map
          (fun g => g.1) := by
    simp [pool_centers, Function.comp_def]
  refine ⟨?_, ?_, ?_, ?_⟩
  · rw [hkeys]
    exact hg.sorted
  · intro s hs
    rw [hkeys]
    obtain ⟨cs, hcs, _⟩ := hg.complete s hs
    exact List.mem_map.2 ⟨(s.material_name, cs), map_find_mem _ _ _ hcs, rfl⟩
  · intro j m c hj hlt
    exact hspec.palette_at j m c hj (by simp only; omega)
  · intro i hi
    have hcond : i < 9 ∨ 9 + (visit_order (pool_centers F
        (effective_pool F pm.sample_pool profiles mtl_materials))).length ≤ i ∨ 254 ≤ i := by
      omega
    exact ⟨hspec.palette_else i hcond, hspec.notes_else i hcond⟩

/-- C9: for a material `m` with a profile, the tag map and the material-parameter map hold
the tag and the parameters of that profile at every palette index `9 + j` given to a centre of
`m`, and so at the index of every remap entry `(c, m) -> i` that `process_and_quantize` makes
(the remap table being empty before the call). -/
theorem tag_and_material_follow_profile {Matl : Type} (F : FloatModel D)
    (pm : PaletteManager Matl) (profiles : List (String × MaterialProfile Matl))
    (mtl_materials : List (String × MtlMaterial)) (hempty : pm.remap_table = []) :
    (∀ j m c p,
      (visit_order (pool_centers F
        (pm.process_and_quantize F profiles mtl_materials).sample_pool))[j]? = some (m, c) →
      j < 245 → map_find profiles m = some p →
      map_find (pm.process_and_quantize F profiles mtl_materials).final_notes (9 + j)
        = some p.td_note ∧
      map_find (pm.process_and_quantize F profiles mtl_materials).final_materials (9 + j)
        = some p.vox_material) ∧
    (∀ c m i p, ((c, m), i) ∈ (pm.process_and_quantize F profiles mtl_materials).remap_table →
      map_find profiles m = some p →
      map_find (pm.process_and_quantize F profiles mtl_materials).final_notes i
        = some p.td_note ∧
      map_find (pm.process_and_quantize F profiles mtl_materials).final_materials i
        = some p.vox_material) := by
  have hspec := process_and_quantize_spec F pm profiles mtl_materials
  have hent := process_and_quantize_entries F pm profiles mtl_materials hempty
  constructor
  · intro j m c p hj hlt hp
    exact hspec.notes_at j m c p hj hp (by simp only; omega)
  · intro c m i p he hp
    obtain ⟨_, _, g, _, hname, _, _, _, hprof⟩ := hent ((c, m), i) he
    simp only at hname
    rw [← hname] at hp
    exact hprof p hp

set_option maxRecDepth 100000 in
/-- Witness of C9: the pool `(1, "a")`, `(2, "b")` with the profiles of `"a"` and `"b"`; the
entry of `(2, "b")` is at index 10, where the tag of `"b"` is stored. -/
theorem tag_and_material_follow_profile_witness :
    map_find ((((PaletteManager.new Nat).collect_sample 1 "a").collect_sample 2 "b"
      ).process_and_quantize exactFloat
        [("a", ⟨"$TD_wood", 1⟩), ("b", ⟨"$TD_metal", 2⟩)] []).final_notes 10
      = some "$TD_metal" ∧
    map_find ((((PaletteManager.new Nat).collect_sample 1 "a").collect_sample 2 "b"
      ).process_and_quantize exactFloat
        [("a", ⟨"$TD_wood", 1⟩), ("b", ⟨"$TD_metal", 2⟩)] []).final_materials 10
      = some 2 :=
  (tag_and_material_follow_profile exactFloat
    (((PaletteManager.new Nat).collect_sample 1 "a").collect_sample 2 "b")
    [("a", ⟨"$TD_wood", 1⟩), ("b", ⟨"$TD_metal", 2⟩)] [] rfl).2 2 "b" 10 ⟨"$TD_metal", 2⟩
    (by decide) rfl

/-- C3: for every remap entry `(c, m) -> i` that `process_and_quantize` makes (the remap table
being empty before the call), the palette at `i` holds, with alpha 255, the channels of a
centre of `m`, namely `best_center`: the first centre of `m`, in the order of the k-means
output, whose distance to `c` is least among all the centres of `m`; the centres before it
are strictly farther from `c`. -/
theorem remap_entry_is_nearest_center {Matl : Type} (F : FloatModel D)
    (pm : PaletteManager Matl) (profiles : List (String × MaterialProfile Matl))
    (mtl_materials : List (String × MtlMaterial)) (hempty : pm.remap_table = []) :
    ∀ c m i, ((c, m), i) ∈ (pm.process_and_quantize F profiles mtl_materials).remap_table →
      ∃ centers best pre post,
        (m, centers) ∈
          pool_centers F (pm.process_and_quantize F profiles mtl_materials).sample_pool ∧
        centers = pre ++ best :: post ∧
        (∀ x ∈ pre, color_distance F c best < color_distance F c x) ∧
        (∀ x ∈ post, color_distance F c best ≤ color_distance F c x) ∧
        (pm.process_and_quantize F profiles mtl_materials).final_palette i
          = ⟨(unpack_color best).1, (unpack_color best).2.1, (unpack_color best).2.2, 255⟩ ∧
        9 ≤ i ∧ i ≤ 253 := by
  intro c m i he
  have hent := process_and_quantize_entries F pm profiles mtl_materials hempty
  obtain ⟨hge, hlt, g, hg, hname, _, hpal, hmem, _⟩ := hent ((c, m), i) he
  simp only at hname hpal hmem hlt hge
  have hne : material_centers F (allocate_slots F (group_colors
      (effective_pool F pm.sample_pool profiles mtl_materials))) g.1 g.2 ≠ [] :=
    List.ne_nil_of_mem hmem
  obtain ⟨pre, post, hcs, hpre, hpost⟩ := best_center_first_min F _ c hne
  refine ⟨_, _, pre, post, ?_, hcs, hpre, hpost, hpal, hge, by omega⟩
  rw [← hname]
  exact List.mem_map.2 ⟨g, hg, rfl⟩

set_option maxRecDepth 100000 in
/-- Witness of C3: the entry `(2, "b") -> 10` of the pool `(1, "a")`, `(2, "b")`. -/
theorem remap_entry_is_nearest_center_witness :
    ∃ centers best pre post,
      ("b", centers) ∈ pool_centers exactFloat
        ((((PaletteManager.new Nat).collect_sample 1 "a").collect_sample 2 "b"
          ).process_and_quantize exactFloat [] []).sample_pool ∧
      centers = pre ++ best :: post ∧
      (∀ x ∈ pre, color_distance exactFloat 2 best < color_distance exactFloat 2 x) ∧
      (∀ x ∈ post, color_distance exactFloat 2 best ≤ color_distance exactFloat 2 x) ∧
      ((((PaletteManager.new Nat).collect_sample 1 "a").collect_sample 2 "b"
        ).process_and_quantize exactFloat [] []).final_palette 10
        = ⟨(unpack_color best).1, (unpack_color best).2.1, (unpack_color best).2.2, 255⟩ ∧
      9 ≤ 10 ∧ 10 ≤ 253 :=
  remap_entry_is_nearest_center exactFloat
    (((PaletteManager.new Nat).collect_sample 1 "a").collect_sample 2 "b") [] [] rfl
    2 "b" 10 (by decide)

set_option maxRecDepth 1000000 in
set_option maxHeartbeats 4000000 in
/-- In `crowded_pool` the colour 245 belongs to one material only, and its `best_center` there
is the centre 245 itself. -/
theorem crowded_best_of_245 :
    ∀ g ∈ group_colors crowded_pool, 245 ∈ sort_unique g.2 →
      center_rgba (best_center exactFloat (material_centers exactFloat
        (allocate_slots exactFloat (group_colors crowded_pool)) g.1 g.2) 245)
        = ⟨0, 0, 245, 255⟩ := by
  decide

set_option maxRecDepth 1000000 in
set_option maxHeartbeats 4000000 in
/-- None of the first 245 centres of `crowded_pool` has the channels of the colour 245. -/
theorem crowded_first_245_centers :
    ∀ p ∈ (visit_order (pool_centers exactFloat crowded_pool)).take 245,
      center_rgba p.2 ≠ ⟨0, 0, 245, 255⟩ := by
  decide

/-- C2 refuted: the pool of 31 materials with 8 colours each gives 248 centres for 245
indices; the sample `(245, "m30")` was collected, yet after `process_and_quantize` the remap
table has no entry for it and `get_final_index` returns 0. -/
theorem exhausted_indices_drop_entry :
    (⟨245, "m30"⟩ : ColorSample) ∈ ((PaletteManager.new Unit).collect_all
      crowded_pool).sample_pool ∧
    map_find (((PaletteManager.new Unit).collect_all crowded_pool).process_and_quantize
      exactFloat [] []).remap_table (245, "m30") = none ∧
    (((PaletteManager.new Unit).collect_all crowded_pool).process_and_quantize
      exactFloat [] []).get_final_index 245 "m30" = 0 := by
  have hfields := collect_all_fields (PaletteManager.new Unit) crowded_pool
  have hpool : ((PaletteManager.new Unit).collect_all crowded_pool).sample_pool
      = crowded_pool := by
    rw [hfields.1]
    rfl
  have heff : effective_pool exactFloat
      ((PaletteManager.new Unit).collect_all crowded_pool).sample_pool
      ([] : List (String × MaterialProfile Unit)) [] = crowded_pool := by
    rw [hpool]
    rfl
  refine ⟨?_, no_entry_of_color exactFloat _ [] [] hfields.2 245 ⟨0, 0, 245, 255⟩ ?_ ?_ "m30"⟩
  · rw [hpool]
    decide
  · rw [heff]
    exact crowded_best_of_245
  · rw [heff]
    exact crowded_first_245_centers

/-- C2 amended: after `process_and_quantize`, on a manager reached from the constructor, the
remap table has an entry for every collected pair whose best centre is among the first 245
centres, those that receive a palette index; `get_final_index` returns that entry, which lies
in `9 .. 253`. This holds for every collected pair when the centres of all materials number
at most 245. -/
theorem remap_complete_when_indices_suffice {Matl : Type} (F : FloatModel D)
    (pm : PaletteManager Matl) (profiles : List (String × MaterialProfile Matl))
    (mtl_materials : List (String × MtlMaterial)) (hreach : Reachable F pm) :
    (∀ s ∈ pm.sample_pool, ∀ centers j,
      (s.material_name, centers) ∈
        pool_centers F (pm.process_and_quantize F profiles mtl_materials).sample_pool →
      (visit_order (pool_centers F
        (pm.process_and_quantize F profiles mtl_materials).sample_pool))[j]?
        = some (s.material_name, best_center F centers s.color_rgb) →
      j < 245 →
      ∃ i, map_find (pm.process_and_quantize F profiles mtl_materials).remap_table
          (s.color_rgb, s.material_name) = some i ∧
        (pm.process_and_quantize F profiles mtl_materials).get_final_index
          s.color_rgb s.material_name = i ∧
        9 ≤ i ∧ i ≤ 253) ∧
    ((visit_order (pool_centers F
        (pm.process_and_quantize F profiles mtl_materials).sample_pool)).length ≤ 245 →
      ∀ s ∈ pm.sample_pool,
        ∃ i, map_find (pm.process_and_quantize F profiles mtl_materials).remap_table
            (s.color_rgb, s.material_name) = some i ∧
          (pm.process_and_quantize F profiles mtl_materials).get_final_index
            s.color_rgb s.material_name = i ∧
          9 ≤ i ∧ i ≤ 253) := by
  have hfirst : ∀ s ∈ pm.sample_pool, ∀ centers j,
      (s.material_name, centers) ∈
        pool_centers F (pm.process_and_quantize F profiles mtl_materials).sample_pool →
      (visit_order (pool_centers F
        (pm.process_and_quantize F profiles mtl_materials).sample_pool))[j]?
        = some (s.material_name, best_center F centers s.color_rgb) →
      j < 245 →
      ∃ i, map_find (pm.process_and_quantize F profiles mtl_materials).remap_table
          (s.color_rgb, s.material_name) = some i ∧
        (pm.process_and_quantize F profiles mtl_materials).get_final_index
          s.color_rgb s.material_name = i ∧
        9 ≤ i ∧ i ≤ 253 := by
    intro s hs centers j hcenters hj hlt
    have hne : pm.sample_pool ≠ [] := List.ne_nil_of_mem hs
    have hpool : effective_pool F pm.sample_pool profiles mtl_materials = pm.sample_pool := by
      simp [effective_pool, hne]
    have hpool2 : (pm.process_and_quantize F profiles mtl_materials).sample_pool
        = pm.sample_pool := hpool
    rw [hpool2] at hcenters hj
    have hg := group_colors_inv pm.sample_pool
    obtain ⟨cs, hcs, hmem⟩ := hg.complete s hs
    obtain ⟨g, hgin, hgeq⟩ := List.mem_map.1 hcenters
    simp only [Prod.mk.injEq] at hgeq
    have hsome := quantize_fold_sets F profiles
      (allocate_slots F (group_colors pm.sample_pool)) (group_colors pm.sample_pool)
      { current_palette_index := 9
        final_palette := pm.final_palette
        final_notes := pm.final_notes
        final_materials := pm.final_materials
        remap_table := pm.remap_table }
      (pool_groups_ok F pm.sample_pool) (keys_nodup_of_sorted _ hg.sorted)
      (le_refl 9) (by simp) j s.material_name (best_center F centers s.color_rgb) hj
      (by simp only; omega) g hgin hgeq.1 s.color_rgb
      (by
        have hsame := map_find_of_mem_keys_sorted _ hg.sorted g.1 g.2 hgin
        rw [hgeq.1, hcs] at hsame
        simp only [Option.some.injEq] at hsame
        rw [← hsame]
        exact (mem_sort_unique cs s.color_rgb).2 hmem)
      (by rw [hgeq.2])
    have htable : (pm.process_and_quantize F profiles mtl_materials).remap_table
        = ((group_colors pm.sample_pool).foldl
            (quantize_material F profiles (allocate_slots F (group_colors pm.sample_pool)))
            { current_palette_index := 9
              final_palette := pm.final_palette
              final_notes := pm.final_notes
              final_materials := pm.final_materials
              remap_table := pm.remap_table }).remap_table := by
      simp only [PaletteManager.process_and_quantize, hpool]
    rw [← htable] at hsome
    cases hf : map_find (pm.process_and_quantize F profiles mtl_materials).remap_table
        (s.color_rgb, s.material_name) with
    | none =>
      rw [hf] at hsome
      simp at hsome
    | some i =>
      have hinv := process_and_quantize_inv F pm profiles mtl_materials
        (reachable_inv F pm hreach)
      have hr := hinv.remap_range _ (map_find_mem _ _ _ hf)
      exact ⟨i, rfl, by simp [PaletteManager.get_final_index, hf], hr.1, hr.2⟩
  refine ⟨hfirst, ?_⟩
  intro hroom s hs
  have hne : pm.sample_pool ≠ [] := List.ne_nil_of_mem hs
  have hpool : effective_pool F pm.sample_pool profiles mtl_materials = pm.sample_pool := by
    simp [effective_pool, hne]
  have hpool2 : (pm.process_and_quantize F profiles mtl_materials).sample_pool
      = pm.sample_pool := hpool
  have hg := group_colors_inv pm.sample_pool
  obtain ⟨cs, hcs, _⟩ := hg.complete s hs
  have hgin : (s.material_name, cs) ∈ group_colors pm.sample_pool := map_find_mem _ _ _ hcs
  have hcenters : (s.material_name, material_centers F
      (allocate_slots F (group_colors pm.sample_pool)) s.material_name cs)
      ∈ pool_centers F pm.sample_pool :=
    List.mem_map.2 ⟨(s.material_name, cs), hgin, rfl⟩
  have hbest := best_center_mem F _ s.color_rgb
    (material_centers_ne_nil F pm.sample_pool (s.material_name, cs) hgin)
  obtain ⟨j, hjlt, hj⟩ := List.mem_iff_getElem.1
    (visit_order_mem _ _ _ _ hcenters hbest)
  rw [hpool2] at hroom
  exact hfirst s hs _ j (by rw [hpool2]; exact hcenters)
    (by rw [hpool2, List.getElem?_eq_getElem hjlt, hj]) (by omega)

set_option maxRecDepth 100000 in
/-- Witness of C2 amended: the pool `(1, "a")`, `(2, "b")` has two centres, and the sample
`(2, "b")` has its entry. -/
theorem remap_complete_when_indices_suffice_witness :
    ∃ i, map_find ((((PaletteManager.new Nat).collect_sample 1 "a").collect_sample 2 "b"
        ).process_and_quantize exactFloat [] []).remap_table
        ((⟨2, "b"⟩ : ColorSample).color_rgb, (⟨2, "b"⟩ : ColorSample).material_name) = some i ∧
      ((((PaletteManager.new Nat).collect_sample 1 "a").collect_sample 2 "b"
        ).process_and_quantize exactFloat [] []).get_final_index
        (⟨2, "b"⟩ : ColorSample).color_rgb (⟨2, "b"⟩ : ColorSample).material_name = i ∧
      9 ≤ i ∧ i ≤ 253 :=
  (remap_complete_when_indices_suffice exactFloat
    (((PaletteManager.new Nat).collect_sample 1 "a").collect_sample 2 "b") [] []
    (Reachable.collect_sample _ _ _ (Reachable.collect_sample _ _ _ Reachable.new))).2
    (by decide) ⟨2, "b"⟩ (by decide)

set_option maxRecDepth 100000 in
/-- C10, the code at the failing input: the materials `"a"` (tag `$TD_wood`) and `"b"` (tag
`$TD_metal`) have one colour each; the centre of `"b"` is the second centre overall and is
stored at index 10, with the tag of `"b"` in the tag map; index 10 belongs to group 1
(indices 9 .. 16), for which the note written, at place `31 - 1` of `notes_storage`, is
`$TD_wood`, the tag of `"a"`. -/
theorem note_group_mixes_materials :
    (visit_order (pool_centers exactFloat
      ((((PaletteManager.new Nat).collect_sample 1 "a").collect_sample 2 "b"
        ).process_and_quantize exactFloat
          [("a", ⟨"$TD_wood", 1⟩), ("b", ⟨"$TD_metal", 2⟩)] []).sample_pool))[1]?
      = some ("b", 2) ∧
    map_find ((((PaletteManager.new Nat).collect_sample 1 "a").collect_sample 2 "b"
      ).process_and_quantize exactFloat
        [("a", ⟨"$TD_wood", 1⟩), ("b", ⟨"$TD_metal", 2⟩)] []).final_notes 10
      = some "$TD_metal" ∧
    1 * 8 + 1 ≤ 10 ∧ 10 ≤ 1 * 8 + 8 ∧
    note_for_group ((((PaletteManager.new Nat).collect_sample 1 "a").collect_sample 2 "b"
      ).process_and_quantize exactFloat
        [("a", ⟨"$TD_wood", 1⟩), ("b", ⟨"$TD_metal", 2⟩)] []).final_notes 1
      = "$TD_wood" ∧
    (notes_storage ((((PaletteManager.new Nat).collect_sample 1 "a").collect_sample 2 "b"
      ).process_and_quantize exactFloat
        [("a", ⟨"$TD_wood", 1⟩), ("b", ⟨"$TD_metal", 2⟩)] []).final_notes)[31 - 1]?
      = some "$TD_wood" := by
  decide

/-! ## Lemmas on the note groups -/

theorem note_scan_range (notes : List (Nat × String)) (group : Nat) (n a : Nat) :
    (∃ i, a ≤ i ∧ i < a + n ∧ is_reserved_palette_index (group * 8 + i) = false ∧
        map_find notes (group * 8 + i) = some (note_scan notes group (List.range' a n)) ∧
        note_scan notes group (List.range' a n) ≠ "" ∧
        ∀ j, a ≤ j → j < i → is_reserved_palette_index (group * 8 + j) = false →
          map_find notes (group * 8 + j) = none ∨ map_find notes (group * 8 + j) = some "") ∨
    (note_scan notes group (List.range' a n) = "" ∧
        ∀ j, a ≤ j → j < a + n → is_reserved_palette_index (group * 8 + j) = false →
          map_find notes (group * 8 + j) = none ∨ map_find notes (group * 8 + j) = some "") := by
  induction n generalizing a with
  | zero =>
    right
    refine ⟨by simp [note_scan], ?_⟩
    intro j h1 h2
    omega
  | succ n ih =>
    have hskip : (∀ j, a ≤ j → j < a + 1 → is_reserved_palette_index (group * 8 + j) = false →
          map_find notes (group * 8 + j) = none ∨ map_find notes (group * 8 + j) = some "") →
        note_scan notes group (List.range' a (n + 1)) =
          note_scan notes group (List.range' (a + 1) n) →
        ((∃ i, a ≤ i ∧ i < a + (n + 1) ∧ is_reserved_palette_index (group * 8 + i) = false ∧
          map_find notes (group * 8 + i) = some (note_scan notes group (List.range' a (n + 1))) ∧
          note_scan notes group (List.range' a (n + 1)) ≠ "" ∧
          ∀ j, a ≤ j → j < i → is_reserved_palette_index (group * 8 + j) = false →
            map_find notes (group * 8 + j) = none ∨
              map_find notes (group * 8 + j) = some "") ∨
        (note_scan notes group (List.range' a (n + 1)) = "" ∧
          ∀ j, a ≤ j → j < a + (n + 1) → is_reserved_palette_index (group * 8 + j) = false →
            map_find notes (group * 8 + j) = none ∨
              map_find notes (group * 8 + j) = some "")) := by
      intro hfirst heq
      rw [heq]
      rcases ih (a + 1) with ⟨i, h1, h2, h3, h4, h5, h6⟩ | ⟨h1, h2⟩
      · left
        refine ⟨i, by omega, by omega, h3, h4, h5, ?_⟩
        intro j hj1 hj2 hj3
        by_cases hja : j = a
        · exact hfirst j hj1 (by omega) hj3
        · exact h6 j (by omega) hj2 hj3
      · right
        refine ⟨h1, ?_⟩
        intro j hj1 hj2 hj3
        by_cases hja : j = a
        · exact hfirst j hj1 (by omega) hj3
        · exact h2 j (by omega) (by omega) hj3
    have hcons : List.range' a (n + 1) = a :: List.range' (a + 1) n := by
      simp [List.range'_succ]
    by_cases hbig : group * 8 + a > 255
    · apply hskip
      · intro j hj1 hj2 hj3
        have hja : j = a := by omega
        subst hja
        have : is_reserved_palette_index (group * 8 + j) = true := by
          rw [is_reserved_iff]
          omega
        rw [this] at hj3
        cases hj3
      · rw [hcons]
        simp only [note_scan, if_pos hbig]
    by_cases hres : is_reserved_palette_index (group * 8 + a) = true
    · apply hskip
      · intro j hj1 hj2 hj3
        have hja : j = a := by omega
        subst hja
        rw [hres] at hj3
        cases hj3
      · rw [hcons]
        simp only [note_scan, if_neg hbig, if_pos hres]
    cases hfind : map_find notes (group * 8 + a) with
    | none =>
      apply hskip
      · intro j hj1 hj2 _
        have hja : j = a := by omega
        subst hja
        exact Or.inl hfind
      · rw [hcons]
        simp only [note_scan, if_neg hbig, if_neg hres, hfind]
    | some note =>
      by_cases hnote : note = ""
      · apply hskip
        · intro j hj1 hj2 _
          have hja : j = a := by omega
          subst hja
          right
          rw [hfind, hnote]
        · rw [hcons]
          simp only [note_scan, if_neg hbig, if_neg hres, hfind]
          rw [if_neg (by simpa using hnote)]
      · left
        have hval : note_scan notes group (List.range' a (n + 1)) = note := by
          rw [hcons]
          simp only [note_scan, if_neg hbig, if_neg hres, hfind]
          rw [if_pos (by simpa using hnote)]
        rw [hval]
        refine ⟨a, le_refl a, by omega, by simpa using hres, hfind, hnote, ?_⟩
        intro j hj1 hj2
        omega

theorem notes_storage_getElem (notes : List (Nat × String)) (hne : notes ≠ []) (p : Nat)
    (hp : p < 32) :
    (notes_storage notes)[p]? = some (note_for_group notes (31 - p)) := by
  unfold notes_storage
  rw [if_neg hne, List.getElem?_map, List.getElem?_reverse (by simpa using hp)]
  simp only [List.length_range]
  rw [List.getElem?_range (by omega)]
  simp

/-! ## Theorems on the note groups -/

/-- C11: when the tag map is non-empty, the tag list passed to the writer has exactly 32
entries; the entry at position `p` is the tag of group `31 - p` (group 31 first), which is the
first non-empty tag met when scanning the non-reserved indices among `8g+1 .. 8g+8` in
ascending order, or the empty string when there is none; the entry of group 0 is always
empty. -/
theorem tag_list_has_32_reversed_groups (notes : List (Nat × String)) (hne : notes ≠ []) :
    (notes_storage notes).length = 32 ∧
    (∀ p, p < 32 →
      (notes_storage notes)[p]? = some (note_for_group notes (31 - p))) ∧
    (∀ g, g < 32 →
      (∃ idx, 8 * g + 1 ≤ idx ∧ idx ≤ 8 * g + 8 ∧ is_reserved_palette_index idx = false ∧
          map_find notes idx = some (note_for_group notes g) ∧ note_for_group notes g ≠ "" ∧
          ∀ j, 8 * g + 1 ≤ j → j < idx → is_reserved_palette_index j = false →
            map_find notes j = none ∨ map_find notes j = some "") ∨
      (note_for_group notes g = "" ∧
          ∀ j, 8 * g + 1 ≤ j → j ≤ 8 * g + 8 → is_reserved_palette_index j = false →
            map_find notes j = none ∨ map_find notes j = some "")) ∧
    (notes_storage notes)[31]? = some "" := by
  refine ⟨?_, fun p hp => notes_storage_getElem notes hne p hp, ?_, ?_⟩
  · simp [notes_storage, hne]
  · intro g _
    rcases note_scan_range notes g 8 1 with ⟨i, h1, h2, h3, h4, h5, h6⟩ | ⟨h1, h2⟩
    · left
      refine ⟨g * 8 + i, by omega, by omega, h3, h4, h5, ?_⟩
      intro j hj1 hj2 hj3
      have hj : j = g * 8 + (j - g * 8) := by omega
      rw [hj] at hj3 ⊢
      exact h6 (j - g * 8) (by omega) (by omega) hj3
    · right
      refine ⟨h1, ?_⟩
      intro j hj1 hj2 hj3
      have hj : j = g * 8 + (j - g * 8) := by omega
      rw [hj] at hj3 ⊢
      exact h2 (j - g * 8) (by omega) (by omega) hj3
  · rw [notes_storage_getElem notes hne 31 (by decide)]
    rcases note_scan_range notes 0 8 1 with ⟨i, h1, h2, h3, _⟩ | ⟨h1, _⟩
    · have : is_reserved_palette_index (0 * 8 + i) = true := by
        rw [is_reserved_iff]
        omega
      rw [this] at h3
      cases h3
    · exact congrArg some h1

set_option maxRecDepth 100000 in
/-- Witness of C11: the tags `"a"` at index 9, `"b"` at index 10 and `"c"` at index 250;
group 1 is tagged `"a"` and group 31 is tagged `"c"`. -/
theorem tag_list_has_32_reversed_groups_witness :
    ([(9, "a"), (10, "b"), (250, "c")] : List (Nat × String)) ≠ [] ∧
    (notes_storage [(9, "a"), (10, "b"), (250, "c")]).length = 32 ∧
    (notes_storage [(9, "a"), (10, "b"), (250, "c")])[0]? = some "c" ∧
    (notes_storage [(9, "a"), (10, "b"), (250, "c")])[30]? = some "a" :=
  ⟨by decide,
   (tag_list_has_32_reversed_groups [(9, "a"), (10, "b"), (250, "c")] (by decide)).1,
   by decide, by decide⟩

/-! ## Lemmas on the slot count before the adjustment -/

theorem initial_slots_closed (F : FloatModel D) (count total : Nat) (ht : 0 < total) :
    initial_slots F count total = 8 * ((max 1 (F.scale_slots count total 245) + 7) / 8) := by
  unfold initial_slots
  simp only [gt_iff_lt, if_pos ht, total_available_slots_eq]
  have h1 : 1 ≤ max 1 (F.scale_slots count total 245) := le_max_left _ _
  generalize max 1 (F.scale_slots count total 245) = y at h1
  split_ifs <;> omega

theorem specified_initial_slots_bounds (count total : Nat) (hc : 0 < count) (ht : 0 < total) :
    ∃ z : Int, specified_initial_slots count total = 8 * z ∧ 1 ≤ z ∧
      8 * (total : Int) * (z - 1) < (count : Int) * 245 ∧
      (count : Int) * 245 ≤ 8 * (total : Int) * z := by
  have htq : (0 : ℚ) < (total : ℚ) := by exact_mod_cast ht
  have hcq : (0 : ℚ) < (count : ℚ) := by exact_mod_cast hc
  have hpos : (0 : ℚ) < (count : ℚ) / (total : ℚ) * 245 / 8 := by positivity
  have hz1 : 1 ≤ ⌈(count : ℚ) / (total : ℚ) * 245 / 8⌉ := Int.one_le_ceil_iff.2 hpos
  refine ⟨⌈(count : ℚ) / (total : ℚ) * 245 / 8⌉, ?_, hz1, ?_, ?_⟩
  · unfold specified_initial_slots
    rw [max_eq_right (by omega)]
  · have h := Int.ceil_lt_add_one ((count : ℚ) / (total : ℚ) * 245 / 8)
    generalize ⌈(count : ℚ) / (total : ℚ) * 245 / 8⌉ = z at h
    have h2 : (8 : ℚ) * (total : ℚ) * ((z : ℚ) - 1) < (count : ℚ) * 245 := by
      have h3 : ((z : ℚ) - 1) < (count : ℚ) / (total : ℚ) * 245 / 8 := by linarith
      have h4 : (count : ℚ) / (total : ℚ) * 245 / 8 * (8 * (total : ℚ)) = (count : ℚ) * 245 := by
        field_simp
        ring
      have h5 := mul_lt_mul_of_pos_right h3 (by positivity : (0 : ℚ) < 8 * (total : ℚ))
      rw [h4] at h5
      linarith
    exact_mod_cast h2
  · have h := Int.le_ceil ((count : ℚ) / (total : ℚ) * 245 / 8)
    generalize ⌈(count : ℚ) / (total : ℚ) * 245 / 8⌉ = z at h
    have h2 : (count : ℚ) * 245 ≤ (8 : ℚ) * (total : ℚ) * (z : ℚ) := by
      have h4 : (count : ℚ) / (total : ℚ) * 245 / 8 * (8 * (total : ℚ)) = (count : ℚ) * 245 := by
        field_simp
        ring
      have h5 := mul_le_mul_of_nonneg_right h (by positivity : (0 : ℚ) ≤ 8 * (total : ℚ))
      rw [h4] at h5
      linarith
    exact_mod_cast h2

/-! ## Theorems on the slot count before and after the adjustment -/

set_option maxRecDepth 100000 in
/-- C12 refuted: with 1 unique colour in material `"a"` and 28 in material `"b"`, the product
`1 / 29 × 245` is about 8.45; the code truncates it to 8 before rounding and gives `"a"` 8
slots, while rounding 8.45 up to the next multiple of 8 gives 16. -/
theorem initial_slots_truncates_8_45_to_8 :
    initial_allocation exactFloat [("a", 1), ("b", 28)] = [("a", 8), ("b", 240)] ∧
    initial_slots exactFloat 1 29 = 8 ∧
    specified_initial_slots 1 29 = 16 := by
  refine ⟨by decide, by decide, ?_⟩
  unfold specified_initial_slots
  have h : ⌈((1 : Nat) : ℚ) / ((29 : Nat) : ℚ) * 245 / 8⌉ = 2 := by
    rw [Int.ceil_eq_iff]
    norm_num
  rw [h]
  decide

/-- C12 amended: before the adjustment the slot count of a material is `max(1, t)` rounded up
to the next multiple of 8, where `t` is `unique_count / total_unique_colors × 245` truncated
to an integer; with exact arithmetic this is the count of the specification, except that it
is 8 less when the product is not an integer and its integer part is a positive multiple
of 8. -/
theorem initial_slots_rounds_truncated_product (F : FloatModel D) (count total : Nat)
    (hc : 0 < count) (ht : 0 < total) :
    initial_slots F count total = 8 * ((max 1 (F.scale_slots count total 245) + 7) / 8) ∧
    (if count * 245 % total ≠ 0 ∧ count * 245 / total % 8 = 0 ∧ 0 < count * 245 / total
      then initial_slots exactFloat count total + 8 = specified_initial_slots count total
      else initial_slots exactFloat count total = specified_initial_slots count total) := by
  refine ⟨initial_slots_closed F count total ht, ?_⟩
  obtain ⟨z, hz, hz1, hlo, hhi⟩ := specified_initial_slots_bounds count total hc ht
  rw [hz, initial_slots_closed exactFloat count total ht]
  have hscale : exactFloat.scale_slots count total 245 = ((count * 245 / total : Nat) : Int) :=
    rfl
  rw [hscale]
  have hdiv := Nat.div_add_mod (count * 245) total
  have hmod := Nat.mod_lt (count * 245) ht
  generalize count * 245 / total = t at hdiv ⊢
  generalize count * 245 % total = r at hdiv hmod ⊢
  have hN : (count : Int) * 245 = (total : Int) * (t : Int) + (r : Int) := by
    exact_mod_cast hdiv.symm
  rw [hN] at hlo hhi
  have htI : (0 : Int) < (total : Int) := by exact_mod_cast ht
  have hrI : (r : Int) < (total : Int) := by exact_mod_cast hmod
  have hr0 : (0 : Int) ≤ (r : Int) := Int.ofNat_nonneg r
  have ht0 : (0 : Int) ≤ (t : Int) := Int.ofNat_nonneg t
  -- `8 (z - 1) ≤ t ≤ 8 z`, strictly on the left when `r = 0` and on the right when `r > 0`
  have hA : 8 * (z - 1) ≤ (t : Int) := by
    by_contra hcon
    have h1 : (t : Int) + 1 ≤ 8 * (z - 1) := by omega
    have h2 := mul_le_mul_of_nonneg_left h1 (le_of_lt htI)
    linarith
  have hB : (t : Int) ≤ 8 * z := by
    by_contra hcon
    have h1 : 8 * z + 1 ≤ (t : Int) := by omega
    have h2 := mul_le_mul_of_nonneg_left h1 (le_of_lt htI)
    linarith
  have hA0 : r = 0 → 8 * (z - 1) < (t : Int) := by
    intro h0
    subst h0
    by_contra hcon
    have h1 : (t : Int) ≤ 8 * (z - 1) := by omega
    have h2 := mul_le_mul_of_nonneg_left h1 (le_of_lt htI)
    simp only [Nat.cast_zero, add_zero] at hlo
    linarith
  have hB1 : r ≠ 0 → (t : Int) < 8 * z := by
    intro h0
    have hrpos : (0 : Int) < (r : Int) := by
      have : 0 < r := Nat.pos_of_ne_zero h0
      exact_mod_cast this
    by_contra hcon
    have h1 : 8 * z ≤ (t : Int) := by omega
    have h2 := mul_le_mul_of_nonneg_left h1 (le_of_lt htI)
    linarith
  have hmax : max (1 : Int) (t : Int) = if (t : Int) ≤ 1 then 1 else (t : Int) := by
    split_ifs with h
    · exact max_eq_left h
    · exact max_eq_right (by omega)
  rw [hmax]
  by_cases hr : r = 0
  · have := hA0 hr
    rw [if_neg (by simp [hr])]
    split_ifs <;> omega
  · have := hB1 hr
    by_cases h8 : t % 8 = 0 ∧ 0 < t
    · rw [if_pos ⟨hr, h8.1, h8.2⟩]
      split_ifs <;> omega
    · rw [if_neg (by tauto)]
      split_ifs <;> omega

/-- Witness of C12 amended: 1 unique colour out of 29; the truncated product is 8. -/
theorem initial_slots_rounds_truncated_product_witness :
    (0 < 1 ∧ 0 < 29) ∧
    initial_slots exactFloat 1 29 = 8 * ((max 1 (exactFloat.scale_slots 1 29 245) + 7) / 8) :=
  ⟨by decide, (initial_slots_rounds_truncated_product exactFloat 1 29 (by decide) (by decide)).1⟩

/-- C13: after the slot allocation, adjustment included, every material with at least one
sampled colour holds a slot count that is a positive multiple of 8, so at least 8; and the map
holds no other material. -/
theorem every_material_holds_positive_multiple_of_8 (F : FloatModel D)
    (pool : List ColorSample) :
    (∀ s ∈ pool, ∃ k, map_find (allocate_slots F (group_colors pool)) s.material_name = some k ∧
      8 ≤ k ∧ k % 8 = 0) ∧
    (∀ e ∈ allocate_slots F (group_colors pool),
      8 ≤ e.2 ∧ e.2 % 8 = 0 ∧ ∃ s ∈ pool, s.material_name = e.1) := by
  have hg := group_colors_inv pool
  have hinv := allocate_slots_inv F (group_colors pool) hg.sorted
  constructor
  · intro s hs
    obtain ⟨cs, hcs, _⟩ := hg.complete s hs
    have hmem := map_find_mem _ _ _ hcs
    exact find_ge_of_inv _ _ s.material_name hinv (List.mem_map.2 ⟨_, hmem, rfl⟩)
  · intro e he
    have hk : e.1 ∈ (group_colors pool).map (fun g => g.1) := by
      rw [← hinv.keys_eq]
      exact List.mem_map.2 ⟨e, he, rfl⟩
    obtain ⟨g, hgm, hge⟩ := List.mem_map.1 hk
    obtain ⟨c, hcm⟩ := List.exists_mem_of_ne_nil _ (hg.nonempty g hgm)
    have hsound := hg.sound g hgm c hcm
    exact ⟨(hinv.ok e he).1, (hinv.ok e he).2, ⟨c, g.1⟩, hsound, hge⟩

/-! ## Lemmas on the boundary edges -/

theorem count_edges_fold (original_edges : List Edge) (acc : List ((Int × Int) × Int))
    (key : Int × Int) :
    (map_find (original_edges.foldl count_edge acc) key).getD 0 =
      (map_find acc key).getD 0 + ((original_edges.map edge_key).count key : Int) := by
  induction original_edges generalizing acc with
  | nil => simp
  | cons e rest ih =>
    rw [List.foldl_cons, ih, List.map_cons, List.count_cons]
    by_cases hk : edge_key e = key
    · subst hk
      simp only [count_edge, map_find_map_set_self, Option.getD_some, beq_self_eq_true,
        if_true]
      push_cast
      ring
    · have hne : key ≠ edge_key e := fun h => hk h.symm
      simp only [count_edge, map_find_map_set_ne _ _ _ _ _ hne]
      simp [hk]

theorem count_edges_find (original_edges : List Edge) (key : Int × Int) :
    (map_find (count_edges original_edges) key).getD 0 =
      ((original_edges.map edge_key).count key : Int) := by
  unfold count_edges
  rw [count_edges_fold]
  simp [map_find]

theorem boundary_edges_eq (is_edge_aligned : Edge → Bool) (original_edges : List Edge) :
    boundary_edges is_edge_aligned original_edges =
      (original_edges.filter
        (fun edge => (original_edges.map edge_key).count (edge_key edge) = 1)).map
        (fun edge => { edge with is_aligned := is_edge_aligned edge }) := by
  unfold boundary_edges
  simp only [count_edges_find, Nat.cast_eq_one]
  generalize original_edges.map edge_key = keys
  induction original_edges with
  | nil => rfl
  | cons e rest ih =>
    rw [List.filterMap_cons, List.filter_cons]
    by_cases h : keys.count (edge_key e) = 1
    · simp [h, ih]
    · simp [h, ih]

theorem edge_key_symm (e1 e2 : Edge) (h1 : e1.start_index = e2.end_index)
    (h2 : e1.end_index = e2.start_index) : edge_key e1 = edge_key e2 := by
  unfold edge_key
  rw [h1, h2, min_comm, max_comm]

/-! ## Theorems on the boundary edges -/

/-- C14: the boundary-edge list computed in `main` is the order-preserving subsequence of the
full edge list made of the edges whose undirected key `(min, max)` of the two vertex indices
occurs exactly once in the full list (each with its `is_aligned` flag set); an edge whose key
occurs two or more times, in either direction, is never a boundary edge. -/
theorem boundary_edges_are_the_edges_with_unique_key (is_edge_aligned : Edge → Bool)
    (original_edges : List Edge) :
    boundary_edges is_edge_aligned original_edges =
      (original_edges.filter
        (fun edge => (original_edges.map edge_key).count (edge_key edge) = 1)).map
        (fun edge => { edge with is_aligned := is_edge_aligned edge }) ∧
    (∀ edge ∈ original_edges, 2 ≤ (original_edges.map edge_key).count (edge_key edge) →
      ∀ b ∈ boundary_edges is_edge_aligned original_edges, edge_key b ≠ edge_key edge) ∧
    (∀ e1 e2 : Edge, e1.start_index = e2.end_index → e1.end_index = e2.start_index →
      edge_key e1 = edge_key e2) := by
  refine ⟨boundary_edges_eq _ _, ?_, edge_key_symm⟩
  intro edge _ h2 b hb hkey
  rw [boundary_edges_eq, List.mem_map] at hb
  obtain ⟨e, he, hbe⟩ := hb
  rw [List.mem_filter] at he
  have h1 : (original_edges.map edge_key).count (edge_key e) = 1 := by simpa using he.2
  have hk : edge_key b = edge_key e := by
    rw [← hbe]
    rfl
  rw [← hkey, hk, h1] at h2
  omega

/-! ## Lemmas on the edges of one face -/

theorem succ_mod_eq (n i : Nat) (hi : i < n) : (i + 1) % n = if i + 1 < n then i + 1 else 0 := by
  split_ifs with h
  · exact Nat.mod_eq_of_lt h
  · have : i + 1 = n := by omega
    rw [this, Nat.mod_self]

theorem getD_inj_of_nodup (v : List Int) (hd : v.Nodup) (i j : Nat) (hi : i < v.length)
    (hj : j < v.length) (h : v.getD i 0 = v.getD j 0) : i = j := by
  rw [List.getD_eq_getElem _ _ hi, List.getD_eq_getElem _ _ hj] at h
  exact (List.Nodup.getElem_inj_iff hd).1 h

theorem face_edges_eq (edge_length : Int → Int → ℚ) (v : List Int) (hn : 3 ≤ v.length) :
    face_edges edge_length v = (List.range v.length).map (fun i =>
      { start_index := v.getD i 0
        end_index := v.getD ((i + 1) % v.length) 0
        length := edge_length (v.getD i 0) (v.getD ((i + 1) % v.length) 0)
        is_aligned := false }) := by
  unfold face_edges
  rw [if_pos (by omega)]

theorem face_keys_eq (edge_length : Int → Int → ℚ) (v : List Int) (hn : 3 ≤ v.length) :
    (face_edges edge_length v).map edge_key = (List.range v.length).map (fun i =>
      (min (v.getD i 0) (v.getD ((i + 1) % v.length) 0),
        max (v.getD i 0) (v.getD ((i + 1) % v.length) 0))) := by
  rw [face_edges_eq edge_length v hn, List.map_map]
  rfl

theorem face_key_inj (v : List Int) (hn : 3 ≤ v.length) (hd : v.Nodup) (i j : Nat)
    (hi : i < v.length) (hj : j < v.length)
    (h : (min (v.getD i 0) (v.getD ((i + 1) % v.length) 0),
        max (v.getD i 0) (v.getD ((i + 1) % v.length) 0)) =
      (min (v.getD j 0) (v.getD ((j + 1) % v.length) 0),
        max (v.getD j 0) (v.getD ((j + 1) % v.length) 0))) : i = j := by
  have hi2 : (i + 1) % v.length < v.length := Nat.mod_lt _ (by omega)
  have hj2 : (j + 1) % v.length < v.length := Nat.mod_lt _ (by omega)
  have h1 := congrArg Prod.fst h
  have h2 := congrArg Prod.snd h
  simp only at h1 h2
  have hcases : (v.getD i 0 = v.getD j 0) ∨
      (v.getD i 0 = v.getD ((j + 1) % v.length) 0 ∧
        v.getD ((i + 1) % v.length) 0 = v.getD j 0) := by
    omega
  rcases hcases with h3 | ⟨h3, h4⟩
  · exact getD_inj_of_nodup v hd i j hi hj h3
  · have e1 := getD_inj_of_nodup v hd _ _ hi hj2 h3
    have e2 := getD_inj_of_nodup v hd _ _ hi2 hj h4
    rw [succ_mod_eq _ _ hj] at e1
    rw [succ_mod_eq _ _ hi] at e2
    split_ifs at e1 e2 <;> omega

theorem face_keys_nodup (edge_length : Int → Int → ℚ) (v : List Int) (hn : 3 ≤ v.length)
    (hd : v.Nodup) : ((face_edges edge_length v).map edge_key).Nodup := by
  rw [face_keys_eq edge_length v hn]
  apply List.Nodup.map_on _ (List.nodup_range _)
  intro i hi j hj h
  exact face_key_inj v hn hd i j (List.mem_range.1 hi) (List.mem_range.1 hj) h

theorem count_eq_one_of_nodup {α : Type} [BEq α] [LawfulBEq α] (l : List α) (a : α)
    (hd : l.Nodup) (h : a ∈ l) : l.count a = 1 := by
  induction l with
  | nil => cases h
  | cons b rest ih =>
    rw [List.nodup_cons] at hd
    rw [List.count_cons]
    by_cases hb : b = a
    · subst hb
      rw [List.count_eq_zero_of_not_mem hd.1]
      simp
    · have hmem : a ∈ rest := by
        rcases List.mem_cons.1 h with h1 | h1
        · exact absurd h1.symm hb
        · exact h1
      rw [ih hd.2 hmem]
      simp [hb]

theorem boundary_edges_of_nodup_keys (is_edge_aligned : Edge → Bool)
    (original_edges : List Edge) (hd : (original_edges.map edge_key).Nodup) :
    boundary_edges is_edge_aligned original_edges =
      original_edges.map (fun edge => { edge with is_aligned := is_edge_aligned edge }) := by
  rw [boundary_edges_eq]
  congr 1
  rw [List.filter_eq_self]
  intro e he
  have : (original_edges.map edge_key).count (edge_key e) = 1 :=
    count_eq_one_of_nodup _ _ hd (List.mem_map.2 ⟨e, he, rfl⟩)
  simpa using this

theorem length_filter_eq_count (edges : List Edge) (f : Edge → Int) (vertex : Int) :
    (edges.filter (fun e => f e = vertex)).length = (edges.map f).count vertex := by
  induction edges with
  | nil => rfl
  | cons e rest ih =>
    rw [List.filter_cons, List.map_cons, List.count_cons]
    by_cases h : f e = vertex
    · simp [h, ih]
    · simp [h, ih]

theorem vertex_degree_eq (edges : List Edge) (vertex : Int) :
    vertex_degree edges vertex =
      (edges.map (fun e => e.start_index)).count vertex +
        (edges.map (fun e => e.end_index)).count vertex := by
  unfold vertex_degree
  rw [length_filter_eq_count edges (fun e => e.start_index),
    length_filter_eq_count edges (fun e => e.end_index)]

theorem face_starts_eq (edge_length : Int → Int → ℚ) (v : List Int) (hn : 3 ≤ v.length) :
    (face_edges edge_length v).map (fun e => e.start_index) = v := by
  rw [face_edges_eq edge_length v hn, List.map_map]
  apply List.ext_getElem
  · simp
  · intro i h1 h2
    simp [List.getElem?_eq_getElem h2]

theorem face_ends_eq (edge_length : Int → Int → ℚ) (v : List Int) (hn : 3 ≤ v.length) :
    (face_edges edge_length v).map (fun e => e.end_index) = v.rotate 1 := by
  rw [face_edges_eq edge_length v hn, List.map_map]
  apply List.ext_getElem
  · simp
  · intro i h1 h2
    have hi : i < v.length := by simpa using h1
    have hm : (i + 1) % v.length < v.length := Nat.mod_lt _ (by omega)
    simp [List.getElem?_eq_getElem hm, List.getElem_rotate]

/-! ## Theorems on the edges of one face -/

/-- C15: for a mesh that is one polygon face with `n ≥ 3` pairwise distinct vertex indices, the
full edge list has `n` edges, the boundary extraction returns all `n` of them (in order, with
their `is_aligned` flags set), and every vertex of the face has degree exactly 2 in the
boundary-edge set. -/
theorem single_face_boundary_is_its_cycle (edge_length : Int → Int → ℚ)
    (is_edge_aligned : Edge → Bool) (v : List Int) (hn : 3 ≤ v.length) (hd : v.Nodup) :
    (face_edges edge_length v).length = v.length ∧
    boundary_edges is_edge_aligned (face_edges edge_length v) =
      (face_edges edge_length v).map
        (fun edge => { edge with is_aligned := is_edge_aligned edge }) ∧
    (boundary_edges is_edge_aligned (face_edges edge_length v)).length = v.length ∧
    (∀ x ∈ v, vertex_degree (boundary_edges is_edge_aligned (face_edges edge_length v)) x = 2) := by
  have hlen : (face_edges edge_length v).length = v.length := by
    rw [face_edges_eq edge_length v hn]
    simp
  have hb := boundary_edges_of_nodup_keys is_edge_aligned (face_edges edge_length v)
    (face_keys_nodup edge_length v hn hd)
  refine ⟨hlen, hb, ?_, ?_⟩
  · rw [hb, List.length_map, hlen]
  · intro x hx
    rw [hb, vertex_degree_eq, List.map_map, List.map_map]
    have hs : ((fun e : Edge => e.start_index) ∘
        fun edge : Edge => { edge with is_aligned := is_edge_aligned edge }) =
        fun e => e.start_index := rfl
    have he : ((fun e : Edge => e.end_index) ∘
        fun edge : Edge => { edge with is_aligned := is_edge_aligned edge }) =
        fun e => e.end_index := rfl
    rw [hs, he, face_starts_eq edge_length v hn, face_ends_eq edge_length v hn,
      List.Perm.count_eq (List.rotate_perm v 1), count_eq_one_of_nodup v x hd hx]

set_option maxRecDepth 100000 in
/-- Witness of C15: the triangle with the vertex indices 0, 1, 2. -/
theorem single_face_boundary_is_its_cycle_witness :
    (3 ≤ ([0, 1, 2] : List Int).length ∧ ([0, 1, 2] : List Int).Nodup) ∧
    (boundary_edges (fun _ => true) (face_edges (fun _ _ => 1) [0, 1, 2])).length = 3 ∧
    vertex_degree (boundary_edges (fun _ => true) (face_edges (fun _ _ => 1) [0, 1, 2])) 1 = 2 :=
  ⟨⟨by decide, by decide⟩,
   (single_face_boundary_is_its_cycle (fun _ _ => 1) (fun _ => true) [0, 1, 2] (by decide)
      (by decide)).2.2.1,
   (single_face_boundary_is_its_cycle (fun _ _ => 1) (fun _ => true) [0, 1, 2] (by decide)
      (by decide)).2.2.2 1 (by decide)⟩

/-! ## Lemmas on the boundary polygon -/

theorem chain_loop_ne_nil (vertices : List Vec3) (sorted_edges : List Edge) (steps : Nat)
    (st : ChainState) (h : st.boundary_polygon_vertices ≠ []) :
    (chain_loop vertices sorted_edges steps st).boundary_polygon_vertices ≠ [] := by
  induction steps generalizing st with
  | zero => exact h
  | succ n ih =>
    unfold chain_loop
    split
    · exact h
    · apply ih
      simp

theorem boundary_polygon_ne_nil (vertices : List Vec3) (boundary_edges : List Edge)
    (h : boundary_edges ≠ []) : boundary_polygon_vertices vertices boundary_edges ≠ [] := by
  cases boundary_edges with
  | nil => exact absurd rfl h
  | cons first rest =>
    unfold boundary_polygon_vertices
    apply chain_loop_ne_nil
    simp

theorem polygon_to_test_of_edges (vertices : List Vec3) (boundary_edges : List Edge)
    (h : boundary_edges ≠ []) :
    polygon_to_test vertices boundary_edges =
      boundary_polygon_vertices vertices boundary_edges := by
  unfold polygon_to_test
  rw [if_neg]
  rw [List.isEmpty_iff]
  exact boundary_polygon_ne_nil vertices boundary_edges h

/-! ## Theorems on the boundary polygon -/

set_option maxRecDepth 100000 in
/-- C16 refuted by the code: for the mesh of two triangles without a common vertex, all six
edges are boundary edges and the chaining stops after the first triangle, since no unused edge
touches vertex 0; the polygon of the point-in-polygon test is then the three vertices of the
first triangle, not the list of all six mesh vertices. -/
theorem broken_chain_keeps_first_triangle (edge_length : Int → Int → ℚ)
    (is_edge_aligned : Edge → Bool) :
    (boundary_edges is_edge_aligned (two_triangles_edges edge_length)).length = 6 ∧
    boundary_polygon_vertices two_triangles_vertices
      (boundary_edges is_edge_aligned (two_triangles_edges edge_length)) =
        [⟨0, 0, 0⟩, ⟨3, 0, 0⟩, ⟨0, 4, 0⟩] ∧
    polygon_to_test two_triangles_vertices
      (boundary_edges is_edge_aligned (two_triangles_edges edge_length)) =
        [⟨0, 0, 0⟩, ⟨3, 0, 0⟩, ⟨0, 4, 0⟩] ∧
    polygon_to_test two_triangles_vertices
      (boundary_edges is_edge_aligned (two_triangles_edges edge_length)) ≠
        two_triangles_vertices := by
  have hb : boundary_edges is_edge_aligned (two_triangles_edges edge_length) =
      (two_triangles_edges edge_length).map
        (fun edge => { edge with is_aligned := is_edge_aligned edge }) := by
    apply boundary_edges_of_nodup_keys
    rw [two_triangles_edges, List.map_append, face_keys_eq _ _ (by decide),
      face_keys_eq _ _ (by decide)]
    decide
  have hp : boundary_polygon_vertices two_triangles_vertices
      ((two_triangles_edges edge_length).map
        (fun edge => { edge with is_aligned := is_edge_aligned edge })) =
        [⟨0, 0, 0⟩, ⟨3, 0, 0⟩, ⟨0, 4, 0⟩] := by
    rfl
  rw [hb]
  have hne : (two_triangles_edges edge_length).map
      (fun edge => { edge with is_aligned := is_edge_aligned edge }) ≠ [] := by
    simp [two_triangles_edges, face_edges]
  rw [polygon_to_test_of_edges _ _ hne, hp]
  refine ⟨rfl, rfl, rfl, ?_⟩
  simp [two_triangles_vertices]

/-! ## Lemmas on the `float` arithmetic -/

theorem round_half_even_eq (x : ℚ) (m : Int) (h : |x - (m : ℚ)| < 1 / 2) :
    round_half_even x = m := by
  have h1 := abs_lt.1 h
  unfold round_half_even
  by_cases hx : (m : ℚ) ≤ x
  · have hf : ⌊x⌋ = m := by
      rw [Int.floor_eq_iff]
      constructor
      · exact hx
      · linarith [h1.2]
    rw [hf, if_pos (by linarith [h1.2])]
  · have hf : ⌊x⌋ = m - 1 := by
      rw [Int.floor_eq_iff]
      push_cast
      constructor
      · linarith [h1.1]
      · linarith
    rw [hf]
    push_cast
    rw [if_neg (by linarith [h1.1]), if_pos (by linarith [h1.1])]
    ring

theorem float32_exponent_eq (q : ℚ) (e : Int) (he : -126 ≤ e) (h1 : (2 : ℚ) ^ e ≤ |q|)
    (h2 : |q| < (2 : ℚ) ^ (e + 1)) : float32_exponent q = e := by
  have hpos : 0 < |q| := lt_of_lt_of_le (zpow_pos (by norm_num) e) h1
  have hlog : Int.log 2 |q| = e := by
    have ha : e ≤ Int.log 2 |q| :=
      (Int.zpow_le_iff_le_log (by norm_num) hpos).1 (by exact_mod_cast h1)
    have hb : Int.log 2 |q| < e + 1 :=
      (Int.lt_zpow_iff_log_lt (by norm_num) hpos).1 (by exact_mod_cast h2)
    omega
  unfold float32_exponent
  rw [hlog]
  exact max_eq_left he

/-- The `float` nearest to `q` is `m · 2^(e-23)` when `2^e ≤ |q| < 2^(e+1)` and `m` is the
integer nearest to `q / 2^(e-23)`. -/
theorem float32_round_eq (q : ℚ) (e m : Int) (he : -126 ≤ e) (h1 : (2 : ℚ) ^ e ≤ |q|)
    (h2 : |q| < (2 : ℚ) ^ (e + 1)) (hm : |q / (2 : ℚ) ^ (e - 23) - (m : ℚ)| < 1 / 2) :
    float32_round q = (m : ℚ) * (2 : ℚ) ^ (e - 23) := by
  have hpos : 0 < |q| := lt_of_lt_of_le (zpow_pos (by norm_num) e) h1
  have hq : q ≠ 0 := abs_pos.1 hpos
  unfold float32_round
  rw [if_neg hq, float32_exponent_eq q e he h1 h2, round_half_even_eq _ m hm]

theorem float32_round_pos (q : ℚ) (e m : Int) (he : -126 ≤ e) (h1 : (2 : ℚ) ^ e ≤ q)
    (h2 : q < (2 : ℚ) ^ (e + 1)) (hm1 : (m : ℚ) - 1 / 2 < q / (2 : ℚ) ^ (e - 23))
    (hm2 : q / (2 : ℚ) ^ (e - 23) < (m : ℚ) + 1 / 2) :
    float32_round q = (m : ℚ) * (2 : ℚ) ^ (e - 23) := by
  have hpos : 0 < q := lt_of_lt_of_le (zpow_pos (by norm_num) e) h1
  apply float32_round_eq q e m he
  · rw [abs_of_pos hpos]
    exact h1
  · rw [abs_of_pos hpos]
    exact h2
  · rw [abs_lt]
    constructor <;> linarith

theorem float32_round_neg (q : ℚ) (e m : Int) (he : -126 ≤ e) (h1 : (2 : ℚ) ^ e ≤ -q)
    (h2 : -q < (2 : ℚ) ^ (e + 1)) (hm1 : (m : ℚ) - 1 / 2 < q / (2 : ℚ) ^ (e - 23))
    (hm2 : q / (2 : ℚ) ^ (e - 23) < (m : ℚ) + 1 / 2) :
    float32_round q = (m : ℚ) * (2 : ℚ) ^ (e - 23) := by
  have hpos : 0 < -q := lt_of_lt_of_le (zpow_pos (by norm_num) e) h1
  apply float32_round_eq q e m he
  · rw [abs_of_neg (by linarith)]
    exact h1
  · rw [abs_of_neg (by linarith)]
    exact h2
  · rw [abs_lt]
    constructor <;> linarith

/-- The conversion to `int` of an integer within the range of `int` is that integer. -/
theorem float32_to_int_cast (z : Int) (h1 : -2147483648 ≤ z) (h2 : z ≤ 2147483647) :
    float32_to_int (z : ℚ) = z := by
  unfold float32_to_int
  simp only [Int.floor_intCast, Int.ceil_intCast, ite_self]
  rw [if_pos ⟨h1, h2⟩]

/-- The conversion to `int` of an integer beyond the range of `int`. -/
theorem float32_to_int_large (z : Int) (h : 2147483647 < z) :
    float32_to_int (z : ℚ) = -2147483648 := by
  unfold float32_to_int
  simp only [Int.floor_intCast, Int.ceil_intCast, ite_self]
  rw [if_neg (by omega)]

/-! ## Lemmas on the voxel strips -/

theorem strip_error_eq (L s : ℚ) (hs : 0 < s) (m : Int) :
    |(m : ℚ) * s - L| = |(m : ℚ) - L / s| * s := by
  have h : (m : ℚ) * s - L = ((m : ℚ) - L / s) * s := by
    rw [sub_mul, div_mul_cancel₀ _ (ne_of_gt hs)]
  rw [h, abs_mul, abs_of_pos hs]

/-- The count of `calc_voxel_strip_placement` in exact arithmetic, when the quotient is within
the range of `int`. -/
theorem placement_count_eq (L s : ℚ) (hL : 0 ≤ L) (hs : 0 < s) (hr : L / s ≤ 2147483647) :
    (calc_voxel_strip_placement exact_arith L s).voxel_count =
      if (if (⌈L / s⌉ : ℚ) * s - L < L - (⌊L / s⌋ : ℚ) * s then ⌈L / s⌉ else ⌊L / s⌋) < 1 then 1
      else (if (⌈L / s⌉ : ℚ) * s - L < L - (⌊L / s⌋ : ℚ) * s then ⌈L / s⌉ else ⌊L / s⌋) := by
  have hq : 0 ≤ L / s := div_nonneg hL (le_of_lt hs)
  have hf0 : 0 ≤ ⌊L / s⌋ := Int.floor_nonneg.2 hq
  have hc1 : ⌈L / s⌉ ≤ 2147483647 := Int.ceil_le.2 (by exact_mod_cast hr)
  have hfc : ⌊L / s⌋ ≤ ⌈L / s⌉ := Int.floor_le_ceil _
  have e1 : float32_to_int ((⌊L / s⌋ : Int) : ℚ) = ⌊L / s⌋ :=
    float32_to_int_cast _ (by omega) (by omega)
  have e2 : float32_to_int ((⌈L / s⌉ : Int) : ℚ) = ⌈L / s⌉ :=
    float32_to_int_cast _ (by omega) (by omega)
  unfold calc_voxel_strip_placement exact_arith
  simp only [id_eq, e1, e2]

theorem placement_offset_eq (L s : ℚ) :
    (calc_voxel_strip_placement exact_arith L s).offset_along_edge =
      (((calc_voxel_strip_placement exact_arith L s).voxel_count : ℚ) * s - L) / 2 :=
  rfl

theorem placement_count_pos (A : FloatArith) (L s : ℚ) :
    1 ≤ (calc_voxel_strip_placement A L s).voxel_count := by
  unfold calc_voxel_strip_placement
  simp only
  split_ifs <;> omega

/-- The count of `calc_voxel_strip_placement` is the converted floor or ceiling of the rounded
quotient, or 1. -/
theorem placement_count_choice (A : FloatArith) (L s : ℚ) :
    (calc_voxel_strip_placement A L s).voxel_count = A.to_int (⌊A.fl (L / s)⌋ : ℚ) ∨
    (calc_voxel_strip_placement A L s).voxel_count = A.to_int (⌈A.fl (L / s)⌉ : ℚ) ∨
    (calc_voxel_strip_placement A L s).voxel_count = 1 := by
  unfold calc_voxel_strip_placement
  simp only
  split_ifs
  · exact Or.inr (Or.inr rfl)
  · exact Or.inr (Or.inl rfl)
  · exact Or.inr (Or.inr rfl)
  · exact Or.inl rfl

/-- The count of `calc_voxel_strip_placement` in terms of the quotient `q = L / s`: the ceiling
when it is strictly nearer than the floor, else the floor, and 1 when that is 0. -/
theorem placement_count_cases (L s : ℚ) (hL : 0 ≤ L) (hs : 0 < s) (hr : L / s ≤ 2147483647) :
    ((⌈L / s⌉ : ℚ) - L / s < L / s - (⌊L / s⌋ : ℚ) ∧
      (calc_voxel_strip_placement exact_arith L s).voxel_count = ⌈L / s⌉ ∧
      ⌈L / s⌉ = ⌊L / s⌋ + 1) ∨
    (L / s - (⌊L / s⌋ : ℚ) ≤ (⌈L / s⌉ : ℚ) - L / s ∧ 1 ≤ ⌊L / s⌋ ∧
      (calc_voxel_strip_placement exact_arith L s).voxel_count = ⌊L / s⌋) ∨
    (L / s - (⌊L / s⌋ : ℚ) ≤ (⌈L / s⌉ : ℚ) - L / s ∧ ⌊L / s⌋ = 0 ∧
      (calc_voxel_strip_placement exact_arith L s).voxel_count = 1) := by
  have hq : 0 ≤ L / s := div_nonneg hL (le_of_lt hs)
  have hf0 : 0 ≤ ⌊L / s⌋ := Int.floor_nonneg.2 hq
  have hf1 : (⌊L / s⌋ : ℚ) ≤ L / s := Int.floor_le _
  have hc1 : L / s ≤ (⌈L / s⌉ : ℚ) := Int.le_ceil _
  have hfc : ⌊L / s⌋ ≤ ⌈L / s⌉ := Int.floor_le_ceil _
  have hc2 : ⌈L / s⌉ ≤ ⌊L / s⌋ + 1 := Int.ceil_le_floor_add_one _
  have hcond : ((⌈L / s⌉ : ℚ) * s - L < L - (⌊L / s⌋ : ℚ) * s) ↔
      ((⌈L / s⌉ : ℚ) - L / s < L / s - (⌊L / s⌋ : ℚ)) := by
    have e1 : (⌈L / s⌉ : ℚ) * s - L = ((⌈L / s⌉ : ℚ) - L / s) * s := by
      rw [sub_mul, div_mul_cancel₀ _ (ne_of_gt hs)]
    have e2 : L - (⌊L / s⌋ : ℚ) * s = (L / s - (⌊L / s⌋ : ℚ)) * s := by
      rw [sub_mul, div_mul_cancel₀ _ (ne_of_gt hs)]
    rw [e1, e2]
    exact mul_lt_mul_right hs
  rw [placement_count_eq L s hL hs hr]
  by_cases h : (⌈L / s⌉ : ℚ) - L / s < L / s - (⌊L / s⌋ : ℚ)
  · left
    have hne : ⌈L / s⌉ ≠ ⌊L / s⌋ := by
      intro heq
      have hcast : (⌈L / s⌉ : ℚ) = (⌊L / s⌋ : ℚ) := by rw [heq]
      linarith
    have hceq : ⌈L / s⌉ = ⌊L / s⌋ + 1 := by omega
    refine ⟨h, ?_, hceq⟩
    rw [if_pos (hcond.2 h), if_neg (by omega)]
  · right
    have h2 : L / s - (⌊L / s⌋ : ℚ) ≤ (⌈L / s⌉ : ℚ) - L / s := le_of_not_lt h
    have hncond : ¬ ((⌈L / s⌉ : ℚ) * s - L < L - (⌊L / s⌋ : ℚ) * s) := fun hc => h (hcond.1 hc)
    rw [if_neg hncond]
    by_cases hf : 1 ≤ ⌊L / s⌋
    · left
      exact ⟨h2, hf, by rw [if_neg (by omega)]⟩
    · right
      exact ⟨h2, by omega, by rw [if_pos (by omega)]⟩

/-- The count of `calc_voxel_strip_placement` is a nearest integer `≥ 1` of `q = L / s`, and
the least one. -/
theorem placement_nearest (L s : ℚ) (hL : 0 ≤ L) (hs : 0 < s) (hr : L / s ≤ 2147483647)
    (m : Int) (hm : 1 ≤ m) :
    |((calc_voxel_strip_placement exact_arith L s).voxel_count : ℚ) - L / s| ≤
      |(m : ℚ) - L / s| ∧
    (|(m : ℚ) - L / s| =
        |((calc_voxel_strip_placement exact_arith L s).voxel_count : ℚ) - L / s| →
      (calc_voxel_strip_placement exact_arith L s).voxel_count ≤ m) := by
  have hf1 : (⌊L / s⌋ : ℚ) ≤ L / s := Int.floor_le _
  have hf2 : L / s < (⌊L / s⌋ : ℚ) + 1 := Int.lt_floor_add_one _
  have hc1 : L / s ≤ (⌈L / s⌉ : ℚ) := Int.le_ceil _
  have hc2 : ⌈L / s⌉ ≤ ⌊L / s⌋ + 1 := Int.ceil_le_floor_add_one _
  have hc2q : (⌈L / s⌉ : ℚ) ≤ (⌊L / s⌋ : ℚ) + 1 := by exact_mod_cast hc2
  have hm1 : (1 : ℚ) ≤ (m : ℚ) := by exact_mod_cast hm
  have hcases := placement_count_cases L s hL hs hr
  clear hr
  generalize (calc_voxel_strip_placement exact_arith L s).voxel_count = n at *
  generalize hq : L / s = q at *
  generalize hf : ⌊q⌋ = f at *
  generalize hc : ⌈q⌉ = c at *
  have hlow : ∀ k : Int, k ≤ f → |(k : ℚ) - q| = q - (k : ℚ) := by
    intro k hk
    have hkq : (k : ℚ) ≤ (f : ℚ) := by exact_mod_cast hk
    rw [abs_of_nonpos (by linarith)]
    ring
  have hhigh : ∀ k : Int, f + 1 ≤ k → |(k : ℚ) - q| = (k : ℚ) - q := by
    intro k hk
    have hkq : (f : ℚ) + 1 ≤ (k : ℚ) := by exact_mod_cast hk
    rw [abs_of_nonneg (by linarith)]
  rcases hcases with ⟨h1, h2, h3⟩ | ⟨h1, h2, h3⟩ | ⟨h1, h2, h3⟩
  · rw [h2, hhigh c (by omega)]
    rcases le_or_lt m f with hmf | hmf
    · have hmq : (m : ℚ) ≤ (f : ℚ) := by exact_mod_cast hmf
      rw [hlow m hmf]
      constructor
      · linarith
      · intro heq
        linarith
    · have hmq : (f : ℚ) + 1 ≤ (m : ℚ) := by exact_mod_cast hmf
      rw [hhigh m (by omega)]
      constructor
      · linarith
      · intro _
        omega
  · rw [h3, hlow f (le_refl f)]
    rcases le_or_lt m f with hmf | hmf
    · have hmq : (m : ℚ) ≤ (f : ℚ) := by exact_mod_cast hmf
      rw [hlow m hmf]
      constructor
      · linarith
      · intro heq
        have : (m : ℚ) = (f : ℚ) := by linarith
        have : m = f := by exact_mod_cast this
        omega
    · have hmq : (f : ℚ) + 1 ≤ (m : ℚ) := by exact_mod_cast hmf
      rw [hhigh m (by omega)]
      constructor
      · linarith
      · intro _
        omega
  · rw [h3]
    have hf0 : (f : ℚ) = 0 := by exact_mod_cast h2
    have h1q : |((1 : Int) : ℚ) - q| = ((1 : Int) : ℚ) - q := hhigh 1 (by omega)
    rw [h1q, hhigh m (by omega)]
    push_cast
    constructor
    · linarith
    · intro _
      exact hm

/-! ## The strip of an edge of 4.025 by voxels of 0.05 in `float` -/

theorem float_4_025 : float32_round (161 / 40) = 8441037 / 2097152 := by
  rw [float32_round_pos (161 / 40) 2 8441037 (by decide) (by norm_num) (by norm_num)
    (by norm_num) (by norm_num)]
  norm_num

theorem float_0_05 : float32_round (1 / 20) = 13421773 / 268435456 := by
  rw [float32_round_pos (1 / 20) (-5) 13421773 (by decide) (by norm_num) (by norm_num)
    (by norm_num) (by norm_num)]
  norm_num

theorem float_quotient_80_5 :
    float32_round (8441037 / 2097152 / (13421773 / 268435456)) = 161 / 2 := by
  rw [float32_round_pos _ 6 10551296 (by decide) (by norm_num) (by norm_num)
    (by norm_num) (by norm_num)]
  norm_num

theorem float_80 : float32_round 80 = 80 := by
  rw [float32_round_pos 80 6 10485760 (by decide) (by norm_num) (by norm_num)
    (by norm_num) (by norm_num)]
  norm_num

theorem float_81 : float32_round 81 = 81 := by
  rw [float32_round_pos 81 6 10616832 (by decide) (by norm_num) (by norm_num)
    (by norm_num) (by norm_num)]
  norm_num

theorem float_80_voxels : float32_round (80 * (13421773 / 268435456)) = 4 := by
  rw [float32_round_pos _ 2 8388608 (by decide) (by norm_num) (by norm_num)
    (by norm_num) (by norm_num)]
  norm_num

theorem float_81_voxels :
    float32_round (81 * (13421773 / 268435456)) = 4246733 / 1048576 := by
  rw [float32_round_pos _ 2 8493466 (by decide) (by norm_num) (by norm_num)
    (by norm_num) (by norm_num)]
  norm_num

theorem float_err_floor :
    float32_round (8441037 / 2097152 - 4) = 52429 / 2097152 := by
  rw [float32_round_pos _ (-6) 13421824 (by decide) (by norm_num) (by norm_num)
    (by norm_num) (by norm_num)]
  norm_num

theorem float_err_ceil :
    float32_round (4246733 / 1048576 - 8441037 / 2097152) = 52429 / 2097152 := by
  rw [float32_round_pos _ (-6) 13421824 (by decide) (by norm_num) (by norm_num)
    (by norm_num) (by norm_num)]
  norm_num

/-- In `float` the two errors of the edge of 4.025 are equal, and the count is the floor. -/
theorem float_placement_80 :
    (calc_voxel_strip_placement float32_arith (8441037 / 2097152)
      (13421773 / 268435456)).voxel_count = 80 := by
  have hfl : ⌊(161 / 2 : ℚ)⌋ = 80 := by
    rw [Int.floor_eq_iff]
    norm_num
  have hce : ⌈(161 / 2 : ℚ)⌉ = 81 := by
    rw [Int.ceil_eq_iff]
    norm_num
  have h80 : float32_to_int (80 : ℚ) = 80 := by
    have h := float32_to_int_cast 80 (by decide) (by decide)
    rw [Int.cast_ofNat] at h
    exact h
  have h81 : float32_to_int (81 : ℚ) = 81 := by
    have h := float32_to_int_cast 81 (by decide) (by decide)
    rw [Int.cast_ofNat] at h
    exact h
  unfold calc_voxel_strip_placement float32_arith
  simp only [float_quotient_80_5, hfl, hce, Int.cast_ofNat, h80, h81, float_80, float_81,
    float_80_voxels, float_81_voxels, float_err_floor, float_err_ceil, lt_self_iff_false,
    if_false]
  decide

/-! ## The strip of an edge of 3000000000 by voxels of 1 in `float` -/

theorem float_3e9 : float32_round 3000000000 = 3000000000 := by
  rw [float32_round_pos 3000000000 31 11718750 (by decide) (by norm_num) (by norm_num)
    (by norm_num) (by norm_num)]
  norm_num

theorem float_int_min : float32_round (-2147483648) = -2147483648 := by
  rw [float32_round_neg (-2147483648) 31 (-8388608) (by decide) (by norm_num) (by norm_num)
    (by norm_num) (by norm_num)]
  norm_num

theorem float_err_large : float32_round 5147483648 = 5147483648 := by
  rw [float32_round_pos 5147483648 32 10053679 (by decide) (by norm_num) (by norm_num)
    (by norm_num) (by norm_num)]
  norm_num

theorem float_err_large_neg : float32_round (-5147483648) = -5147483648 := by
  rw [float32_round_neg (-5147483648) 32 (-10053679) (by decide) (by norm_num) (by norm_num)
    (by norm_num) (by norm_num)]
  norm_num

/-- A quotient beyond the range of `int` makes both converted counts `-2^31`, and the count
is raised to 1. -/
theorem float_placement_overflow :
    (calc_voxel_strip_placement float32_arith 3000000000 1).voxel_count = 1 := by
  have hq : (3000000000 : ℚ) / 1 = 3000000000 := by norm_num
  have hfl : ⌊(3000000000 : ℚ)⌋ = 3000000000 := by
    rw [Int.floor_eq_iff]
    norm_num
  have hce : ⌈(3000000000 : ℚ)⌉ = 3000000000 := by
    rw [Int.ceil_eq_iff]
    norm_num
  have hbig : float32_to_int ((3000000000 : Int) : ℚ) = -2147483648 :=
    float32_to_int_large 3000000000 (by decide)
  have cmin : (((-2147483648 : Int)) : ℚ) = -2147483648 := by norm_num
  have hm : (-2147483648 : ℚ) * 1 = -2147483648 := by norm_num
  have he1 : (3000000000 : ℚ) - -2147483648 = 5147483648 := by norm_num
  have he2 : (-2147483648 : ℚ) - 3000000000 = -5147483648 := by norm_num
  unfold calc_voxel_strip_placement float32_arith
  simp only [hq, float_3e9, hfl, hce, hbig, cmin, float_int_min, hm, he1, he2,
    float_err_large, float_err_large_neg]
  norm_num

/-! ## Theorems on the voxel strips -/

/-- C17, counterexample: in exact arithmetic an edge of length 1/2 with voxel size 1 has its
floor 0 and its ceiling 1 equally close, and the count is 1, the ceiling; in `float`
arithmetic the edge of length `4.025f` with voxel size `0.05f` gets 80 voxels although 81
voxels are strictly closer, because the two rounded errors are equal; and the edge of length
3000000000 with voxel size 1 gets 1 voxel, because the quotient is beyond the range of
`int`. -/
theorem placement_misses_nearest_count :
    (⌊(1 / 2 : ℚ) / 1⌋ = 0 ∧ ⌈(1 / 2 : ℚ) / 1⌉ = 1 ∧
      |((0 : Int) : ℚ) * 1 - 1 / 2| = |((1 : Int) : ℚ) * 1 - 1 / 2| ∧
      (calc_voxel_strip_placement exact_arith (1 / 2) 1).voxel_count = 1) ∧
    (float32_round (161 / 40) = 8441037 / 2097152 ∧
      float32_round (1 / 20) = 13421773 / 268435456 ∧
      (calc_voxel_strip_placement float32_arith (8441037 / 2097152)
        (13421773 / 268435456)).voxel_count = 80 ∧
      |((81 : Int) : ℚ) * (13421773 / 268435456) - 8441037 / 2097152| <
        |((80 : Int) : ℚ) * (13421773 / 268435456) - 8441037 / 2097152|) ∧
    (calc_voxel_strip_placement float32_arith 3000000000 1).voxel_count = 1 := by
  have hfl : ⌊(1 / 2 : ℚ) / 1⌋ = 0 := by
    rw [Int.floor_eq_iff]
    norm_num
  have hce : ⌈(1 / 2 : ℚ) / 1⌉ = 1 := by
    rw [Int.ceil_eq_iff]
    norm_num
  refine ⟨⟨hfl, hce, by norm_num, ?_⟩, ⟨float_4_025, float_0_05, float_placement_80, ?_⟩,
    float_placement_overflow⟩
  · rcases placement_count_cases (1 / 2) 1 (by norm_num) (by norm_num) (by norm_num) with
      ⟨_, h, _⟩ | ⟨_, h, _⟩ | ⟨_, _, h⟩
    · rw [h, hce]
    · omega
    · exact h
  · rw [abs_of_pos (by norm_num), abs_of_neg (by norm_num)]
    norm_num

/-- C17, amended: in exact arithmetic, for an edge length `L ≥ 0` and a voxel size `s > 0` whose
quotient is within the range of `int`, `calc_voxel_strip_placement` returns a voxel count
`n ≥ 1` that minimises `|n·s − L|` over the integers `≥ 1`; among the minimisers it is the
least, so it is `floor(L/s)` rather than `ceil(L/s)` when both are equally close and the floor
is at least 1, and it is 1 when the floor is 0; the offset is `(n·s − L)/2`. In every
arithmetic the count is at least 1 and is the converted floor or ceiling of the rounded
quotient, or 1. -/
theorem placement_minimises_in_exact_arithmetic (L s : ℚ) (hL : 0 ≤ L) (hs : 0 < s)
    (hr : L / s ≤ 2147483647) :
    1 ≤ (calc_voxel_strip_placement exact_arith L s).voxel_count ∧
    (∀ m : Int, 1 ≤ m →
      |((calc_voxel_strip_placement exact_arith L s).voxel_count : ℚ) * s - L| ≤
        |(m : ℚ) * s - L|) ∧
    (∀ m : Int, 1 ≤ m →
      |(m : ℚ) * s - L| =
        |((calc_voxel_strip_placement exact_arith L s).voxel_count : ℚ) * s - L| →
      (calc_voxel_strip_placement exact_arith L s).voxel_count ≤ m) ∧
    (1 ≤ ⌊L / s⌋ → |(⌊L / s⌋ : ℚ) * s - L| = |(⌈L / s⌉ : ℚ) * s - L| →
      (calc_voxel_strip_placement exact_arith L s).voxel_count = ⌊L / s⌋) ∧
    (⌊L / s⌋ = 0 → (calc_voxel_strip_placement exact_arith L s).voxel_count = 1) ∧
    (calc_voxel_strip_placement exact_arith L s).offset_along_edge =
      (((calc_voxel_strip_placement exact_arith L s).voxel_count : ℚ) * s - L) / 2 ∧
    (∀ (A : FloatArith) (L2 s2 : ℚ),
      1 ≤ (calc_voxel_strip_placement A L2 s2).voxel_count ∧
      ((calc_voxel_strip_placement A L2 s2).voxel_count = A.to_int (⌊A.fl (L2 / s2)⌋ : ℚ) ∨
        (calc_voxel_strip_placement A L2 s2).voxel_count = A.to_int (⌈A.fl (L2 / s2)⌉ : ℚ) ∨
        (calc_voxel_strip_placement A L2 s2).voxel_count = 1)) := by
  refine ⟨placement_count_pos _ L s, ?_, ?_, ?_, ?_, placement_offset_eq L s,
    fun A L2 s2 => ⟨placement_count_pos A L2 s2, placement_count_choice A L2 s2⟩⟩
  · intro m hm
    rw [strip_error_eq L s hs, strip_error_eq L s hs]
    exact mul_le_mul_of_nonneg_right (placement_nearest L s hL hs hr m hm).1 (le_of_lt hs)
  · intro m hm heq
    rw [strip_error_eq L s hs, strip_error_eq L s hs] at heq
    exact (placement_nearest L s hL hs hr m hm).2 (mul_right_cancel₀ (ne_of_gt hs) heq)
  · intro hf heq
    rw [strip_error_eq L s hs, strip_error_eq L s hs] at heq
    have heq2 := mul_right_cancel₀ (ne_of_gt hs) heq
    rw [abs_of_nonpos (sub_nonpos.2 (Int.floor_le _)),
      abs_of_nonneg (sub_nonneg.2 (Int.le_ceil _))] at heq2
    rcases placement_count_cases L s hL hs hr with ⟨h5, _, _⟩ | ⟨_, _, h5⟩ | ⟨_, h5, _⟩
    · linarith
    · exact h5
    · omega
  · intro hf
    have hc2 : ⌈L / s⌉ ≤ ⌊L / s⌋ + 1 := Int.ceil_le_floor_add_one _
    have hc0 : 0 ≤ ⌈L / s⌉ := Int.ceil_nonneg (div_nonneg hL (le_of_lt hs))
    rcases placement_count_cases L s hL hs hr with ⟨_, h5, h6⟩ | ⟨_, h5, _⟩ | ⟨_, _, h5⟩
    · rw [h5, h6, hf]
      rfl
    · omega
    · exact h5

/-- Witness of C17: the length 5/2 with voxel size 1 lies midway between 2 and 3 voxels, and
the count is the floor, 2. -/
theorem placement_minimises_in_exact_arithmetic_witness :
    ((0 : ℚ) ≤ 5 / 2 ∧ (0 : ℚ) < 1 ∧ (5 / 2 : ℚ) / 1 ≤ 2147483647) ∧
    (calc_voxel_strip_placement exact_arith (5 / 2) 1).voxel_count = 2 := by
  refine ⟨⟨by norm_num, by norm_num, by norm_num⟩, ?_⟩
  have hf : ⌊(5 / 2 : ℚ) / 1⌋ = 2 := by
    rw [Int.floor_eq_iff]
    norm_num
  have hc : ⌈(5 / 2 : ℚ) / 1⌉ = 3 := by
    rw [Int.ceil_eq_iff]
    norm_num
  have h := (placement_minimises_in_exact_arithmetic (5 / 2) 1 (by norm_num) (by norm_num)
    (by norm_num)).2.2.2.1
  rw [hf, hc] at h
  exact h (by decide) (by norm_num)

/-! ## Lemmas on `split_single_edge` -/

theorem split_single_edge_short (A : FloatArith) (segment_length : Vec3 → Vec3 → ℚ)
    (edge : Edge) (vertices : List Vec3) (voxel_size : ℚ)
    (h : edge.length ≤ A.fl (A.fl 256 * voxel_size)) :
    split_single_edge A segment_length edge vertices voxel_size = ([edge], vertices) := by
  unfold split_single_edge
  simp only [MAX_VOX_SIZE]
  rw [if_pos (by push_cast; exact h)]

/-- An edge longer than `maxLength` for which the segment count is 1 is not split. -/
theorem split_single_edge_count_one (A : FloatArith) (segment_length : Vec3 → Vec3 → ℚ)
    (edge : Edge) (vertices : List Vec3) (voxel_size : ℚ)
    (h1 : A.fl (A.fl 256 * voxel_size) < edge.length)
    (hnum : calc_voxel_strip_length A edge.length
      (A.fl (A.fl (A.fl 256 * voxel_size) * 1)) 1 = 1) :
    split_single_edge A segment_length edge vertices voxel_size =
      ([{ start_index := edge.start_index
          end_index := edge.end_index
          length := segment_length (vertex_at vertices edge.start_index)
            (vertex_at vertices edge.end_index)
          is_aligned := false }], vertices) := by
  unfold split_single_edge
  simp only [MAX_VOX_SIZE]
  rw [if_neg (by push_cast; exact not_le.2 h1)]
  push_cast
  simp only [hnum]
  have hr : (List.range (Int.toNat 1)).map (fun k : Nat => (k : Int) + 1) = [1] := by decide
  rw [hr]
  simp only [List.foldl_cons, List.foldl_nil, split_step, ↓reduceIte, List.nil_append]

/-- In exact arithmetic an edge longer than 256 voxels and shorter than 512 voxels is not
split: the segment count is `floor(length / (256 · voxel_size)) = 1`. -/
theorem split_single_edge_one_segment (segment_length : Vec3 → Vec3 → ℚ) (edge : Edge)
    (vertices : List Vec3) (voxel_size : ℚ) (hs : 0 < voxel_size)
    (h1 : 256 * voxel_size < edge.length) (h2 : edge.length < 512 * voxel_size) :
    split_single_edge exact_arith segment_length edge vertices voxel_size =
      ([{ start_index := edge.start_index
          end_index := edge.end_index
          length := segment_length (vertex_at vertices edge.start_index)
            (vertex_at vertices edge.end_index)
          is_aligned := false }], vertices) := by
  have hfloor : ⌊edge.length / (256 * voxel_size * 1)⌋ = 1 := by
    rw [Int.floor_eq_iff]
    have hpos : (0 : ℚ) < 256 * voxel_size * 1 := by linarith
    constructor
    · rw [le_div_iff₀ hpos]
      push_cast
      linarith
    · rw [div_lt_iff₀ hpos]
      push_cast
      linarith
  apply split_single_edge_count_one
  · exact h1
  · unfold calc_voxel_strip_length exact_arith
    simp only [id_eq, hfloor]
    rw [float32_to_int_cast 1 (by decide) (by decide)]
    rfl

theorem float_256 : float32_round 256 = 256 := by
  rw [float32_round_pos 256 8 8388608 (by decide) (by norm_num) (by norm_num)
    (by norm_num) (by norm_num)]
  norm_num

theorem float_300_by_256 : float32_round (300 / 256) = 75 / 64 := by
  rw [float32_round_pos _ 0 9830400 (by decide) (by norm_num) (by norm_num)
    (by norm_num) (by norm_num)]
  norm_num

/-- In `float` arithmetic the edge of length 300 with voxel size 1 is not split. -/
theorem float_split_300 (segment_length : Vec3 → Vec3 → ℚ) :
    split_single_edge float32_arith segment_length ⟨0, 1, 300, true⟩
      [⟨0, 0, 0⟩, ⟨300, 0, 0⟩] 1 =
      ([⟨0, 1, segment_length ⟨0, 0, 0⟩ ⟨300, 0, 0⟩, false⟩], [⟨0, 0, 0⟩, ⟨300, 0, 0⟩]) := by
  have hmax : float32_round (float32_round 256 * 1) = 256 := by
    rw [float_256, mul_one, float_256]
  have hfloor : ⌊(75 / 64 : ℚ)⌋ = 1 := by
    rw [Int.floor_eq_iff]
    norm_num
  rw [split_single_edge_count_one]
  · rfl
  · show float32_round (float32_round 256 * 1) < 300
    rw [hmax]
    norm_num
  · show calc_voxel_strip_length float32_arith 300
      (float32_round (float32_round (float32_round 256 * 1) * 1)) 1 = 1
    rw [hmax, mul_one, float_256]
    unfold calc_voxel_strip_length float32_arith
    simp only [float_300_by_256, hfloor]
    rw [float32_to_int_cast 1 (by decide) (by decide)]
    rfl

/-- The quotient `1.0f / 0.1f` rounds to 10, so that the strip has 10 voxels, one more than
the floor of the exact quotient. -/
theorem float_strip_length_10 :
    float32_round (1 / 10) = 13421773 / 134217728 ∧
    calc_voxel_strip_length float32_arith 1 (13421773 / 134217728) 1 = 10 ∧
    ⌊(1 : ℚ) / (13421773 / 134217728)⌋ = 9 := by
  have h1 : float32_round (1 / 10) = 13421773 / 134217728 := by
    rw [float32_round_pos (1 / 10) (-4) 13421773 (by decide) (by norm_num) (by norm_num)
      (by norm_num) (by norm_num)]
    norm_num
  have h2 : float32_round (1 / (13421773 / 134217728)) = 10 := by
    rw [float32_round_pos _ 3 10485760 (by decide) (by norm_num) (by norm_num)
      (by norm_num) (by norm_num)]
    norm_num
  have hfloor : ⌊(10 : ℚ)⌋ = 10 := by
    rw [Int.floor_eq_iff]
    norm_num
  refine ⟨h1, ?_, ?_⟩
  · unfold calc_voxel_strip_length float32_arith
    simp only [h2, hfloor]
    rw [float32_to_int_cast 10 (by decide) (by decide)]
    rfl
  · rw [Int.floor_eq_iff]
    norm_num

/-- A quotient beyond the range of `int` gives the strip length 1. -/
theorem float_strip_length_overflow :
    calc_voxel_strip_length float32_arith 3000000000 1 1 = 1 := by
  have hq : (3000000000 : ℚ) / 1 = 3000000000 := by norm_num
  have hfl : ⌊(3000000000 : ℚ)⌋ = 3000000000 := by
    rw [Int.floor_eq_iff]
    norm_num
  have hbig : float32_to_int ((3000000000 : Int) : ℚ) = -2147483648 :=
    float32_to_int_large 3000000000 (by decide)
  unfold calc_voxel_strip_length float32_arith
  simp only [hq, float_3e9, hfl, hbig]
  decide

/-! ## Theorems on `split_single_edge` -/

/-- C20 refuted by the code: the edge of length 300 from `(0, 0, 0)` to `(300, 0, 0)` with
voxel size 1 is longer than 256 voxels, yet `split_single_edge` returns a single segment from
the start vertex to the end vertex (with the flag `is_aligned` reset) and adds no vertex, since
the segment count is `floor(300 / 256) = 1`; this holds in exact arithmetic and in `float`
arithmetic, where every value of this run is exact. -/
theorem long_edge_returned_as_one_segment (segment_length : Vec3 → Vec3 → ℚ) :
    (256 : ℚ) * 1 < (⟨0, 1, 300, true⟩ : Edge).length ∧
    split_single_edge exact_arith segment_length ⟨0, 1, 300, true⟩
      [⟨0, 0, 0⟩, ⟨300, 0, 0⟩] 1 =
      ([⟨0, 1, segment_length ⟨0, 0, 0⟩ ⟨300, 0, 0⟩, false⟩], [⟨0, 0, 0⟩, ⟨300, 0, 0⟩]) ∧
    (split_single_edge exact_arith segment_length ⟨0, 1, 300, true⟩
      [⟨0, 0, 0⟩, ⟨300, 0, 0⟩] 1).1.length = 1 ∧
    split_single_edge float32_arith segment_length ⟨0, 1, 300, true⟩
      [⟨0, 0, 0⟩, ⟨300, 0, 0⟩] 1 =
      ([⟨0, 1, segment_length ⟨0, 0, 0⟩ ⟨300, 0, 0⟩, false⟩], [⟨0, 0, 0⟩, ⟨300, 0, 0⟩]) ∧
    (split_single_edge float32_arith segment_length ⟨0, 1, 300, true⟩
      [⟨0, 0, 0⟩, ⟨300, 0, 0⟩] 1).1.length = 1 := by
  have h := split_single_edge_one_segment segment_length ⟨0, 1, 300, true⟩
    [⟨0, 0, 0⟩, ⟨300, 0, 0⟩] 1 (by norm_num) (by norm_num) (by norm_num)
  have hf := float_split_300 segment_length
  refine ⟨by norm_num, ?_, ?_, hf, ?_⟩
  · rw [h]
    rfl
  · rw [h]
    rfl
  · rw [hf]
    rfl

/-! ## Lemmas on the nested loops over a grid -/

theorem grid_row_inv {σ : Type} (w : Nat) (body : Nat → Nat → σ → σ) (vy : Nat)
    (P : Nat → σ → Prop)
    (hstep : ∀ vx st, vx < w → P (vx + vy * w) st → P (vx + vy * w + 1) (body vx vy st))
    (m : Nat) (hm : m ≤ w) (st : σ) (h0 : P (vy * w) st) :
    P (m + vy * w) ((List.range m).foldl (fun st vx => body vx vy st) st) := by
  induction m with
  | zero => simpa using h0
  | succ m ih =>
    rw [List.range_succ, List.foldl_append]
    simp only [List.foldl_cons, List.foldl_nil]
    have h := hstep m _ (by omega) (ih (by omega))
    have e : m + 1 + vy * w = m + vy * w + 1 := by omega
    rw [e]
    exact h

theorem grid_loop_inv {σ : Type} (w h : Nat) (body : Nat → Nat → σ → σ) (init : σ)
    (P : Nat → σ → Prop) (h0 : P 0 init)
    (hstep : ∀ vx vy st, vx < w → vy < h → P (vx + vy * w) st →
      P (vx + vy * w + 1) (body vx vy st)) :
    P (w * h) (grid_loop w h body init) := by
  have hrows : ∀ n, n ≤ h → P (n * w) ((List.range n).foldl
      (fun st vy => (List.range w).foldl (fun st vx => body vx vy st) st) init) := by
    intro n
    induction n with
    | zero =>
      intro _
      simpa using h0
    | succ n ih =>
      intro hn
      rw [List.range_succ, List.foldl_append]
      simp only [List.foldl_cons, List.foldl_nil]
      have hrow := grid_row_inv w body n P (fun vx st hvx => hstep vx n st hvx (by omega))
        w (le_refl w) _ (ih (by omega))
      have e : (n + 1) * w = w + n * w := by ring
      rw [e]
      exact hrow
  have := hrows h (le_refl h)
  rw [Nat.mul_comm]
  exact this

theorem cell_mod (w vx vy : Nat) (hvx : vx < w) : (vx + vy * w) % w = vx := by
  rw [Nat.add_mul_mod_self_right, Nat.mod_eq_of_lt hvx]

theorem cell_div (w vx vy : Nat) (hvx : vx < w) : (vx + vy * w) / w = vy := by
  rw [Nat.add_mul_div_right _ _ (by omega), Nat.div_eq_of_lt hvx, Nat.zero_add]

theorem cell_lt (w h vx vy : Nat) (hvx : vx < w) (hvy : vy < h) : vx + vy * w < w * h := by
  have h1 : (vy + 1) * w ≤ h * w := Nat.mul_le_mul_right w hvy
  have h2 : (vy + 1) * w = vy * w + w := by ring
  have h3 : h * w = w * h := Nat.mul_comm h w
  omega

theorem cell_decompose (w h j : Nat) (hj : j < w * h) :
    j % w < w ∧ j / w < h ∧ j = j % w + j / w * w := by
  have hw : 0 < w := by
    rcases Nat.eq_zero_or_pos w with h0 | h0
    · rw [h0, Nat.zero_mul] at hj
      omega
    · exact h0
  refine ⟨Nat.mod_lt _ hw, ?_, ?_⟩
  · exact Nat.div_lt_of_lt_mul hj
  · have := Nat.mod_add_div j w
    rw [Nat.mul_comm] at this
    omega

theorem getD_set (l : List Nat) (i j a : Nat) :
    (l.set i a).getD j 0 = if i = j ∧ i < l.length then a else l.getD j 0 := by
  simp only [List.getD_eq_getElem?_getD, List.getElem?_set]
  by_cases hij : i = j
  · subst hij
    by_cases hi : i < l.length
    · simp [hi]
    · simp [hi, List.getElem?_eq_none (not_lt.1 hi)]
  · simp [hij]

/-! ## Lemmas on the rasterisation and the crop of a tile -/

theorem rasterize_tile_spec (final_index : Nat → Nat → Nat) (w h : Nat) :
    (rasterize_tile final_index w h).tempVoxelData.length = w * h ∧
    (∀ j, j < w * h →
      (rasterize_tile final_index w h).tempVoxelData.getD j 0 = final_index (j % w) (j / w)) ∧
    ((rasterize_tile final_index w h).has_solid_voxel = true ↔
      ∃ j, j < w * h ∧ final_index (j % w) (j / w) ≠ 0) := by
  have key := grid_loop_inv w h (rasterize_cell final_index w)
    { tempVoxelData := List.replicate (w * h) 0, has_solid_voxel := false }
    (fun k buf => buf.tempVoxelData.length = w * h ∧
      (∀ j, j < k → buf.tempVoxelData.getD j 0 = final_index (j % w) (j / w)) ∧
      (∀ j, k ≤ j → buf.tempVoxelData.getD j 0 = 0) ∧
      (buf.has_solid_voxel = true ↔ ∃ j, j < k ∧ final_index (j % w) (j / w) ≠ 0))
    (by
      refine ⟨by simp, by intro j hj; omega, ?_, by simp⟩
      intro j _
      simp only [List.getD_eq_getElem?_getD, List.getElem?_replicate]
      split_ifs <;> rfl)
    (by
      intro vx vy st hvx hvy ⟨hlen, hlow, hhigh, hflag⟩
      have hm := cell_mod w vx vy hvx
      have hd := cell_div w vx vy hvx
      have hlt := cell_lt w h vx vy hvx hvy
      unfold rasterize_cell
      by_cases hnz : final_index vx vy ≠ 0
      · rw [if_pos hnz]
        refine ⟨by simpa using hlen, ?_, ?_, ?_⟩
        · intro j hj
          simp only [getD_set]
          by_cases hjk : vx + vy * w = j
          · rw [if_pos ⟨hjk, by omega⟩, ← hjk, hm, hd]
          · rw [if_neg (fun hc => hjk hc.1)]
            exact hlow j (by omega)
        · intro j hj
          simp only [getD_set]
          rw [if_neg (fun hc => by omega)]
          exact hhigh j (by omega)
        · constructor
          · intro _
            exact ⟨vx + vy * w, by omega, by rw [hm, hd]; exact hnz⟩
          · intro _
            rfl
      · rw [if_neg hnz]
        have hz : final_index vx vy = 0 := not_not.1 hnz
        refine ⟨hlen, ?_, ?_, ?_⟩
        · intro j hj
          by_cases hjk : j = vx + vy * w
          · rw [hjk, hm, hd, hz]
            exact hhigh _ (le_refl _)
          · exact hlow j (by omega)
        · intro j hj
          exact hhigh j (by omega)
        · rw [hflag]
          constructor
          · rintro ⟨j, hj, hne⟩
            exact ⟨j, by omega, hne⟩
          · rintro ⟨j, hj, hne⟩
            have hjk : j ≠ vx + vy * w := by
              intro hc
              rw [hc, hm, hd] at hne
              exact hne hz
            exact ⟨j, by omega, hne⟩)
  exact ⟨key.1, key.2.1, key.2.2.2⟩

/-- The bounds that `scan_bounds` finds: they contain every non-zero cell, and when there is a
non-zero cell each bound is attained by one. -/
theorem scan_bounds_spec (data : List Nat) (w h : Nat) :
    (∀ j, j < w * h → data.getD j 0 ≠ 0 →
      (scan_bounds data w h).min_vx ≤ ((j % w : Nat) : Int) ∧
      ((j % w : Nat) : Int) ≤ (scan_bounds data w h).max_vx ∧
      (scan_bounds data w h).min_vy ≤ ((j / w : Nat) : Int) ∧
      ((j / w : Nat) : Int) ≤ (scan_bounds data w h).max_vy) ∧
    ((∀ j, j < w * h → data.getD j 0 = 0) ∨
      ((∃ j, j < w * h ∧ data.getD j 0 ≠ 0 ∧
          ((j % w : Nat) : Int) = (scan_bounds data w h).min_vx) ∧
        (∃ j, j < w * h ∧ data.getD j 0 ≠ 0 ∧
          ((j % w : Nat) : Int) = (scan_bounds data w h).max_vx) ∧
        (∃ j, j < w * h ∧ data.getD j 0 ≠ 0 ∧
          ((j / w : Nat) : Int) = (scan_bounds data w h).min_vy) ∧
        (∃ j, j < w * h ∧ data.getD j 0 ≠ 0 ∧
          ((j / w : Nat) : Int) = (scan_bounds data w h).max_vy))) := by
  have key := grid_loop_inv w h (scan_cell data w)
    { min_vx := w, max_vx := -1, min_vy := h, max_vy := -1 }
    (fun k b =>
      (∀ j, j < k → data.getD j 0 ≠ 0 →
        b.min_vx ≤ ((j % w : Nat) : Int) ∧ ((j % w : Nat) : Int) ≤ b.max_vx ∧
        b.min_vy ≤ ((j / w : Nat) : Int) ∧ ((j / w : Nat) : Int) ≤ b.max_vy) ∧
      (((b.min_vx = w ∧ b.max_vx = -1 ∧ b.min_vy = h ∧ b.max_vy = -1) ∧
          ∀ j, j < k → data.getD j 0 = 0) ∨
        ((∃ j, j < k ∧ data.getD j 0 ≠ 0 ∧ ((j % w : Nat) : Int) = b.min_vx) ∧
          (∃ j, j < k ∧ data.getD j 0 ≠ 0 ∧ ((j % w : Nat) : Int) = b.max_vx) ∧
          (∃ j, j < k ∧ data.getD j 0 ≠ 0 ∧ ((j / w : Nat) : Int) = b.min_vy) ∧
          (∃ j, j < k ∧ data.getD j 0 ≠ 0 ∧ ((j / w : Nat) : Int) = b.max_vy))))
    (by
      refine ⟨by intro j hj; omega, Or.inl ⟨⟨rfl, rfl, rfl, rfl⟩, by intro j hj; omega⟩⟩)
    (by
      intro vx vy b hvx hvy ⟨hcont, hwit⟩
      have hm := cell_mod w vx vy hvx
      have hd := cell_div w vx vy hvx
      unfold scan_cell
      by_cases hnz : data.getD (vx + vy * w) 0 ≠ 0
      · rw [if_pos hnz]
        simp only
        constructor
        · intro j hj hjnz
          by_cases hjk : j = vx + vy * w
          · rw [hjk, hm, hd]
            omega
          · have := hcont j (by omega) hjnz
            omega
        · right
          rcases hwit with ⟨⟨h1, h2, h3, h4⟩, _⟩ | ⟨⟨j1, hj1, hn1, he1⟩, ⟨j2, hj2, hn2, he2⟩,
              ⟨j3, hj3, hn3, he3⟩, ⟨j4, hj4, hn4, he4⟩⟩
          · refine ⟨⟨vx + vy * w, by omega, hnz, ?_⟩, ⟨vx + vy * w, by omega, hnz, ?_⟩,
              ⟨vx + vy * w, by omega, hnz, ?_⟩, ⟨vx + vy * w, by omega, hnz, ?_⟩⟩
            · rw [hm]
              omega
            · rw [hm]
              omega
            · rw [hd]
              omega
            · rw [hd]
              omega
          · refine ⟨?_, ?_, ?_, ?_⟩
            · by_cases hc : b.min_vx ≤ (vx : Int)
              · exact ⟨j1, by omega, hn1, by omega⟩
              · exact ⟨vx + vy * w, by omega, hnz, by rw [hm]; omega⟩
            · by_cases hc : (vx : Int) ≤ b.max_vx
              · exact ⟨j2, by omega, hn2, by omega⟩
              · exact ⟨vx + vy * w, by omega, hnz, by rw [hm]; omega⟩
            · by_cases hc : b.min_vy ≤ (vy : Int)
              · exact ⟨j3, by omega, hn3, by omega⟩
              · exact ⟨vx + vy * w, by omega, hnz, by rw [hd]; omega⟩
            · by_cases hc : (vy : Int) ≤ b.max_vy
              · exact ⟨j4, by omega, hn4, by omega⟩
              · exact ⟨vx + vy * w, by omega, hnz, by rw [hd]; omega⟩
      · rw [if_neg hnz]
        have hz : data.getD (vx + vy * w) 0 = 0 := not_not.1 hnz
        constructor
        · intro j hj hjnz
          have hjk : j ≠ vx + vy * w := by
            intro hc
            rw [hc] at hjnz
            exact hjnz hz
          exact hcont j (by omega) hjnz
        · rcases hwit with ⟨hb, hall⟩ | ⟨⟨j1, hj1, hn1, he1⟩, ⟨j2, hj2, hn2, he2⟩,
              ⟨j3, hj3, hn3, he3⟩, ⟨j4, hj4, hn4, he4⟩⟩
          · left
            refine ⟨hb, ?_⟩
            intro j hj
            by_cases hjk : j = vx + vy * w
            · rw [hjk]
              exact hz
            · exact hall j (by omega)
          · right
            exact ⟨⟨j1, by omega, hn1, he1⟩, ⟨j2, by omega, hn2, he2⟩,
              ⟨j3, by omega, hn3, he3⟩, ⟨j4, by omega, hn4, he4⟩⟩)
  refine ⟨key.1, ?_⟩
  rcases key.2 with ⟨_, hall⟩ | hw
  · exact Or.inl hall
  · exact Or.inr hw

theorem copy_loop_spec (data : List Nat) (subSizeX : Nat) (b : CropBounds) (finalSizeX : Int)
    (fh : Nat) :
    (grid_loop finalSizeX.toNat fh (copy_cell data subSizeX b finalSizeX)
      (List.replicate (finalSizeX.toNat * fh) 0)).length = finalSizeX.toNat * fh ∧
    ∀ j, j < finalSizeX.toNat * fh →
      (grid_loop finalSizeX.toNat fh (copy_cell data subSizeX b finalSizeX)
        (List.replicate (finalSizeX.toNat * fh) 0)).getD j 0 =
      data.getD ((b.min_vx + ((j % finalSizeX.toNat : Nat) : Int) +
        (b.min_vy + ((j / finalSizeX.toNat : Nat) : Int)) * subSizeX).toNat) 0 := by
  have key := grid_loop_inv finalSizeX.toNat fh (copy_cell data subSizeX b finalSizeX)
    (List.replicate (finalSizeX.toNat * fh) 0)
    (fun k out => out.length = finalSizeX.toNat * fh ∧
      ∀ j, j < k → out.getD j 0 =
        data.getD ((b.min_vx + ((j % finalSizeX.toNat : Nat) : Int) +
          (b.min_vy + ((j / finalSizeX.toNat : Nat) : Int)) * subSizeX).toNat) 0)
    (by
      refine ⟨by simp, ?_⟩
      intro j hj
      omega)
    (by
      intro vx vy out hvx hvy ⟨hlen, hlow⟩
      have hm := cell_mod _ vx vy hvx
      have hd := cell_div _ vx vy hvx
      have hlt := cell_lt _ fh vx vy hvx hvy
      unfold copy_cell
      refine ⟨by simpa using hlen, ?_⟩
      intro j hj
      simp only [getD_set]
      by_cases hjk : vx + vy * finalSizeX.toNat = j
      · rw [if_pos ⟨hjk, by omega⟩, ← hjk, hm, hd]
      · rw [if_neg (fun hc => hjk hc.1)]
        exact hlow j (by omega))
  exact key

/-- The crop of a buffer with a non-zero cell: the bounds are natural numbers inside the tile,
and the model is the rectangle they span. -/
theorem crop_tile_spec (buf : TileBuffer) (w h : Nat) (hflag : buf.has_solid_voxel = true)
    (hex : ∃ j, j < w * h ∧ buf.tempVoxelData.getD j 0 ≠ 0) :
    ∃ min_vx max_vx min_vy max_vy : Nat, ∃ model : VoxModel,
      crop_tile buf w h = some model ∧
      (scan_bounds buf.tempVoxelData w h).min_vx = (min_vx : Int) ∧
      (scan_bounds buf.tempVoxelData w h).max_vx = (max_vx : Int) ∧
      (scan_bounds buf.tempVoxelData w h).min_vy = (min_vy : Int) ∧
      (scan_bounds buf.tempVoxelData w h).max_vy = (max_vy : Int) ∧
      min_vx ≤ max_vx ∧ max_vx < w ∧ min_vy ≤ max_vy ∧ max_vy < h ∧
      model.size_x = ((max_vx - min_vx + 1 : Nat) : Int) ∧
      model.size_y = ((max_vy - min_vy + 1 : Nat) : Int) ∧
      model.size_z = 1 ∧
      model.voxel_data.length = (max_vx - min_vx + 1) * (max_vy - min_vy + 1) ∧
      (∀ x y, x ≤ max_vx - min_vx → y ≤ max_vy - min_vy →
        model.voxel_data.getD (x + y * (max_vx - min_vx + 1)) 0 =
          buf.tempVoxelData.getD ((min_vx + x) + (min_vy + y) * w) 0) ∧
      (∀ x y, x < w → y < h → buf.tempVoxelData.getD (x + y * w) 0 ≠ 0 →
        min_vx ≤ x ∧ x ≤ max_vx ∧ min_vy ≤ y ∧ y ≤ max_vy) ∧
      (∃ y, min_vy ≤ y ∧ y ≤ max_vy ∧ buf.tempVoxelData.getD (min_vx + y * w) 0 ≠ 0) ∧
      (∃ y, min_vy ≤ y ∧ y ≤ max_vy ∧ buf.tempVoxelData.getD (max_vx + y * w) 0 ≠ 0) ∧
      (∃ x, min_vx ≤ x ∧ x ≤ max_vx ∧ buf.tempVoxelData.getD (x + min_vy * w) 0 ≠ 0) ∧
      (∃ x, min_vx ≤ x ∧ x ≤ max_vx ∧ buf.tempVoxelData.getD (x + max_vy * w) 0 ≠ 0) := by
  obtain ⟨hcont, hwit⟩ := scan_bounds_spec buf.tempVoxelData w h
  rcases hwit with hall | ⟨⟨j1, hj1, hn1, he1⟩, ⟨j2, hj2, hn2, he2⟩, ⟨j3, hj3, hn3, he3⟩,
      ⟨j4, hj4, hn4, he4⟩⟩
  · obtain ⟨j, hj, hne⟩ := hex
    exact absurd (hall j hj) hne
  have hd1 := cell_decompose w h j1 hj1
  have hd2 := cell_decompose w h j2 hj2
  have hd3 := cell_decompose w h j3 hj3
  have hd4 := cell_decompose w h j4 hj4
  have hc1 := hcont j1 hj1 hn1
  have hc2 := hcont j2 hj2 hn2
  have hc3 := hcont j3 hj3 hn3
  have hc4 := hcont j4 hj4 hn4
  have hcontxy : ∀ x y, x < w → y < h → buf.tempVoxelData.getD (x + y * w) 0 ≠ 0 →
      j1 % w ≤ x ∧ x ≤ j2 % w ∧ j3 / w ≤ y ∧ y ≤ j4 / w := by
    intro x y hx hy hne
    have := hcont (x + y * w) (cell_lt w h x y hx hy) hne
    rw [cell_mod w x y hx, cell_div w x y hx] at this
    omega
  have hfx : (scan_bounds buf.tempVoxelData w h).max_vx -
      (scan_bounds buf.tempVoxelData w h).min_vx + 1 = ((j2 % w - j1 % w + 1 : Nat) : Int) := by
    omega
  have hfy : (scan_bounds buf.tempVoxelData w h).max_vy -
      (scan_bounds buf.tempVoxelData w h).min_vy + 1 = ((j4 / w - j3 / w + 1 : Nat) : Int) := by
    omega
  have hcopy := copy_loop_spec buf.tempVoxelData w (scan_bounds buf.tempVoxelData w h)
    ((j2 % w - j1 % w + 1 : Nat) : Int) (j4 / w - j3 / w + 1)
  rw [Int.toNat_natCast] at hcopy
  refine ⟨j1 % w, j2 % w, j3 / w, j4 / w,
    { size_x := ((j2 % w - j1 % w + 1 : Nat) : Int)
      size_y := ((j4 / w - j3 / w + 1 : Nat) : Int)
      size_z := 1
      voxel_data := grid_loop (j2 % w - j1 % w + 1) (j4 / w - j3 / w + 1)
        (copy_cell buf.tempVoxelData w (scan_bounds buf.tempVoxelData w h)
          ((j2 % w - j1 % w + 1 : Nat) : Int))
        (List.replicate ((j2 % w - j1 % w + 1) * (j4 / w - j3 / w + 1)) 0) },
    ?_, he1.symm, he2.symm, he3.symm, he4.symm, by omega, hd2.1, by omega, hd4.2.1,
    rfl, rfl, rfl, hcopy.1, ?_, ?_, ?_, ?_, ?_, ?_⟩
  · unfold crop_tile
    rw [if_pos hflag]
    simp only [hfx, hfy]
    rw [← Nat.cast_mul, Int.toNat_natCast, Int.toNat_natCast, Int.toNat_natCast]
  · intro x y hx hy
    have hxlt : x < j2 % w - j1 % w + 1 := by omega
    have hylt : y < j4 / w - j3 / w + 1 := by omega
    have hidx := cell_lt _ _ x y hxlt hylt
    simp only
    rw [hcopy.2 _ hidx, cell_mod _ x y hxlt, cell_div _ x y hxlt, ← he1, ← he3]
    have e : (((j1 % w : Nat) : Int) + (x : Int) + (((j3 / w : Nat) : Int) + (y : Int)) * (w : Int))
        = ((j1 % w + x + (j3 / w + y) * w : Nat) : Int) := by
      push_cast
      ring
    rw [e, Int.toNat_natCast]
  · exact hcontxy
  · refine ⟨j1 / w, ?_, ?_, ?_⟩
    · have := hc1.2.2.1
      omega
    · have := hc1.2.2.2
      omega
    · rw [← hd1.2.2]
      exact hn1
  · refine ⟨j2 / w, ?_, ?_, ?_⟩
    · have := hc2.2.2.1
      omega
    · have := hc2.2.2.2
      omega
    · rw [← hd2.2.2]
      exact hn2
  · refine ⟨j3 % w, ?_, ?_, ?_⟩
    · have := hc3.1
      omega
    · have := hc3.2.1
      omega
    · rw [← hd3.2.2]
      exact hn3
  · refine ⟨j4 % w, ?_, ?_, ?_⟩
    · have := hc4.1
      omega
    · have := hc4.2.1
      omega
    · rw [← hd4.2.2]
      exact hn4

theorem rasterize_flag_iff (final_index : Nat → Nat → Nat) (w h : Nat) :
    (rasterize_tile final_index w h).has_solid_voxel = true ↔
      ∃ j, j < w * h ∧ (rasterize_tile final_index w h).tempVoxelData.getD j 0 ≠ 0 := by
  obtain ⟨_, hcell, hflag⟩ := rasterize_tile_spec final_index w h
  rw [hflag]
  constructor
  · rintro ⟨j, hj, hne⟩
    exact ⟨j, hj, by rw [hcell j hj]; exact hne⟩
  · rintro ⟨j, hj, hne⟩
    exact ⟨j, hj, by rw [← hcell j hj]; exact hne⟩

/-- C19: for the rasterised buffer of a tile of `create_final_models`: when no cell is
non-zero, no model is emitted; otherwise the emitted grid is the rectangle that spans the least
and the greatest `x` and `y` of the non-zero cells, so that its first and last column and its
first and last row each hold a non-zero cell, the cell `(x, y)` of the model is the cell
`(min_vx + x, min_vy + y)` of the buffer, and every non-zero cell of the buffer lies in the
rectangle. -/
theorem crop_is_tight_bounding_rectangle (final_index : Nat → Nat → Nat) (w h : Nat)
    (buf : TileBuffer) (hbuf : buf = rasterize_tile final_index w h) :
    (∀ x y, x < w → y < h → buf.tempVoxelData.getD (x + y * w) 0 = final_index x y) ∧
    ((∀ x y, x < w → y < h → buf.tempVoxelData.getD (x + y * w) 0 = 0) →
      crop_tile buf w h = none) ∧
    ((∃ x y, x < w ∧ y < h ∧ buf.tempVoxelData.getD (x + y * w) 0 ≠ 0) →
      ∃ min_vx max_vx min_vy max_vy : Nat, ∃ model : VoxModel,
        crop_tile buf w h = some model ∧
        (scan_bounds buf.tempVoxelData w h).min_vx = (min_vx : Int) ∧
        (scan_bounds buf.tempVoxelData w h).max_vx = (max_vx : Int) ∧
        (scan_bounds buf.tempVoxelData w h).min_vy = (min_vy : Int) ∧
        (scan_bounds buf.tempVoxelData w h).max_vy = (max_vy : Int) ∧
        min_vx ≤ max_vx ∧ max_vx < w ∧ min_vy ≤ max_vy ∧ max_vy < h ∧
        model.size_x = ((max_vx - min_vx + 1 : Nat) : Int) ∧
        model.size_y = ((max_vy - min_vy + 1 : Nat) : Int) ∧
        model.size_z = 1 ∧
        model.voxel_data.length = (max_vx - min_vx + 1) * (max_vy - min_vy + 1) ∧
        (∀ x y, x ≤ max_vx - min_vx → y ≤ max_vy - min_vy →
          model.voxel_data.getD (x + y * (max_vx - min_vx + 1)) 0 =
            buf.tempVoxelData.getD ((min_vx + x) + (min_vy + y) * w) 0) ∧
        (∀ x y, x < w → y < h → buf.tempVoxelData.getD (x + y * w) 0 ≠ 0 →
          min_vx ≤ x ∧ x ≤ max_vx ∧ min_vy ≤ y ∧ y ≤ max_vy) ∧
        (∃ y, y ≤ max_vy - min_vy ∧
          model.voxel_data.getD (0 + y * (max_vx - min_vx + 1)) 0 ≠ 0) ∧
        (∃ y, y ≤ max_vy - min_vy ∧
          model.voxel_data.getD ((max_vx - min_vx) + y * (max_vx - min_vx + 1)) 0 ≠ 0) ∧
        (∃ x, x ≤ max_vx - min_vx ∧
          model.voxel_data.getD (x + 0 * (max_vx - min_vx + 1)) 0 ≠ 0) ∧
        (∃ x, x ≤ max_vx - min_vx ∧
          model.voxel_data.getD (x + (max_vy - min_vy) * (max_vx - min_vx + 1)) 0 ≠ 0)) := by
  subst hbuf
  obtain ⟨_, hcell, _⟩ := rasterize_tile_spec final_index w h
  refine ⟨?_, ?_, ?_⟩
  · intro x y hx hy
    rw [hcell _ (cell_lt w h x y hx hy), cell_mod w x y hx, cell_div w x y hx]
  · intro hzero
    have hflag : ¬ (rasterize_tile final_index w h).has_solid_voxel = true := by
      rw [rasterize_flag_iff]
      rintro ⟨j, hj, hne⟩
      obtain ⟨h1, h2, h3⟩ := cell_decompose w h j hj
      rw [h3] at hne
      exact hne (hzero _ _ h1 h2)
    unfold crop_tile
    rw [if_neg hflag]
  · rintro ⟨x, y, hx, hy, hne⟩
    have hex : ∃ j, j < w * h ∧ (rasterize_tile final_index w h).tempVoxelData.getD j 0 ≠ 0 :=
      ⟨x + y * w, cell_lt w h x y hx hy, hne⟩
    have hflag := (rasterize_flag_iff final_index w h).2 hex
    obtain ⟨mnx, mxx, mny, mxy, model, h1, h2, h3, h4, h5, h6, h7, h8, h9, h10, h11, h12, h13,
      hcopy, hcont, ⟨y1, hy1a, hy1b, hy1c⟩, ⟨y2, hy2a, hy2b, hy2c⟩, ⟨x3, hx3a, hx3b, hx3c⟩,
      ⟨x4, hx4a, hx4b, hx4c⟩⟩ := crop_tile_spec _ w h hflag hex
    refine ⟨mnx, mxx, mny, mxy, model, h1, h2, h3, h4, h5, h6, h7, h8, h9, h10, h11, h12, h13,
      hcopy, hcont, ⟨y1 - mny, by omega, ?_⟩, ⟨y2 - mny, by omega, ?_⟩,
      ⟨x3 - mnx, by omega, ?_⟩, ⟨x4 - mnx, by omega, ?_⟩⟩
    · rw [hcopy 0 (y1 - mny) (by omega) (by omega)]
      have e : mny + (y1 - mny) = y1 := by omega
      rw [e, Nat.add_zero]
      exact hy1c
    · rw [hcopy (mxx - mnx) (y2 - mny) (by omega) (by omega)]
      have e : mny + (y2 - mny) = y2 := by omega
      have e2 : mnx + (mxx - mnx) = mxx := by omega
      rw [e, e2]
      exact hy2c
    · rw [hcopy (x3 - mnx) 0 (by omega) (by omega)]
      have e : mnx + (x3 - mnx) = x3 := by omega
      rw [e, Nat.add_zero]
      exact hx3c
    · rw [hcopy (x4 - mnx) (mxy - mny) (by omega) (by omega)]
      have e : mnx + (x4 - mnx) = x4 := by omega
      have e2 : mny + (mxy - mny) = mxy := by omega
      rw [e, e2]
      exact hx4c

set_option maxRecDepth 100000 in
/-- Witness of C19: the tile of width 3 and height 2 whose middle column has the index 7; the
crop emits a model of width 1 and height 2. -/
theorem crop_is_tight_bounding_rectangle_witness :
    rasterize_tile (fun x _ => if x = 1 then 7 else 0) 3 2 =
      rasterize_tile (fun x _ => if x = 1 then 7 else 0) 3 2 ∧
    ∃ model : VoxModel,
      crop_tile (rasterize_tile (fun x _ => if x = 1 then 7 else 0) 3 2) 3 2 = some model ∧
      model.size_x = 1 ∧ model.size_y = 2 := by
  refine ⟨rfl, ?_⟩
  obtain ⟨mnx, mxx, mny, mxy, model, h1, h2, h3, h4, h5, _, _, _, _, h10, h11, _⟩ :=
    (crop_is_tight_bounding_rectangle (fun x _ => if x = 1 then 7 else 0) 3 2 _ rfl).2.2
      ⟨1, 0, by decide, by decide, by decide⟩
  have e1 : (scan_bounds
      (rasterize_tile (fun x _ => if x = 1 then 7 else 0) 3 2).tempVoxelData 3 2).min_vx = 1 := by
    decide
  have e2 : (scan_bounds
      (rasterize_tile (fun x _ => if x = 1 then 7 else 0) 3 2).tempVoxelData 3 2).max_vx = 1 := by
    decide
  have e3 : (scan_bounds
      (rasterize_tile (fun x _ => if x = 1 then 7 else 0) 3 2).tempVoxelData 3 2).min_vy = 0 := by
    decide
  have e4 : (scan_bounds
      (rasterize_tile (fun x _ => if x = 1 then 7 else 0) 3 2).tempVoxelData 3 2).max_vy = 1 := by
    decide
  rw [e1] at h2
  rw [e2] at h3
  rw [e3] at h4
  rw [e4] at h5
  refine ⟨model, h1, ?_, ?_⟩
  · rw [h10]
    omega
  · rw [h11]
    omega

/-! ## Theorems on the fallback pool -/

/-- C23: if the sample pool is empty when `process_and_quantize` starts, quantisation still
works on a non-empty pool: when the profiles hold no named material it is 32 samples of magenta
`(255, 0, 255)` with the empty material name; otherwise it holds exactly one sample per named
profile, in the order of the profiles, coloured by the diffuse colour of that material scaled
and clamped to 8 bits (`kd_byte`), or by the grey `(200, 200, 200)` when the material is absent
from the MTL map; the sample carries the tag of the profile in its name field. -/
theorem empty_pool_gets_fallback_samples {Matl : Type} (F : FloatModel D)
    (pm : PaletteManager Matl) (profiles : List (String × MaterialProfile Matl))
    (mtl_materials : List (String × MtlMaterial)) (hempty : pm.sample_pool = []) :
    (pm.process_and_quantize F profiles mtl_materials).sample_pool =
      effective_pool F [] profiles mtl_materials ∧
    effective_pool F [] profiles mtl_materials ≠ [] ∧
    ((∀ p ∈ profiles, p.1 = "") →
      effective_pool F [] profiles mtl_materials =
        List.replicate 32 ⟨pack_color 255 0 255, ""⟩) ∧
    ((∃ p ∈ profiles, p.1 ≠ "") →
      effective_pool F [] profiles mtl_materials =
        (profiles.filter (fun p => p.1 ≠ "")).map (fun p =>
          ⟨match map_find mtl_materials p.1 with
            | some mtl => pack_color (F.kd_byte mtl.Kd.1) (F.kd_byte mtl.Kd.2.1)
                (F.kd_byte mtl.Kd.2.2)
            | none => pack_color 200 200 200, p.2.td_note⟩)) ∧
    unpack_color (pack_color 255 0 255) = (255, 0, 255) ∧
    unpack_color (pack_color 200 200 200) = (200, 200, 200) := by
  have hnamed : (∃ p ∈ profiles, p.1 ≠ "") →
      effective_pool F [] profiles mtl_materials =
        (profiles.filter (fun p => p.1 ≠ "")).map (fun p =>
          ⟨match map_find mtl_materials p.1 with
            | some mtl => pack_color (F.kd_byte mtl.Kd.1) (F.kd_byte mtl.Kd.2.1)
                (F.kd_byte mtl.Kd.2.2)
            | none => pack_color 200 200 200, p.2.td_note⟩) := by
    rintro ⟨p, hp, hne⟩
    have hfilter : profiles.filter (fun p => p.1 ≠ "") ≠ [] := by
      intro hc
      have : p ∈ profiles.filter (fun p => p.1 ≠ "") := by
        rw [List.mem_filter]
        exact ⟨hp, by simpa using hne⟩
      rw [hc] at this
      cases this
    have hmtl : (!profiles.isEmpty &&
        !(profiles.length == 1 && (map_find profiles "").isSome)) = true := by
      cases profiles with
      | nil => cases hp
      | cons q rest =>
        cases rest with
        | nil =>
          have hpq : p = q := by simpa using hp
          subst hpq
          obtain ⟨k, v⟩ := p
          have hk : ¬ k = "" := hne
          simp [map_find, hk]
        | cons r rest2 => simp
    unfold effective_pool
    simp only [if_true, hmtl, Bool.not_true, Bool.false_eq_true, if_false]
    rw [if_neg]
    simpa using hfilter
  have hunnamed : (∀ p ∈ profiles, p.1 = "") →
      effective_pool F [] profiles mtl_materials =
        List.replicate 32 ⟨pack_color 255 0 255, ""⟩ := by
    intro hall
    have hfilter : profiles.filter (fun p => p.1 ≠ "") = [] := by
      rw [List.filter_eq_nil_iff]
      intro p hp
      simpa using hall p hp
    unfold effective_pool
    simp only [if_true, hfilter, List.map_nil]
    split_ifs <;> rfl
  refine ⟨?_, ?_, hunnamed, hnamed, by decide, by decide⟩
  · unfold PaletteManager.process_and_quantize
    simp only [hempty]
  · by_cases hex : ∃ p ∈ profiles, p.1 ≠ ""
    · rw [hnamed hex]
      obtain ⟨p, hp, hne⟩ := hex
      intro hc
      have hmem : p ∈ profiles.filter (fun p => p.1 ≠ "") := by
        rw [List.mem_filter]
        exact ⟨hp, by simpa using hne⟩
      rw [List.map_eq_nil_iff] at hc
      rw [hc] at hmem
      cases hmem
    · rw [hunnamed (by
        intro p hp
        by_contra hne
        exact hex ⟨p, hp, hne⟩)]
      simp

/-- Witness of C23: an empty pool with the profiles of `""` and of `"wood"`, which is absent
from the MTL map: one grey sample, named by the tag of the profile. -/
theorem empty_pool_gets_fallback_samples_witness :
    (PaletteManager.new Unit).sample_pool = [] ∧
    effective_pool exactFloat []
      ([("", ⟨"", ()⟩), ("wood", ⟨"$TD_wood", ()⟩)] : List (String × MaterialProfile Unit)) [] ≠
      [] :=
  ⟨rfl, (empty_pool_gets_fallback_samples exactFloat (PaletteManager.new Unit)
    [("", ⟨"", ()⟩), ("wood", ⟨"$TD_wood", ()⟩)] [] rfl).2.1⟩

/-! ## Lemmas on the order of the samples -/

theorem first_with_color_least (table : List ((Nat × String) × Nat)) (c : Nat)
    (hs : RemapSorted table) (h : ∃ e ∈ table, e.1.1 = c) :
    ∃ e ∈ table, e.1.1 = c ∧ first_with_color table c = e.2 ∧
      ∀ e2 ∈ table, e2.1.1 = c → e.1.2 ≤ e2.1.2 := by
  induction table with
  | nil => simp at h
  | cons hd tl ih =>
    obtain ⟨key, index⟩ := hd
    have hs2 : RemapSorted tl := by
      unfold RemapSorted at hs ⊢
      rw [List.map_cons, List.pairwise_cons] at hs
      exact hs.2
    have hfirst : ∀ e2 ∈ tl, pair_lt key e2.1 = true := by
      intro e2 he2
      unfold RemapSorted at hs
      rw [List.map_cons, List.pairwise_cons] at hs
      exact hs.1 e2.1 (List.mem_map.2 ⟨e2, he2, rfl⟩)
    simp only [first_with_color]
    by_cases h1 : key.1 = c
    · rw [if_pos h1]
      refine ⟨(key, index), List.mem_cons_self _ _, h1, rfl, ?_⟩
      intro e2 he2 hc2
      rcases List.mem_cons.1 he2 with he2 | he2
      · rw [he2]
      · have hlt := (pair_lt_iff _ _).1 (hfirst e2 he2)
        rcases hlt with hlt | ⟨_, hlt⟩
        · omega
        · exact le_of_lt hlt
    · rw [if_neg h1]
      obtain ⟨e, he, hc⟩ := h
      have hetl : e ∈ tl := by
        rcases List.mem_cons.1 he with he | he
        · subst he
          exact absurd hc h1
        · exact he
      obtain ⟨e1, he1, hc1, hv1, hleast⟩ := ih hs2 ⟨e, hetl, hc⟩
      refine ⟨e1, List.mem_cons_of_mem _ he1, hc1, hv1, ?_⟩
      intro e2 he2 hc2
      rcases List.mem_cons.1 he2 with he2 | he2
      · subst he2
        exact absurd hc2 h1
      · exact hleast e2 he2 hc2

theorem group_fold_find (pool : List ColorSample) (groups : List (String × List Nat))
    (name : String) :
    (map_find (pool.foldl (fun groups sample =>
      map_set string_lt groups sample.material_name
        ((map_find groups sample.material_name).getD [] ++ [sample.color_rgb])) groups)
      name).getD [] =
    (map_find groups name).getD [] ++
      (pool.filter (fun s => s.material_name = name)).map (fun s => s.color_rgb) := by
  induction pool generalizing groups with
  | nil => simp
  | cons s rest ih =>
    rw [List.foldl_cons, ih]
    by_cases hn : s.material_name = name
    · subst hn
      rw [map_find_map_set_self]
      simp
    · rw [map_find_map_set_ne _ _ _ _ _ (fun h => hn h.symm)]
      simp [hn]

theorem group_colors_find (pool : List ColorSample) (name : String) :
    (map_find (group_colors pool) name).getD [] =
      (pool.filter (fun s => s.material_name = name)).map (fun s => s.color_rgb) := by
  unfold group_colors
  rw [group_fold_find]
  simp [map_find]

theorem group_colors_keys_mem (pool : List ColorSample) (name : String) :
    name ∈ (group_colors pool).map (fun g => g.1) ↔ ∃ s ∈ pool, s.material_name = name := by
  have hg := group_colors_inv pool
  constructor
  · intro h
    obtain ⟨g, hgm, hgn⟩ := List.mem_map.1 h
    obtain ⟨c, hc⟩ := List.exists_mem_of_ne_nil _ (hg.nonempty g hgm)
    exact ⟨⟨c, g.1⟩, hg.sound g hgm c hc, hgn⟩
  · rintro ⟨s, hs, hn⟩
    obtain ⟨cs, hcs, _⟩ := hg.complete s hs
    rw [hn] at hcs
    exact List.mem_map.2 ⟨(name, cs), map_find_mem _ _ _ hcs, rfl⟩

theorem group_colors_keys_perm (pool1 pool2 : List ColorSample) (h : pool1.Perm pool2) :
    (group_colors pool1).map (fun g => g.1) = (group_colors pool2).map (fun g => g.1) := by
  have h1 : KeysSorted (group_colors pool1) := (group_colors_inv pool1).sorted
  have h2 : KeysSorted (group_colors pool2) := (group_colors_inv pool2).sorted
  unfold KeysSorted at h1 h2
  apply List.eq_of_perm_of_sorted _ h1 h2
  rw [List.perm_ext_iff_of_nodup (List.Pairwise.imp (fun hab => ne_of_lt hab) h1)
    (List.Pairwise.imp (fun hab => ne_of_lt hab) h2)]
  intro name
  rw [group_colors_keys_mem, group_colors_keys_mem]
  constructor
  · rintro ⟨s, hs, hn⟩
    exact ⟨s, h.subset hs, hn⟩
  · rintro ⟨s, hs, hn⟩
    exact ⟨s, h.symm.subset hs, hn⟩

theorem sort_unique_perm (l1 l2 : List Nat) (h : l1.Perm l2) :
    sort_unique l1 = sort_unique l2 := by
  unfold sort_unique
  congr 1
  apply List.eq_of_perm_of_sorted _ (List.sorted_insertionSort _ _)
    (List.sorted_insertionSort _ _)
  exact ((List.perm_insertionSort _ l1).trans h).trans (List.perm_insertionSort _ l2).symm

/-- The groups with their colours sorted and made distinct depend on the pool only up to the
order of its samples. -/
theorem normalized_groups_perm (pool1 pool2 : List ColorSample) (h : pool1.Perm pool2) :
    (group_colors pool1).map (fun g => (g.1, sort_unique g.2)) =
      (group_colors pool2).map (fun g => (g.1, sort_unique g.2)) := by
  have hnorm : ∀ pool : List ColorSample,
      (group_colors pool).map (fun g => (g.1, sort_unique g.2)) =
        ((group_colors pool).map (fun g => g.1)).map (fun name =>
          (name, sort_unique
            ((pool.filter (fun s => s.material_name = name)).map (fun s => s.color_rgb)))) := by
    intro pool
    rw [List.map_map]
    apply List.map_congr_left
    intro g hg
    have hfind := map_find_of_mem_keys_sorted _ (group_colors_inv pool).sorted g.1 g.2 hg
    have := group_colors_find pool g.1
    rw [hfind] at this
    simp only [Option.getD_some] at this
    simp only [Function.comp_apply]
    rw [this]
  rw [hnorm pool1, hnorm pool2, group_colors_keys_perm pool1 pool2 h]
  apply List.map_congr_left
  intro name _
  rw [sort_unique_perm _ _ ((h.filter _).map _)]

theorem allocate_slots_normalized (F : FloatModel D) (groups1 groups2 : List (String × List Nat))
    (h : groups1.map (fun g => (g.1, sort_unique g.2)) =
      groups2.map (fun g => (g.1, sort_unique g.2))) :
    allocate_slots F groups1 = allocate_slots F groups2 := by
  have hcounts : ∀ groups : List (String × List Nat), unique_color_counts groups =
      (groups.map (fun g => (g.1, sort_unique g.2))).map (fun g => (g.1, g.2.length)) := by
    intro groups
    simp [unique_color_counts, Function.comp_def]
  unfold allocate_slots
  rw [hcounts groups1, hcounts groups2, h]

theorem quantize_fold_normalized {Matl : Type} (F : FloatModel D)
    (profiles : List (String × MaterialProfile Matl)) (slots : List (String × Int))
    (groups1 groups2 : List (String × List Nat)) (st : QuantState Matl)
    (h : groups1.map (fun g => (g.1, sort_unique g.2)) =
      groups2.map (fun g => (g.1, sort_unique g.2))) :
    groups1.foldl (quantize_material F profiles slots) st =
      groups2.foldl (quantize_material F profiles slots) st := by
  have hq : ∀ groups : List (String × List Nat), ∀ st : QuantState Matl,
      groups.foldl (quantize_material F profiles slots) st =
        (groups.map (fun g => (g.1, sort_unique g.2))).foldl
          (fun (st : QuantState Matl) (n : String × List Nat) =>
            if (map_find slots n.1).getD 0 = 0 ∨ n.2 = [] then st
            else assign_centers F (map_find profiles n.1) n.1 n.2
              (kmeans F n.2 ((map_find slots n.1).getD 0).toNat 10)
              (kmeans F n.2 ((map_find slots n.1).getD 0).toNat 10) st) st := by
    intro groups
    induction groups with
    | nil =>
      intro st
      rfl
    | cons g rest ih =>
      intro st
      rw [List.foldl_cons, List.map_cons, List.foldl_cons, ih]
      congr 1
      unfold quantize_material material_centers
      simp only
      have hnil : g.2 = [] ↔ sort_unique g.2 = [] := by
        constructor
        · intro h0
          rw [h0]
          rfl
        · intro h0
          by_contra hne
          exact sort_unique_ne_nil g.2 hne h0
      by_cases hc : (map_find slots g.1).getD 0 = 0 ∨ g.2 = []
      · rw [if_pos hc, if_pos (by rw [← hnil]; exact hc)]
      · rw [if_neg hc, if_neg (by rw [← hnil]; exact hc)]
  rw [hq groups1, hq groups2, h]

/-- The result of `process_and_quantize` does not depend on the order of the collected
samples, the field `sample_pool` apart. -/
theorem process_and_quantize_perm {Matl : Type} (F : FloatModel D)
    (pm1 pm2 : PaletteManager Matl) (profiles : List (String × MaterialProfile Matl))
    (mtl_materials : List (String × MtlMaterial))
    (hpool : pm1.sample_pool.Perm pm2.sample_pool)
    (hpal : pm1.final_palette = pm2.final_palette) (hnotes : pm1.final_notes = pm2.final_notes)
    (hmat : pm1.final_materials = pm2.final_materials)
    (htab : pm1.remap_table = pm2.remap_table) :
    (pm1.process_and_quantize F profiles mtl_materials).remap_table =
      (pm2.process_and_quantize F profiles mtl_materials).remap_table ∧
    (pm1.process_and_quantize F profiles mtl_materials).final_palette =
      (pm2.process_and_quantize F profiles mtl_materials).final_palette ∧
    (pm1.process_and_quantize F profiles mtl_materials).final_notes =
      (pm2.process_and_quantize F profiles mtl_materials).final_notes ∧
    (pm1.process_and_quantize F profiles mtl_materials).final_materials =
      (pm2.process_and_quantize F profiles mtl_materials).final_materials := by
  have heff : (effective_pool F pm1.sample_pool profiles mtl_materials).Perm
      (effective_pool F pm2.sample_pool profiles mtl_materials) := by
    by_cases h1 : pm1.sample_pool = []
    · have h2 : pm2.sample_pool = [] := by
        rw [h1] at hpool
        exact List.nil_perm.1 hpool
      rw [h1, h2]
    · have h2 : pm2.sample_pool ≠ [] := by
        intro hc
        rw [hc] at hpool
        exact h1 (List.perm_nil.1 hpool)
      unfold effective_pool
      rw [if_neg h1, if_neg h2]
      exact hpool
  have hgroups := normalized_groups_perm _ _ heff
  have hslots := allocate_slots_normalized F _ _ hgroups
  have hfold := fun st : QuantState Matl => quantize_fold_normalized F profiles
    (allocate_slots F (group_colors (effective_pool F pm1.sample_pool profiles mtl_materials)))
    _ _ st hgroups
  unfold PaletteManager.process_and_quantize
  simp only
  rw [hfold, hslots, hpal, hnotes, hmat, htab]
  exact ⟨rfl, rfl, rfl, rfl⟩

/-! ## Theorems on the fallback of `get_final_index` -/

/-- C28: when `get_final_index(c, m)` finds no entry for `(c, m)` but some entry has the colour
`c`, the value returned is that of the entry whose material name is lexicographically smallest
among the entries with colour `c`; and the values that `get_final_index` returns after
`process_and_quantize` do not depend on the order in which the samples were collected. -/
theorem fallback_returns_smallest_material {Matl : Type} (F : FloatModel D)
    (pm : PaletteManager Matl) (hreach : Reachable F pm) (c : Nat) (m : String)
    (hnone : map_find pm.remap_table (c, m) = none)
    (hex : ∃ e ∈ pm.remap_table, e.1.1 = c) :
    (∃ e ∈ pm.remap_table, e.1.1 = c ∧ pm.get_final_index c m = e.2 ∧
      ∀ e2 ∈ pm.remap_table, e2.1.1 = c → e.1.2 ≤ e2.1.2) ∧
    (∀ (pm1 pm2 : PaletteManager Matl) (profiles : List (String × MaterialProfile Matl))
      (mtl_materials : List (String × MtlMaterial)),
      pm1.sample_pool.Perm pm2.sample_pool → pm1.final_palette = pm2.final_palette →
      pm1.final_notes = pm2.final_notes → pm1.final_materials = pm2.final_materials →
      pm1.remap_table = pm2.remap_table →
      ∀ (c2 : Nat) (m2 : String),
        (pm1.process_and_quantize F profiles mtl_materials).get_final_index c2 m2 =
          (pm2.process_and_quantize F profiles mtl_materials).get_final_index c2 m2) := by
  constructor
  · obtain ⟨e, he, hc, hv, hleast⟩ :=
      first_with_color_least pm.remap_table c (reachable_inv F pm hreach).remap_sorted hex
    refine ⟨e, he, hc, ?_, hleast⟩
    unfold PaletteManager.get_final_index
    rw [hnone]
    exact hv
  · intro pm1 pm2 profiles mtl_materials hpool hpal hnotes hmat htab c2 m2
    have h := (process_and_quantize_perm F pm1 pm2 profiles mtl_materials hpool hpal hnotes
      hmat htab).1
    unfold PaletteManager.get_final_index
    rw [h]

set_option maxRecDepth 100000 in
/-- Witness of C28: the colour 5 sampled for the materials `"b"` and `"a"`, in this order; the
lookup of `(5, "c")` finds no entry and returns the index of `(5, "a")`. -/
theorem fallback_returns_smallest_material_witness :
    map_find ((((PaletteManager.new Nat).collect_sample 5 "b").collect_sample 5 "a"
      ).process_and_quantize exactFloat [] []).remap_table (5, "c") = none ∧
    ∃ e ∈ ((((PaletteManager.new Nat).collect_sample 5 "b").collect_sample 5 "a"
      ).process_and_quantize exactFloat [] []).remap_table,
      e.1.1 = 5 ∧
      ((((PaletteManager.new Nat).collect_sample 5 "b").collect_sample 5 "a"
        ).process_and_quantize exactFloat [] []).get_final_index 5 "c" = e.2 ∧
      ∀ e2 ∈ ((((PaletteManager.new Nat).collect_sample 5 "b").collect_sample 5 "a"
        ).process_and_quantize exactFloat [] []).remap_table, e2.1.1 = 5 → e.1.2 ≤ e2.1.2 :=
  ⟨by decide,
   (fallback_returns_smallest_material exactFloat
    ((((PaletteManager.new Nat).collect_sample 5 "b").collect_sample 5 "a"
      ).process_and_quantize exactFloat [] [])
    (Reachable.process_and_quantize _ _ _
      (Reachable.collect_sample _ _ _ (Reachable.collect_sample _ _ _ Reachable.new)))
    5 "c" (by decide) ⟨((5, "a"), 9), by decide, rfl⟩).1⟩

/-! ## Lemmas on the end of the slot adjustment -/

theorem trim_fold_changed_mono (names : List String) (st : TrimState)
    (h : st.changed = true) : (names.foldl trim_step st).changed = true := by
  induction names generalizing st with
  | nil => exact h
  | cons n rest ih =>
    rw [List.foldl_cons]
    apply ih
    unfold trim_step
    split_ifs
    · rfl
    · exact h

theorem trim_fold_over_lower (names : List String) (st : TrimState) (h : -8 < st.over) :
    -8 < (names.foldl trim_step st).over := by
  induction names generalizing st with
  | nil => exact h
  | cons n rest ih =>
    rw [List.foldl_cons]
    apply ih
    unfold trim_step
    split_ifs with hc
    · simp only
      omega
    · exact h

theorem trim_fold_unchanged (names : List String) (st : TrimState)
    (h : (names.foldl trim_step st).changed = false) :
    names.foldl trim_step st = st ∧
    ∀ n ∈ names, ¬ ((map_find st.slots n).getD 0 > 8 ∧ st.over > 0) := by
  induction names generalizing st with
  | nil => exact ⟨rfl, by simp⟩
  | cons n rest ih =>
    rw [List.foldl_cons] at h ⊢
    by_cases hc : (map_find st.slots n).getD 0 > 8 ∧ st.over > 0
    · have hch : (trim_step st n).changed = true := by
        unfold trim_step
        rw [if_pos hc]
      have := trim_fold_changed_mono rest _ hch
      rw [this] at h
      cases h
    · have hstep : trim_step st n = st := by
        unfold trim_step
        rw [if_neg hc]
      rw [hstep] at h ⊢
      obtain ⟨h1, h2⟩ := ih st h
      refine ⟨h1, ?_⟩
      intro m hm
      rcases List.mem_cons.1 hm with hm | hm
      · rw [hm]
        exact hc
      · exact h2 m hm

/-- The state in which the over-allocation loop ends: `over` is in `-7 .. 0`, or no material
holds more than 8 slots. -/
theorem trim_loop_end (order : List String) (fuel : Nat) (st : TrimState)
    (hfuel : st.over ≤ fuel) (hlow : -8 < st.over) :
    -8 < (trim_loop order fuel st).over ∧
    ((trim_loop order fuel st).over ≤ 0 ∨ order = [] ∨
      ∀ n ∈ order, (map_find (trim_loop order fuel st).slots n).getD 0 ≤ 8) := by
  induction fuel generalizing st with
  | zero =>
    simp only [Nat.cast_zero] at hfuel
    simp only [trim_loop]
    exact ⟨hlow, Or.inl hfuel⟩
  | succ fuel ih =>
    simp only [trim_loop]
    by_cases hc : st.over > 0 ∧ order ≠ []
    · rw [if_pos hc]
      have hlow2 : -8 < (trim_pass order st).over :=
        trim_fold_over_lower order { st with changed := false } hlow
      by_cases hch : (trim_pass order st).changed = true
      · rw [if_pos hch]
        have hover := (trim_fold_over order { st with changed := false }).2 hch
        simp only [Bool.false_eq_true, false_or] at hover
        apply ih _ _ hlow2
        push_cast at hfuel
        unfold trim_pass
        omega
      · rw [if_neg hch]
        refine ⟨hlow2, Or.inr (Or.inr ?_)⟩
        have hch2 : (order.foldl trim_step { st with changed := false }).changed = false := by
          simpa [trim_pass] using hch
        obtain ⟨heq, hall⟩ := trim_fold_unchanged order _ hch2
        intro n hn
        have h1 := hall n hn
        unfold trim_pass
        rw [heq]
        simp only at h1 ⊢
        omega
    · rw [if_neg hc]
      refine ⟨hlow, ?_⟩
      by_cases h0 : st.over > 0
      · right
        left
        by_contra hne
        exact hc ⟨h0, hne⟩
      · left
        omega

theorem slots_all_eight (order : List String) (slots : List (String × Int))
    (h : SlotsInv order slots) (hall : ∀ n ∈ order, (map_find slots n).getD 0 ≤ 8) :
    (∀ e ∈ slots, e.2 = 8) ∧ slots_sum slots = 8 * (order.length : Int) := by
  have h8 : ∀ e ∈ slots, e.2 = 8 := by
    intro e he
    have hmem : e.1 ∈ order := by
      rw [← h.keys_eq]
      exact List.mem_map.2 ⟨e, he, rfl⟩
    have hfind := map_find_of_mem_keys_sorted slots h.sorted e.1 e.2 he
    have hle := hall e.1 hmem
    rw [hfind] at hle
    simp only [Option.getD_some] at hle
    have := (h.ok e he).1
    omega
  refine ⟨h8, ?_⟩
  have hlen : order.length = slots.length := by
    rw [← h.keys_eq, List.length_map]
  rw [hlen]
  clear hlen hall h
  induction slots with
  | nil => simp [slots_sum]
  | cons e rest ih =>
    have he := h8 e (List.mem_cons_self _ _)
    have hrest := ih (fun x hx => h8 x (List.mem_cons_of_mem _ hx))
    simp only [slots_sum, List.map_cons, List.sum_cons, List.length_cons] at hrest ⊢
    push_cast
    omega

theorem slots_length_of_inv (order : List String) (slots : List (String × Int))
    (h : SlotsInv order slots) : slots.length = order.length := by
  rw [← h.keys_eq, List.length_map]

/-- The sum of the slot counts after the adjustment. -/
theorem adjust_slots_sum (order : List String) (slots : List (String × Int))
    (h : SlotsInv order slots) :
    (slots_sum slots < 245 → order ≠ [] → slots_sum (adjust_slots order slots) = 248) ∧
    (245 < slots_sum slots → order.length ≤ 30 →
      slots_sum (adjust_slots order slots) = 240) ∧
    (31 ≤ order.length →
      (∀ e ∈ adjust_slots order slots, e.2 = 8) ∧
      slots_sum (adjust_slots order slots) = 8 * (order.length : Int)) ∧
    slots_sum slots ≠ 245 := by
  have hmod := slots_sum_mod slots h.ok
  have hlen := slots_length_of_inv order slots h
  have hover : 245 < slots_sum slots →
      -8 < (trim_loop order (slots_sum slots - 245).toNat
        ⟨slots, slots_sum slots - 245, false⟩).over ∧
      ((trim_loop order (slots_sum slots - 245).toNat
        ⟨slots, slots_sum slots - 245, false⟩).over ≤ 0 ∨ order = [] ∨
        ∀ n ∈ order, (map_find (trim_loop order (slots_sum slots - 245).toNat
          ⟨slots, slots_sum slots - 245, false⟩).slots n).getD 0 ≤ 8) := by
    intro hgt
    apply trim_loop_end
    · simp only
      omega
    · simp only
      omega
  have hinv := trim_loop_inv order (slots_sum slots - 245).toNat
    ⟨slots, slots_sum slots - 245, false⟩ h
  simp only at hinv
  have hmod2 := slots_sum_mod _ hinv.1.ok
  have hlen2 := slots_length_of_inv _ _ hinv.1
  refine ⟨?_, ?_, ?_, by omega⟩
  · intro hlt hne
    unfold adjust_slots
    simp only [total_available_slots_eq, Nat.cast_ofNat]
    rw [if_pos ⟨hlt, hne⟩, fill_loop_sum order hne _ _ _ _ h (by omega)]
    rw [if_pos (by omega)]
    omega
  · intro hgt h30
    unfold adjust_slots
    simp only [total_available_slots_eq, Nat.cast_ofNat]
    rw [if_neg (by omega), if_pos hgt]
    obtain ⟨hlo, hend⟩ := hover hgt
    have hle : (trim_loop order (slots_sum slots - 245).toNat
        ⟨slots, slots_sum slots - 245, false⟩).over ≤ 0 := by
      rcases hend with h0 | h0 | h0
      · exact h0
      · rw [h0] at hlen
        simp only [List.length_nil] at hlen
        rw [List.length_eq_zero] at hlen
        rw [hlen] at hgt
        simp [slots_sum] at hgt
      · have hsum := (slots_all_eight order _ hinv.1 h0).2
        have : (order.length : Int) ≤ 30 := by exact_mod_cast h30
        omega
    omega
  · intro h31
    have h31i : (31 : Int) ≤ (order.length : Int) := by exact_mod_cast h31
    have hgt : 245 < slots_sum slots := by
      have := hmod.2
      rw [hlen] at this
      omega
    unfold adjust_slots
    simp only [total_available_slots_eq, Nat.cast_ofNat]
    rw [if_neg (by omega), if_pos hgt]
    obtain ⟨hlo, hend⟩ := hover hgt
    have hall : ∀ n ∈ order, (map_find (trim_loop order (slots_sum slots - 245).toNat
        ⟨slots, slots_sum slots - 245, false⟩).slots n).getD 0 ≤ 8 := by
      rcases hend with h0 | h0 | h0
      · have := hmod2.2
        rw [hlen2] at this
        omega
      · rw [h0] at h31
        simp at h31
      · exact h0
    exact slots_all_eight order _ hinv.1 hall

theorem group_colors_length (pool : List ColorSample) :
    (group_colors pool).length = ((pool.map (fun s => s.material_name)).dedup).length := by
  have hs : KeysSorted (group_colors pool) := (group_colors_inv pool).sorted
  unfold KeysSorted at hs
  have hnd : ((group_colors pool).map (fun g => g.1)).Nodup :=
    List.Pairwise.imp (fun hab => ne_of_lt hab) hs
  have hperm : ((group_colors pool).map (fun g => g.1)).Perm
      ((pool.map (fun s => s.material_name)).dedup) := by
    rw [List.perm_ext_iff_of_nodup hnd (List.nodup_dedup _)]
    intro name
    rw [group_colors_keys_mem, List.mem_dedup, List.mem_map]
  have := hperm.length_eq
  rw [List.length_map] at this
  exact this

theorem initial_allocation_inv (F : FloatModel D) (groups : List (String × List Nat))
    (hs : KeysSorted groups) :
    SlotsInv (groups.map (fun g => g.1))
      (initial_allocation F (unique_color_counts groups)) := by
  have hkeys : (unique_color_counts groups).map (fun c => c.1) = groups.map (fun g => g.1) := by
    simp [unique_color_counts, Function.comp_def]
  refine ⟨?_, initial_allocation_ok F _, ?_⟩
  · unfold KeysSorted initial_allocation
    simp only [List.map_map, Function.comp_def]
    rw [hkeys]
    exact hs
  · simp [initial_allocation, unique_color_counts, Function.comp_def]

theorem allocate_slots_eq_adjust (F : FloatModel D) (groups : List (String × List Nat)) :
    allocate_slots F groups =
      adjust_slots (groups.map (fun g => g.1))
        (initial_allocation F (unique_color_counts groups)) := by
  have hkeys : (unique_color_counts groups).map (fun c => c.1) = groups.map (fun g => g.1) := by
    simp [unique_color_counts, Function.comp_def]
  unfold allocate_slots
  simp only
  rw [hkeys]

theorem sum_map_const {α : Type} (l : List α) (f : α → Nat) (c : Nat)
    (h : ∀ e ∈ l, f e = c) : (l.map f).sum = l.length * c := by
  induction l with
  | nil => simp
  | cons e rest ih =>
    rw [List.map_cons, List.sum_cons, h e (List.mem_cons_self _ _),
      ih (fun x hx => h x (List.mem_cons_of_mem _ hx)), List.length_cons]
    ring

theorem sum_map_const_int {α : Type} (l : List α) (f : α → Int) (c : Int)
    (h : ∀ e ∈ l, f e = c) : (l.map f).sum = (l.length : Int) * c := by
  induction l with
  | nil => simp
  | cons e rest ih =>
    rw [List.map_cons, List.sum_cons, h e (List.mem_cons_self _ _),
      ih (fun x hx => h x (List.mem_cons_of_mem _ hx)), List.length_cons]
    push_cast
    ring

/-- Six materials with the same number `c` of unique colours get 40 slots each before the
adjustment, in exact arithmetic: `c / (6 c) × 245` is truncated to 40. -/
theorem six_equal_counts_initial (groups : List (String × List Nat)) (c : Nat) (hc : 0 < c)
    (hlen : groups.length = 6) (hall : ∀ g ∈ groups, (sort_unique g.2).length = c) :
    slots_sum (initial_allocation exactFloat (unique_color_counts groups)) = 240 := by
  have htotal : total_unique_colors (unique_color_counts groups) = 6 * c := by
    unfold total_unique_colors unique_color_counts
    rw [List.map_map, sum_map_const groups
      ((fun c : String × Nat => c.2) ∘ fun g : String × List Nat =>
        (g.1, (sort_unique g.2).length)) c (fun g hg => hall g hg), hlen]
  have hslots : initial_slots exactFloat c (6 * c) = 40 := by
    rw [initial_slots_closed exactFloat c (6 * c) (by omega)]
    have hscale : exactFloat.scale_slots c (6 * c) 245 = ((c * 245 / (6 * c) : Nat) : Int) :=
      rfl
    have hdiv : c * 245 / (6 * c) = 40 := by
      rw [Nat.mul_comm 6 c, Nat.mul_div_mul_left _ _ hc]
    rw [hscale, hdiv]
    decide
  unfold slots_sum initial_allocation
  rw [List.map_map, htotal]
  unfold unique_color_counts
  rw [List.map_map, sum_map_const_int groups _ 40, hlen]
  · norm_num
  · intro g hg
    simp only [Function.comp_apply]
    rw [hall g hg, hslots]

/-! ## Theorems on the sum of the slot counts -/

/-- C26: the sum of the final per-material slot counts is always a multiple of 8; for 1 to 30
materials it is exactly 240 when the initial allocation exceeds 245 and exactly 248 when the
initial allocation is below 245 (the initial allocation is never 245); six materials with equal
unique-colour counts get 6 × 40 = 240 slots first, in exact arithmetic, and end with 248
slots, more than the 245 indices available. -/
theorem slot_sum_is_240_or_248 (F : FloatModel D) (pool : List ColorSample) :
    slots_sum (allocate_slots F (group_colors pool)) % 8 = 0 ∧
    (1 ≤ ((pool.map (fun s => s.material_name)).dedup).length →
      ((pool.map (fun s => s.material_name)).dedup).length ≤ 30 →
      (245 < slots_sum (initial_allocation F (unique_color_counts (group_colors pool))) →
        slots_sum (allocate_slots F (group_colors pool)) = 240) ∧
      (slots_sum (initial_allocation F (unique_color_counts (group_colors pool))) < 245 →
        slots_sum (allocate_slots F (group_colors pool)) = 248)) ∧
    slots_sum (initial_allocation F (unique_color_counts (group_colors pool))) ≠ 245 ∧
    (∀ c : Nat, 0 < c → (group_colors pool).length = 6 →
      (∀ g ∈ group_colors pool, (sort_unique g.2).length = c) →
      slots_sum (initial_allocation exactFloat (unique_color_counts (group_colors pool))) =
        240 ∧
      slots_sum (allocate_slots exactFloat (group_colors pool)) = 248 ∧
      245 < slots_sum (allocate_slots exactFloat (group_colors pool))) := by
  have hsorted := (group_colors_inv pool).sorted
  have hlen := group_colors_length pool
  have hne : 1 ≤ ((pool.map (fun s => s.material_name)).dedup).length →
      (group_colors pool).map (fun g => g.1) ≠ [] := by
    intro h1 hc
    have := congrArg List.length hc
    rw [List.length_map, hlen] at this
    simp only [List.length_nil] at this
    omega
  have hsum := fun G : FloatModel D =>
    adjust_slots_sum _ _ (initial_allocation_inv G (group_colors pool) hsorted)
  have hsumE := adjust_slots_sum _ _ (initial_allocation_inv exactFloat (group_colors pool)
    hsorted)
  have hfinal := allocate_slots_inv F (group_colors pool) hsorted
  refine ⟨(slots_sum_mod _ hfinal.ok).1, ?_, (hsum F).2.2.2, ?_⟩
  · intro h1 h30
    constructor
    · intro hgt
      rw [allocate_slots_eq_adjust]
      apply (hsum F).2.1 hgt
      rw [List.length_map, hlen]
      exact h30
    · intro hlt
      rw [allocate_slots_eq_adjust]
      exact (hsum F).1 hlt (hne h1)
  · intro c hc h6 hall
    have hinit := six_equal_counts_initial (group_colors pool) c hc h6 hall
    have h248 : slots_sum (allocate_slots exactFloat (group_colors pool)) = 248 := by
      rw [allocate_slots_eq_adjust]
      exact hsumE.1 (by rw [hinit]; decide) (hne (by rw [← hlen, h6]; decide))
    refine ⟨hinit, h248, ?_⟩
    rw [h248]
    decide

set_option maxRecDepth 100000 in
/-- Witness of C26: six materials with one colour each end with 248 slots. -/
theorem slot_sum_is_240_or_248_witness :
    (1 ≤ ((pool_of_6_materials.map (fun s => s.material_name)).dedup).length ∧
      ((pool_of_6_materials.map (fun s => s.material_name)).dedup).length ≤ 30) ∧
    slots_sum (allocate_slots exactFloat (group_colors pool_of_6_materials)) = 248 :=
  ⟨⟨by decide, by decide⟩,
   ((slot_sum_is_240_or_248 exactFloat pool_of_6_materials).2.2.2
      1 (by decide) (by decide) (by decide)).2.1⟩

/-- C27: when the sample pool holds more than 30 distinct material names, the initial
allocation exceeds 245 and the over-allocation loop ends, whatever fuel beyond `over` the model
is given, with every material holding exactly 8 slots; the total `8 n` stays above the budget
of 245 slots. -/
theorem over_30_materials_hold_8_each (F : FloatModel D) (pool : List ColorSample)
    (h31 : 30 < ((pool.map (fun s => s.material_name)).dedup).length) :
    (∀ e ∈ allocate_slots F (group_colors pool), e.2 = 8) ∧
    (∀ s ∈ pool, map_find (allocate_slots F (group_colors pool)) s.material_name = some 8) ∧
    slots_sum (allocate_slots F (group_colors pool)) =
      8 * (((pool.map (fun s => s.material_name)).dedup).length : Int) ∧
    245 < slots_sum (allocate_slots F (group_colors pool)) ∧
    245 < slots_sum (initial_allocation F (unique_color_counts (group_colors pool))) ∧
    (∀ fuel : Nat,
      slots_sum (initial_allocation F (unique_color_counts (group_colors pool))) - 245 ≤ fuel →
      (trim_loop ((group_colors pool).map (fun g => g.1)) fuel
        ⟨initial_allocation F (unique_color_counts (group_colors pool)),
          slots_sum (initial_allocation F (unique_color_counts (group_colors pool))) - 245,
          false⟩).slots = allocate_slots F (group_colors pool)) := by
  have hsorted := (group_colors_inv pool).sorted
  have hlen := group_colors_length pool
  have hinv := initial_allocation_inv F (group_colors pool) hsorted
  have hsum := adjust_slots_sum _ _ hinv
  have h31b : 31 ≤ ((group_colors pool).map (fun g => g.1)).length := by
    rw [List.length_map, hlen]
    omega
  obtain ⟨hall, htotal⟩ := hsum.2.2.1 h31b
  rw [← allocate_slots_eq_adjust] at hall htotal
  rw [List.length_map, hlen] at htotal
  have hbig : (31 : Int) ≤ (((pool.map (fun s => s.material_name)).dedup).length : Int) := by
    exact_mod_cast h31
  have hinit : 245 < slots_sum (initial_allocation F (unique_color_counts (group_colors pool))) := by
    have h8 := (slots_sum_mod _ hinv.ok).2
    rw [slots_length_of_inv _ _ hinv, List.length_map, hlen] at h8
    omega
  refine ⟨hall, ?_, htotal, by omega, hinit, ?_⟩
  · intro s hs
    obtain ⟨cs, hcs, _⟩ := (group_colors_inv pool).complete s hs
    obtain ⟨k, hk, _⟩ := allocate_slots_find F pool (s.material_name, cs)
      (map_find_mem _ _ _ hcs)
    have := hall _ (map_find_mem _ _ _ hk)
    simp only at this hk
    rw [hk, this]
  · intro fuel hfuel
    rw [allocate_slots_eq_adjust]
    unfold adjust_slots
    simp only [total_available_slots_eq, Nat.cast_ofNat]
    rw [if_neg (by omega), if_pos hinit]
    rw [trim_loop_fuel _ fuel
      (slots_sum (initial_allocation F (unique_color_counts (group_colors pool))) - 245).toNat
      _ hfuel (by simp only; omega)]

set_option maxRecDepth 100000 in
/-- Witness of C27: a pool with one sample for each of 31 materials; the slots sum to 248. -/
theorem over_30_materials_hold_8_each_witness :
    30 < ((pool_of_31_materials.map (fun s => s.material_name)).dedup).length ∧
    slots_sum (allocate_slots exactFloat (group_colors pool_of_31_materials)) =
      8 * (((pool_of_31_materials.map (fun s => s.material_name)).dedup).length : Int) :=
  ⟨by decide, (over_30_materials_hold_8_each exactFloat pool_of_31_materials (by decide)).2.2.1⟩

/-! ## Lemmas on the centres of `kmeans` -/

theorem unpack_pack_color (r g b : Nat) (hr : r < 256) (hg : g < 256) (hb : b < 256) :
    unpack_color (pack_color r g b) = (r, g, b) := by
  unfold unpack_color pack_color
  rw [Nat.mod_eq_of_lt hr, Nat.mod_eq_of_lt hg, Nat.mod_eq_of_lt hb]
  refine Prod.ext ?_ (Prod.ext ?_ ?_) <;> simp only <;> omega

theorem sum_ge_of_all_ge (l : List Nat) (a : Nat) (h : ∀ x ∈ l, a ≤ x) :
    l.length * a ≤ l.sum := by
  induction l with
  | nil => simp
  | cons x rest ih =>
    have h1 := h x (List.mem_cons_self _ _)
    have h2 := ih (fun y hy => h y (List.mem_cons_of_mem _ hy))
    rw [List.length_cons, List.sum_cons, Nat.add_mul]
    omega

theorem sum_le_of_all_le (l : List Nat) (b : Nat) (h : ∀ x ∈ l, x ≤ b) :
    l.sum ≤ l.length * b := by
  induction l with
  | nil => simp
  | cons x rest ih =>
    have h1 := h x (List.mem_cons_self _ _)
    have h2 := ih (fun y hy => h y (List.mem_cons_of_mem _ hy))
    rw [List.length_cons, List.sum_cons, Nat.add_mul]
    omega

/-- The truncated mean of a non-empty list lies between two of its elements. -/
theorem mean_between (l : List Nat) (hne : l ≠ []) :
    (∃ x ∈ l, x ≤ l.sum / l.length) ∧ (∃ y ∈ l, l.sum / l.length ≤ y) := by
  have hpos : 0 < l.length := List.length_pos.2 hne
  have hdiv := Nat.div_add_mod l.sum l.length
  have hmod := Nat.mod_lt l.sum hpos
  constructor
  · by_contra hcon
    push_neg at hcon
    have := sum_ge_of_all_ge l (l.sum / l.length + 1) (fun x hx => hcon x hx)
    rw [Nat.mul_add, Nat.mul_one] at this
    omega
  · by_contra hcon
    push_neg at hcon
    rcases Nat.eq_zero_or_pos (l.sum / l.length) with h0 | h0
    · obtain ⟨y, hy⟩ := List.exists_mem_of_ne_nil l hne
      have := hcon y hy
      omega
    · have := sum_le_of_all_le l (l.sum / l.length - 1) (fun x hx => by
        have := hcon x hx
        omega)
      have hmul : l.length * (l.sum / l.length - 1) + l.length = l.length * (l.sum / l.length) := by
        rw [← Nat.mul_succ]
        congr 1
        omega
      omega

/-- The channels of the mean of a non-empty cluster lie between the channels of two of its
colours. -/
theorem mean_color_between (cluster : List Nat) (hne : cluster ≠ []) :
    (∃ x ∈ cluster, ∃ y ∈ cluster,
      (unpack_color x).1 ≤ (unpack_color (mean_color cluster)).1 ∧
      (unpack_color (mean_color cluster)).1 ≤ (unpack_color y).1) ∧
    (∃ x ∈ cluster, ∃ y ∈ cluster,
      (unpack_color x).2.1 ≤ (unpack_color (mean_color cluster)).2.1 ∧
      (unpack_color (mean_color cluster)).2.1 ≤ (unpack_color y).2.1) ∧
    (∃ x ∈ cluster, ∃ y ∈ cluster,
      (unpack_color x).2.2 ≤ (unpack_color (mean_color cluster)).2.2 ∧
      (unpack_color (mean_color cluster)).2.2 ≤ (unpack_color y).2.2) := by
  have key : ∀ f : Nat → Nat, (∀ c, f c < 256) →
      (∃ x ∈ cluster, f x ≤ (cluster.map f).sum / cluster.length) ∧
      (∃ y ∈ cluster, (cluster.map f).sum / cluster.length ≤ f y) ∧
      (cluster.map f).sum / cluster.length < 256 := by
    intro f hf
    have hne2 : cluster.map f ≠ [] := by simpa using hne
    obtain ⟨⟨x, hx, hxle⟩, ⟨y, hy, hyle⟩⟩ := mean_between (cluster.map f) hne2
    rw [List.length_map] at hxle hyle
    obtain ⟨x0, hx0, rfl⟩ := List.mem_map.1 hx
    obtain ⟨y0, hy0, rfl⟩ := List.mem_map.1 hy
    exact ⟨⟨x0, hx0, hxle⟩, ⟨y0, hy0, hyle⟩, lt_of_le_of_lt hyle (hf y0)⟩
  obtain ⟨⟨xr, hxr, hxr2⟩, ⟨yr, hyr, hyr2⟩, hr⟩ :=
    key (fun c => (unpack_color c).1) (fun c => (unpack_color_lt c).1)
  obtain ⟨⟨xg, hxg, hxg2⟩, ⟨yg, hyg, hyg2⟩, hg⟩ :=
    key (fun c => (unpack_color c).2.1) (fun c => (unpack_color_lt c).2.1)
  obtain ⟨⟨xb, hxb, hxb2⟩, ⟨yb, hyb, hyb2⟩, hb⟩ :=
    key (fun c => (unpack_color c).2.2) (fun c => (unpack_color_lt c).2.2)
  have hmean : unpack_color (mean_color cluster) =
      ((cluster.map (fun c => (unpack_color c).1)).sum / cluster.length,
        (cluster.map (fun c => (unpack_color c).2.1)).sum / cluster.length,
        (cluster.map (fun c => (unpack_color c).2.2)).sum / cluster.length) := by
    unfold mean_color
    exact unpack_pack_color _ _ _ hr hg hb
  rw [hmean]
  exact ⟨⟨xr, hxr, yr, hyr, hxr2, hyr2⟩, ⟨xg, hxg, yg, hyg, hxg2, hyg2⟩,
    ⟨xb, hxb, yb, hyb, hxb2, hyb2⟩⟩

theorem cluster_push_mem (clusters : List (List Nat)) (j color : Nat) (cl : List Nat)
    (hcl : cl ∈ cluster_push clusters j color) (x : Nat) (hx : x ∈ cl) :
    x = color ∨ ∃ cl0 ∈ clusters, x ∈ cl0 := by
  induction clusters generalizing j with
  | nil => simp [cluster_push] at hcl
  | cons c rest ih =>
    cases j with
    | zero =>
      simp only [cluster_push, List.mem_cons] at hcl
      rcases hcl with hcl | hcl
      · rw [hcl, List.mem_append, List.mem_singleton] at hx
        rcases hx with hx | hx
        · exact Or.inr ⟨c, List.mem_cons_self _ _, hx⟩
        · exact Or.inl hx
      · exact Or.inr ⟨cl, List.mem_cons_of_mem _ hcl, hx⟩
    | succ j =>
      simp only [cluster_push, List.mem_cons] at hcl
      rcases hcl with hcl | hcl
      · rw [hcl] at hx
        exact Or.inr ⟨c, List.mem_cons_self _ _, hx⟩
      · rcases ih j hcl with h | ⟨cl0, hcl0, hx0⟩
        · exact Or.inl h
        · exact Or.inr ⟨cl0, List.mem_cons_of_mem _ hcl0, hx0⟩

theorem assign_clusters_mem (F : FloatModel D) (colors centers : List Nat) :
    ∀ cl ∈ assign_clusters F colors centers, ∀ x ∈ cl, x ∈ colors := by
  unfold assign_clusters
  have key : ∀ (todo : List Nat) (clusters : List (List Nat)),
      (∀ cl ∈ clusters, ∀ x ∈ cl, x ∈ colors) → (∀ c ∈ todo, c ∈ colors) →
      ∀ cl ∈ todo.foldl (fun clusters color =>
        cluster_push clusters (closest_center F centers color) color) clusters,
        ∀ x ∈ cl, x ∈ colors := by
    intro todo
    induction todo with
    | nil =>
      intro clusters h _
      exact h
    | cons c rest ih =>
      intro clusters h hc
      rw [List.foldl_cons]
      apply ih
      · intro cl hcl x hx
        rcases cluster_push_mem _ _ _ _ hcl x hx with h1 | ⟨cl0, hcl0, hx0⟩
        · rw [h1]
          exact hc c (List.mem_cons_self _ _)
        · exact h cl0 hcl0 x hx0
      · intro c2 hc2
        exact hc c2 (List.mem_cons_of_mem _ hc2)
  apply key colors _ _ (fun c hc => hc)
  intro cl hcl x hx
  rw [List.mem_replicate] at hcl
  rw [hcl.2] at hx
  cases hx

theorem update_centers_mem (centers : List Nat) (clusters : List (List Nat)) :
    ∀ c ∈ (update_centers centers clusters).1,
      c ∈ centers ∨ ∃ cl ∈ clusters, cl ≠ [] ∧ c = mean_color cl := by
  induction centers generalizing clusters with
  | nil =>
    intro c hc
    cases clusters <;> simp [update_centers] at hc
  | cons c0 cs ih =>
    cases clusters with
    | nil =>
      intro c hc
      simp only [update_centers] at hc
      exact Or.inl hc
    | cons cl cls =>
      intro c hc
      have hrest : ∀ c ∈ (update_centers cs cls).1,
          c ∈ c0 :: cs ∨ ∃ cl2 ∈ cl :: cls, cl2 ≠ [] ∧ c = mean_color cl2 := by
        intro c hc
        rcases ih cls c hc with h | ⟨cl2, hcl2, hne, heq⟩
        · exact Or.inl (List.mem_cons_of_mem _ h)
        · exact Or.inr ⟨cl2, List.mem_cons_of_mem _ hcl2, hne, heq⟩
      simp only [update_centers] at hc
      split_ifs at hc with h1 h2
      · rcases List.mem_cons.1 hc with h | h
        · exact Or.inl (by rw [h]; exact List.mem_cons_self _ _)
        · exact hrest c h
      · rcases List.mem_cons.1 hc with h | h
        · exact Or.inr ⟨cl, List.mem_cons_self _ _, h1, h⟩
        · exact hrest c h
      · rcases List.mem_cons.1 hc with h | h
        · exact Or.inl (by rw [h]; exact List.mem_cons_self _ _)
        · exact hrest c h

theorem channels_within_of_mem (colors : List Nat) (c : Nat) (hc : c ∈ colors) :
    ChannelsWithin colors c :=
  ⟨⟨c, hc, c, hc, le_refl _, le_refl _⟩, ⟨c, hc, c, hc, le_refl _, le_refl _⟩,
    ⟨c, hc, c, hc, le_refl _, le_refl _⟩⟩

theorem kmeans_iterate_within (F : FloatModel D) (colors : List Nat) (n : Nat)
    (centers : List Nat) (h : ∀ c ∈ centers, ChannelsWithin colors c) :
    ∀ c ∈ kmeans_iterate F colors n centers, ChannelsWithin colors c := by
  have hstep : ∀ centers : List Nat, (∀ c ∈ centers, ChannelsWithin colors c) →
      ∀ c ∈ (update_centers centers (assign_clusters F colors centers)).1,
        ChannelsWithin colors c := by
    intro centers h c hc
    rcases update_centers_mem _ _ c hc with h1 | ⟨cl, hcl, hne, heq⟩
    · exact h c h1
    · have hsub := assign_clusters_mem F colors centers cl hcl
      obtain ⟨⟨xr, hxr, yr, hyr, h1⟩, ⟨xg, hxg, yg, hyg, h2⟩, ⟨xb, hxb, yb, hyb, h3⟩⟩ :=
        mean_color_between cl hne
      rw [heq]
      exact ⟨⟨xr, hsub xr hxr, yr, hsub yr hyr, h1⟩, ⟨xg, hsub xg hxg, yg, hsub yg hyg, h2⟩,
        ⟨xb, hsub xb hxb, yb, hsub yb hyb, h3⟩⟩
  induction n generalizing centers with
  | zero => exact h
  | succ n ih =>
    simp only [kmeans_iterate]
    split_ifs
    · exact ih _ (hstep centers h)
    · exact hstep centers h

/-! ## Theorems on the centres of `kmeans` -/

/-- C29: for a colour list longer than `k`, with `k ≥ 1`, and every `max_iter ≥ 0`, each centre
that `kmeans` returns has its red, its green and its blue channel between the least and the
greatest value of that channel over the input colours: between the channels of two input
colours. -/
theorem kmeans_centers_within_input_channels (F : FloatModel D) (colors : List Nat)
    (k max_iter : Nat) (_hk : 1 ≤ k) (hlen : k < colors.length) :
    ∀ c ∈ kmeans F colors k max_iter,
      (∃ x ∈ colors, ∃ y ∈ colors,
        (unpack_color x).1 ≤ (unpack_color c).1 ∧ (unpack_color c).1 ≤ (unpack_color y).1) ∧
      (∃ x ∈ colors, ∃ y ∈ colors,
        (unpack_color x).2.1 ≤ (unpack_color c).2.1 ∧
        (unpack_color c).2.1 ≤ (unpack_color y).2.1) ∧
      (∃ x ∈ colors, ∃ y ∈ colors,
        (unpack_color x).2.2 ≤ (unpack_color c).2.2 ∧
        (unpack_color c).2.2 ≤ (unpack_color y).2.2) := by
  intro c hc
  unfold kmeans at hc
  rw [if_neg (by omega)] at hc
  apply kmeans_iterate_within F colors max_iter (initial_centers colors k) _ c hc
  intro c0 hc0
  apply channels_within_of_mem
  unfold initial_centers at hc0
  obtain ⟨i, hi, rfl⟩ := List.mem_map.1 hc0
  rw [List.mem_range] at hi
  have hidx : i * colors.length / k < colors.length := stride_index_lt (by omega) hi
  rw [List.getD_eq_getElem _ _ hidx]
  exact List.getElem_mem _

/-- Witness of C29: three colours and two centres. -/
theorem kmeans_centers_within_input_channels_witness :
    (1 ≤ 2 ∧ 2 < ([1, 2, 3] : List Nat).length) ∧
    ∀ c ∈ kmeans exactFloat [1, 2, 3] 2 10,
      (∃ x ∈ ([1, 2, 3] : List Nat), ∃ y ∈ ([1, 2, 3] : List Nat),
        (unpack_color x).1 ≤ (unpack_color c).1 ∧ (unpack_color c).1 ≤ (unpack_color y).1) ∧
      (∃ x ∈ ([1, 2, 3] : List Nat), ∃ y ∈ ([1, 2, 3] : List Nat),
        (unpack_color x).2.1 ≤ (unpack_color c).2.1 ∧
        (unpack_color c).2.1 ≤ (unpack_color y).2.1) ∧
      (∃ x ∈ ([1, 2, 3] : List Nat), ∃ y ∈ ([1, 2, 3] : List Nat),
        (unpack_color x).2.2 ≤ (unpack_color c).2.2 ∧
        (unpack_color c).2.2 ≤ (unpack_color y).2.2) :=
  ⟨⟨by decide, by decide⟩,
   kmeans_centers_within_input_channels exactFloat [1, 2, 3] 2 10 (by decide) (by decide)⟩

/-! ## Lemmas on the fixed point of `kmeans` -/

theorem closest_scan_spec (F : FloatModel D) (color : Nat) (cs : List Nat) (j : Nat)
    (st : D × Nat) :
    (closest_scan F color cs j st = st ∧ ∀ c ∈ cs, ¬ color_distance F color c < st.1) ∨
    (∃ pre c post, cs = pre ++ c :: post ∧
      closest_scan F color cs j st = (color_distance F color c, j + pre.length) ∧
      color_distance F color c < st.1 ∧
      (∀ x ∈ pre, color_distance F color c < color_distance F color x) ∧
      (∀ x ∈ post, color_distance F color c ≤ color_distance F color x)) := by
  induction cs generalizing j st with
  | nil =>
    left
    simp [closest_scan]
  | cons a rest ih =>
    simp only [closest_scan]
    split_ifs with hlt
    · right
      rcases ih (j + 1) (color_distance F color a, j) with
        ⟨heq, hall⟩ | ⟨pre, c, post, hcs, heq, hc, hpre, hpost⟩
      · refine ⟨[], a, rest, rfl, by simpa using heq, hlt, by simp, ?_⟩
        intro x hx
        exact not_lt.1 (hall x hx)
      · refine ⟨a :: pre, c, post, by simp [hcs], ?_, lt_trans hc hlt, ?_, hpost⟩
        · rw [heq, List.length_cons]
          congr 1
          omega
        · intro x hx
          rcases List.mem_cons.1 hx with hx | hx
          · rw [hx]
            exact hc
          · exact hpre x hx
    · rcases ih (j + 1) st with ⟨heq, hall⟩ | ⟨pre, c, post, hcs, heq, hc, hpre, hpost⟩
      · left
        refine ⟨heq, ?_⟩
        intro x hx
        rcases List.mem_cons.1 hx with hx | hx
        · rw [hx]
          exact hlt
        · exact hall x hx
      · right
        refine ⟨a :: pre, c, post, by simp [hcs], ?_, hc, ?_, hpost⟩
        · rw [heq, List.length_cons]
          congr 1
          omega
        · intro x hx
          rcases List.mem_cons.1 hx with hx | hx
          · rw [hx]
            exact lt_of_lt_of_le hc (not_lt.1 hlt)
          · exact hpre x hx

/-- The index `closest_center` of a non-empty list of centres is the first index that attains
the least distance to the colour. -/
theorem closest_center_first_min (F : FloatModel D) (centers : List Nat) (color : Nat)
    (hne : centers ≠ []) :
    closest_center F centers color < centers.length ∧
    ∀ i, i < centers.length →
      color_distance F color (centers.getD (closest_center F centers color) 0) ≤
        color_distance F color (centers.getD i 0) ∧
      (i < closest_center F centers color →
        color_distance F color (centers.getD (closest_center F centers color) 0) <
          color_distance F color (centers.getD i 0)) := by
  unfold closest_center
  rcases closest_scan_spec F color centers 0 (F.FLT_MAX, 0) with
    ⟨_, hall⟩ | ⟨pre, c, post, hcs, heq, _, hpre, hpost⟩
  · obtain ⟨x, hx⟩ := List.exists_mem_of_ne_nil centers hne
    exact absurd (color_distance_lt_max F color x) (hall x hx)
  · rw [heq]
    simp only [Nat.zero_add]
    have hlen : centers.length = pre.length + (post.length + 1) := by
      rw [hcs, List.length_append, List.length_cons]
    have hat : centers.getD pre.length 0 = c := by
      rw [hcs, List.getD_eq_getElem?_getD, List.getElem?_append_right (le_refl _)]
      simp
    refine ⟨by omega, ?_⟩
    intro i hi
    rw [hat]
    rcases Nat.lt_trichotomy i pre.length with hlt | heq2 | hgt
    · have hmem : centers.getD i 0 ∈ pre := by
        rw [hcs, List.getD_eq_getElem?_getD, List.getElem?_append_left hlt,
          List.getElem?_eq_getElem hlt]
        simp
      exact ⟨le_of_lt (hpre _ hmem), fun _ => hpre _ hmem⟩
    · rw [heq2, hat]
      exact ⟨le_refl _, fun h => absurd h (lt_irrefl _)⟩
    · have hmem : centers.getD i 0 ∈ post := by
        have hidx : i - pre.length - 1 < post.length := by omega
        rw [hcs, List.getD_eq_getElem?_getD, List.getElem?_append_right (by omega)]
        have e : i - pre.length = (i - pre.length - 1) + 1 := by omega
        rw [e, List.getElem?_cons_succ, List.getElem?_eq_getElem hidx]
        simp
      exact ⟨hpost _ hmem, fun h => absurd h (by omega)⟩

theorem cluster_push_getElem (clusters : List (List Nat)) (j color i : Nat) :
    (cluster_push clusters j color)[i]? =
      if i = j then (clusters[i]?).map (fun cl => cl ++ [color]) else clusters[i]? := by
  induction clusters generalizing j i with
  | nil =>
    simp [cluster_push]
  | cons cl rest ih =>
    cases j with
    | zero =>
      cases i with
      | zero => simp [cluster_push]
      | succ i => simp [cluster_push]
    | succ j =>
      cases i with
      | zero => simp [cluster_push]
      | succ i =>
        simp only [cluster_push, List.getElem?_cons_succ, ih j i]
        by_cases h : i = j
        · simp [h]
        · simp [h]

theorem assign_fold_getElem (F : FloatModel D) (centers todo : List Nat)
    (clusters : List (List Nat)) (i : Nat) :
    (todo.foldl (fun clusters color =>
      cluster_push clusters (closest_center F centers color) color) clusters)[i]? =
      (clusters[i]?).map (fun cl =>
        cl ++ todo.filter (fun color => closest_center F centers color = i)) := by
  induction todo generalizing clusters with
  | nil => simp
  | cons c rest ih =>
    rw [List.foldl_cons, ih, cluster_push_getElem]
    by_cases h : closest_center F centers c = i
    · rw [if_pos h.symm]
      cases clusters[i]? with
      | none => rfl
      | some cl => simp [h]
    · rw [if_neg (fun hc => h hc.symm)]
      cases clusters[i]? with
      | none => rfl
      | some cl => simp [h]

/-- The cluster `j` of the assignment pass holds the colours whose closest centre is `j`, in
the order of the input. -/
theorem assign_clusters_getElem (F : FloatModel D) (colors centers : List Nat) (j : Nat)
    (hj : j < centers.length) :
    (assign_clusters F colors centers)[j]? =
      some (colors.filter (fun color => closest_center F centers color = j)) := by
  unfold assign_clusters
  rw [assign_fold_getElem, List.getElem?_replicate, if_pos hj]
  simp

/-- An update pass that changes no centre returns the centres, and every non-empty cluster has
its centre as mean. -/
theorem update_centers_fixed (centers : List Nat) (clusters : List (List Nat))
    (h : (update_centers centers clusters).2 = false) :
    (update_centers centers clusters).1 = centers ∧
    ∀ (j : Nat) (c : Nat) (cl : List Nat), centers[j]? = some c → clusters[j]? = some cl →
      cl = [] ∨ c = mean_color cl := by
  induction centers generalizing clusters with
  | nil =>
    cases clusters <;> simp [update_centers]
  | cons c0 cs ih =>
    cases clusters with
    | nil => simp [update_centers]
    | cons cl0 cls =>
      simp only [update_centers] at h ⊢
      split_ifs at h ⊢ with h1 h2
      · obtain ⟨heq, hall⟩ := ih cls h
        refine ⟨by simp only; rw [heq], ?_⟩
        intro j c cl hc hcl
        cases j with
        | zero =>
          simp only [List.getElem?_cons_zero, Option.some.injEq] at hc hcl
          left
          rw [← hcl]
          exact h1
        | succ j =>
          simp only [List.getElem?_cons_succ] at hc hcl
          exact hall j c cl hc hcl
      · obtain ⟨heq, hall⟩ := ih cls h
        refine ⟨by simp only; rw [heq], ?_⟩
        intro j c cl hc hcl
        cases j with
        | zero =>
          simp only [List.getElem?_cons_zero, Option.some.injEq] at hc hcl
          right
          rw [← hcl, ← hc]
          exact (not_not.1 h2).symm
        | succ j =>
          simp only [List.getElem?_cons_succ] at hc hcl
          exact hall j c cl hc hcl

/-- When the loop of `kmeans` leaves by its `break`, the centres returned are unchanged by one
more assign and update step, and more iterations give the same centres. -/
theorem kmeans_iterate_breaks (F : FloatModel D) (colors : List Nat) (n : Nat)
    (centers : List Nat) (h : kmeans_breaks F colors n centers = true) :
    update_centers (kmeans_iterate F colors n centers)
      (assign_clusters F colors (kmeans_iterate F colors n centers)) =
      (kmeans_iterate F colors n centers, false) ∧
    ∀ m, n ≤ m → kmeans_iterate F colors m centers = kmeans_iterate F colors n centers := by
  induction n generalizing centers with
  | zero => simp [kmeans_breaks] at h
  | succ n ih =>
    simp only [kmeans_breaks] at h
    simp only [kmeans_iterate]
    by_cases hch : (update_centers centers (assign_clusters F colors centers)).2 = true
    · rw [if_pos hch] at h ⊢
      obtain ⟨h1, h2⟩ := ih _ h
      refine ⟨h1, ?_⟩
      intro m hm
      cases m with
      | zero => omega
      | succ m =>
        simp only [kmeans_iterate]
        rw [if_pos hch]
        exact h2 m (by omega)
    · rw [if_neg hch]
      have hfalse : (update_centers centers (assign_clusters F colors centers)).2 = false := by
        simpa using hch
      have hsame := (update_centers_fixed _ _ hfalse).1
      refine ⟨?_, ?_⟩
      · rw [hsame]
        exact Prod.ext hsame hfalse
      · intro m hm
        cases m with
        | zero => omega
        | succ m =>
          simp only [kmeans_iterate]
          rw [if_neg hch]

/-! ## Theorems on the fixed point of `kmeans` -/

/-- C24: whenever `kmeans` (input longer than `k`, `k ≥ 1`) leaves its loop by the `break`,
its output is a fixed point of the assign and update step: one more step returns the same
centres with `centers_changed = false`; for every centre `j`, either no input colour has `j` as
its closest centre or centre `j` is the channel-wise truncated mean of the colours closest to
it, where the closest centre of a colour is the first index that attains the least weighted
distance; and the result is the same for every larger `max_iter`. -/
theorem kmeans_early_stop_is_fixed_point (F : FloatModel D) (colors : List Nat)
    (k max_iter : Nat) (_hk : 1 ≤ k) (hlen : k < colors.length)
    (hbreak : kmeans_breaks F colors max_iter (initial_centers colors k) = true) :
    (kmeans F colors k max_iter).length = k ∧
    update_centers (kmeans F colors k max_iter)
      (assign_clusters F colors (kmeans F colors k max_iter)) =
      (kmeans F colors k max_iter, false) ∧
    (∀ j, j < k →
      colors.filter
        (fun color => closest_center F (kmeans F colors k max_iter) color = j) = [] ∨
      (kmeans F colors k max_iter).getD j 0 =
        mean_color (colors.filter
          (fun color => closest_center F (kmeans F colors k max_iter) color = j))) ∧
    (∀ color,
      closest_center F (kmeans F colors k max_iter) color < k ∧
      ∀ i, i < k →
        color_distance F color ((kmeans F colors k max_iter).getD
            (closest_center F (kmeans F colors k max_iter) color) 0) ≤
          color_distance F color ((kmeans F colors k max_iter).getD i 0) ∧
        (i < closest_center F (kmeans F colors k max_iter) color →
          color_distance F color ((kmeans F colors k max_iter).getD
              (closest_center F (kmeans F colors k max_iter) color) 0) <
            color_distance F color ((kmeans F colors k max_iter).getD i 0))) ∧
    (∀ m, max_iter ≤ m → kmeans F colors k m = kmeans F colors k max_iter) := by
  have hk0 : ∀ m, kmeans F colors k m =
      kmeans_iterate F colors m (initial_centers colors k) := by
    intro m
    unfold kmeans
    rw [if_neg (by omega)]
  obtain ⟨hfix, hmore⟩ := kmeans_iterate_breaks F colors max_iter _ hbreak
  rw [← hk0] at hfix
  have hlenk : (kmeans F colors k max_iter).length = k := by
    rw [hk0, kmeans_iterate_length, initial_centers_length]
  have hne : kmeans F colors k max_iter ≠ [] := by
    intro hc
    rw [hc] at hlenk
    simp only [List.length_nil] at hlenk
    omega
  refine ⟨hlenk, hfix, ?_, ?_, ?_⟩
  · intro j hj
    have hflag : (update_centers (kmeans F colors k max_iter)
        (assign_clusters F colors (kmeans F colors k max_iter))).2 = false := by
      rw [hfix]
    have hall := (update_centers_fixed _ _ hflag).2 j
      ((kmeans F colors k max_iter).getD j 0) _
      (by
        rw [List.getD_eq_getElem?_getD, List.getElem?_eq_getElem (by omega)]
        simp)
      (assign_clusters_getElem F colors _ j (by omega))
    exact hall
  · intro color
    have h := closest_center_first_min F (kmeans F colors k max_iter) color hne
    rw [hlenk] at h
    exact h
  · intro m hm
    rw [hk0, hk0]
    exact hmore m hm

set_option maxRecDepth 100000 in
/-- Witness of C24: for the colours 1, 2, 3 and two centres the first iteration changes no
centre; eleven iterations give what ten give. -/
theorem kmeans_early_stop_is_fixed_point_witness :
    (1 ≤ 2 ∧ 2 < ([1, 2, 3] : List Nat).length ∧
      kmeans_breaks exactFloat [1, 2, 3] 10 (initial_centers [1, 2, 3] 2) = true) ∧
    kmeans exactFloat [1, 2, 3] 2 11 = kmeans exactFloat [1, 2, 3] 2 10 :=
  ⟨⟨by decide, by decide, by decide⟩,
   (kmeans_early_stop_is_fixed_point exactFloat [1, 2, 3] 2 10 (by decide) (by decide)
      (by decide)).2.2.2.2 11 (by decide)⟩

/-! ## Lemmas on the ordering of a simple cycle -/

theorem find_next_some (sorted_edges : List Edge) (used : List Bool) (cur : Int)
    (js : List Nat) (j : Nat) (p nx : Int)
    (h : find_next sorted_edges used cur js = some (j, p, nx)) :
    j ∈ js ∧ used.getD j true = false ∧ p = cur ∧
    ∃ e, sorted_edges.get? j = some e ∧
      ((e.start_index = cur ∧ nx = e.end_index) ∨
        (e.start_index ≠ cur ∧ e.end_index = cur ∧ nx = e.start_index)) := by
  induction js with
  | nil => simp [find_next] at h
  | cons a rest ih =>
    have hrest : find_next sorted_edges used cur rest = some (j, p, nx) →
        j ∈ a :: rest ∧ used.getD j true = false ∧ p = cur ∧
        ∃ e, sorted_edges.get? j = some e ∧
          ((e.start_index = cur ∧ nx = e.end_index) ∨
            (e.start_index ≠ cur ∧ e.end_index = cur ∧ nx = e.start_index)) := by
      intro h2
      obtain ⟨h3, h4⟩ := ih h2
      exact ⟨List.mem_cons_of_mem _ h3, h4⟩
    simp only [find_next] at h
    cases hget : sorted_edges.get? a with
    | none =>
      rw [hget] at h
      exact hrest h
    | some edge =>
      rw [hget] at h
      simp only at h
      split_ifs at h with h1 h2 h3
      · simp only [Option.some.injEq, Prod.mk.injEq] at h
        obtain ⟨rfl, rfl, rfl⟩ := h
        exact ⟨List.mem_cons_self _ _, h1, h2, edge, hget, Or.inl ⟨h2, rfl⟩⟩
      · simp only [Option.some.injEq, Prod.mk.injEq] at h
        obtain ⟨rfl, rfl, rfl⟩ := h
        exact ⟨List.mem_cons_self _ _, h1, h3, edge, hget, Or.inr ⟨h2, h3, rfl⟩⟩
      · exact hrest h
      · exact hrest h

theorem find_next_none (sorted_edges : List Edge) (used : List Bool) (cur : Int)
    (js : List Nat) (h : find_next sorted_edges used cur js = none) :
    ∀ j ∈ js, ∀ e, sorted_edges.get? j = some e → used.getD j true = false →
      e.start_index ≠ cur ∧ e.end_index ≠ cur := by
  induction js with
  | nil =>
    intro j hj
    cases hj
  | cons a rest ih =>
    simp only [find_next] at h
    intro j hj e he hu
    cases hget : sorted_edges.get? a with
    | none =>
      rw [hget] at h
      rcases List.mem_cons.1 hj with hj | hj
      · rw [hj, hget] at he
        cases he
      · exact ih h j hj e he hu
    | some edge =>
      rw [hget] at h
      simp only at h
      rcases List.mem_cons.1 hj with hj | hj
      · subst hj
        rw [hget] at he
        simp only [Option.some.injEq] at he
        subst he
        rw [if_pos hu] at h
        split_ifs at h with h2 h3
        exact ⟨h2, h3⟩
      · split_ifs at h with h1 h2 h3
        · exact ih h j hj e he hu
        · exact ih h j hj e he hu

/-- The invariant of the ordering loop on a simple cycle after `t` iterations: the polygon
holds the vertices at the positions `0 .. t` of the cycle, the chain ends at the position
`t + 1`, and the used edges are those at the positions `0 .. t`. -/
theorem chain_loop_cycle (vertices : List Vec3) (boundary_edges : List Edge)
    (cycle : List Int) (pos edge_at : Nat → Nat)
    (hc : CycleOrder boundary_edges cycle pos edge_at) (hn : 3 ≤ boundary_edges.length)
    (steps t : Nat) (st : ChainState) (hsteps : t + steps = boundary_edges.length - 1)
    (hpoly : st.boundary_polygon_vertices = (cycle.take (t + 1)).map (vertex_at vertices))
    (hcur : st.current_vertex_idx = cycle.getD ((t + 1) % boundary_edges.length) 0)
    (hused : ∀ j, j < boundary_edges.length → (st.used.getD j true = true ↔ pos j ≤ t))
    (hulen : st.used.length = boundary_edges.length) :
    (chain_loop vertices boundary_edges steps st).boundary_polygon_vertices =
      cycle.map (vertex_at vertices) := by
  induction steps generalizing t st with
  | zero =>
    simp only [chain_loop]
    rw [hpoly, List.take_of_length_le (by rw [hc.length_eq]; omega)]
  | succ steps ih =>
    have ht : t + 1 < boundary_edges.length := by omega
    have hmod : (t + 1) % boundary_edges.length = t + 1 := Nat.mod_eq_of_lt ht
    rw [hmod] at hcur
    -- the edge at the position `t + 1`
    have hjlt := hc.edge_at_lt (t + 1) ht
    have hjpos := hc.pos_edge_at (t + 1) ht
    have hj1 : 1 ≤ edge_at (t + 1) := by
      by_contra h0
      have h00 : edge_at (t + 1) = 0 := by omega
      rw [h00, hc.first_pos] at hjpos
      omega
    obtain ⟨estar, hestar⟩ : ∃ e, boundary_edges.get? (edge_at (t + 1)) = some e := by
      rw [List.get?_eq_getElem?, List.getElem?_eq_getElem hjlt]
      exact ⟨_, rfl⟩
    have hunused : st.used.getD (edge_at (t + 1)) true = false := by
      have := hused _ hjlt
      rw [hjpos] at this
      cases hb : st.used.getD (edge_at (t + 1)) true with
      | false => rfl
      | true =>
        have := this.1 hb
        omega
    have hnodup := getD_inj_of_nodup cycle hc.nodup
    have hclen := hc.length_eq
    -- an unused edge that touches the end of the chain is the edge at the position `t + 1`
    have huniq : ∀ j e, j < boundary_edges.length → boundary_edges.get? j = some e →
        st.used.getD j true = false →
        (e.start_index = st.current_vertex_idx ∨ e.end_index = st.current_vertex_idx) →
        pos j = t + 1 := by
      intro j e hj he hu htouch
      have hp := hc.pos_lt j hj
      have hnot : ¬ pos j ≤ t := by
        intro hle
        have := (hused j hj).2 hle
        rw [this] at hu
        cases hu
      have hm := succ_mod_eq boundary_edges.length (pos j) hp
      have hm2 : (pos j + 1) % boundary_edges.length < boundary_edges.length :=
        Nat.mod_lt _ (by omega)
      rw [hcur] at htouch
      rcases hc.ends j e he with ⟨h1, h2⟩ | ⟨h1, h2⟩
      · rcases htouch with h3 | h3
        · rw [h1] at h3
          exact hnodup _ _ (by omega) (by omega) h3
        · rw [h2] at h3
          have := hnodup _ _ (by omega) (by omega) h3
          rw [hm] at this
          split_ifs at this <;> omega
      · rcases htouch with h3 | h3
        · rw [h1] at h3
          have := hnodup _ _ (by omega) (by omega) h3
          rw [hm] at this
          split_ifs at this <;> omega
        · rw [h2] at h3
          exact hnodup _ _ (by omega) (by omega) h3
    have hm2 := succ_mod_eq boundary_edges.length (t + 1) ht
    have hm2lt : (t + 1 + 1) % boundary_edges.length < boundary_edges.length :=
      Nat.mod_lt _ (by omega)
    simp only [chain_loop]
    cases hfind : find_next boundary_edges st.used st.current_vertex_idx
        (List.range' 1 (boundary_edges.length - 1)) with
    | none =>
      exfalso
      have hall := find_next_none _ _ _ _ hfind (edge_at (t + 1))
        (by rw [List.mem_range']; exact ⟨edge_at (t + 1) - 1, by omega, by omega⟩)
        estar hestar hunused
      rcases hc.ends _ estar hestar with ⟨h1, _⟩ | ⟨_, h2⟩
      · rw [hjpos] at h1
        exact hall.1 (by rw [h1, hcur])
      · rw [hjpos] at h2
        exact hall.2 (by rw [h2, hcur])
    | some r =>
      obtain ⟨j, p, nx⟩ := r
      obtain ⟨hjmem, hju, hp, e, he, hor⟩ := find_next_some _ _ _ _ _ _ _ hfind
      rw [List.mem_range'] at hjmem
      obtain ⟨i, hi, hji⟩ := hjmem
      have hjlt2 : j < boundary_edges.length := by omega
      have htouch : e.start_index = st.current_vertex_idx ∨
          e.end_index = st.current_vertex_idx := by
        rcases hor with ⟨h1, _⟩ | ⟨_, h2, _⟩
        · exact Or.inl h1
        · exact Or.inr h2
      have hposj := huniq j e hjlt2 he hju htouch
      have hnx : nx = cycle.getD ((t + 1 + 1) % boundary_edges.length) 0 := by
        rcases hc.ends j e he with ⟨h1, h2⟩ | ⟨h1, h2⟩
        · rw [hposj] at h1 h2
          rcases hor with ⟨_, h4⟩ | ⟨h3, _, _⟩
          · rw [h4, h2]
          · exact absurd (by rw [h1, hcur]) h3
        · rw [hposj] at h1 h2
          rcases hor with ⟨h3, _⟩ | ⟨_, _, h4⟩
          · rw [h1, hcur] at h3
            have := hnodup _ _ (by omega) (by omega) h3
            rw [hm2] at this
            split_ifs at this <;> omega
          · rw [h4, h1]
      simp only
      apply ih (t + 1)
      · omega
      · simp only
        have hlt : t + 1 < cycle.length := by omega
        have htake : cycle.take (t + 1 + 1) = cycle.take (t + 1) ++ [cycle.getD (t + 1) 0] := by
          rw [List.take_succ, List.getElem?_eq_getElem hlt, List.getD_eq_getElem _ _ hlt]
          rfl
        rw [htake, List.map_append, hpoly, hp, hcur]
        rfl
      · exact hnx
      · intro j2 hj2
        simp only
        rw [List.getD_eq_getElem?_getD, List.getElem?_set]
        by_cases hjj : j = j2
        · subst hjj
          rw [if_pos rfl, if_pos (by omega)]
          simp only [Option.getD_some, true_iff]
          omega
        · rw [if_neg hjj, ← List.getD_eq_getElem?_getD, hused j2 hj2]
          have hne : pos j2 ≠ t + 1 := by
            intro hc2
            have e1 := hc.edge_at_pos j2 hj2
            have e2 := hc.edge_at_pos j hjlt2
            rw [hc2] at e1
            rw [hposj] at e2
            omega
          omega
      · simp only [List.length_set]
        exact hulen

/-! ## Theorems on the ordering of a simple cycle -/

/-- C25: when the `n ≥ 3` boundary edges are the edges of a single simple cycle, given in any
order and with any orientation, the ordering loop of `create_final_models` produces the polygon
of the `n` cycle vertices, each once, in the order of the cycle from the start of the first
edge; every two consecutive vertices of the list, cyclically, are the two ends of a boundary
edge; and this polygon is the one used for the inclusion test. -/
theorem ordering_loop_follows_simple_cycle (vertices : List Vec3) (boundary_edges : List Edge)
    (cycle : List Int) (pos edge_at : Nat → Nat) (hn : 3 ≤ boundary_edges.length)
    (hc : CycleOrder boundary_edges cycle pos edge_at) :
    boundary_polygon_vertices vertices boundary_edges = cycle.map (vertex_at vertices) ∧
    (boundary_polygon_vertices vertices boundary_edges).length = boundary_edges.length ∧
    cycle.Nodup ∧
    (∀ v, v ∈ cycle ↔ ∃ e ∈ boundary_edges, e.start_index = v ∨ e.end_index = v) ∧
    (∀ p, p < boundary_edges.length → ∃ e ∈ boundary_edges,
      (e.start_index = cycle.getD p 0 ∧
        e.end_index = cycle.getD ((p + 1) % boundary_edges.length) 0) ∨
      (e.start_index = cycle.getD ((p + 1) % boundary_edges.length) 0 ∧
        e.end_index = cycle.getD p 0)) ∧
    polygon_to_test vertices boundary_edges = cycle.map (vertex_at vertices) := by
  have hpoly : boundary_polygon_vertices vertices boundary_edges =
      cycle.map (vertex_at vertices) := by
    cases hb : boundary_edges with
    | nil =>
      rw [hb] at hn
      simp at hn
    | cons first rest =>
      rw [hb] at hn hc
      have hfirst := hc.first_forward first rfl
      have hlen := hc.length_eq
      simp only [List.length_cons] at hn hlen
      unfold boundary_polygon_vertices
      apply chain_loop_cycle vertices (first :: rest) cycle pos edge_at hc
        (by simp only [List.length_cons]; omega) rest.length 0
      · simp
      · simp only
        rw [hfirst.1]
        cases hcy : cycle with
        | nil =>
          rw [hcy] at hlen
          simp at hlen
        | cons a tl => simp
      · simp only [List.length_cons]
        rw [hfirst.2, Nat.mod_eq_of_lt (by omega)]
      · intro j hj
        simp only [List.length_cons] at hj
        cases j with
        | zero =>
          simp [hc.first_pos]
        | succ j =>
          have hne : pos (j + 1) ≠ 0 := by
            intro h0
            have e1 := hc.edge_at_pos (j + 1) (by simp only [List.length_cons]; omega)
            have e2 := hc.edge_at_pos 0 (by simp only [List.length_cons]; omega)
            rw [h0] at e1
            rw [hc.first_pos] at e2
            omega
          have hget : (true :: List.replicate rest.length false).getD (j + 1) true = false := by
            rw [List.getD_eq_getElem?_getD, List.getElem?_cons_succ, List.getElem?_replicate,
              if_pos (by omega)]
            rfl
          rw [hget]
          constructor
          · intro h
            cases h
          · intro h
            omega
      · simp
  have hends : ∀ p, p < boundary_edges.length → ∃ e ∈ boundary_edges,
      (e.start_index = cycle.getD p 0 ∧
        e.end_index = cycle.getD ((p + 1) % boundary_edges.length) 0) ∨
      (e.start_index = cycle.getD ((p + 1) % boundary_edges.length) 0 ∧
        e.end_index = cycle.getD p 0) := by
    intro p hp
    have hj := hc.edge_at_lt p hp
    have hget : boundary_edges.get? (edge_at p) = some (boundary_edges.get ⟨edge_at p, hj⟩) := by
      rw [List.get?_eq_get hj]
    have := hc.ends _ _ hget
    rw [hc.pos_edge_at p hp] at this
    exact ⟨_, List.get_mem _ _ _, this⟩
  refine ⟨hpoly, ?_, hc.nodup, ?_, hends, ?_⟩
  · rw [hpoly, List.length_map, hc.length_eq]
  · intro v
    constructor
    · intro hv
      obtain ⟨p, hp, rfl⟩ := List.getElem_of_mem hv
      have hp2 : p < boundary_edges.length := by rw [← hc.length_eq]; exact hp
      obtain ⟨e, he, h⟩ := hends p hp2
      rw [List.getD_eq_getElem _ _ hp] at h
      rcases h with ⟨h1, _⟩ | ⟨_, h2⟩
      · exact ⟨e, he, Or.inl h1⟩
      · exact ⟨e, he, Or.inr h2⟩
    · rintro ⟨e, he, h⟩
      obtain ⟨j, hj, hej⟩ := List.getElem_of_mem he
      have hget : boundary_edges.get? j = some e := by
        rw [List.get?_eq_getElem?, List.getElem?_eq_getElem hj, hej]
      have hp := hc.pos_lt j hj
      have hm : (pos j + 1) % boundary_edges.length < boundary_edges.length :=
        Nat.mod_lt _ (by omega)
      have hmem1 : cycle.getD (pos j) 0 ∈ cycle := by
        rw [List.getD_eq_getElem _ _ (by rw [hc.length_eq]; exact hp)]
        exact List.getElem_mem _
      have hmem2 : cycle.getD ((pos j + 1) % boundary_edges.length) 0 ∈ cycle := by
        rw [List.getD_eq_getElem _ _ (by rw [hc.length_eq]; exact hm)]
        exact List.getElem_mem _
      rcases hc.ends j e hget with ⟨h1, h2⟩ | ⟨h1, h2⟩ <;> rcases h with h | h
      · rw [← h, h1]
        exact hmem1
      · rw [← h, h2]
        exact hmem2
      · rw [← h, h1]
        exact hmem2
      · rw [← h, h2]
        exact hmem1
  · unfold polygon_to_test
    rw [hpoly, if_neg]
    rw [List.isEmpty_iff]
    intro hnil
    have := congrArg List.length hnil
    rw [List.length_map, hc.length_eq] at this
    simp only [List.length_nil] at this
    omega

/-- The square of the witness of C25 is a simple cycle: its edges lie at the positions
0, 2, 1, 3 of the cycle 0, 1, 2, 3. -/
theorem shuffled_square_cycle :
    CycleOrder shuffled_square_edges [0, 1, 2, 3] (fun j => [0, 2, 1, 3].getD j 0)
      (fun p => [0, 2, 1, 3].getD p 0) where
  length_eq := rfl
  nodup := by decide
  pos_lt := by decide
  edge_at_lt := by decide
  edge_at_pos := by decide
  pos_edge_at := by decide
  ends := by
    intro j e h
    rcases j with _ | _ | _ | _ | j
    · simp only [shuffled_square_edges, List.get?_cons_zero, Option.some.injEq] at h
      subst h
      decide
    · simp only [shuffled_square_edges, List.get?_cons_succ, List.get?_cons_zero,
        Option.some.injEq] at h
      subst h
      decide
    · simp only [shuffled_square_edges, List.get?_cons_succ, List.get?_cons_zero,
        Option.some.injEq] at h
      subst h
      decide
    · simp only [shuffled_square_edges, List.get?_cons_succ, List.get?_cons_zero,
        Option.some.injEq] at h
      subst h
      decide
    · simp [shuffled_square_edges] at h
  first_pos := rfl
  first_forward := by
    intro e h
    simp only [shuffled_square_edges, List.get?_cons_zero, Option.some.injEq] at h
    subst h
    decide

/-- Witness of C25: the square with shuffled and partly reversed edges is ordered into the
polygon of its four vertices. -/
theorem ordering_loop_follows_simple_cycle_witness :
    3 ≤ shuffled_square_edges.length ∧
    boundary_polygon_vertices unit_square_vertices shuffled_square_edges =
      ([0, 1, 2, 3] : List Int).map (vertex_at unit_square_vertices) :=
  ⟨by decide,
   (ordering_loop_follows_simple_cycle unit_square_vertices shuffled_square_edges [0, 1, 2, 3]
      (fun j => [0, 2, 1, 3].getD j 0) (fun p => [0, 2, 1, 3].getD p 0) (by decide)
      shuffled_square_cycle).1⟩

/-! ## Lemmas on `classify_materials` -/

/-- A string that is no mapping of `name` leaves the entries of `name` as they are. -/
theorem parse_map_step_other (acc : CustomMaps) (s name : String)
    (h : ¬ (2 ≤ (split_colon s).length ∧ (split_colon s).getD 0 "" = name)) :
    map_find (parse_map_step acc s).custom_td_notes name = map_find acc.custom_td_notes name ∧
    map_find (parse_map_step acc s).custom_vox_types name =
      map_find acc.custom_vox_types name := by
  unfold parse_map_step
  by_cases h2 : 2 ≤ (split_colon s).length
  · have hne : (split_colon s).getD 0 "" ≠ name := fun e => h ⟨h2, e⟩
    by_cases h3 : 3 ≤ (split_colon s).length
    · simp only [if_pos h2, if_pos h3, map_find_map_set_ne _ _ _ _ _ (Ne.symm hne), and_self]
    · simp only [if_pos h2, if_neg h3, map_find_map_set_ne _ _ _ _ _ (Ne.symm hne), and_self]
  · simp only [if_neg h2, and_self]

theorem parse_fold_other (after : List String) (name : String)
    (h : ∀ s ∈ after, ¬ (2 ≤ (split_colon s).length ∧ (split_colon s).getD 0 "" = name))
    (acc : CustomMaps) :
    map_find (after.foldl parse_map_step acc).custom_td_notes name =
      map_find acc.custom_td_notes name ∧
    map_find (after.foldl parse_map_step acc).custom_vox_types name =
      map_find acc.custom_vox_types name := by
  induction after generalizing acc with
  | nil => exact ⟨rfl, rfl⟩
  | cons s rest ih =>
    rw [List.foldl_cons]
    have h1 := ih (fun t ht => h t (List.mem_cons_of_mem _ ht)) (parse_map_step acc s)
    have h2 := parse_map_step_other acc s name (h s (List.mem_cons_self _ _))
    exact ⟨h1.1.trans h2.1, h1.2.trans h2.2⟩

/-- Without a mapping of `name` the material has no entry in `custom_td_notes`. -/
theorem parse_material_maps_none (material_maps : List String) (name : String)
    (h : ∀ s ∈ material_maps,
      ¬ (2 ≤ (split_colon s).length ∧ (split_colon s).getD 0 "" = name)) :
    map_find (parse_material_maps material_maps).custom_td_notes name = none :=
  (parse_fold_other material_maps name h ⟨[], []⟩).1

/-- The loop over the property strings ends with a map when no value is out of range. -/
theorem parse_material_properties_some (stof : String → StofResult)
    (material_properties : List String)
    (h : ∀ s ∈ material_properties, (split_colon s).length = 3 →
      stof ((split_colon s).getD 2 "") ≠ StofResult.out_of_range)
    (custom_properties : List (String × List (String × ℚ))) :
    ∃ cp, parse_material_properties stof material_properties custom_properties = some cp := by
  induction material_properties generalizing custom_properties with
  | nil => exact ⟨_, rfl⟩
  | cons s rest ih =>
    have hrest := ih (fun t ht => h t (List.mem_cons_of_mem _ ht))
    have hs := h s (List.mem_cons_self _ _)
    unfold parse_material_properties
    by_cases h3 : (split_colon s).length = 3
    · simp only [if_pos h3]
      cases hst : stof ((split_colon s).getD 2 "") with
      | value v => exact hrest _
      | invalid_argument => exact hrest _
      | out_of_range => exact absurd hst (hs h3)
    · simp only [if_neg h3]
      exact hrest _

/-- The loop over the property strings ends without a map when some value is out of
range. -/
theorem parse_material_properties_none (stof : String → StofResult)
    (material_properties : List String)
    (h : ∃ s ∈ material_properties, (split_colon s).length = 3 ∧
      stof ((split_colon s).getD 2 "") = StofResult.out_of_range)
    (custom_properties : List (String × List (String × ℚ))) :
    parse_material_properties stof material_properties custom_properties = none := by
  induction material_properties generalizing custom_properties with
  | nil =>
    obtain ⟨s, hs, _⟩ := h
    cases hs
  | cons t rest ih =>
    unfold parse_material_properties
    by_cases h3 : (split_colon t).length = 3
    · simp only [if_pos h3]
      cases hst : stof ((split_colon t).getD 2 "") with
      | out_of_range => rfl
      | value v =>
        apply ih
        obtain ⟨s, hs, hlen, hout⟩ := h
        rcases List.mem_cons.1 hs with e | e
        · subst e
          rw [hst] at hout
          cases hout
        · exact ⟨s, e, hlen, hout⟩
      | invalid_argument =>
        apply ih
        obtain ⟨s, hs, hlen, hout⟩ := h
        rcases List.mem_cons.1 hs with e | e
        · subst e
          rw [hst] at hout
          cases hout
        · exact ⟨s, e, hlen, hout⟩
    · simp only [if_neg h3]
      apply ih
      obtain ⟨s, hs, hlen, hout⟩ := h
      rcases List.mem_cons.1 hs with e | e
      · subst e
        exact absurd hlen h3
      · exact ⟨s, e, hlen, hout⟩

/-- The function `classify_materials` returns nothing when some value is out of range. -/
theorem classify_materials_none (fl : ℚ → ℚ) (stof : String → StofResult)
    (mtl_materials : List (String × MtlMaterial)) (material_maps material_properties : List String)
    (h : ∃ s ∈ material_properties, (split_colon s).length = 3 ∧
      stof ((split_colon s).getD 2 "") = StofResult.out_of_range) :
    classify_materials fl stof mtl_materials material_maps material_properties = none := by
  unfold classify_materials
  rw [parse_material_properties_none stof material_properties h []]

/-- The function `classify_materials` returns the profiles when no value is out of range. -/
theorem classify_materials_some (fl : ℚ → ℚ) (stof : String → StofResult)
    (mtl_materials : List (String × MtlMaterial)) (material_maps material_properties : List String)
    (h : ∀ s ∈ material_properties, (split_colon s).length = 3 →
      stof ((split_colon s).getD 2 "") ≠ StofResult.out_of_range) :
    ∃ cp, parse_material_properties stof material_properties [] = some cp ∧
      classify_materials fl stof mtl_materials material_maps material_properties =
        some (classify_profiles fl (parse_material_maps material_maps) cp mtl_materials) := by
  obtain ⟨cp, hcp⟩ := parse_material_properties_some stof material_properties h []
  refine ⟨cp, hcp, ?_⟩
  unfold classify_materials
  rw [hcp]

theorem profiles_fold_find {P : Type} (f : String → MtlMaterial → P)
    (mtl_materials : List (String × MtlMaterial)) (name : String) (mtl : MtlMaterial)
    (hkeys : (mtl_materials.map Prod.fst).Nodup) (hmem : (name, mtl) ∈ mtl_materials)
    (init : List (String × P)) :
    map_find (mtl_materials.foldl (fun profiles pair =>
      map_set string_lt profiles pair.1 (f pair.1 pair.2)) init) name = some (f name mtl) := by
  have hother : ∀ (l : List (String × MtlMaterial)) (acc : List (String × P)),
      name ∉ l.map Prod.fst →
      map_find (l.foldl (fun profiles pair =>
        map_set string_lt profiles pair.1 (f pair.1 pair.2)) acc) name = map_find acc name := by
    intro l
    induction l with
    | nil => intro acc _; rfl
    | cons p l ih =>
      intro acc hn
      rw [List.foldl_cons, ih _ (fun e => hn (by
        rw [List.map_cons]; exact List.mem_cons_of_mem _ e))]
      apply map_find_map_set_ne
      intro e
      apply hn
      rw [List.map_cons, e]
      exact List.mem_cons_self _ _
  induction mtl_materials generalizing init with
  | nil => cases hmem
  | cons p l ih =>
    rw [List.map_cons, List.nodup_cons] at hkeys
    rw [List.foldl_cons]
    rcases List.mem_cons.1 hmem with h | h
    · subst h
      rw [hother l _ hkeys.1]
      exact map_find_map_set_self _ _ _ _
    · exact ih hkeys.2 h _

/-- The profile of a named material is the one that the loop body computes for it. -/
theorem classify_profiles_named (fl : ℚ → ℚ) (maps : CustomMaps)
    (cp : List (String × List (String × ℚ))) (mtl_materials : List (String × MtlMaterial))
    (name : String) (mtl : MtlMaterial) (hkeys : (mtl_materials.map Prod.fst).Nodup)
    (hmem : (name, mtl) ∈ mtl_materials) (hname : name ≠ "") :
    map_find (classify_profiles fl maps cp mtl_materials) name =
      some (classify_one fl maps cp name mtl) := by
  unfold classify_profiles
  rw [map_find_map_set_ne _ _ _ _ _ hname]
  exact profiles_fold_find (classify_one fl maps cp) mtl_materials name mtl hkeys hmem []

/-- Step 3 leaves the render kind as step 2 has set it. -/
theorem apply_defaults_type (fl : ℚ → ℚ) (mtl : MtlMaterial) (vm : ogt_vox_matl) :
    (apply_defaults fl mtl vm).type = vm.type := by
  have h1 : ∀ v, (default_rough fl mtl v).type = v.type := by
    intro v; unfold default_rough; split <;> rfl
  have h2 : ∀ v, (default_spec fl mtl v).type = v.type := by
    intro v; unfold default_spec; split <;> rfl
  have h3 : ∀ v, (default_ior mtl v).type = v.type := by
    intro v; unfold default_ior; split <;> rfl
  have h4 : ∀ v, (default_alpha mtl v).type = v.type := by
    intro v; unfold default_alpha; split <;> rfl
  have h5 : ∀ v, (default_trans fl v).type = v.type := by
    intro v; unfold default_trans; split <;> rfl
  have h6 : ∀ v, (default_emit fl mtl v).type = v.type := by
    intro v; unfold default_emit; split <;> rfl
  have h7 : ∀ v, (default_flux fl v).type = v.type := by
    intro v; unfold default_flux; split <;> rfl
  unfold apply_defaults
  rw [h7, h6, h5, h4, h3, h2, h1]

theorem auto_td_note_mem (type : ogt_matl_type) (lower : List Char) :
    auto_td_note type lower ∈ physical_tags := by
  unfold auto_td_note physical_tags
  repeat' split
  all_goals simp

theorem auto_td_note_default (type : ogt_matl_type) (lower : List Char)
    (htype : type ≠ ogt_matl_type.ogt_matl_type_glass)
    (hwords : ∀ w ∈ ["metal", "wood", "brick", "concrete", "vegetation", "carpet"],
      string_find (String.data w) lower = false) :
    auto_td_note type lower = "$TD_metal" := by
  have h1 := hwords "metal" (by simp)
  have h2 := hwords "wood" (by simp)
  have h3 := hwords "brick" (by simp)
  have h4 := hwords "concrete" (by simp)
  have h5 := hwords "vegetation" (by simp)
  have h6 := hwords "carpet" (by simp)
  unfold auto_td_note
  rw [if_neg htype, h1, h2, h3, h4, h5, h6]
  simp

/-- The profile of a material in the automatic branch of step 2 does not depend on the
mappings. -/
theorem classify_one_auto (fl : ℚ → ℚ) (maps : CustomMaps)
    (cp : List (String × List (String × ℚ))) (name : String) (mtl : MtlMaterial)
    (hfind : map_find maps.custom_td_notes name = none ∨
      map_find maps.custom_td_notes name = some "$TD_auto") :
    classify_one fl maps cp name mtl = classify_one fl ⟨[], []⟩ cp name mtl := by
  unfold classify_one note_and_type
  rcases hfind with h | h
  · rw [h]
    rfl
  · rw [h]
    simp only [ne_eq, not_true_eq_false, if_false]
    rfl

theorem classify_one_unmapped (fl : ℚ → ℚ)
    (cp : List (String × List (String × ℚ))) (name : String) (mtl : MtlMaterial) :
    (classify_one fl ⟨[], []⟩ cp name mtl).td_note =
      auto_td_note (auto_type fl mtl (apply_properties fl cp name)) (lower_name name) ∧
    (classify_one fl ⟨[], []⟩ cp name mtl).vox_material.type =
      auto_type fl mtl (apply_properties fl cp name) := by
  unfold classify_one
  simp only [apply_defaults_type, note_and_type]
  exact ⟨rfl, rfl⟩

/-- The profile of a named material without a tag mapping, or with the mapping `$TD_auto`:
`classify_materials` returns (when no property value is out of range) a profile whose tag is
one of the six physical tags, hence not empty; the tag is the one inferred from the render
kind and the lower-case name, and it is `$TD_metal` when the kind is not glass and the name
contains none of the six words. The whole profile is the same for every list of mappings in
which the material has no entry or the entry `$TD_auto`, in particular for the list without
the mapping strings of this material. -/
theorem automatic_tag_of_named_material (fl : ℚ → ℚ) (stof : String → StofResult)
    (mtl_materials : List (String × MtlMaterial)) (material_maps : List String)
    (material_properties : List String) (name : String) (mtl : MtlMaterial)
    (hkeys : (mtl_materials.map Prod.fst).Nodup) (hmem : (name, mtl) ∈ mtl_materials)
    (hname : name ≠ "")
    (hmap : map_find (parse_material_maps material_maps).custom_td_notes name = none ∨
      map_find (parse_material_maps material_maps).custom_td_notes name = some "$TD_auto")
    (hstof : ∀ s ∈ material_properties, (split_colon s).length = 3 →
      stof ((split_colon s).getD 2 "") ≠ StofResult.out_of_range) :
    ∃ profiles p,
      classify_materials fl stof mtl_materials material_maps material_properties =
        some profiles ∧
      map_find profiles name = some p ∧
      p.td_note ∈ physical_tags ∧ p.td_note ≠ "" ∧
      p.td_note = auto_td_note p.vox_material.type (lower_name name) ∧
      (p.vox_material.type ≠ ogt_matl_type.ogt_matl_type_glass →
        (∀ w ∈ ["metal", "wood", "brick", "concrete", "vegetation", "carpet"],
          string_find (String.data w) (lower_name name) = false) →
        p.td_note = "$TD_metal") ∧
      (∀ other_maps : List String,
        (map_find (parse_material_maps other_maps).custom_td_notes name = none ∨
          map_find (parse_material_maps other_maps).custom_td_notes name = some "$TD_auto") →
        ∃ profiles2,
          classify_materials fl stof mtl_materials other_maps material_properties =
            some profiles2 ∧
          map_find profiles2 name = some p) ∧
      (∃ profiles3,
        classify_materials fl stof mtl_materials
          (material_maps.filter (fun s =>
            !(decide (2 ≤ (split_colon s).length) &&
              decide ((split_colon s).getD 0 "" = name)))) material_properties =
          some profiles3 ∧
        map_find profiles3 name = some p) := by
  obtain ⟨cp, hcp, hret⟩ := classify_materials_some fl stof mtl_materials material_maps
    material_properties hstof
  have hauto := classify_one_auto fl (parse_material_maps material_maps) cp name mtl hmap
  have hun := classify_one_unmapped fl cp name mtl
  have hother : ∀ other_maps : List String,
      (map_find (parse_material_maps other_maps).custom_td_notes name = none ∨
        map_find (parse_material_maps other_maps).custom_td_notes name = some "$TD_auto") →
      ∃ profiles2,
        classify_materials fl stof mtl_materials other_maps material_properties =
          some profiles2 ∧
        map_find profiles2 name = some (classify_one fl ⟨[], []⟩ cp name mtl) := by
    intro other_maps hm
    obtain ⟨cp2, hcp2, hret2⟩ := classify_materials_some fl stof mtl_materials other_maps
      material_properties hstof
    have hcpe : cp2 = cp := Option.some.inj (hcp2.symm.trans hcp)
    subst hcpe
    refine ⟨_, hret2, ?_⟩
    rw [classify_profiles_named fl _ cp2 mtl_materials name mtl hkeys hmem hname,
      classify_one_auto fl _ cp2 name mtl hm]
  have htag : (classify_one fl ⟨[], []⟩ cp name mtl).td_note ∈ physical_tags := by
    rw [hun.1]
    exact auto_td_note_mem _ _
  refine ⟨_, classify_one fl ⟨[], []⟩ cp name mtl, hret, ?_, htag, ?_, ?_, ?_, hother, ?_⟩
  · rw [classify_profiles_named fl _ cp mtl_materials name mtl hkeys hmem hname, hauto]
  · intro h
    rw [h] at htag
    revert htag
    decide
  · rw [hun.1, hun.2]
  · intro htype hwords
    rw [hun.2] at htype
    rw [hun.1]
    exact auto_td_note_default _ _ htype hwords
  · apply hother
    left
    apply parse_material_maps_none
    intro s hs
    rintro ⟨h2, h0⟩
    have := (List.mem_filter.1 hs).2
    rw [Bool.not_eq_true', Bool.and_eq_false_iff, decide_eq_false_iff_not,
      decide_eq_false_iff_not] at this
    rcases this with h | h
    · exact h h2
    · exact h h0

/-! ## Theorems on `classify_materials` -/

/-- C30 refuted by the code: with the material `Other` in the MTL map, no mapping, and the
property string `Other:rough:1e99`, the value is beyond the range of `float`, `std::stof`
throws `std::out_of_range`, which only the handler of `std::invalid_argument` could have
caught, and `classify_materials` is left without any profile, so `Other` gets no tag; without
that property string it gets one of the six physical tags. Every property string with a
value out of range has this effect, for every material and every mapping. -/
theorem out_of_range_property_leaves_no_tag (fl : ℚ → ℚ) :
    split_colon "Other:rough:1e99" = ["Other", "rough", "1e99"] ∧
    stof_digits fl "1e99" = StofResult.out_of_range ∧
    classify_materials fl (stof_digits fl) [("Other", {})] [] ["Other:rough:1e99"] = none ∧
    (∃ profiles p,
      classify_materials fl (stof_digits fl) [("Other", {})] [] [] = some profiles ∧
      map_find profiles "Other" = some p ∧ p.td_note ∈ physical_tags) ∧
    (∀ (stof : String → StofResult) (mtl_materials : List (String × MtlMaterial))
      (material_maps material_properties : List String),
      (∃ s ∈ material_properties, (split_colon s).length = 3 ∧
        stof ((split_colon s).getD 2 "") = StofResult.out_of_range) →
      classify_materials fl stof mtl_materials material_maps material_properties = none) := by
  have hsplit : split_colon "Other:rough:1e99" = ["Other", "rough", "1e99"] := by decide
  have hout : stof_digits fl "1e99" = StofResult.out_of_range := rfl
  refine ⟨hsplit, hout, ?_, ?_, ?_⟩
  · apply classify_materials_none
    refine ⟨_, List.mem_singleton.2 rfl, ?_, ?_⟩
    · rw [hsplit]
      rfl
    · rw [hsplit]
      exact hout
  · obtain ⟨profiles, p, h1, h2, h3, _⟩ :=
      automatic_tag_of_named_material fl (stof_digits fl) [("Other", {})] [] [] "Other" {}
        (by decide) (List.mem_cons_self _ _) (by decide) (Or.inl rfl)
        (fun s hs => by cases hs)
    exact ⟨profiles, p, h1, h2, h3⟩
  · intro stof mtl_materials material_maps material_properties h
    exact classify_materials_none fl stof mtl_materials material_maps material_properties h

/-! ## Lemmas on the trimming -/

theorem occlusion_loop_iff (fl : ℚ → ℚ) (vertices : List Vec3) (cx cy px py : ℚ) (i : Nat)
    (l : List Edge) (j : Nat) :
    occlusion_loop fl vertices cx cy px py i j l = true ↔
      ∃ k other, l.get? k = some other ∧ j + k ≠ i ∧
        crosses_sight fl vertices cx cy px py other = true := by
  induction l generalizing j with
  | nil => simp [occlusion_loop]
  | cons e rest ih =>
    unfold occlusion_loop
    constructor
    · intro h
      split_ifs at h with h1 h2
      · obtain ⟨k, other, hk, hne, hc⟩ := (ih (j + 1)).1 h
        exact ⟨k + 1, other, hk, by omega, hc⟩
      · exact ⟨0, e, rfl, by rw [Nat.add_zero]; exact h1, h2⟩
      · obtain ⟨k, other, hk, hne, hc⟩ := (ih (j + 1)).1 h
        exact ⟨k + 1, other, hk, by omega, hc⟩
    · rintro ⟨k, other, hk, hne, hc⟩
      cases k with
      | zero =>
        simp only [List.get?_cons_zero, Option.some.injEq] at hk
        subst hk
        rw [Nat.add_zero] at hne
        rw [if_neg hne, if_pos hc]
      | succ k =>
        simp only [List.get?_cons_succ] at hk
        have := (ih (j + 1)).2 ⟨k, other, hk, by omega, hc⟩
        split_ifs
        · exact this
        · rfl
        · exact this

theorem trimming_loop_iff (fl sqrt_f : ℚ → ℚ) (vertices : List Vec3) (faces : List (List Int))
    (boundary_edges : List Edge) (voxel_size cx cy : ℚ) (l : List Edge) (i : Nat) :
    trimming_loop fl sqrt_f vertices faces boundary_edges voxel_size cx cy i l = true ↔
      ∃ k edge value, l.get? k = some edge ∧
        edge_test fl sqrt_f vertices faces boundary_edges voxel_size cx cy (i + k) edge =
          some value ∧ 0 < value := by
  induction l generalizing i with
  | nil => simp [trimming_loop]
  | cons e rest ih =>
    unfold trimming_loop
    constructor
    · intro h
      cases hv : edge_test fl sqrt_f vertices faces boundary_edges voxel_size cx cy i e with
      | none =>
        rw [hv] at h
        obtain ⟨k, edge, value, hk, ht, hpos⟩ := (ih (i + 1)).1 h
        exact ⟨k + 1, edge, value, hk, by rw [← ht]; congr 1; omega, hpos⟩
      | some v =>
        rw [hv] at h
        simp only at h
        by_cases hp : 0 < v
        · exact ⟨0, e, v, rfl, hv, hp⟩
        · rw [if_neg hp] at h
          obtain ⟨k, edge, value, hk, ht, hpos⟩ := (ih (i + 1)).1 h
          exact ⟨k + 1, edge, value, hk, by rw [← ht]; congr 1; omega, hpos⟩
    · rintro ⟨k, edge, value, hk, ht, hpos⟩
      cases k with
      | zero =>
        simp only [List.get?_cons_zero, Option.some.injEq] at hk
        subst hk
        rw [Nat.add_zero] at ht
        rw [ht]
        simp only [if_pos hpos]
      | succ k =>
        simp only [List.get?_cons_succ] at hk
        have := (ih (i + 1)).2 ⟨k, edge, value, hk, by rw [← ht]; congr 1; omega, hpos⟩
        cases hv : edge_test fl sqrt_f vertices faces boundary_edges voxel_size cx cy i e with
        | none => exact this
        | some v =>
          simp only
          split_ifs
          · rfl
          · exact this

theorem edge_test_eq_some (fl sqrt_f : ℚ → ℚ) (vertices : List Vec3) (faces : List (List Int))
    (boundary_edges : List Edge) (voxel_size cx cy : ℚ) (i : Nat) (edge : Edge) (value : ℚ) :
    edge_test fl sqrt_f vertices faces boundary_edges voxel_size cx cy i edge = some value ↔
      ¬ edge_len2 fl vertices edge < fl (1 / 10000000000) ∧
      0 ≤ projection_t fl vertices edge cx cy ∧ projection_t fl vertices edge cx cy ≤ 1 ∧
      is_occluded fl vertices boundary_edges cx cy i edge = false ∧
      ∃ face, edge_parent_face faces edge = some face ∧
        value = fl (dist_to_virtual_edge fl sqrt_f vertices face edge voxel_size cx cy +
          voxel_bounding_radius fl voxel_size) := by
  unfold edge_test
  constructor
  · intro h
    split_ifs at h with h1 h2 h3
    rw [not_or, not_lt, not_lt] at h2
    refine ⟨h1, h2.1, h2.2, by simpa using h3, ?_⟩
    cases hf : edge_parent_face faces edge with
    | none =>
      rw [hf] at h
      cases h
    | some face =>
      rw [hf] at h
      exact ⟨face, rfl, (Option.some.inj h).symm⟩
  · rintro ⟨h1, h2, h3, h4, face, hf, hv⟩
    rw [if_neg h1, if_neg (by rw [not_or, not_lt, not_lt]; exact ⟨h2, h3⟩), h4, hf, hv]
    rfl

theorem rat_sqrt_mul_self (q : ℚ) (hq : 0 ≤ q) : rat_sqrt (q * q) = q := by
  unfold rat_sqrt
  rw [Rat.mul_self_num, Rat.mul_self_den]
  have h1 : (q.num * q.num).toNat = q.num.toNat * q.num.toNat := by
    have := Rat.num_nonneg.2 hq
    lift q.num to ℕ using this with n hn
    rw [← Int.natCast_mul, Int.toNat_natCast, Int.toNat_natCast]
  rw [h1, Nat.sqrt_eq, Nat.sqrt_eq]
  have h2 : ((q.num.toNat : ℕ) : ℚ) = (q.num : ℚ) := by
    have := Rat.num_nonneg.2 hq
    have h3 : ((q.num.toNat : ℤ)) = q.num := Int.toNat_of_nonneg this
    exact_mod_cast h3
  rw [h2]
  exact Rat.num_div_den q

/-! ## The trimming of a cell at the edge of a square -/

theorem rat_sqrt_wide : rat_sqrt (405769 / 4096) = 637 / 64 := by
  have h : (405769 / 4096 : ℚ) = 637 / 64 * (637 / 64) := by norm_num
  rw [h, rat_sqrt_mul_self _ (by norm_num)]

theorem wide_vertex_0 : vertex_at wide_square_vertices 0 = ⟨0, 0, 0⟩ := rfl

theorem wide_vertex_1 : vertex_at wide_square_vertices 1 = ⟨637 / 64, 0, 0⟩ := rfl

theorem wide_vertex_2 : vertex_at wide_square_vertices 2 = ⟨637 / 64, 637 / 64, 0⟩ := rfl

theorem wide_vertex_3 : vertex_at wide_square_vertices 3 = ⟨0, 637 / 64, 0⟩ := rfl

theorem wide_square_ccw_lower :
    is_face_ccw id [0, 1, 2] wide_square_vertices = true := by
  simp only [is_face_ccw, List.length_cons, List.length_nil, List.range, List.range.loop,
    List.foldl_cons, List.foldl_nil, List.getD_cons_zero, List.getD_cons_succ, id_eq,
    Nat.reduceAdd, Nat.reduceMod, wide_vertex_0, wide_vertex_1, wide_vertex_2, wide_vertex_3]
  norm_num

theorem wide_square_ccw_upper :
    is_face_ccw id [0, 2, 3] wide_square_vertices = true := by
  simp only [is_face_ccw, List.length_cons, List.length_nil, List.range, List.range.loop,
    List.foldl_cons, List.foldl_nil, List.getD_cons_zero, List.getD_cons_succ, id_eq,
    Nat.reduceAdd, Nat.reduceMod, wide_vertex_0, wide_vertex_1, wide_vertex_2, wide_vertex_3]
  norm_num

theorem wide_edge_0_projection :
    edge_dx id wide_square_vertices ⟨0, 1, 637 / 64, true⟩ = 637 / 64 ∧
    edge_dy id wide_square_vertices ⟨0, 1, 637 / 64, true⟩ = 0 ∧
    edge_len2 id wide_square_vertices ⟨0, 1, 637 / 64, true⟩ = 405769 / 4096 ∧
    projection_t id wide_square_vertices ⟨0, 1, 637 / 64, true⟩ (19 / 2) (11 / 2) = 608 / 637 ∧
    proj_x id wide_square_vertices ⟨0, 1, 637 / 64, true⟩ (19 / 2) (11 / 2) = 19 / 2 ∧
    proj_y id wide_square_vertices ⟨0, 1, 637 / 64, true⟩ (19 / 2) (11 / 2) = 0 := by
  have hx : edge_dx id wide_square_vertices ⟨0, 1, 637 / 64, true⟩ = 637 / 64 := by
    simp only [edge_dx, wide_vertex_0, wide_vertex_1, id_eq]
    norm_num
  have hy : edge_dy id wide_square_vertices ⟨0, 1, 637 / 64, true⟩ = 0 := by
    simp only [edge_dy, wide_vertex_0, wide_vertex_1, id_eq]
    norm_num
  have hl : edge_len2 id wide_square_vertices ⟨0, 1, 637 / 64, true⟩ = 405769 / 4096 := by
    simp only [edge_len2, hx, hy, id_eq]
    norm_num
  have ht : projection_t id wide_square_vertices ⟨0, 1, 637 / 64, true⟩ (19 / 2) (11 / 2) = 608 / 637 := by
    simp only [projection_t, hx, hy, hl, wide_vertex_0, id_eq]
    norm_num
  refine ⟨hx, hy, hl, ht, ?_, ?_⟩
  · simp only [proj_x, ht, hx, wide_vertex_0, id_eq]
    norm_num
  · simp only [proj_y, ht, hy, wide_vertex_0, id_eq]
    norm_num

theorem wide_edge_0_clear :
    is_occluded id wide_square_vertices wide_square_edges (19 / 2) (11 / 2) 0
      ⟨0, 1, 637 / 64, true⟩ = false := by
  simp only [is_occluded, wide_edge_0_projection.2.2.2.2.1,
    wide_edge_0_projection.2.2.2.2.2, wide_square_edges, occlusion_loop, crosses_sight,
    cross_product, id_eq, wide_vertex_0, wide_vertex_1, wide_vertex_2, wide_vertex_3]
  norm_num

theorem wide_edge_0_face : edge_parent_face [[0, 1, 2], [0, 2, 3]] ⟨0, 1, 637 / 64, true⟩ = some [0, 1, 2] := by
  decide

theorem wide_edge_0_normal :
    get_edge_polygon_outer_normal id rat_sqrt ⟨0, 1, 637 / 64, true⟩ [0, 1, 2] wide_square_vertices =
      ⟨0, -1, 0⟩ := by
  have hl : (id (id (id ((637 / 64 : ℚ) - 0) * id ((637 / 64 : ℚ) - 0)) +
      id (id ((0 : ℚ) - 0) * id ((0 : ℚ) - 0)))) = 405769 / 4096 := by
    simp only [id_eq]
    norm_num
  simp only [get_edge_polygon_outer_normal, wide_vertex_0, wide_vertex_1, wide_square_ccw_lower,
    hl, rat_sqrt_wide]
  simp only [id_eq]
  norm_num

theorem wide_edge_0_signed_dist :
    signed_dist id rat_sqrt wide_square_vertices [0, 1, 2] ⟨0, 1, 637 / 64, true⟩ (19 / 2) (11 / 2) =
      -(11 / 2) := by
  simp only [signed_dist, wide_edge_0_normal, wide_edge_0_projection.2.2.2.2.1,
    wide_edge_0_projection.2.2.2.2.2, id_eq]
  norm_num

theorem wide_edge_0_test :
    edge_test id rat_sqrt wide_square_vertices [[0, 1, 2], [0, 2, 3]] wide_square_edges 1 (19 / 2)
      (11 / 2) 0 ⟨0, 1, 637 / 64, true⟩ =
      some (-(11 / 2) - 1 / 4 - 3 / 100 + 70710678118 / 100000000000) := by
  rw [edge_test_eq_some]
  refine ⟨?_, ?_, ?_, wide_edge_0_clear, _, wide_edge_0_face, ?_⟩
  · rw [wide_edge_0_projection.2.2.1]
    simp only [id_eq]
    norm_num
  · rw [wide_edge_0_projection.2.2.2.1]
    norm_num
  · rw [wide_edge_0_projection.2.2.2.1]
    norm_num
  · simp only [dist_to_virtual_edge, wide_edge_0_signed_dist, voxel_bounding_radius, EPSILON,
      EDGE_OFFSET_MULTIPLIER, id_eq]
    norm_num

theorem wide_edge_1_projection :
    edge_dx id wide_square_vertices ⟨1, 2, 637 / 64, true⟩ = 0 ∧
    edge_dy id wide_square_vertices ⟨1, 2, 637 / 64, true⟩ = 637 / 64 ∧
    edge_len2 id wide_square_vertices ⟨1, 2, 637 / 64, true⟩ = 405769 / 4096 ∧
    projection_t id wide_square_vertices ⟨1, 2, 637 / 64, true⟩ (19 / 2) (11 / 2) = 352 / 637 ∧
    proj_x id wide_square_vertices ⟨1, 2, 637 / 64, true⟩ (19 / 2) (11 / 2) = 637 / 64 ∧
    proj_y id wide_square_vertices ⟨1, 2, 637 / 64, true⟩ (19 / 2) (11 / 2) = 11 / 2 := by
  have hx : edge_dx id wide_square_vertices ⟨1, 2, 637 / 64, true⟩ = 0 := by
    simp only [edge_dx, wide_vertex_1, wide_vertex_2, id_eq]
    norm_num
  have hy : edge_dy id wide_square_vertices ⟨1, 2, 637 / 64, true⟩ = 637 / 64 := by
    simp only [edge_dy, wide_vertex_1, wide_vertex_2, id_eq]
    norm_num
  have hl : edge_len2 id wide_square_vertices ⟨1, 2, 637 / 64, true⟩ = 405769 / 4096 := by
    simp only [edge_len2, hx, hy, id_eq]
    norm_num
  have ht : projection_t id wide_square_vertices ⟨1, 2, 637 / 64, true⟩ (19 / 2) (11 / 2) = 352 / 637 := by
    simp only [projection_t, hx, hy, hl, wide_vertex_1, id_eq]
    norm_num
  refine ⟨hx, hy, hl, ht, ?_, ?_⟩
  · simp only [proj_x, ht, hx, wide_vertex_1, id_eq]
    norm_num
  · simp only [proj_y, ht, hy, wide_vertex_1, id_eq]
    norm_num

theorem wide_edge_1_clear :
    is_occluded id wide_square_vertices wide_square_edges (19 / 2) (11 / 2) 1
      ⟨1, 2, 637 / 64, true⟩ = false := by
  simp only [is_occluded, wide_edge_1_projection.2.2.2.2.1,
    wide_edge_1_projection.2.2.2.2.2, wide_square_edges, occlusion_loop, crosses_sight,
    cross_product, id_eq, wide_vertex_0, wide_vertex_1, wide_vertex_2, wide_vertex_3]
  norm_num

theorem wide_edge_1_face : edge_parent_face [[0, 1, 2], [0, 2, 3]] ⟨1, 2, 637 / 64, true⟩ = some [0, 1, 2] := by
  decide

theorem wide_edge_1_normal :
    get_edge_polygon_outer_normal id rat_sqrt ⟨1, 2, 637 / 64, true⟩ [0, 1, 2] wide_square_vertices =
      ⟨1, 0, 0⟩ := by
  have hl : (id (id (id ((637 / 64 : ℚ) - 637 / 64) * id ((637 / 64 : ℚ) - 637 / 64)) +
      id (id ((637 / 64 : ℚ) - 0) * id ((637 / 64 : ℚ) - 0)))) = 405769 / 4096 := by
    simp only [id_eq]
    norm_num
  simp only [get_edge_polygon_outer_normal, wide_vertex_1, wide_vertex_2, wide_square_ccw_lower,
    hl, rat_sqrt_wide]
  simp only [id_eq]
  norm_num

theorem wide_edge_1_signed_dist :
    signed_dist id rat_sqrt wide_square_vertices [0, 1, 2] ⟨1, 2, 637 / 64, true⟩ (19 / 2) (11 / 2) =
      -(29 / 64) := by
  simp only [signed_dist, wide_edge_1_normal, wide_edge_1_projection.2.2.2.2.1,
    wide_edge_1_projection.2.2.2.2.2, id_eq]
  norm_num

theorem wide_edge_1_test :
    edge_test id rat_sqrt wide_square_vertices [[0, 1, 2], [0, 2, 3]] wide_square_edges 1 (19 / 2)
      (11 / 2) 1 ⟨1, 2, 637 / 64, true⟩ =
      some (-(29 / 64) - 1 / 4 - 3 / 100 + 70710678118 / 100000000000) := by
  rw [edge_test_eq_some]
  refine ⟨?_, ?_, ?_, wide_edge_1_clear, _, wide_edge_1_face, ?_⟩
  · rw [wide_edge_1_projection.2.2.1]
    simp only [id_eq]
    norm_num
  · rw [wide_edge_1_projection.2.2.2.1]
    norm_num
  · rw [wide_edge_1_projection.2.2.2.1]
    norm_num
  · simp only [dist_to_virtual_edge, wide_edge_1_signed_dist, voxel_bounding_radius, EPSILON,
      EDGE_OFFSET_MULTIPLIER, id_eq]
    norm_num

theorem wide_edge_2_projection :
    edge_dx id wide_square_vertices ⟨2, 3, 637 / 64, true⟩ = -(637 / 64) ∧
    edge_dy id wide_square_vertices ⟨2, 3, 637 / 64, true⟩ = 0 ∧
    edge_len2 id wide_square_vertices ⟨2, 3, 637 / 64, true⟩ = 405769 / 4096 ∧
    projection_t id wide_square_vertices ⟨2, 3, 637 / 64, true⟩ (19 / 2) (11 / 2) = 29 / 637 ∧
    proj_x id wide_square_vertices ⟨2, 3, 637 / 64, true⟩ (19 / 2) (11 / 2) = 19 / 2 ∧
    proj_y id wide_square_vertices ⟨2, 3, 637 / 64, true⟩ (19 / 2) (11 / 2) = 637 / 64 := by
  have hx : edge_dx id wide_square_vertices ⟨2, 3, 637 / 64, true⟩ = -(637 / 64) := by
    simp only [edge_dx, wide_vertex_2, wide_vertex_3, id_eq]
    norm_num
  have hy : edge_dy id wide_square_vertices ⟨2, 3, 637 / 64, true⟩ = 0 := by
    simp only [edge_dy, wide_vertex_2, wide_vertex_3, id_eq]
    norm_num
  have hl : edge_len2 id wide_square_vertices ⟨2, 3, 637 / 64, true⟩ = 405769 / 4096 := by
    simp only [edge_len2, hx, hy, id_eq]
    norm_num
  have ht : projection_t id wide_square_vertices ⟨2, 3, 637 / 64, true⟩ (19 / 2) (11 / 2) = 29 / 637 := by
    simp only [projection_t, hx, hy, hl, wide_vertex_2, id_eq]
    norm_num
  refine ⟨hx, hy, hl, ht, ?_, ?_⟩
  · simp only [proj_x, ht, hx, wide_vertex_2, id_eq]
    norm_num
  · simp only [proj_y, ht, hy, wide_vertex_2, id_eq]
    norm_num

theorem wide_edge_2_clear :
    is_occluded id wide_square_vertices wide_square_edges (19 / 2) (11 / 2) 2
      ⟨2, 3, 637 / 64, true⟩ = false := by
  simp only [is_occluded, wide_edge_2_projection.2.2.2.2.1,
    wide_edge_2_projection.2.2.2.2.2, wide_square_edges, occlusion_loop, crosses_sight,
    cross_product, id_eq, wide_vertex_0, wide_vertex_1, wide_vertex_2, wide_vertex_3]
  norm_num

theorem wide_edge_2_face : edge_parent_face [[0, 1, 2], [0, 2, 3]] ⟨2, 3, 637 / 64, true⟩ = some [0, 2, 3] := by
  decide

theorem wide_edge_2_normal :
    get_edge_polygon_outer_normal id rat_sqrt ⟨2, 3, 637 / 64, true⟩ [0, 2, 3] wide_square_vertices =
      ⟨0, 1, 0⟩ := by
  have hl : (id (id (id ((0 : ℚ) - 637 / 64) * id ((0 : ℚ) - 637 / 64)) +
      id (id ((637 / 64 : ℚ) - 637 / 64) * id ((637 / 64 : ℚ) - 637 / 64)))) = 405769 / 4096 := by
    simp only [id_eq]
    norm_num
  simp only [get_edge_polygon_outer_normal, wide_vertex_2, wide_vertex_3, wide_square_ccw_upper,
    hl, rat_sqrt_wide]
  simp only [id_eq]
  norm_num

theorem wide_edge_2_signed_dist :
    signed_dist id rat_sqrt wide_square_vertices [0, 2, 3] ⟨2, 3, 637 / 64, true⟩ (19 / 2) (11 / 2) =
      -(285 / 64) := by
  simp only [signed_dist, wide_edge_2_normal, wide_edge_2_projection.2.2.2.2.1,
    wide_edge_2_projection.2.2.2.2.2, id_eq]
  norm_num

theorem wide_edge_2_test :
    edge_test id rat_sqrt wide_square_vertices [[0, 1, 2], [0, 2, 3]] wide_square_edges 1 (19 / 2)
      (11 / 2) 2 ⟨2, 3, 637 / 64, true⟩ =
      some (-(285 / 64) - 1 / 4 - 3 / 100 + 70710678118 / 100000000000) := by
  rw [edge_test_eq_some]
  refine ⟨?_, ?_, ?_, wide_edge_2_clear, _, wide_edge_2_face, ?_⟩
  · rw [wide_edge_2_projection.2.2.1]
    simp only [id_eq]
    norm_num
  · rw [wide_edge_2_projection.2.2.2.1]
    norm_num
  · rw [wide_edge_2_projection.2.2.2.1]
    norm_num
  · simp only [dist_to_virtual_edge, wide_edge_2_signed_dist, voxel_bounding_radius, EPSILON,
      EDGE_OFFSET_MULTIPLIER, id_eq]
    norm_num

theorem wide_edge_3_projection :
    edge_dx id wide_square_vertices ⟨3, 0, 637 / 64, true⟩ = 0 ∧
    edge_dy id wide_square_vertices ⟨3, 0, 637 / 64, true⟩ = -(637 / 64) ∧
    edge_len2 id wide_square_vertices ⟨3, 0, 637 / 64, true⟩ = 405769 / 4096 ∧
    projection_t id wide_square_vertices ⟨3, 0, 637 / 64, true⟩ (19 / 2) (11 / 2) = 285 / 637 ∧
    proj_x id wide_square_vertices ⟨3, 0, 637 / 64, true⟩ (19 / 2) (11 / 2) = 0 ∧
    proj_y id wide_square_vertices ⟨3, 0, 637 / 64, true⟩ (19 / 2) (11 / 2) = 11 / 2 := by
  have hx : edge_dx id wide_square_vertices ⟨3, 0, 637 / 64, true⟩ = 0 := by
    simp only [edge_dx, wide_vertex_3, wide_vertex_0, id_eq]
    norm_num
  have hy : edge_dy id wide_square_vertices ⟨3, 0, 637 / 64, true⟩ = -(637 / 64) := by
    simp only [edge_dy, wide_vertex_3, wide_vertex_0, id_eq]
    norm_num
  have hl : edge_len2 id wide_square_vertices ⟨3, 0, 637 / 64, true⟩ = 405769 / 4096 := by
    simp only [edge_len2, hx, hy, id_eq]
    norm_num
  have ht : projection_t id wide_square_vertices ⟨3, 0, 637 / 64, true⟩ (19 / 2) (11 / 2) = 285 / 637 := by
    simp only [projection_t, hx, hy, hl, wide_vertex_3, id_eq]
    norm_num
  refine ⟨hx, hy, hl, ht, ?_, ?_⟩
  · simp only [proj_x, ht, hx, wide_vertex_3, id_eq]
    norm_num
  · simp only [proj_y, ht, hy, wide_vertex_3, id_eq]
    norm_num

theorem wide_edge_3_clear :
    is_occluded id wide_square_vertices wide_square_edges (19 / 2) (11 / 2) 3
      ⟨3, 0, 637 / 64, true⟩ = false := by
  simp only [is_occluded, wide_edge_3_projection.2.2.2.2.1,
    wide_edge_3_projection.2.2.2.2.2, wide_square_edges, occlusion_loop, crosses_sight,
    cross_product, id_eq, wide_vertex_0, wide_vertex_1, wide_vertex_2, wide_vertex_3]
  norm_num

theorem wide_edge_3_face : edge_parent_face [[0, 1, 2], [0, 2, 3]] ⟨3, 0, 637 / 64, true⟩ = some [0, 2, 3] := by
  decide

theorem wide_edge_3_normal :
    get_edge_polygon_outer_normal id rat_sqrt ⟨3, 0, 637 / 64, true⟩ [0, 2, 3] wide_square_vertices =
      ⟨-1, 0, 0⟩ := by
  have hl : (id (id (id ((0 : ℚ) - 0) * id ((0 : ℚ) - 0)) +
      id (id ((0 : ℚ) - 637 / 64) * id ((0 : ℚ) - 637 / 64)))) = 405769 / 4096 := by
    simp only [id_eq]
    norm_num
  simp only [get_edge_polygon_outer_normal, wide_vertex_3, wide_vertex_0, wide_square_ccw_upper,
    hl, rat_sqrt_wide]
  simp only [id_eq]
  norm_num

theorem wide_edge_3_signed_dist :
    signed_dist id rat_sqrt wide_square_vertices [0, 2, 3] ⟨3, 0, 637 / 64, true⟩ (19 / 2) (11 / 2) =
      -(19 / 2) := by
  simp only [signed_dist, wide_edge_3_normal, wide_edge_3_projection.2.2.2.2.1,
    wide_edge_3_projection.2.2.2.2.2, id_eq]
  norm_num

theorem wide_edge_3_test :
    edge_test id rat_sqrt wide_square_vertices [[0, 1, 2], [0, 2, 3]] wide_square_edges 1 (19 / 2)
      (11 / 2) 3 ⟨3, 0, 637 / 64, true⟩ =
      some (-(19 / 2) - 1 / 4 - 3 / 100 + 70710678118 / 100000000000) := by
  rw [edge_test_eq_some]
  refine ⟨?_, ?_, ?_, wide_edge_3_clear, _, wide_edge_3_face, ?_⟩
  · rw [wide_edge_3_projection.2.2.1]
    simp only [id_eq]
    norm_num
  · rw [wide_edge_3_projection.2.2.2.1]
    norm_num
  · rw [wide_edge_3_projection.2.2.2.1]
    norm_num
  · simp only [dist_to_virtual_edge, wide_edge_3_signed_dist, voxel_bounding_radius, EPSILON,
      EDGE_OFFSET_MULTIPLIER, id_eq]
    norm_num

/-! ## Theorems on the trimming -/

/-- C21, counterexample: in the square of side 637/64, made of two triangles, with the voxel
size 1, the cell with the centre (19/2, 11/2) has passed the inclusion test and is not trimmed,
although the right edge of the square has a non-zero length, a projection parameter in [0, 1],
a free line of sight, an owning face, and
`signed_dist - 0.25 * voxel_size + (sqrt 2 / 2) * voxel_size > 0`: the code subtracts the
tolerance `EPSILON = 0.03` as well. -/
theorem tolerance_keeps_cell_at_square_edge :
    trim_skip id rat_sqrt wide_square_vertices [[0, 1, 2], [0, 2, 3]] wide_square_edges 1 (19 / 2)
      (11 / 2) true = false ∧
    ∃ i edge face, wide_square_edges.get? i = some edge ∧
      edge_len2 id wide_square_vertices edge ≠ 0 ∧
      0 ≤ projection_t id wide_square_vertices edge (19 / 2) (11 / 2) ∧
      projection_t id wide_square_vertices edge (19 / 2) (11 / 2) ≤ 1 ∧
      is_occluded id wide_square_vertices wide_square_edges (19 / 2) (11 / 2) i edge = false ∧
      edge_parent_face [[0, 1, 2], [0, 2, 3]] edge = some face ∧
      0 < ((signed_dist id rat_sqrt wide_square_vertices face edge (19 / 2) (11 / 2) : ℚ) : ℝ)
        - 1 / 4 * 1 + Real.sqrt 2 / 2 * 1 := by
  constructor
  · rw [Bool.eq_false_iff]
    intro h
    unfold trim_skip at h
    rw [if_pos rfl, trimming_loop_iff] at h
    obtain ⟨k, edge, value, hk, ht, hpos⟩ := h
    rcases k with _ | _ | _ | _ | k
    · simp only [wide_square_edges, List.get?_cons_zero, Option.some.injEq] at hk
      subst hk
      rw [wide_edge_0_test] at ht
      rw [← Option.some.inj ht] at hpos
      norm_num at hpos
    · simp only [wide_square_edges, List.get?_cons_succ, List.get?_cons_zero,
        Option.some.injEq] at hk
      subst hk
      rw [wide_edge_1_test] at ht
      rw [← Option.some.inj ht] at hpos
      norm_num at hpos
    · simp only [wide_square_edges, List.get?_cons_succ, List.get?_cons_zero,
        Option.some.injEq] at hk
      subst hk
      rw [wide_edge_2_test] at ht
      rw [← Option.some.inj ht] at hpos
      norm_num at hpos
    · simp only [wide_square_edges, List.get?_cons_succ, List.get?_cons_zero,
        Option.some.injEq] at hk
      subst hk
      rw [wide_edge_3_test] at ht
      rw [← Option.some.inj ht] at hpos
      norm_num at hpos
    · simp [wide_square_edges] at hk
  · refine ⟨1, ⟨1, 2, 637 / 64, true⟩, [0, 1, 2], rfl, ?_, ?_, ?_, wide_edge_1_clear,
      wide_edge_1_face, ?_⟩
    · rw [wide_edge_1_projection.2.2.1]
      norm_num
    · rw [wide_edge_1_projection.2.2.2.1]
      norm_num
    · rw [wide_edge_1_projection.2.2.2.1]
      norm_num
    · rw [wide_edge_1_signed_dist]
      have h : (45 / 32 : ℝ) < Real.sqrt 2 := (Real.lt_sqrt (by norm_num)).2 (by norm_num)
      push_cast
      linarith

/-- C21, amended: a cell that has passed the inclusion test is trimmed exactly when some
boundary edge whose squared length is not below `1e-10`, whose projection parameter of the
cell centre lies in [0, 1], whose line of sight from the centre to the projection is not
crossed by another boundary edge, and which has an owning face, satisfies
`signed_dist - voxel_size * 0.25 - 0.03 + voxel_size * 0.70710678118 > 0`, every operation
rounded to `float`; the line of sight is crossed when for some other edge of the list both
cross-product tests are negative, the owning face is the first face that contains both ends
of the edge, and a cell that has not passed the inclusion test is not trimmed. -/
theorem cell_trimmed_iff_edge_within_tolerance (fl sqrt_f : ℚ → ℚ) (vertices : List Vec3)
    (faces : List (List Int)) (boundary_edges : List Edge) (voxel_size cx cy : ℚ) :
    (trim_skip fl sqrt_f vertices faces boundary_edges voxel_size cx cy true = true ↔
      ∃ i edge face, boundary_edges.get? i = some edge ∧
        ¬ edge_len2 fl vertices edge < fl (1 / 10000000000) ∧
        0 ≤ projection_t fl vertices edge cx cy ∧ projection_t fl vertices edge cx cy ≤ 1 ∧
        is_occluded fl vertices boundary_edges cx cy i edge = false ∧
        edge_parent_face faces edge = some face ∧
        0 < fl (fl (fl (signed_dist fl sqrt_f vertices face edge cx cy -
            fl (voxel_size * (1 / 4))) - fl (3 / 100)) +
          fl (voxel_size * fl (70710678118 / 100000000000)))) ∧
    (∀ i edge, is_occluded fl vertices boundary_edges cx cy i edge = true ↔
      ∃ j other_edge, boundary_edges.get? j = some other_edge ∧ j ≠ i ∧
        crosses_sight fl vertices cx cy (proj_x fl vertices edge cx cy)
          (proj_y fl vertices edge cx cy) other_edge = true) ∧
    (∀ edge face, edge_parent_face faces edge = some face →
      face ∈ faces ∧ edge.start_index ∈ face ∧ edge.end_index ∈ face) ∧
    (∀ edge, edge_parent_face faces edge = none →
      ∀ face ∈ faces, ¬ (edge.start_index ∈ face ∧ edge.end_index ∈ face)) ∧
    trim_skip fl sqrt_f vertices faces boundary_edges voxel_size cx cy false = false := by
  refine ⟨?_, ?_, ?_, ?_, rfl⟩
  · unfold trim_skip
    rw [if_pos rfl, trimming_loop_iff]
    constructor
    · rintro ⟨k, edge, value, hk, ht, hpos⟩
      rw [Nat.zero_add, edge_test_eq_some] at ht
      obtain ⟨h1, h2, h3, h4, face, hf, hv⟩ := ht
      rw [hv] at hpos
      exact ⟨k, edge, face, hk, h1, h2, h3, h4, hf, hpos⟩
    · rintro ⟨k, edge, face, hk, h1, h2, h3, h4, hf, hpos⟩
      refine ⟨k, edge, _, hk, ?_, hpos⟩
      rw [Nat.zero_add, edge_test_eq_some]
      exact ⟨h1, h2, h3, h4, face, hf, rfl⟩
  · intro i edge
    unfold is_occluded
    rw [occlusion_loop_iff]
    constructor
    · rintro ⟨k, other, hk, hne, hc⟩
      exact ⟨k, other, hk, by omega, hc⟩
    · rintro ⟨k, other, hk, hne, hc⟩
      exact ⟨k, other, hk, by omega, hc⟩
  · intro edge face h
    unfold edge_parent_face at h
    have hm := List.mem_of_find?_eq_some h
    have hp := List.find?_some h
    simp only [Bool.and_eq_true, List.any_eq_true, decide_eq_true_eq] at hp
    obtain ⟨⟨a, ha, ha2⟩, ⟨b, hb, hb2⟩⟩ := hp
    exact ⟨hm, ha2 ▸ ha, hb2 ▸ hb⟩
  · intro edge h face hface hboth
    unfold edge_parent_face at h
    have := List.find?_eq_none.1 h face hface
    apply this
    simp only [Bool.and_eq_true, List.any_eq_true, decide_eq_true_eq]
    exact ⟨⟨_, hboth.1, rfl⟩, ⟨_, hboth.2, rfl⟩⟩

end Polyvox
